import Mathlib

/-!
# Edge tracing: a shallow embedding of the tracing and cluster engine

The definitions below embed the C++ sources `Edges.cpp`, `EdgeMap.cpp` and
`EdgeProcessor.cpp`.  `int` values are modelled by `Int` (coordinates and edge
identifiers remain far below the overflow range for any image that fits in
memory), `std::vector` by `List`, and every access that is undefined behaviour
in C++ (indexing outside a vector, `front()`/`back()` of an empty vector) makes
the embedded operation return `none`.
-/

namespace EdgeTracing

/-! ## Pixel coordinates (`cv::Point`) -/

/-- A pixel coordinate, the counterpart of `cv::Point`. -/
structure Point where
  x : Int
  y : Int
deriving DecidableEq, Repr

/-- The C function `abs` on `int`. -/
def iabs (a : Int) : Int := if a < 0 then -a else a

/-- Two pixels are 8-neighbours when their Chebyshev distance is one. -/
def isNeighbor8 (p q : Point) : Prop :=
  max (iabs (q.x - p.x)) (iabs (q.y - p.y)) = 1

instance (p q : Point) : Decidable (isNeighbor8 p q) := by
  unfold isNeighbor8; infer_instance

/-- Swapping the two coordinates of a pixel. -/
def Point.transpose (p : Point) : Point := ⟨p.y, p.x⟩

/-! ## `EdgeProcessor::getLinePoints` (Bresenham bridge) -/

/-- The `for (int x = x0; x <= x1; x++)` loop of `getLinePoints`.  The loop
state is `(x, y, error)`; the first argument bounds the number of iterations. -/
def lineLoop (isSteep : Bool) (x1 dx dy ystep : Int) :
    Nat → Int → Int → Int → List Point
  | 0, _, _, _ => []
  | fuel + 1, x, y, error =>
    if x ≤ x1 then
      let point : Point := if isSteep then ⟨y, x⟩ else ⟨x, y⟩
      let error1 := error - dy
      if error1 < 0 then
        point :: lineLoop isSteep x1 dx dy ystep fuel (x + 1) (y + ystep) (error1 + dx)
      else
        point :: lineLoop isSteep x1 dx dy ystep fuel (x + 1) y error1
    else []

/-- The body of `getLinePoints` after the two normalising swaps: the
coordinates satisfy `x0 ≤ x1` there.  The loop runs `x1 - x0 + 1` times. -/
def lineFrom (isSteep : Bool) (x0 y0 x1 y1 : Int) : List Point :=
  let dx := x1 - x0
  let dy := iabs (y1 - y0)
  let error := Int.tdiv dx 2
  let ystep : Int := if y0 < y1 then 1 else -1
  lineLoop isSteep x1 dx dy ystep (x1 - x0 + 1).toNat x0 y0 error

/-- The embedding of `EdgeProcessor::getLinePoints`. -/
def getLinePoints (startPoint endPoint : Point) : List Point :=
  let x0 := startPoint.x
  let y0 := startPoint.y
  let x1 := endPoint.x
  let y1 := endPoint.y
  let isSteep : Bool := decide (iabs (y1 - y0) > iabs (x1 - x0))
  -- std::swap(x0, y0); std::swap(x1, y1)
  let (x0, y0, x1, y1) := if isSteep then (y0, x0, y1, x1) else (x0, y0, x1, y1)
  -- std::swap(x0, x1); std::swap(y0, y1)
  let (x0, y0, x1, y1) := if x0 > x1 then (x1, y1, x0, y0) else (x0, y0, x1, y1)
  lineFrom isSteep x0 y0 x1 y1

/-! ## `std::vector` element access -/

/-- Reading `v[i]`; an index outside the vector is undefined behaviour. -/
def vecGet? {α : Type} (v : List α) (i : Int) : Option α :=
  if 0 ≤ i then v[i.toNat]? else none

/-- Writing `v[i] = a`; an index outside the vector is undefined behaviour. -/
def vecSet? {α : Type} (v : List α) (i : Int) (a : α) : Option (List α) :=
  if 0 ≤ i ∧ i.toNat < v.length then some (v.set i.toNat a) else none

/-! ## The edge table (`class Edges`) -/

/-- The edge table: `data[id]` is the ordered pixel sequence of edge `id`. -/
structure Edges where
  data : List (List Point)
deriving DecidableEq, Repr

namespace Edges

/-- The embedding of `Edges::clear`. -/
def clear (_e : Edges) : Edges := ⟨[]⟩

/-- The embedding of `Edges::pushBack`. -/
def pushBack (e : Edges) (edge : List Point) : Edges := ⟨e.data ++ [edge]⟩

/-- The embedding of `Edges::overwrite`. -/
def overwrite (e : Edges) (edgeId : Int) (edge : List Point) : Option Edges :=
  (vecSet? e.data edgeId edge).map Edges.mk

/-- The embedding of `Edges::size`. -/
def size (e : Edges) : Int := e.data.length

/-- The embedding of `Edges::clearEdge`. -/
def clearEdge (e : Edges) (edgeId : Int) : Option Edges :=
  (vecSet? e.data edgeId []).map Edges.mk

/-- The embedding of `Edges::getEdge`. -/
def getEdge (e : Edges) (index : Int) : Option (List Point) :=
  vecGet? e.data index

end Edges

/-! ## The per-pixel maps (`class EdgeMap`) -/

/-- The two per-pixel maps, both stored row by row in a flat vector:
`dataEdgeIds` is the edge-id index and `dataClusters` the cluster index. -/
structure EdgeMap where
  dataEdgeIds : List (List Int)
  dataClusters : List (List Point)
  rows : Int
  cols : Int
deriving DecidableEq, Repr

namespace EdgeMap

/-- The embedding of `EdgeMap::init`: both maps get `rows * cols` empty entries. -/
def init (rows cols : Int) : EdgeMap :=
  { dataEdgeIds := List.replicate (rows * cols).toNat []
    dataClusters := List.replicate (rows * cols).toNat []
    rows := rows
    cols := cols }

/-- The flat position `x + y * cols` of pixel `(x, y)`. -/
def pos (m : EdgeMap) (x y : Int) : Int := x + y * m.cols

/-- The embedding of `EdgeMap::getEdgeIds`. -/
def getEdgeIds (m : EdgeMap) (x y : Int) : Option (List Int) :=
  vecGet? m.dataEdgeIds (m.pos x y)

/-- The embedding of `EdgeMap::getClusterPoints`. -/
def getClusterPoints (m : EdgeMap) (x y : Int) : Option (List Point) :=
  vecGet? m.dataClusters (m.pos x y)

/-- The embedding of `EdgeMap::getNumberOfEdgeIds`. -/
def getNumberOfEdgeIds (m : EdgeMap) (x y : Int) : Option Int :=
  (vecGet? m.dataEdgeIds (m.pos x y)).map (fun ids => (ids.length : Int))

/-- The embedding of `EdgeMap::pushBackEdgeId`.  The compile-time constant
`WRITE_EDGE_IDS_AT_ALL_CLUSTER_POINTS` is `false`, which leaves only the second
branch of the `if constexpr`: the id is appended unless it is already stored. -/
def pushBackEdgeId (m : EdgeMap) (x y : Int) (edgeId : Int) : Option EdgeMap := do
  let ids ← vecGet? m.dataEdgeIds (m.pos x y)
  if edgeId ∈ ids then
    pure m
  else
    let d ← vecSet? m.dataEdgeIds (m.pos x y) (ids ++ [edgeId])
    pure { m with dataEdgeIds := d }

/-- The embedding of `EdgeMap::pushBackClusterPoints`. -/
def pushBackClusterPoints (m : EdgeMap) (x y : Int) (clusterPoints : List Point) :
    Option EdgeMap := do
  let d ← vecSet? m.dataClusters (m.pos x y) clusterPoints
  pure { m with dataClusters := d }

/-- The embedding of `EdgeMap::eraseEdgeId`: the first occurrence of the id, if
any, is removed. -/
def eraseEdgeId (m : EdgeMap) (x y : Int) (edgeId : Int) : Option EdgeMap := do
  let ids ← vecGet? m.dataEdgeIds (m.pos x y)
  if edgeId ∈ ids then
    let d ← vecSet? m.dataEdgeIds (m.pos x y) (ids.erase edgeId)
    pure { m with dataEdgeIds := d }
  else
    pure m

/-- The embedding of `EdgeMap::isCluster`. -/
def isCluster (m : EdgeMap) (x y : Int) : Option Bool :=
  (vecGet? m.dataClusters (m.pos x y)).map (fun c => decide (c.length ≥ 1))

end EdgeMap

/-! ## The orchestrator state (`class EdgeProcessor`) -/

/-- The private members of `EdgeProcessor`. -/
structure EdgeProcessor where
  edgeIdCounter : Int
  edges : Edges
  edgeMap : EdgeMap
deriving DecidableEq, Repr

/-- The endpoint matching of `mergeEdges` (the `if`/`else if` chain on
`front()` and `back()`): the sequence that is finally written at `firstId`.
Taking `front()` or `back()` of an empty vector is undefined behaviour. -/
def spliceEdges (firstEdge secondEdge : List Point) : Option (List Point) := do
  let ff ← firstEdge.head?
  let sf ← secondEdge.head?
  if ff = sf then
    -- Case I
    let secondEdge := secondEdge.tail
    let fb ← firstEdge.getLast?
    let sb ← secondEdge.getLast?
    let secondEdge := if fb = sb then secondEdge.dropLast else secondEdge
    pure (secondEdge.reverse ++ firstEdge)
  else
    let sb ← secondEdge.getLast?
    if ff = sb then
      -- Case II
      let secondEdge := secondEdge.dropLast
      let fb ← firstEdge.getLast?
      let sf ← secondEdge.head?
      let secondEdge := if fb = sf then secondEdge.tail else secondEdge
      pure (secondEdge ++ firstEdge)
    else
      let fb ← firstEdge.getLast?
      if fb = sf then
        -- Case III
        pure (firstEdge ++ secondEdge.tail)
      else if fb = sb then
        -- Case IV
        pure (firstEdge ++ secondEdge.dropLast.reverse)
      else
        pure firstEdge

/-- The loop of `mergeEdges` over the points of the second edge: in the edge-id
index `secondId` is replaced by `firstId`. -/
def reassignEdgeIds (m : EdgeMap) (secondEdge : List Point) (firstId secondId : Int) :
    Option EdgeMap :=
  secondEdge.foldlM
    (fun m point => do
      let m ← m.eraseEdgeId point.x point.y secondId
      m.pushBackEdgeId point.x point.y firstId)
    m

/-- The body of `mergeEdges` once the ids are ordered, `firstId < secondId`. -/
def mergeOrdered (s : EdgeProcessor) (firstId secondId : Int) : Option EdgeProcessor := do
  let firstEdge ← s.edges.getEdge firstId
  let secondEdge ← s.edges.getEdge secondId
  let edges ← s.edges.clearEdge firstId
  let edges ← edges.clearEdge secondId
  let edgeMap ← reassignEdgeIds s.edgeMap secondEdge firstId secondId
  let merged ← spliceEdges firstEdge secondEdge
  let edges ← edges.overwrite firstId merged
  pure { s with edges := edges, edgeMap := edgeMap }

/-- The embedding of `EdgeProcessor::mergeEdges`.  The two console messages
are not modelled. -/
def mergeEdges (s : EdgeProcessor) (firstId secondId : Int) : Option EdgeProcessor :=
  if secondId < firstId then
    mergeOrdered s secondId firstId
  else if secondId = firstId then
    some s
  else
    mergeOrdered s firstId secondId

/-- The splice of two edges as tabulated in the specification (first matching
case wins; without a match the first edge is kept). -/
def spliceSpec (A B : List Point) : List Point :=
  if A.head? = B.head? then
    (if A.getLast? = B.getLast? then B.tail.dropLast else B.tail).reverse ++ A
  else if A.head? = B.getLast? then
    (if A.getLast? = B.head? then B.dropLast.tail else B.dropLast) ++ A
  else if A.getLast? = B.head? then
    A ++ B.tail
  else if A.getLast? = B.getLast? then
    A ++ B.dropLast.reverse
  else
    A

/-! ## State predicates used by the invariants -/

namespace EdgeMap

/-- Both maps have exactly one entry per pixel of the `rows × cols` grid. -/
def WF (m : EdgeMap) : Prop :=
  0 ≤ m.rows ∧ 0 ≤ m.cols ∧
  (m.dataEdgeIds.length : Int) = m.rows * m.cols ∧
  (m.dataClusters.length : Int) = m.rows * m.cols

/-- The pixel lies inside the grid. -/
def inBounds (m : EdgeMap) (p : Point) : Prop :=
  0 ≤ p.x ∧ p.x < m.cols ∧ 0 ≤ p.y ∧ p.y < m.rows

instance (m : EdgeMap) (p : Point) : Decidable (m.inBounds p) := by
  unfold inBounds; infer_instance

/-- The edge ids stored at a pixel (empty outside the map). -/
def idsAt (m : EdgeMap) (p : Point) : List Int :=
  (m.getEdgeIds p.x p.y).getD []

/-- The cluster list stored at a pixel (empty outside the map). -/
def clusterAt (m : EdgeMap) (p : Point) : List Point :=
  (m.getClusterPoints p.x p.y).getD []

/-- Every id list of the edge-id index is free of duplicates. -/
def IdsNodup (m : EdgeMap) : Prop :=
  ∀ p, m.inBounds p → (m.idsAt p).Nodup

end EdgeMap

/-- The table/index consistency invariant: every id stored at a pixel names a
non-empty edge through that pixel, every pixel of an edge lies in the grid and
carries the id of the edge, and the id of an empty edge is stored nowhere. -/
structure TableIndexAgree (s : EdgeProcessor) : Prop where
  stored_sound : ∀ p, s.edgeMap.inBounds p → ∀ e ∈ s.edgeMap.idsAt p,
    ∃ E, s.edges.getEdge e = some E ∧ E ≠ [] ∧ p ∈ E
  edge_registered : ∀ e E, s.edges.getEdge e = some E → ∀ p ∈ E,
    s.edgeMap.inBounds p ∧ e ∈ s.edgeMap.idsAt p
  no_tombstone : ∀ e, s.edges.getEdge e = some [] → ∀ p, s.edgeMap.inBounds p →
    e ∉ s.edgeMap.idsAt p

/-- The two edges have a common end pixel, so that one of the four cases of
`mergeEdges` applies. -/
def sharesEndpoint (A B : List Point) : Prop :=
  A.head? = B.head? ∨ A.head? = B.getLast? ∨ A.getLast? = B.head? ∨ A.getLast? = B.getLast?

instance (A B : List Point) : Decidable (sharesEndpoint A B) := by
  unfold sharesEndpoint; infer_instance

/-- The two edges agree on both end pixels (in one of the two orientations);
the merge then drops both ends of the second edge. -/
def sharesBothEnds (A B : List Point) : Prop :=
  (A.head? = B.head? ∧ A.getLast? = B.getLast?) ∨
  (A.head? = B.getLast? ∧ A.getLast? = B.head?)

instance (A B : List Point) : Decidable (sharesBothEnds A B) := by
  unfold sharesBothEnds; infer_instance

/-- The second edge is a single pixel equal to the first pixel of the first
edge: the input on which `mergeEdges` reads `back()` of an empty vector. -/
def singlePointAtFront (A B : List Point) : Prop :=
  B.length = 1 ∧ A.head? = B.head?

instance (A B : List Point) : Decidable (singlePointAtFront A B) := by
  unfold singlePointAtFront; infer_instance

/-! ## Executable checks of the state predicates -/

/-- All pixels of the grid, row by row. -/
def EdgeMap.allPixels (m : EdgeMap) : List Point :=
  (List.range m.rows.toNat).flatMap fun (y : Nat) =>
    (List.range m.cols.toNat).map fun (x : Nat) => Point.mk (Int.ofNat x) (Int.ofNat y)

instance (m : EdgeMap) : Decidable m.WF := by
  unfold EdgeMap.WF; infer_instance

/-- A decision procedure for `EdgeMap.IdsNodup`. -/
def EdgeMap.idsNodupCheck (m : EdgeMap) : Bool :=
  m.allPixels.all fun p => decide (m.idsAt p).Nodup

/-- A decision procedure for `TableIndexAgree`. -/
def agreeCheck (s : EdgeProcessor) : Bool :=
  (s.edgeMap.allPixels.all fun p =>
    (s.edgeMap.idsAt p).all fun e =>
      match s.edges.getEdge e with
      | some E => decide (E ≠ [] ∧ p ∈ E)
      | none => false) &&
  ((List.range s.edges.data.length).all fun i =>
    match s.edges.getEdge (i : Int) with
    | some E => E.all fun p => decide (s.edgeMap.inBounds p ∧ (i : Int) ∈ s.edgeMap.idsAt p)
    | none => true)

/-! ## Small concrete states -/

/-- Two one-pixel edges without a common pixel on a `1 × 2` grid. -/
def disjointPairState : EdgeProcessor :=
  { edgeIdCounter := 2
    edges := ⟨[[⟨0, 0⟩], [⟨1, 0⟩]]⟩
    edgeMap := { dataEdgeIds := [[0], [1]], dataClusters := [[], []], rows := 1, cols := 2 } }

/-- The state `disjointPairState` after `mergeEdges 0 1`. -/
def disjointPairMerged : EdgeProcessor :=
  { edgeIdCounter := 2
    edges := ⟨[[⟨0, 0⟩], []]⟩
    edgeMap := { dataEdgeIds := [[0], [0]], dataClusters := [[], []], rows := 1, cols := 2 } }

/-- A two-pixel edge and a one-pixel bridge lying on its first pixel, on a
`1 × 2` grid (the bridge `getLinePoints p p` between two coinciding connection
points has this shape). -/
def singlePixelBridgeState : EdgeProcessor :=
  { edgeIdCounter := 2
    edges := ⟨[[⟨0, 0⟩, ⟨1, 0⟩], [⟨0, 0⟩]]⟩
    edgeMap := { dataEdgeIds := [[0, 1], [0]], dataClusters := [[], []], rows := 1, cols := 2 } }

/-- Two arcs between the pixels `(0,0)` and `(2,0)` on a `2 × 3` grid: the
straight one has id 0, the one through `(0,1)` and `(1,1)` has id 1. -/
def twoArcsState : EdgeProcessor :=
  { edgeIdCounter := 2
    edges := ⟨[[⟨0, 0⟩, ⟨1, 0⟩, ⟨2, 0⟩], [⟨0, 0⟩, ⟨0, 1⟩, ⟨1, 1⟩, ⟨2, 0⟩]]⟩
    edgeMap :=
      { dataEdgeIds := [[0, 1], [0], [0, 1], [1], [1], []]
        dataClusters := [[], [], [], [], [], []]
        rows := 2
        cols := 3 } }

/-- Two two-pixel edges meeting at the pixel `(1,0)` of a `1 × 3` grid. -/
def chainedPairState : EdgeProcessor :=
  { edgeIdCounter := 2
    edges := ⟨[[⟨0, 0⟩, ⟨1, 0⟩], [⟨1, 0⟩, ⟨2, 0⟩]]⟩
    edgeMap :=
      { dataEdgeIds := [[0], [0, 1], [1]], dataClusters := [[], [], []], rows := 1, cols := 3 } }

/-- The state `chainedPairState` with the id 1 stored twice at the pixel `(1,0)`. -/
def duplicateIdState : EdgeProcessor :=
  { edgeIdCounter := 2
    edges := ⟨[[⟨0, 0⟩, ⟨1, 0⟩], [⟨1, 0⟩, ⟨2, 0⟩]]⟩
    edgeMap :=
      { dataEdgeIds := [[0], [0, 1, 1], [1]], dataClusters := [[], [], []], rows := 1, cols := 3 } }

/-! ## The input image (`cv::Mat` of `uchar`) -/

/-- A thinned binary image: `px y x` is `img.at<uchar>(y, x)`, `rows` and
`cols` are its dimensions.  A pixel is an edge pixel iff its value is positive. -/
structure Mat where
  rows : Nat
  cols : Nat
  px : Int → Int → Nat

/-- The pixel lies inside the image. -/
def Mat.inside (img : Mat) (p : Point) : Prop :=
  0 ≤ p.x ∧ p.x < img.cols ∧ 0 ≤ p.y ∧ p.y < img.rows

instance (img : Mat) (p : Point) : Decidable (img.inside p) := by
  unfold Mat.inside; infer_instance

/-- The order in which the raster loops `for y < rows`, `for x < cols` visit
the pixels. -/
def Mat.raster (img : Mat) : List Point :=
  (List.range img.rows).flatMap fun (y : Nat) =>
    (List.range img.cols).map fun (x : Nat) => Point.mk (Int.ofNat x) (Int.ofNat y)

/-! ## Neighbourhood primitives -/

/-- The embedding of `EdgeProcessor::getDirectNeighbors`: the vector `v` is the
concatenation of the eight conditional `push_back`s, clockwise from top left. -/
def getDirectNeighbors (img : Mat) (p : Point) : List Point :=
  -- top left
  (if p.x - 1 ≥ 0 ∧ p.y - 1 ≥ 0 then
    (if img.px (p.y - 1) (p.x - 1) > 0 ∧
        ¬ (img.px (p.y - 1) p.x > 0 ∨ img.px p.y (p.x - 1) > 0) then
      [Point.mk (p.x - 1) (p.y - 1)] else [])
   else []) ++
  -- top center
  (if p.y - 1 ≥ 0 then
    (if img.px (p.y - 1) p.x > 0 then [Point.mk p.x (p.y - 1)] else [])
   else []) ++
  -- top right
  (if p.x + 1 < img.cols ∧ p.y - 1 ≥ 0 then
    (if img.px (p.y - 1) (p.x + 1) > 0 ∧
        ¬ (img.px (p.y - 1) p.x > 0 ∨ img.px p.y (p.x + 1) > 0) then
      [Point.mk (p.x + 1) (p.y - 1)] else [])
   else []) ++
  -- middle right
  (if p.x + 1 < img.cols then
    (if img.px p.y (p.x + 1) > 0 then [Point.mk (p.x + 1) p.y] else [])
   else []) ++
  -- bottom right
  (if p.x + 1 < img.cols ∧ p.y + 1 < img.rows then
    (if img.px (p.y + 1) (p.x + 1) > 0 ∧
        ¬ (img.px p.y (p.x + 1) > 0 ∨ img.px (p.y + 1) p.x > 0) then
      [Point.mk (p.x + 1) (p.y + 1)] else [])
   else []) ++
  -- bottom center
  (if p.y + 1 < img.rows then
    (if img.px (p.y + 1) p.x > 0 then [Point.mk p.x (p.y + 1)] else [])
   else []) ++
  -- bottom left
  (if p.x - 1 ≥ 0 ∧ p.y + 1 < img.rows then
    (if img.px (p.y + 1) (p.x - 1) > 0 ∧
        ¬ (img.px (p.y + 1) p.x > 0 ∨ img.px p.y (p.x - 1) > 0) then
      [Point.mk (p.x - 1) (p.y + 1)] else [])
   else []) ++
  -- middle left
  (if p.x - 1 ≥ 0 then
    (if img.px p.y (p.x - 1) > 0 then [Point.mk (p.x - 1) p.y] else [])
   else [])

/-- The embedding of `EdgeProcessor::getBinaryCode`; the sum never exceeds
255, so the `uint8_t` accumulator does not wrap. -/
def getBinaryCode (img : Mat) (p : Point) : Nat :=
  (if p.x - 1 ≥ 0 ∧ p.y - 1 ≥ 0 then (if img.px (p.y - 1) (p.x - 1) > 0 then 128 else 0)
   else 0) +
  (if p.y - 1 ≥ 0 then (if img.px (p.y - 1) p.x > 0 then 64 else 0) else 0) +
  (if p.x + 1 < img.cols ∧ p.y - 1 ≥ 0 then
    (if img.px (p.y - 1) (p.x + 1) > 0 then 32 else 0) else 0) +
  (if p.x + 1 < img.cols then (if img.px p.y (p.x + 1) > 0 then 16 else 0) else 0) +
  (if p.x + 1 < img.cols ∧ p.y + 1 < img.rows then
    (if img.px (p.y + 1) (p.x + 1) > 0 then 8 else 0) else 0) +
  (if p.y + 1 < img.rows then (if img.px (p.y + 1) p.x > 0 then 4 else 0) else 0) +
  (if p.x - 1 ≥ 0 ∧ p.y + 1 < img.rows then
    (if img.px (p.y + 1) (p.x - 1) > 0 then 2 else 0) else 0) +
  (if p.x - 1 ≥ 0 then (if img.px p.y (p.x - 1) > 0 then 1 else 0) else 0)

/-- The corner mask `UPPER_LEFT = 0b11000001`. -/
def UPPER_LEFT : Nat := 193
/-- The corner mask `UPPER_RIGHT = 0b01110000`. -/
def UPPER_RIGHT : Nat := 112
/-- The corner mask `LOWER_RIGHT = 0b00011100`. -/
def LOWER_RIGHT : Nat := 28
/-- The corner mask `LOWER_LEFT = 0b00000111`. -/
def LOWER_LEFT : Nat := 7

/-- The embedding of `EdgeProcessor::containsFourCluster`. -/
def containsFourCluster (binaryCode : Nat) : Bool :=
  (binaryCode &&& UPPER_LEFT) == UPPER_LEFT ||
  (binaryCode &&& UPPER_RIGHT) == UPPER_RIGHT ||
  (binaryCode &&& LOWER_RIGHT) == LOWER_RIGHT ||
  (binaryCode &&& LOWER_LEFT) == LOWER_LEFT

/-- The cluster-point test `containsFourCluster(binaryCode) || neighbors.size() > 2`
that `preprocessClusters` applies to the seed and to every candidate. -/
def isClusterPoint (img : Mat) (p : Point) : Bool :=
  containsFourCluster (getBinaryCode img p) ||
  decide ((getDirectNeighbors img p).length > 2)

/-! ## `EdgeProcessor::preprocessClusters` -/

/-- The `for (const auto& n : neighbors)` loop of the cluster expansion: a
neighbour that is not yet listed and is a cluster point is appended. -/
def expandCluster (img : Mat) (clusterPoints neighbors : List Point) : List Point :=
  neighbors.foldl
    (fun cp n => if n ∉ cp then (if isClusterPoint img n then cp ++ [n] else cp) else cp)
    clusterPoints

/-- The `while (c < clusterPoints.size())` loop.  The first argument bounds
the number of iterations; `none` means that the bound was too small. -/
def growCluster (img : Mat) : Nat → List Point → Nat → Option (List Point)
  | 0, _, _ => none
  | fuel + 1, clusterPoints, c =>
    match clusterPoints[c]? with
    | some point =>
      growCluster img fuel (expandCluster img clusterPoints (getDirectNeighbors img point)) (c + 1)
    | none => some clusterPoints

/-- The last loop of the seed branch: the cluster is saved at every one of
its points. -/
def storeCluster (m : EdgeMap) (clusterPoints : List Point) : Option EdgeMap :=
  clusterPoints.foldlM (fun m i => m.pushBackClusterPoints i.x i.y clusterPoints) m

/-- The body of the raster loops of `preprocessClusters` at one pixel.  A
cluster has at most `rows * cols` points, which bounds the expansion loop. -/
def preprocessPixel (img : Mat) (m : EdgeMap) (point : Point) : Option EdgeMap :=
  if img.px point.y point.x > 0 then do
    let current ← m.getClusterPoints point.x point.y
    if current.length = 0 then
      if isClusterPoint img point then do
        let clusterPoints ← growCluster img (img.rows * img.cols + 1) [point] 0
        storeCluster m clusterPoints
      else pure m
    else pure m
  else pure m

/-- The embedding of `EdgeProcessor::preprocessClusters`, acting on the
`edgeMap` member. -/
def preprocessClusters (img : Mat) (m : EdgeMap) : Option EdgeMap :=
  img.raster.foldlM (preprocessPixel img) m

/-! ## `EdgeProcessor::traceEdge` and `EdgeProcessor::traceEdges` -/

/-- The condition `getNumberOfEdgeIds(point) == 0 || isCluster(point)` under
which `traceEdge` admits a neighbour. -/
def admitsNeighbor (m : EdgeMap) (point : Point) : Option Bool := do
  let n ← m.getNumberOfEdgeIds point.x point.y
  if n = 0 then pure true else m.isCluster point.x point.y

/-- The loop of `traceEdge` that collects `unvisitedNeighbors`: a neighbour is
pushed when it has no edge id or lies in a cluster. -/
def unvisitedNeighbors (m : EdgeMap) (neighbors : List Point) : Option (List Point) :=
  neighbors.foldlM
    (fun unvisited point => do
      let wanted ← admitsNeighbor m point
      pure (if wanted then unvisited ++ [point] else unvisited))
    []

/-- The embedding of the recursive `EdgeProcessor::traceEdge`.  The first
argument bounds the recursion depth (`none` when it is exhausted).  The
vector `edge` is passed by reference in the source but never read again by a
caller, so only the processor state is returned. -/
def traceEdge (img : Mat) : Nat → EdgeProcessor → Point → List Point → Option EdgeProcessor
  | 0, _, _, _ => none
  | fuel + 1, s, startPoint, edge => do
    let edge := edge ++ [startPoint]
    let edgeMap ← s.edgeMap.pushBackEdgeId startPoint.x startPoint.y s.edgeIdCounter
    let s := { s with edgeMap := edgeMap }
    let neighbors := getDirectNeighbors img startPoint
    let startIsCluster ← s.edgeMap.isCluster startPoint.x startPoint.y
    let unvisited ← if !startIsCluster then unvisitedNeighbors s.edgeMap neighbors else pure []
    match unvisited with
    | [n0, n1] =>
      let s ← traceEdge img fuel s n0 [startPoint]
      let s ← traceEdge img fuel s n1 [startPoint]
      mergeEdges s (s.edgeIdCounter - 2) (s.edgeIdCounter - 1)
    | [n0] => traceEdge img fuel s n0 edge
    | [] => pure { s with edges := s.edges.pushBack edge, edgeIdCounter := s.edgeIdCounter + 1 }
    | _ => pure s

/-- The body of the raster loops of `traceEdges` at one pixel. -/
def tracePixel (img : Mat) (s : EdgeProcessor) (p : Point) : Option EdgeProcessor :=
  if img.px p.y p.x > 0 then do
    let n ← s.edgeMap.getNumberOfEdgeIds p.x p.y
    if n = 0 then do
      let cl ← s.edgeMap.getClusterPoints p.x p.y
      if cl.length = 0 then traceEdge img (img.rows * img.cols + 2) s p []
      else pure s
    else pure s
  else pure s

/-- The embedding of `EdgeProcessor::traceEdges`. -/
def traceEdges (img : Mat) (s : EdgeProcessor) : Option EdgeProcessor := do
  let s : EdgeProcessor :=
    { edgeIdCounter := 0, edges := s.edges.clear, edgeMap := EdgeMap.init img.rows img.cols }
  let edgeMap ← preprocessClusters img s.edgeMap
  let s := { s with edgeMap := edgeMap }
  img.raster.foldlM (tracePixel img) s

/-! ## Predicates on clusters -/

/-- The pixels reached from the seed `s` by repeatedly stepping to a direct
neighbour that passes the cluster-point test. -/
inductive Linked (img : Mat) (s : Point) : Point → Prop
  | seed : Linked img s s
  | step (r n : Point) : Linked img s r → n ∈ getDirectNeighbors img r →
      isClusterPoint img n = true → Linked img s n

/-- Every point of the list is an edge pixel of the image that passes the
cluster-point test. -/
def ClusterPoints (img : Mat) (L : List Point) : Prop :=
  ∀ q ∈ L, img.inside q ∧ img.px q.y q.x > 0 ∧ isClusterPoint img q = true

/-- The list contains every direct neighbour of its points that passes the
cluster-point test. -/
def ClosedCluster (img : Mat) (L : List Point) : Prop :=
  ∀ q ∈ L, ∀ n ∈ getDirectNeighbors img q, isClusterPoint img n = true → n ∈ L

/-- The state of the cluster index while `preprocessClusters` runs: the map
has the size of the image, a non-empty list contains its own pixel, has no
repetitions and is stored at each of its points, and the lists consist of
cluster points and are closed under the expansion step. -/
structure ClusterIndexOk (img : Mat) (m : EdgeMap) : Prop where
  wf : m.WF
  rows_eq : m.rows = img.rows
  cols_eq : m.cols = img.cols
  self_mem : ∀ p, img.inside p → m.clusterAt p ≠ [] → p ∈ m.clusterAt p
  nodup : ∀ p, img.inside p → (m.clusterAt p).Nodup
  replicated : ∀ p, img.inside p → ∀ q ∈ m.clusterAt p, m.clusterAt q = m.clusterAt p
  members : ∀ p, img.inside p → ClusterPoints img (m.clusterAt p)
  closed : ∀ p, img.inside p → ClosedCluster img (m.clusterAt p)

/-- The cluster index is reset: every cluster list is empty. -/
def EdgeMap.ClustersEmpty (m : EdgeMap) : Prop :=
  ∀ L ∈ m.dataClusters, L = []

instance (m : EdgeMap) : Decidable m.ClustersEmpty := by
  unfold EdgeMap.ClustersEmpty; infer_instance

/-- The image given by rows of pixel values (0 outside the listed values). -/
def Mat.ofRows (rows : List (List Nat)) : Mat :=
  { rows := rows.length
    cols := (rows.headD []).length
    px := fun y x =>
      if 0 ≤ y ∧ 0 ≤ x then (rows.getD y.toNat []).getD x.toNat 0 else 0 }

/-! ## Predicates on the tracing state -/

/-- The part of the state that tracing relies on and keeps: the maps have the
size of the image, id lists are duplicate-free, and every edge pixel that
passes the cluster-point test lies in a cluster. -/
structure MapOk (img : Mat) (m : EdgeMap) : Prop where
  wf : m.WF
  rows_eq : m.rows = img.rows
  cols_eq : m.cols = img.cols
  nodup : m.IdsNodup
  complete : ∀ p, img.inside p → img.px p.y p.x > 0 → isClusterPoint img p = true →
    m.clusterAt p ≠ []

/-- The number of pixels of the image that carry no edge id. -/
def idless (img : Mat) (m : EdgeMap) : Nat :=
  img.raster.countP fun p => decide (m.idsAt p = [])

/-- The effect of one non-branching call `traceEdge q E` on the state `s`: the
pixels `path` walked from `q` are registered under the current counter and the
edge `E ++ path` is appended to the table. -/
structure FollowPost (img : Mat) (s : EdgeProcessor) (q : Point) (E path : List Point)
    (s2 : EdgeProcessor) : Prop where
  head : path.head? = some q
  edges : s2.edges.data = s.edges.data ++ [E ++ path]
  counter : s2.edgeIdCounter = s.edgeIdCounter + 1
  mapOk : MapOk img s2.edgeMap
  clusters : s2.edgeMap.dataClusters = s.edgeMap.dataClusters
  ids : ∀ p, img.inside p → ∀ x,
    (x ∈ s2.edgeMap.idsAt p ↔ x ∈ s.edgeMap.idsAt p ∨ (x = s.edgeIdCounter ∧ p ∈ path))
  inside : ∀ p ∈ path, img.inside p ∧ img.px p.y p.x > 0
  entered : ∀ p ∈ path, p = q ∨ s.edgeMap.idsAt p = [] ∨ s.edgeMap.clusterAt p ≠ []
  chain : ∀ p ∈ path, p ≠ q →
    ∃ r ∈ path, p ∈ getDirectNeighbors img r ∧ s.edgeMap.clusterAt r = []

/-- The invariant of the raster loop of `traceEdges`. -/
structure TraceInv (img : Mat) (s : EdgeProcessor) : Prop where
  mapOk : MapOk img s.edgeMap
  agree : TableIndexAgree s
  counter : s.edgeIdCounter = s.edges.data.length

/-! ## Neighbourhood primitives as worded in the specification -/

/-- An edge pixel: a pixel of the image whose value is positive. -/
def Mat.isEdge (img : Mat) (q : Point) : Prop :=
  img.inside q ∧ img.px q.y q.x > 0

instance (img : Mat) (q : Point) : Decidable (img.isEdge q) := by
  unfold Mat.isEdge; infer_instance

/-- The eight neighbour offsets `(dx, dy)` with their bit weights, clockwise
from top left: TL, TC, TR, MR, BR, BC, BL, ML. -/
def neighborWeights : List (Int × Int × Nat) :=
  [(-1, -1, 128), (0, -1, 64), (1, -1, 32), (1, 0, 16),
   (1, 1, 8), (0, 1, 4), (-1, 1, 2), (-1, 0, 1)]

/-- The occupancy code of the specification: the sum of the weights of the
neighbours that exist in the image and are edge pixels. -/
def binaryCodeSpec (img : Mat) (p : Point) : Nat :=
  (neighborWeights.map fun (dx, dy, w) =>
    if img.isEdge ⟨p.x + dx, p.y + dy⟩ then w else 0).sum

/-- The test of the specification for one of the eight positions: the
neighbour is an edge pixel of the image and, when it is a diagonal, neither of
the two orthogonal neighbours of `p` next to it is an edge pixel. -/
def directSpecTest (img : Mat) (p : Point) (dx dy : Int) : Prop :=
  img.isEdge ⟨p.x + dx, p.y + dy⟩ ∧
    (dx ≠ 0 ∧ dy ≠ 0 → ¬ img.isEdge ⟨p.x + dx, p.y⟩ ∧ ¬ img.isEdge ⟨p.x, p.y + dy⟩)

instance (img : Mat) (p : Point) (dx dy : Int) : Decidable (directSpecTest img p dx dy) := by
  unfold directSpecTest; infer_instance

/-- The direct neighbours of the specification: the eight positions in the
order TL, TC, TR, MR, BR, BC, BL, ML, filtered by `directSpecTest`. -/
def directNeighborsSpec (img : Mat) (p : Point) : List Point :=
  (neighborWeights.filter fun (dx, dy, _) => decide (directSpecTest img p dx dy)).map
    fun (dx, dy, _) => Point.mk (p.x + dx) (p.y + dy)

/-! ## Further operations of `class EdgeMap` -/

namespace EdgeMap

/-- The body of the loop of `addPointToCluster`, the assignment
`dataClusters[p.x + p.y * cols] = dataClusters[x + y * cols]`. -/
def copyClusterTo (m : EdgeMap) (x y : Int) (p : Point) : Option EdgeMap := do
  let cur ← vecGet? m.dataClusters (m.pos x y)
  let d ← vecSet? m.dataClusters (m.pos p.x p.y) cur
  pure { m with dataClusters := d }

/-- The embedding of `EdgeMap::addPointToCluster`.  The range-`for` runs over
the list at `(x, y)` after the `push_back`; its body copies that list to the
position of each of its points (at the position `(x, y)` itself this is a
self-assignment), so the list that is iterated never changes in the loop. -/
def addPointToCluster (m : EdgeMap) (x y : Int) (point : Point) : Option EdgeMap := do
  let old ← vecGet? m.dataClusters (m.pos x y)
  let d ← vecSet? m.dataClusters (m.pos x y) (old ++ [point])
  (old ++ [point]).foldlM (fun (m : EdgeMap) p => m.copyClusterTo x y p)
    { m with dataClusters := d }

/-- The embedding of `EdgeMap::clearClusterPoint`. -/
def clearClusterPoint (m : EdgeMap) (x y : Int) : Option EdgeMap := do
  let d ← vecSet? m.dataClusters (m.pos x y) []
  pure { m with dataClusters := d }

/-- The embedding of `EdgeMap::clearCluster`.  The range-`for` takes the
bounds of the list at `(x, y)` once, on entry, and `clear()` keeps the storage
of a vector, so the loop visits the points that the list holds on entry, also
after the body has cleared the list at `(x, y)` itself (which happens when the
pixel is a member of its own cluster list). -/
def clearCluster (m : EdgeMap) (x y : Int) : Option EdgeMap := do
  let points ← vecGet? m.dataClusters (m.pos x y)
  points.foldlM (fun (m : EdgeMap) p => m.clearClusterPoint p.x p.y) m

/-- Insertion into a `std::set<int>`, which is kept as a strictly increasing
list: an element that is present is not inserted again. -/
def setInsert (s : List Int) (a : Int) : List Int :=
  if a ∈ s then s else s.orderedInsert (fun x y => x ≤ y) a

/-- The embedding of `EdgeMap::getClusterEdgeIds`: the ids stored at the
points of the cluster list at `(x, y)` are inserted into a set, which is
returned as a vector in increasing order. -/
def getClusterEdgeIds (m : EdgeMap) (x y : Int) : Option (List Int) := do
  let points ← vecGet? m.dataClusters (m.pos x y)
  points.foldlM
    (fun (edgeIdsInCluster : List Int) point => do
      let ids ← vecGet? m.dataEdgeIds (m.pos point.x point.y)
      pure (ids.foldl setInsert edgeIdsInCluster))
    []

end EdgeMap

/-! ## Queries on the edge table -/

namespace Edges

/-- The embedding of `Edges::getStartPoint`. -/
def getStartPoint (e : Edges) (edgeId : Int) : Option Point := do
  let edge ← vecGet? e.data edgeId
  edge.head?

/-- The embedding of `Edges::getEndPoint`. -/
def getEndPoint (e : Edges) (edgeId : Int) : Option Point := do
  let edge ← vecGet? e.data edgeId
  edge.getLast?

/-- The embedding of `Edges::getEdgeSize`. -/
def getEdgeSize (e : Edges) (edgeId : Int) : Option Nat :=
  (vecGet? e.data edgeId).map List.length

end Edges

/-- The difference of two points (`operator-` of `cv::Point`). -/
def Point.sub (p q : Point) : Point := ⟨p.x - q.x, p.y - q.y⟩

/-- The squared Euclidean length of a point, `x * x + y * y`. -/
def Point.normSq (p : Point) : Int := p.x * p.x + p.y * p.y

/-- The comparison `cv::norm(d) < 1.5`.  `cv::norm` is the square root of
`x * x + y * y` computed in `double`; the root of a non-negative integer `n`
is below `3 / 2` exactly when `4 * n < 9` (the roots of 0, 1 and 2 are below
1.5, that of 3 is above, and the rounded root is monotone). -/
def normBelowOneAndHalf (d : Point) : Bool := decide (4 * d.normSq < 9)

/-- The embedding of `Edges::isClosed`. -/
def Edges.isClosed (e : Edges) (edgeId : Int) : Option Bool := do
  let startPoint ← e.getStartPoint edgeId
  let endPoint ← e.getEndPoint edgeId
  if normBelowOneAndHalf (startPoint.sub endPoint) then do
    let size ← e.getEdgeSize edgeId
    pure (decide (size ≥ 4))
  else
    pure false

/-- The embedding of `Edges::isThreePixelL`. -/
def Edges.isThreePixelL (e : Edges) (edgeId : Int) : Option Bool := do
  let startPoint ← e.getStartPoint edgeId
  let endPoint ← e.getEndPoint edgeId
  if normBelowOneAndHalf (startPoint.sub endPoint) then do
    let size ← e.getEdgeSize edgeId
    pure (decide (size = 3))
  else
    pure false

/-! ## Further predicates and concrete inputs -/

/-- Every cluster list is connected: each of its points is linked to the pixel
that stores the list. -/
def ClustersLinked (img : Mat) (m : EdgeMap) : Prop :=
  ∀ p, img.inside p → ∀ q ∈ m.clusterAt p, Linked img p q

/-- An image with two cluster points, `(2,1)` and `(1,2)`, that touch
diagonally; the edge pixel `(1,1)` between them is not a cluster point.
Rows from top to bottom, `X` marking an edge pixel:
`. . X .`, `. X X X`, `X X . .`, `. X . .`. -/
def diagonalJunctionsImage : Mat :=
  Mat.ofRows [[0, 0, 1, 0], [0, 1, 1, 1], [1, 1, 0, 0], [0, 1, 0, 0]]

/-- An edge table whose only edge runs round a `2 × 2` block and returns to
its first pixel. -/
def returningEdge : Edges :=
  ⟨[[⟨0, 0⟩, ⟨1, 0⟩, ⟨1, 1⟩, ⟨0, 1⟩, ⟨0, 0⟩]]⟩

/-- An edge table whose only edge is the ring of the eight border pixels of a
`3 × 3` block, from `(0,0)` clockwise to `(0,1)`. -/
def ringEdge : Edges :=
  ⟨[[⟨0, 0⟩, ⟨1, 0⟩, ⟨2, 0⟩, ⟨2, 1⟩, ⟨2, 2⟩, ⟨1, 2⟩, ⟨0, 2⟩, ⟨0, 1⟩]]⟩

/-- A `1 × 3` map: the pixels `(0,0)` and `(1,0)` form a cluster, the ids
stored at them are `[2, 0]` and `[1, 2]`. -/
def pairClusterMap : EdgeMap :=
  { dataEdgeIds := [[2, 0], [1, 2], [5]]
    dataClusters := [[⟨0, 0⟩, ⟨1, 0⟩], [⟨0, 0⟩, ⟨1, 0⟩], []]
    rows := 1
    cols := 3 }

/-! ## Conversions between `size_t` and `int` -/

/-- The difference of two `size_t` values: 64 bits without sign, wrapping. -/
def sizeSub (a b : Nat) : Int := ((a : Int) - (b : Int)) % 18446744073709551616

/-- The conversion `static_cast<int>` of a `size_t` value: the low 32 bits are
read as a two's complement number. -/
def toInt32 (v : Int) : Int :=
  if v % 4294967296 < 2147483648 then v % 4294967296 else v % 4294967296 - 4294967296

/-! ## Further operations of `class Edges` -/

/-- The idiom `v.erase(std::remove(v.begin(), v.end(), value), v.end())`: the
elements different from `value` are moved to the front in their order and the
rest is cut off. -/
def vecRemove {α : Type} [DecidableEq α] (v : List α) (value : α) : List α :=
  v.foldl (fun kept a => if a = value then kept else kept ++ [a]) []

namespace Edges

/-- The embedding of `Edges::eraseEmptyEdges`. -/
def eraseEmptyEdges (e : Edges) : Edges := ⟨vecRemove e.data []⟩

/-- The loop of `Edges::getEdgeId`; the last argument is the counter `edgeId`. -/
def getEdgeIdLoop (edge : List Point) : List (List Point) → Nat → Nat
  | [], edgeId => edgeId
  | edgeVector :: rest, edgeId =>
    if edgeVector = edge then edgeId else getEdgeIdLoop edge rest (edgeId + 1)

/-- The embedding of `Edges::getEdgeId`: the position of the first edge of the
table that equals the given point sequence (the size of the table if there is
none). -/
def getEdgeId (e : Edges) (edge : List Point) : Int := (getEdgeIdLoop edge e.data 0 : Nat)

/-- The embedding of `Edges::getPointsAlongEdgeFromPoint`; `numberPixels` is a
`size_t`.  The first loop pushes `edge[0]`, ..., `edge[min(numberPixels,
size) - 1]`.  The second loop runs an `int` index from `size - 1` down to the
bound `std::max(static_cast<int>(edge.size() - numberPixels), 0)` and so pushes
the points from position `bound` on in reverse order. -/
def getPointsAlongEdgeFromPoint (e : Edges) (edgeId : Int) (point : Point)
    (numberPixels : Nat) : Option (List Point) := do
  let edge ← vecGet? e.data edgeId
  let front ← edge.head?
  if front = point then
    pure (edge.take (min numberPixels edge.length))
  else do
    let back ← edge.getLast?
    if back = point then
      pure (edge.drop (max (toInt32 (sizeSub edge.length numberPixels)) 0).toNat).reverse
    else
      pure []

end Edges

/-! ## Further operations of `class EdgeMap` and the constructors -/

namespace EdgeMap

/-- The embedding of the constructor `EdgeMap::EdgeMap`. -/
def create : EdgeMap := { dataEdgeIds := [], dataClusters := [], rows := 0, cols := 0 }

/-- The embedding of `EdgeMap::resetEdgeIdMap`. -/
def resetEdgeIdMap (m : EdgeMap) : EdgeMap :=
  { m with dataEdgeIds := List.replicate (m.rows * m.cols).toNat [] }

/-- The embedding of `EdgeMap::isPointInCluster`. -/
def isPointInCluster (m : EdgeMap) (x y : Int) (point : Point) : Option Bool :=
  (vecGet? m.dataClusters (m.pos x y)).map fun c => decide (point ∈ c)

end EdgeMap

/-- The embedding of the constructor `EdgeProcessor::EdgeProcessor`: the
counter is zero, the edge table is empty and the map is a `0 × 0` map. -/
def EdgeProcessor.create : EdgeProcessor :=
  { edgeIdCounter := 0, edges := ⟨[]⟩, edgeMap := EdgeMap.create }

/-! ## `EdgeProcessor::cleanUpEdges` -/

/-- The inner loop of `cleanUpEdges`: the id is written at all points of the
edge. -/
def registerEdge (m : EdgeMap) (edge : List Point) (edgeId : Int) : Option EdgeMap :=
  edge.foldlM (fun (m : EdgeMap) point => m.pushBackEdgeId point.x point.y edgeId) m

/-- The embedding of `EdgeProcessor::cleanUpEdges`. -/
def cleanUpEdges (s : EdgeProcessor) : Option EdgeProcessor := do
  let edges := s.edges.eraseEmptyEdges
  let edgeMap ← edges.data.foldlM
    (fun (m : EdgeMap) edge => registerEdge m edge (edges.getEdgeId edge))
    s.edgeMap.resetEdgeIdMap
  pure { s with edges := edges, edgeMap := edgeMap }

/-! ## `EdgeProcessor::connectEdgesInTwoEdgeClusters` -/

/-- The embedding of `EdgeProcessor::findStartOrEndPointInCluster`: the result
is the connection point if one was found. -/
def findStartOrEndPointInCluster (s : EdgeProcessor) (x y : Int) (edgeId : Int) :
    Option (Option Point) := do
  let startPoint ← s.edges.getStartPoint edgeId
  let startIn ← s.edgeMap.isPointInCluster x y startPoint
  let endPoint ← s.edges.getEndPoint edgeId
  let endIn ← s.edgeMap.isPointInCluster x y endPoint
  if startIn && !endIn then pure (some startPoint)
  else if endIn && !startIn then pure (some endPoint)
  else pure none

/-- The statements shared by the two branches of `connectEdgesInTwoEdgeClusters`
that connect: the temporary edge is pushed, merged with the first edge, the
result is merged with the second edge, and the cluster is cleared on demand. -/
def bridgeAndMerge (s : EdgeProcessor) (p : Point) (id0 id1 : Int) (tmpEdge : List Point)
    (deleteClustersAfterConnect : Bool) : Option EdgeProcessor := do
  let s : EdgeProcessor := { s with edges := s.edges.pushBack tmpEdge }
  let s ← mergeEdges s id0 (s.edges.size - 1)
  let s ← mergeEdges s id0 id1
  if deleteClustersAfterConnect then do
    let m ← s.edgeMap.clearCluster p.x p.y
    pure { s with edgeMap := m }
  else
    pure s

/-- The `if` / `else if` on `onlyIf8Neighbors` and `are8Neighbors`. -/
def connectBranch (onlyIf8Neighbors deleteClustersAfterConnect : Bool) (s : EdgeProcessor)
    (p : Point) (id0 id1 : Int) (connectionPoint1 connectionPoint2 : Point) :
    Option EdgeProcessor :=
  if onlyIf8Neighbors && normBelowOneAndHalf (connectionPoint1.sub connectionPoint2) then
    bridgeAndMerge s p id0 id1 [connectionPoint1, connectionPoint2] deleteClustersAfterConnect
  else if !onlyIf8Neighbors then
    bridgeAndMerge s p id0 id1 (getLinePoints connectionPoint1 connectionPoint2)
      deleteClustersAfterConnect
  else
    some s

/-- The search loop over the merged edge: at the first point that lies in a
cluster the sequence is rotated (`std::rotate`) so that this point comes
first.  The first argument holds the points already passed. -/
def rotateToCluster (m : EdgeMap) : List Point → List Point → Option (Option (List Point))
  | _, [] => some none
  | seen, point :: rest => do
    let c ← m.isCluster point.x point.y
    if c then pure (some (point :: rest ++ seen))
    else rotateToCluster m (seen ++ [point]) rest

/-- The last part of the body of `connectEdgesInTwoEdgeClusters`: a closed
edge neither end of which lies in a cluster is rotated. -/
def rotateClosedEdge (s : EdgeProcessor) (edgeIdMerged : Int) : Option EdgeProcessor := do
  let closed ← s.edges.isClosed edgeIdMerged
  if closed then do
    let startPoint ← s.edges.getStartPoint edgeIdMerged
    let endPoint ← s.edges.getEndPoint edgeIdMerged
    let startIsCluster ← s.edgeMap.isCluster startPoint.x startPoint.y
    if startIsCluster then pure s
    else do
      let endIsCluster ← s.edgeMap.isCluster endPoint.x endPoint.y
      if endIsCluster then pure s
      else do
        let edge ← s.edges.getEdge edgeIdMerged
        let rotated ← rotateToCluster s.edgeMap [] edge
        match rotated with
        | some r => do
          let edges ← s.edges.overwrite edgeIdMerged r
          pure { s with edges := edges }
        | none => pure s
  else
    pure s

/-- The body of the raster loops of `connectEdgesInTwoEdgeClusters` at one
pixel.  `std::min(clusterEdgeIds[0], clusterEdgeIds[0])` is `clusterEdgeIds[0]`. -/
def connectAt (onlyIf8Neighbors deleteClustersAfterConnect : Bool) (s : EdgeProcessor)
    (p : Point) : Option EdgeProcessor := do
  let clusterEdgeIds ← s.edgeMap.getClusterEdgeIds p.x p.y
  match clusterEdgeIds with
  | [id0, id1] => do
    let isCl ← s.edgeMap.isCluster p.x p.y
    if isCl then do
      let closed0 ← s.edges.isClosed id0
      if closed0 then pure s
      else do
        let closed1 ← s.edges.isClosed id1
        if closed1 then pure s
        else do
          let found1 ← findStartOrEndPointInCluster s p.x p.y id0
          let found2 ← findStartOrEndPointInCluster s p.x p.y id1
          match found1, found2 with
          | some connectionPoint1, some connectionPoint2 => do
            let s ← connectBranch onlyIf8Neighbors deleteClustersAfterConnect s p id0 id1
              connectionPoint1 connectionPoint2
            rotateClosedEdge s id0
          | _, _ => pure s
    else
      pure s
  | _ => pure s

/-- The embedding of `EdgeProcessor::connectEdgesInTwoEdgeClusters`. -/
def connectEdgesInTwoEdgeClusters (onlyIf8Neighbors deleteClustersAfterConnect : Bool)
    (s : EdgeProcessor) : Option EdgeProcessor :=
  s.edgeMap.allPixels.foldlM (connectAt onlyIf8Neighbors deleteClustersAfterConnect) s

/-! ## `EdgeProcessor::removeZeroAndOneEdgeClusters` -/

/-- The body of the raster loops of `removeZeroAndOneEdgeClusters`. -/
def removeClusterAt (s : EdgeProcessor) (p : Point) : Option EdgeProcessor := do
  let isCl ← s.edgeMap.isCluster p.x p.y
  if isCl then do
    let ids ← s.edgeMap.getClusterEdgeIds p.x p.y
    if ids.length ≤ 1 then do
      let m ← s.edgeMap.clearCluster p.x p.y
      pure { s with edgeMap := m }
    else
      pure s
  else
    pure s

/-- The embedding of `EdgeProcessor::removeZeroAndOneEdgeClusters`. -/
def removeZeroAndOneEdgeClusters (s : EdgeProcessor) : Option EdgeProcessor :=
  s.edgeMap.allPixels.foldlM removeClusterAt s

/-! ## `EdgeProcessor::removeEdgesShorterThan` -/

/-- The block that occurs three times in `removeEdgesShorterThan`: the id is
erased at all pixels of the edge and the edge is cleared. -/
def removeEdge (s : EdgeProcessor) (edge : List Point) (edgeId : Int) :
    Option EdgeProcessor := do
  let edgeMap ← edge.foldlM
    (fun (m : EdgeMap) edgePixel => m.eraseEdgeId edgePixel.x edgePixel.y edgeId) s.edgeMap
  let edges ← s.edges.clearEdge edgeId
  pure { s with edges := edges, edgeMap := edgeMap }

/-- One of the three guarded blocks; the second component is the flag
`changes`. -/
def removeEdgeIf (c : Bool) (acc : EdgeProcessor × Bool) (edge : List Point) (edgeId : Int) :
    Option (EdgeProcessor × Bool) :=
  if c then (removeEdge acc.1 edge edgeId).map fun s => (s, true) else some acc

/-- The body of the loop of `removeEdgesShorterThan` at one id. -/
def removeShortAt (numberofPixels : Nat) (free dangling bridged : Bool)
    (acc : EdgeProcessor × Bool) (edgeId : Nat) : Option (EdgeProcessor × Bool) := do
  let edge ← acc.1.edges.getEdge edgeId
  if edge.length > 0 ∧ edge.length < numberofPixels then do
    let startPosition ← edge.head?
    let endPosition ← edge.getLast?
    let startIsCluster ← acc.1.edgeMap.isCluster startPosition.x startPosition.y
    let endIsCluster ← acc.1.edgeMap.isCluster endPosition.x endPosition.y
    let acc ← removeEdgeIf (free && (!startIsCluster && !endIsCluster)) acc edge edgeId
    let acc ← removeEdgeIf (dangling && (startIsCluster != endIsCluster)) acc edge edgeId
    removeEdgeIf (bridged && (startIsCluster && endIsCluster)) acc edge edgeId
  else
    pure acc

/-- The embedding of `EdgeProcessor::removeEdgesShorterThan`: the new state
and the returned flag. -/
def removeEdgesShorterThan (s : EdgeProcessor) (numberofPixels : Nat)
    (free dangling bridged : Bool) : Option (EdgeProcessor × Bool) := do
  let r ← (List.range s.edges.data.length).foldlM
    (removeShortAt numberofPixels free dangling bridged) (s, false)
  if r.2 then do
    let s ← connectEdgesInTwoEdgeClusters false true r.1
    let s ← removeZeroAndOneEdgeClusters s
    pure (s, true)
  else
    pure (r.1, false)

/-! ## `EdgeProcessor::threePointEdgesToClusters` -/

/-- The loop `for (const auto& point : edgeMap.getClusterPoints(endPoint.x,
endPoint.y))` with the body `addPointToCluster(startPoint.x, startPoint.y,
point)`.  The loop walks the list stored at the end point, and the body assigns
to that very list as soon as the end point belongs to the list at the start
point.  A vector that has been assigned to may have moved or overwritten its
storage, so reading a further element of the old range is undefined: the
embedding returns `none` when an element remains to be read after such an
assignment. -/
def absorbCluster (startPoint endPoint : Point) : List Point → EdgeMap → Option EdgeMap
  | [], m => some m
  | point :: rest, m => do
    let m ← m.addPointToCluster startPoint.x startPoint.y point
    let target ← vecGet? m.dataClusters (m.pos startPoint.x startPoint.y)
    let assigned : Bool :=
      decide (m.pos startPoint.x startPoint.y = m.pos endPoint.x endPoint.y) ||
      target.any fun r => decide (m.pos r.x r.y = m.pos endPoint.x endPoint.y)
    if assigned && !rest.isEmpty then none
    else absorbCluster startPoint endPoint rest m

/-- The comparison of the two sets of cluster edge ids and the loop it guards. -/
def absorbIfDifferent (m : EdgeMap) (startPoint endPoint : Point) : Option EdgeMap := do
  let ids1 ← m.getClusterEdgeIds startPoint.x startPoint.y
  let ids2 ← m.getClusterEdgeIds endPoint.x endPoint.y
  if ids1 = ids2 then pure m
  else do
    let points ← m.getClusterPoints endPoint.x endPoint.y
    absorbCluster startPoint endPoint points m

/-- The body of the loop of `threePointEdgesToClusters` at the edge stored at
position `i`. -/
def threePointAt (s : EdgeProcessor) (i : Nat) : Option EdgeProcessor := do
  let edge ← s.edges.getEdge i
  match edge with
  | [startPoint, middle, endPoint] => do
    let startPointIsCluster ← s.edgeMap.isCluster startPoint.x startPoint.y
    let endPointIsCluster ← s.edgeMap.isCluster endPoint.x endPoint.y
    if startPointIsCluster && endPointIsCluster then do
      let m ← s.edgeMap.addPointToCluster startPoint.x startPoint.y middle
      let m ← absorbIfDifferent m startPoint endPoint
      let m ← [startPoint, middle, endPoint].foldlM
        (fun (m : EdgeMap) point =>
          m.eraseEdgeId point.x point.y (s.edges.getEdgeId [startPoint, middle, endPoint])) m
      let edges ← s.edges.clearEdge (s.edges.getEdgeId [startPoint, middle, endPoint])
      pure { s with edges := edges, edgeMap := m }
    else
      pure s
  | _ => pure s

/-- The embedding of `EdgeProcessor::threePointEdgesToClusters`. -/
def threePointEdgesToClusters (s : EdgeProcessor) : Option EdgeProcessor :=
  (List.range s.edges.data.length).foldlM threePointAt s

/-! ## Further concrete inputs -/

/-- Two edges with the same point sequence `[(0,0), (1,0)]` at the ids 0 and 1
on a `1 × 2` grid; both ids are registered at both pixels. -/
def twinEdgesState : EdgeProcessor :=
  { edgeIdCounter := 2
    edges := ⟨[[⟨0, 0⟩, ⟨1, 0⟩], [⟨0, 0⟩, ⟨1, 0⟩]]⟩
    edgeMap := { dataEdgeIds := [[0, 1], [0, 1]], dataClusters := [[], []], rows := 1, cols := 2 } }

/-- The plus-shaped `3 × 3` image. -/
def plusImage : Mat := Mat.ofRows [[0, 1, 0], [1, 1, 1], [0, 1, 0]]

/-- The `3 × 3` image whose eight border pixels are set. -/
def ringImage : Mat := Mat.ofRows [[1, 1, 1], [1, 0, 1], [1, 1, 1]]

/-- The 1 x 5 image whose pixels are all set. -/
def rowImage : Mat := Mat.ofRows [[1, 1, 1, 1, 1]]

/-! ## Predicates for `removeEdgesShorterThan` -/

/-- The length test of `removeEdgesShorterThan` at one id:
`edge.size() > 0 && edge.size() < numberofPixels`. -/
def Edges.isShort (e : Edges) (numberofPixels : Nat) (edgeId : Int) : Bool :=
  match e.getEdge edgeId with
  | some edge => decide (edge.length > 0 ∧ edge.length < numberofPixels)
  | none => false

/-- The invariant of the loop of `removeEdgesShorterThan` (free edges only, on
a state `s` without clusters) when the ids below `i` have been handled: the
short edges below `i` are cleared and their ids erased, the flag tells whether
there was one. -/
structure RemoveInv (s : EdgeProcessor) (n i : Nat) (acc : EdgeProcessor × Bool) : Prop where
  wf : acc.1.edgeMap.WF
  rows_eq : acc.1.edgeMap.rows = s.edgeMap.rows
  cols_eq : acc.1.edgeMap.cols = s.edgeMap.cols
  clusters : acc.1.edgeMap.dataClusters = s.edgeMap.dataClusters
  counter : acc.1.edgeIdCounter = s.edgeIdCounter
  len : acc.1.edges.data.length = s.edges.data.length
  table : ∀ j : Nat, acc.1.edges.data[j]? =
    if j < i then (s.edges.data[j]?).map (fun E => if E.length < n then [] else E)
    else s.edges.data[j]?
  ids : ∀ p, s.edgeMap.inBounds p → acc.1.edgeMap.idsAt p =
    (s.edgeMap.idsAt p).filter (fun x => !(decide (x < (i : Int)) && s.edges.isShort n x))
  flag : acc.2 = true ↔ ∃ j : Nat, j < i ∧ s.edges.isShort n j = true
  same : acc.2 = false → acc.1 = s

/-- A state with a short and a long edge on a 2 x 3 grid without clusters. -/
def shortLongState : EdgeProcessor :=
  { edgeIdCounter := 2
    edges := ⟨[[⟨0, 0⟩, ⟨1, 0⟩], [⟨0, 1⟩, ⟨1, 1⟩, ⟨2, 1⟩]]⟩
    edgeMap :=
      { dataEdgeIds := [[0], [0], [], [1], [1], [1]]
        dataClusters := [[], [], [], [], [], []]
        rows := 2
        cols := 3 } }

/-! ## Predicates and inputs for `connectEdgesInTwoEdgeClusters` -/

/-- The edge `E` has exactly one of its two end pixels in the point list `C`,
and `cp` is that end pixel. -/
def oneEndIn (C E : List Point) (cp : Point) : Prop :=
  (E.head? = some cp ∧ cp ∈ C ∧ ∃ z, E.getLast? = some z ∧ z ∉ C) ∨
  (E.getLast? = some cp ∧ cp ∈ C ∧ ∃ z, E.head? = some z ∧ z ∉ C)

/-- The map stores the one cluster `C` at each of its points and no other
cluster. -/
def EdgeMap.OnlyCluster (m : EdgeMap) (C : List Point) : Prop :=
  C ≠ [] ∧ (∀ r ∈ C, m.inBounds r) ∧
  ∀ p, m.inBounds p → m.clusterAt p = if p ∈ C then C else []

/-- What `connectEdgesInTwoEdgeClusters` leaves of a state `s` whose only
cluster has the incident edges `E0` (id `i0`) and `E1` (id `i1`) with the
connection points `cp1` and `cp2`: the edge table holds the double splice at
`i0`, tombstones at `i1` and at the id of the temporary bridge, and no pixel
has a cluster. -/
structure Connected (s : EdgeProcessor) (i0 i1 : Int) (E0 E1 : List Point)
    (cp1 cp2 : Point) (s2 : EdgeProcessor) : Prop where
  wf : s2.edgeMap.WF
  rows_eq : s2.edgeMap.rows = s.edgeMap.rows
  cols_eq : s2.edgeMap.cols = s.edgeMap.cols
  counter : s2.edgeIdCounter = s.edgeIdCounter
  noCluster : ∀ q, s2.edgeMap.inBounds q → s2.edgeMap.clusterAt q = []
  table : ∀ i, s2.edges.getEdge i =
    if i = i0 then some (spliceSpec (spliceSpec E0 [cp1, cp2]) E1)
    else if i = i1 then some []
    else if i = (s.edges.data.length : Int) then some []
    else s.edges.getEdge i

/-- Two edges on a 1 x 4 grid that end in the two pixels of the cluster
`[(1,0), (2,0)]`. -/
def bridgedPairState : EdgeProcessor :=
  { edgeIdCounter := 2
    edges := ⟨[[⟨0, 0⟩, ⟨1, 0⟩], [⟨2, 0⟩, ⟨3, 0⟩]]⟩
    edgeMap :=
      { dataEdgeIds := [[0], [0], [1], [1]]
        dataClusters := [[], [⟨1, 0⟩, ⟨2, 0⟩], [⟨1, 0⟩, ⟨2, 0⟩], []]
        rows := 1
        cols := 4 } }

/-- Two edges on a 1 x 3 grid that end in the same pixel `(1,0)`, which is a
one-pixel cluster. -/
def touchingEdgesState : EdgeProcessor :=
  { edgeIdCounter := 2
    edges := ⟨[[⟨0, 0⟩, ⟨1, 0⟩], [⟨1, 0⟩, ⟨2, 0⟩]]⟩
    edgeMap :=
      { dataEdgeIds := [[0], [0, 1], [1]]
        dataClusters := [[], [⟨1, 0⟩], []]
        rows := 1
        cols := 3 } }

/-! ## Inputs for `threePointEdgesToClusters` -/

/-- A three-pixel edge on a 1 x 3 grid whose two end pixels are one-pixel
clusters; no other edge exists. -/
def threeEdgeState : EdgeProcessor :=
  { edgeIdCounter := 1
    edges := ⟨[[⟨0, 0⟩, ⟨1, 0⟩, ⟨2, 0⟩]]⟩
    edgeMap :=
      { dataEdgeIds := [[0], [0], [0]]
        dataClusters := [[⟨0, 0⟩], [], [⟨2, 0⟩]]
        rows := 1
        cols := 3 } }

/-- A three-pixel edge on a 1 x 4 grid from the one-pixel cluster `[(0,0)]` to
the cluster `[(3,0), (2,0)]`, whose list ends with the end pixel of the edge;
a second edge `[(3,0)]` makes the id sets of the two clusters differ. -/
def threeEdgeLastState : EdgeProcessor :=
  { edgeIdCounter := 2
    edges := ⟨[[⟨0, 0⟩, ⟨1, 0⟩, ⟨2, 0⟩], [⟨3, 0⟩]]⟩
    edgeMap :=
      { dataEdgeIds := [[0], [0], [0], [1]]
        dataClusters := [[⟨0, 0⟩], [], [⟨3, 0⟩, ⟨2, 0⟩], [⟨3, 0⟩, ⟨2, 0⟩]]
        rows := 1
        cols := 4 } }

/-- The state `threeEdgeLastState` with the second cluster list in the other
order, so that it starts with the end pixel of the edge. -/
def threeEdgeFirstState : EdgeProcessor :=
  { edgeIdCounter := 2
    edges := ⟨[[⟨0, 0⟩, ⟨1, 0⟩, ⟨2, 0⟩], [⟨3, 0⟩]]⟩
    edgeMap :=
      { dataEdgeIds := [[0], [0], [0], [1]]
        dataClusters := [[⟨0, 0⟩], [], [⟨2, 0⟩, ⟨3, 0⟩], [⟨2, 0⟩, ⟨3, 0⟩]]
        rows := 1
        cols := 4 } }

/-- Two 2 x 2 blocks joined by the single pixel `(2,1)`:

    X X . X X
    X X X X X -/
def dumbbellImage : Mat := Mat.ofRows [[1, 1, 0, 1, 1], [1, 1, 1, 1, 1]]

/-! ## Inputs for the merge claims -/

/-- Two two-pixel edges on a 1 x 3 grid that both start at the pixel `(1,0)`,
which is a one-pixel cluster. -/
def startTouchingState : EdgeProcessor :=
  { edgeIdCounter := 2
    edges := ⟨[[⟨1, 0⟩, ⟨0, 0⟩], [⟨1, 0⟩, ⟨2, 0⟩]]⟩
    edgeMap :=
      { dataEdgeIds := [[0], [0, 1], [1]]
        dataClusters := [[], [⟨1, 0⟩], []]
        rows := 1
        cols := 3 } }

/-! ## `connectEdgesInTwoEdgeClusters` with the smaller id for the rotation -/

/-- The body of `connectEdgesInTwoEdgeClusters` as the specification reads it:
the id of the merged edge that the rotation step uses is the smaller of the two
cluster edge ids, `std::min(clusterEdgeIds[0], clusterEdgeIds[1])`.  Everything
else is `connectAt`. -/
def connectAtSmallerId (onlyIf8Neighbors deleteClustersAfterConnect : Bool)
    (s : EdgeProcessor) (p : Point) : Option EdgeProcessor := do
  let clusterEdgeIds ← s.edgeMap.getClusterEdgeIds p.x p.y
  match clusterEdgeIds with
  | [id0, id1] => do
    let isCl ← s.edgeMap.isCluster p.x p.y
    if isCl then do
      let closed0 ← s.edges.isClosed id0
      if closed0 then pure s
      else do
        let closed1 ← s.edges.isClosed id1
        if closed1 then pure s
        else do
          let found1 ← findStartOrEndPointInCluster s p.x p.y id0
          let found2 ← findStartOrEndPointInCluster s p.x p.y id1
          match found1, found2 with
          | some connectionPoint1, some connectionPoint2 => do
            let s ← connectBranch onlyIf8Neighbors deleteClustersAfterConnect s p id0 id1
              connectionPoint1 connectionPoint2
            rotateClosedEdge s (min id0 id1)
          | _, _ => pure s
    else
      pure s
  | _ => pure s

/-- The raster loops over `connectAtSmallerId`. -/
def connectEdgesInTwoEdgeClustersSmallerId (onlyIf8Neighbors deleteClustersAfterConnect : Bool)
    (s : EdgeProcessor) : Option EdgeProcessor :=
  s.edgeMap.allPixels.foldlM (connectAtSmallerId onlyIf8Neighbors deleteClustersAfterConnect) s

/-! ## Inputs for `removeZeroAndOneEdgeClusters` -/

/-- The cluster index is replicated: a non-empty cluster list of a pixel of the
grid contains that pixel, consists of pixels of the grid, and is stored
unchanged at each of its points. -/
def EdgeMap.Replicated (m : EdgeMap) : Prop :=
  ∀ p, m.inBounds p → m.clusterAt p ≠ [] →
    p ∈ m.clusterAt p ∧
      ∀ q ∈ m.clusterAt p, m.inBounds q ∧ m.clusterAt q = m.clusterAt p

/-- The loop invariant of `removeZeroAndOneEdgeClusters`: `s` is the state at
the call, `s1` the state after the pixels of `done`. -/
structure PruneInv (s s1 : EdgeProcessor) (done : List Point) : Prop where
  edges : s1.edges = s.edges
  counter : s1.edgeIdCounter = s.edgeIdCounter
  ids : s1.edgeMap.dataEdgeIds = s.edgeMap.dataEdgeIds
  rows : s1.edgeMap.rows = s.edgeMap.rows
  cols : s1.edgeMap.cols = s.edgeMap.cols
  wf : s1.edgeMap.WF
  sub : ∀ q, s.edgeMap.inBounds q →
    s1.edgeMap.clusterAt q = s.edgeMap.clusterAt q ∨ s1.edgeMap.clusterAt q = []
  whole : ∀ q, s.edgeMap.inBounds q → s1.edgeMap.clusterAt q ≠ [] →
    ∀ r ∈ s.edgeMap.clusterAt q, s1.edgeMap.clusterAt r = s.edgeMap.clusterAt r
  cleared : ∀ q, s.edgeMap.inBounds q → s1.edgeMap.clusterAt q = [] →
    s.edgeMap.clusterAt q ≠ [] →
    ∀ ids, s.edgeMap.getClusterEdgeIds q.x q.y = some ids → ids.length ≤ 1
  seen : ∀ q ∈ done, s.edgeMap.inBounds q → s1.edgeMap.clusterAt q ≠ [] →
    ∀ ids, s.edgeMap.getClusterEdgeIds q.x q.y = some ids → 2 ≤ ids.length

/-- A 1 x 4 grid with two one-pixel clusters: the cluster at `(0,0)` has one
cluster edge id, the cluster at `(2,0)` has two. -/
def pruneState : EdgeProcessor :=
  { edgeIdCounter := 2
    edges := ⟨[[⟨0, 0⟩, ⟨1, 0⟩, ⟨2, 0⟩], [⟨3, 0⟩, ⟨2, 0⟩]]⟩
    edgeMap :=
      { dataEdgeIds := [[0], [0], [0, 1], [1]]
        dataClusters := [[⟨0, 0⟩], [], [⟨2, 0⟩], []]
        rows := 1
        cols := 4 } }

/-! ## `getLSMError`

The `double` computations are taken over exact rational arithmetic; the
products `point.x * point.x` and `point.x * point.y` are products of `int`,
which are undefined on overflow. -/

/-- The result of `getLSMError`: the returned error, where `none` stands for
`std::numeric_limits<double>::max()`, and the values of the reference
parameters `a` and `b` after the call. -/
structure LSMResult where
  error : Option ℚ
  a : ℚ
  b : ℚ
deriving DecidableEq

/-- A product of two `int` values; signed overflow is undefined behaviour. -/
def mulInt (x y : Int) : Option Int :=
  if -2147483648 ≤ x * y ∧ x * y ≤ 2147483647 then some (x * y) else none

/-- The body of the first loop of `getLSMError`: the sums of `x`, `y`, `x * x`
and `x * y`, in this order, take up one point. -/
def lsmStep (acc : ℚ × ℚ × ℚ × ℚ) (point : Point) : Option (ℚ × ℚ × ℚ × ℚ) := do
  let xx ← mulInt point.x point.x
  let xy ← mulInt point.x point.y
  pure (acc.1 + (point.x : ℚ), acc.2.1 + (point.y : ℚ), acc.2.2.1 + (xx : ℚ),
    acc.2.2.2 + (xy : ℚ))

/-- The first loop of `getLSMError`. -/
def lsmSums (points : List Point) : Option (ℚ × ℚ × ℚ × ℚ) :=
  points.foldlM lsmStep (0, 0, 0, 0)

/-- The embedding of `EdgeProcessor::getLSMError`.  On the empty vector the
averages are `0.0 / 0`, the guard is false and `points.front()` is undefined. -/
def getLSMError (points : List Point) (a b : ℚ) : Option LSMResult :=
  match points with
  | [] => none
  | front :: _ => do
    let sums ← lsmSums points
    let x_average := sums.1 / (points.length : ℚ)
    let y_average := sums.2.1 / (points.length : ℚ)
    let x_squared_average := sums.2.2.1 / (points.length : ℚ)
    let xy_average := sums.2.2.2 / (points.length : ℚ)
    if abs (x_squared_average - x_average * x_average) < 1 / 1000000000 then
      pure { error := none, a := a, b := b }
    else
      let a2 := (xy_average - x_average * y_average) /
        (x_squared_average - x_average * x_average)
      let b2 := (front.y : ℚ) - a2 * (front.x : ℚ)
      let approximationError := points.foldl
        (fun (acc : ℚ) point =>
          acc + (a2 * (point.x : ℚ) + b2 - (point.y : ℚ)) *
            (a2 * (point.x : ℚ) + b2 - (point.y : ℚ)))
        0
      pure { error := some approximationError, a := a2, b := b2 }

/-- The sum of the squared residuals of the line `y = a * x + b` at the
points. -/
def residualSum (points : List Point) (a b : ℚ) : ℚ :=
  (points.map fun p => ((p.y : ℚ) - (a * (p.x : ℚ) + b)) ^ 2).sum

/-- The mean of the `x` coordinates. -/
def meanX (points : List Point) : ℚ :=
  ((points.map fun p => (p.x : ℚ)).sum) / (points.length : ℚ)

/-- The mean of the `y` coordinates. -/
def meanY (points : List Point) : ℚ :=
  ((points.map fun p => (p.y : ℚ)).sum) / (points.length : ℚ)

/-- The integer `n * Σ x² - (Σ x)²` of a list of `n` integers. -/
def spread (xs : List Int) : Int :=
  (xs.length : Int) * (xs.map fun x => x * x).sum - xs.sum * xs.sum

/-- Three points whose least-squares line does not pass through the first
one. -/
def roofPoints : List Point := [⟨0, 0⟩, ⟨1, 1⟩, ⟨2, 0⟩]

/-! ## `traceEdge` with a check of the branching

The instrumented copy of `traceEdge` below differs from it in two places only:
it fails (`none`) in a call that finds three or more unvisited neighbours,
where `traceEdge` returns without storing the pixel sequence, and it fails in
a call that finds two unvisited neighbours while the sequence handed in is not
empty, where `traceEdge` starts two new edges and drops that sequence. -/

/-- The instrumented copy of `traceEdge`. -/
def traceEdgeChecked (img : Mat) :
    Nat → EdgeProcessor → Point → List Point → Option EdgeProcessor
  | 0, _, _, _ => none
  | fuel + 1, s, startPoint, edge0 => do
    let edge := edge0 ++ [startPoint]
    let edgeMap ← s.edgeMap.pushBackEdgeId startPoint.x startPoint.y s.edgeIdCounter
    let s := { s with edgeMap := edgeMap }
    let neighbors := getDirectNeighbors img startPoint
    let startIsCluster ← s.edgeMap.isCluster startPoint.x startPoint.y
    let unvisited ← if !startIsCluster then unvisitedNeighbors s.edgeMap neighbors else pure []
    match unvisited with
    | [n0, n1] =>
      if edge0 = [] then do
        let s ← traceEdgeChecked img fuel s n0 [startPoint]
        let s ← traceEdgeChecked img fuel s n1 [startPoint]
        mergeEdges s (s.edgeIdCounter - 2) (s.edgeIdCounter - 1)
      else none
    | [n0] => traceEdgeChecked img fuel s n0 edge
    | [] => pure { s with edges := s.edges.pushBack edge, edgeIdCounter := s.edgeIdCounter + 1 }
    | _ => none

/-- The body of the raster loops of `traceEdges` with the instrumented
`traceEdge`. -/
def tracePixelChecked (img : Mat) (s : EdgeProcessor) (p : Point) : Option EdgeProcessor :=
  if img.px p.y p.x > 0 then do
    let n ← s.edgeMap.getNumberOfEdgeIds p.x p.y
    if n = 0 then do
      let cl ← s.edgeMap.getClusterPoints p.x p.y
      if cl.length = 0 then traceEdgeChecked img (img.rows * img.cols + 2) s p []
      else pure s
    else pure s
  else pure s

/-- The function `traceEdges` with the instrumented `traceEdge`. -/
def traceEdgesChecked (img : Mat) (s : EdgeProcessor) : Option EdgeProcessor := do
  let s : EdgeProcessor :=
    { edgeIdCounter := 0, edges := s.edges.clear, edgeMap := EdgeMap.init img.rows img.cols }
  let edgeMap ← preprocessClusters img s.edgeMap
  let s := { s with edgeMap := edgeMap }
  img.raster.foldlM (tracePixelChecked img) s

/-- The invariant of the raster loop of `traceEdges`, extended: the edges of
the table are chains of 8-neighbours, and a pixel outside every cluster carries
at most one id. -/
structure TraceInvX (img : Mat) (s : EdgeProcessor) : Prop where
  inv : TraceInv img s
  chains : ∀ E ∈ s.edges.data, E.Chain' isNeighbor8
  single : ∀ p, img.inside p → s.edgeMap.clusterAt p = [] → (s.edgeMap.idsAt p).length ≤ 1

/-! ## `EdgeProcessor::closeEdgesInClusters` -/

/-- The body of the loop of `closeEdgesInClusters` over `clusterEdgeIds`, at
the cluster pixel `p`.  The two `&&` of the source are evaluated left to
right and stop at the first false operand.  The console output of the bridge is
not modelled. -/
def closeEdgeAt (p : Point) (s : EdgeProcessor) (edgeId : Int) : Option EdgeProcessor := do
  let size ← s.edges.getEdgeSize edgeId
  if size ≥ 5 then do
    let startPoint ← s.edges.getStartPoint edgeId
    let endPoint ← s.edges.getEndPoint edgeId
    let startIn ← s.edgeMap.isPointInCluster p.x p.y startPoint
    let startAndEndPointInCluster ←
      if startIn then s.edgeMap.isPointInCluster p.x p.y endPoint else pure false
    if startAndEndPointInCluster then do
      let closed ← s.edges.isClosed edgeId
      if !closed then do
        let tmpEdge := getLinePoints startPoint endPoint
        let s : EdgeProcessor := { s with edges := s.edges.pushBack tmpEdge }
        let tmpEdgeId := s.edges.size - 1
        mergeEdges s edgeId tmpEdgeId
      else pure s
    else pure s
  else pure s

/-- The body of the raster loops of `closeEdgesInClusters` at one pixel. -/
def closeAt (s : EdgeProcessor) (p : Point) : Option EdgeProcessor := do
  let isCl ← s.edgeMap.isCluster p.x p.y
  if isCl then do
    let clusterEdgeIds ← s.edgeMap.getClusterEdgeIds p.x p.y
    clusterEdgeIds.foldlM (closeEdgeAt p) s
  else
    pure s

/-- The embedding of `EdgeProcessor::closeEdgesInClusters`. -/
def closeEdgesInClusters (s : EdgeProcessor) : Option EdgeProcessor :=
  s.edgeMap.allPixels.foldlM closeAt s

/-- A consistent state: the maps have one entry per pixel, the id lists have
no duplicates, the edge table and the edge-id index agree, and the cluster
lists consist of pixels of the grid. -/
structure Consistent (s : EdgeProcessor) : Prop where
  wf : s.edgeMap.WF
  nodup : s.edgeMap.IdsNodup
  agree : TableIndexAgree s
  clusters : ∀ p, s.edgeMap.inBounds p → ∀ q ∈ s.edgeMap.clusterAt p, s.edgeMap.inBounds q

/-- The test of `Edges::isClosed` on a pixel sequence: the first and the last
pixel are at most one step apart and the sequence has at least four pixels. -/
def seqClosed (E : List Point) : Bool :=
  match E.head?, E.getLast? with
  | some a, some b => decide (max (iabs (a.x - b.x)) (iabs (a.y - b.y)) ≤ 1 ∧ E.length ≥ 4)
  | _, _ => false

/-- The edge is a candidate of `closeEdgesInClusters` at the pixel `p`: it has
at least five pixels, and its first and its last pixel are in the cluster list
of `p`. -/
def Eligible (m : EdgeMap) (p : Point) (E : List Point) : Prop :=
  5 ≤ E.length ∧ (∃ a, E.head? = some a ∧ a ∈ m.clusterAt p) ∧
    (∃ b, E.getLast? = some b ∧ b ∈ m.clusterAt p)

/-- The relation between a state and a later state of a run of
`closeEdgesInClusters`: the later state is consistent, the cluster index and
the size of the grid are the same, and every edge is either the same or has
changed from a non-closed sequence into a closed one that contains it. -/
structure CloseRun (s s2 : EdgeProcessor) : Prop where
  consistent : Consistent s2
  clusters : s2.edgeMap.dataClusters = s.edgeMap.dataClusters
  rows : s2.edgeMap.rows = s.edgeMap.rows
  cols : s2.edgeMap.cols = s.edgeMap.cols
  grows : ∀ j E, s.edges.getEdge j = some E →
    ∃ E2, s2.edges.getEdge j = some E2 ∧
      (E2 = E ∨ (seqClosed E2 = true ∧ seqClosed E = false ∧ ∀ q ∈ E, q ∈ E2))

/-- A 3 x 3 grid with one edge of seven pixels that runs from `(0,0)` down the
left column, along the bottom row and up the right column to `(2,0)`; the top
row is one cluster. -/
def openLoopState : EdgeProcessor :=
  { edgeIdCounter := 1
    edges := ⟨[[⟨0, 0⟩, ⟨0, 1⟩, ⟨0, 2⟩, ⟨1, 2⟩, ⟨2, 2⟩, ⟨2, 1⟩, ⟨2, 0⟩]]⟩
    edgeMap :=
      { dataEdgeIds := [[0], [], [0], [0], [], [0], [0], [0], [0]]
        dataClusters :=
          [[⟨0, 0⟩, ⟨1, 0⟩, ⟨2, 0⟩], [⟨0, 0⟩, ⟨1, 0⟩, ⟨2, 0⟩], [⟨0, 0⟩, ⟨1, 0⟩, ⟨2, 0⟩],
            [], [], [], [], [], []]
        rows := 3
        cols := 3 } }

/-! # Theorems -/

/-! ## Properties of the Bresenham bridge -/

theorem lineLoop_succ (s : Bool) (x1 dx dy ystep : Int) (fuel : Nat) (x y e : Int)
    (hx : x ≤ x1) :
    lineLoop s x1 dx dy ystep (fuel + 1) x y e =
      (if s then (⟨y, x⟩ : Point) else ⟨x, y⟩) ::
        lineLoop s x1 dx dy ystep fuel (x + 1)
          (if e - dy < 0 then y + ystep else y)
          (if e - dy < 0 then e - dy + dx else e - dy) := by
  simp only [lineLoop, if_pos hx]
  split_ifs <;> rfl

theorem lineLoop_past (s : Bool) (x1 dx dy ystep : Int) (fuel : Nat) (x y e : Int)
    (hx : x1 < x) : lineLoop s x1 dx dy ystep fuel x y e = [] := by
  cases fuel with
  | zero => rfl
  | succ n => simp only [lineLoop, if_neg (not_le.mpr hx)]

/-- The iteration bound never ends the loop early: any bound of at least
`x1 - x + 1` iterations gives the same points. -/
theorem lineLoop_fuel (s : Bool) (x1 dx dy ystep : Int) :
    ∀ (fuel : Nat) (x y e : Int), (x1 - x + 1).toNat ≤ fuel →
      lineLoop s x1 dx dy ystep fuel x y e =
        lineLoop s x1 dx dy ystep (x1 - x + 1).toNat x y e := by
  intro fuel
  induction fuel with
  | zero =>
    intro x y e h
    have : (x1 - x + 1).toNat = 0 := by omega
    rw [this]
  | succ n ih =>
    intro x y e h
    by_cases hx : x ≤ x1
    · obtain ⟨k, hk⟩ : ∃ k, (x1 - x + 1).toNat = k + 1 := ⟨(x1 - x).toNat, by omega⟩
      have hk2 : (x1 - (x + 1) + 1).toNat = k := by omega
      rw [hk, lineLoop_succ _ _ _ _ _ _ _ _ _ hx, lineLoop_succ _ _ _ _ _ _ _ _ _ hx,
        ih _ _ _ (by omega), hk2]
    · rw [lineLoop_past _ _ _ _ _ _ _ _ _ (not_le.mp hx),
        lineLoop_past _ _ _ _ _ _ _ _ _ (not_le.mp hx)]

theorem lineLoop_head (s : Bool) (x1 dx dy ystep : Int) (fuel : Nat) (x y e : Int) :
    ∀ b ∈ (lineLoop s x1 dx dy ystep fuel x y e).head?,
      b = (if s then (⟨y, x⟩ : Point) else ⟨x, y⟩) := by
  intro b hb
  cases fuel with
  | zero => simp [lineLoop] at hb
  | succ n =>
    by_cases hx : x ≤ x1
    · rw [lineLoop_succ _ _ _ _ _ _ _ _ _ hx] at hb
      simpa using hb.symm
    · rw [lineLoop_past _ _ _ _ _ _ _ _ _ (not_le.mp hx)] at hb
      simp at hb

theorem isNeighbor8_step (s : Bool) (x y y2 : Int)
    (hy : y2 = y ∨ y2 = y + 1 ∨ y2 = y - 1) :
    isNeighbor8 (if s then (⟨y, x⟩ : Point) else ⟨x, y⟩)
      (if s then (⟨y2, x + 1⟩ : Point) else ⟨x + 1, y2⟩) := by
  unfold isNeighbor8 iabs
  cases s <;> simp only [Bool.false_eq_true, if_false, if_true] <;>
    rcases hy with h | h | h <;> subst h <;> simp

/-- Consecutive points produced by the loop are 8-neighbours. -/
theorem lineLoop_chain (s : Bool) (x1 dx dy ystep : Int) (hs : ystep = 1 ∨ ystep = -1) :
    ∀ (fuel : Nat) (x y e : Int),
      List.Chain' isNeighbor8 (lineLoop s x1 dx dy ystep fuel x y e) := by
  intro fuel
  induction fuel with
  | zero => intro x y e; simp [lineLoop]
  | succ n ih =>
    intro x y e
    by_cases hx : x ≤ x1
    · rw [lineLoop_succ _ _ _ _ _ _ _ _ _ hx, List.chain'_cons']
      refine ⟨?_, ih _ _ _⟩
      intro b hb
      rw [lineLoop_head _ _ _ _ _ _ _ _ _ b hb]
      apply isNeighbor8_step s x y
      split_ifs
      · rcases hs with h | h <;> subst h <;> omega
      · simp
    · rw [lineLoop_past _ _ _ _ _ _ _ _ _ (not_le.mp hx)]
      simp

/-- The loop ends on the pixel `(x1, y1)`: the error term forces exactly
`dy` steps of `y` over the `dx` steps of `x`. -/
theorem lineLoop_getLast (s : Bool) (x0 y0 x1 dx dy ystep e0 : Int)
    (hdx : 0 < dx) (hdy0 : 0 ≤ dy) (hdy : dy ≤ dx) (he0 : 0 ≤ e0) (he0' : e0 < dx)
    (hx01 : x1 = x0 + dx) :
    ∀ (fuel : Nat) (x y e n : Int), x0 ≤ x → x ≤ x1 → (x1 - x + 1).toNat ≤ fuel →
      0 ≤ e → e < dx → y = y0 + ystep * n → e = e0 - (x - x0) * dy + n * dx →
      (lineLoop s x1 dx dy ystep fuel x y e).getLast? =
        some (if s then (⟨y0 + ystep * dy, x1⟩ : Point) else ⟨x1, y0 + ystep * dy⟩) := by
  intro fuel
  induction fuel with
  | zero => intro x y e n _ h2 h3; omega
  | succ m ih =>
    intro x y e n hx0 hx hf he he' hy hinv
    rw [lineLoop_succ _ _ _ _ _ _ _ _ _ hx]
    rcases eq_or_lt_of_le hx with hxe | hxl
    · -- the last iteration
      rw [lineLoop_past _ _ _ _ _ _ _ _ _ (by omega)]
      have hk : x - x0 = dx := by omega
      rw [hk] at hinv
      have hn : n = dy := by
        have h1 : dx * (n - dy) = e - e0 := by rw [hinv]; ring
        have h2 : dx * (n - dy) < dx * 1 := by rw [h1]; omega
        have h3 : dx * (-1) < dx * (n - dy) := by rw [h1]; omega
        have h4 := lt_of_mul_lt_mul_left h2 hdx.le
        have h5 := lt_of_mul_lt_mul_left h3 hdx.le
        omega
      subst hn; subst hy; subst hxe
      simp
    · rw [List.getLast?_cons]
      by_cases hlt : e - dy < 0
      · simp only [if_pos hlt]
        rw [ih (x + 1) (y + ystep) (e - dy + dx) (n + 1) (by omega) (by omega)
          (by omega) (by omega) (by omega) (by rw [hy]; ring) (by rw [hinv]; ring)]
        rfl
      · simp only [if_neg hlt]
        rw [ih (x + 1) y (e - dy) n (by omega) (by omega)
          (by omega) (by omega) (by omega) hy (by rw [hinv]; ring)]
        rfl

theorem tdiv_two_bounds (dx : Int) (h : 0 < dx) :
    0 ≤ Int.tdiv dx 2 ∧ Int.tdiv dx 2 < dx := by
  rw [Int.tdiv_eq_ediv (le_of_lt h) (by decide)]
  omega

theorem lineFrom_head (s : Bool) (x0 y0 x1 y1 : Int) (h : x0 ≤ x1) :
    (lineFrom s x0 y0 x1 y1).head? = some (if s then (⟨y0, x0⟩ : Point) else ⟨x0, y0⟩) := by
  unfold lineFrom
  obtain ⟨k, hk⟩ : ∃ k, (x1 - x0 + 1).toNat = k + 1 := ⟨(x1 - x0).toNat, by omega⟩
  simp only [hk]
  rw [lineLoop_succ _ _ _ _ _ _ _ _ _ h]
  rfl

theorem lineFrom_getLast (s : Bool) (x0 y0 x1 y1 : Int) (h : x0 ≤ x1)
    (hflat : iabs (y1 - y0) ≤ x1 - x0) :
    (lineFrom s x0 y0 x1 y1).getLast? =
      some (if s then (⟨y1, x1⟩ : Point) else ⟨x1, y1⟩) := by
  have hy : y0 + (if y0 < y1 then (1 : Int) else -1) * iabs (y1 - y0) = y1 := by
    unfold iabs; split_ifs <;> omega
  rcases eq_or_lt_of_le h with he | hl
  · -- a single pixel
    subst he
    have hy01 : y1 = y0 := by
      unfold iabs at hflat; split_ifs at hflat <;> omega
    subst hy01
    unfold lineFrom
    have hk : (x0 - x0 + 1).toNat = 0 + 1 := by omega
    simp only [hk]
    rw [lineLoop_succ _ _ _ _ _ _ _ _ _ (le_refl _), lineLoop_past _ _ _ _ _ _ _ _ _ (by omega)]
    rfl
  · unfold lineFrom
    have hb := tdiv_two_bounds (x1 - x0) (by omega)
    have hdy0 : 0 ≤ iabs (y1 - y0) := by unfold iabs; split_ifs <;> omega
    have := lineLoop_getLast s x0 y0 x1 (x1 - x0) (iabs (y1 - y0))
      (if y0 < y1 then (1 : Int) else -1) (Int.tdiv (x1 - x0) 2) (by omega) hdy0 hflat
      hb.1 hb.2 (by omega) (x1 - x0 + 1).toNat x0 y0 (Int.tdiv (x1 - x0) 2) 0
      (le_refl _) h (le_refl _) hb.1 hb.2 (by ring) (by ring)
    rw [hy] at this
    exact this

theorem lineFrom_chain (s : Bool) (x0 y0 x1 y1 : Int) :
    List.Chain' isNeighbor8 (lineFrom s x0 y0 x1 y1) := by
  unfold lineFrom
  apply lineLoop_chain
  split_ifs
  · exact Or.inl rfl
  · exact Or.inr rfl

/-- The four ways in which `getLinePoints` normalises its arguments. -/
theorem getLinePoints_cases (p q : Point) :
    getLinePoints p q =
      if iabs (q.y - p.y) > iabs (q.x - p.x) then
        (if p.y > q.y then lineFrom true q.y q.x p.y p.x else lineFrom true p.y p.x q.y q.x)
      else
        (if p.x > q.x then lineFrom false q.x q.y p.x p.y else lineFrom false p.x p.y q.x q.y) := by
  unfold getLinePoints
  by_cases hs : iabs (q.y - p.y) > iabs (q.x - p.x)
  · simp only [hs, decide_True, if_true]
    split_ifs <;> rfl
  · simp only [hs, decide_False, if_false, Bool.false_eq_true]
    split_ifs <;> rfl

/-- The first and the last point of the bridge are the two given pixels, in
one of the two orders. -/
theorem getLinePoints_ends (p q : Point) :
    ((getLinePoints p q).head? = some p ∧ (getLinePoints p q).getLast? = some q) ∨
    ((getLinePoints p q).head? = some q ∧ (getLinePoints p q).getLast? = some p) := by
  rw [getLinePoints_cases]
  by_cases hs : iabs (q.y - p.y) > iabs (q.x - p.x)
  · simp only [if_pos hs]
    by_cases hgt : p.y > q.y
    · simp only [if_pos hgt]
      right
      rw [lineFrom_head _ _ _ _ _ (by omega), lineFrom_getLast _ _ _ _ _ (by omega)
        (by unfold iabs at hs ⊢; split_ifs at hs ⊢ <;> omega)]
      exact ⟨rfl, rfl⟩
    · simp only [if_neg hgt]
      left
      rw [lineFrom_head _ _ _ _ _ (by omega), lineFrom_getLast _ _ _ _ _ (by omega)
        (by unfold iabs at hs ⊢; split_ifs at hs ⊢ <;> omega)]
      exact ⟨rfl, rfl⟩
  · simp only [if_neg hs]
    by_cases hgt : p.x > q.x
    · simp only [if_pos hgt]
      right
      rw [lineFrom_head _ _ _ _ _ (by omega), lineFrom_getLast _ _ _ _ _ (by omega)
        (by unfold iabs at hs ⊢; split_ifs at hs ⊢ <;> omega)]
      exact ⟨rfl, rfl⟩
    · simp only [if_neg hgt]
      left
      rw [lineFrom_head _ _ _ _ _ (by omega), lineFrom_getLast _ _ _ _ _ (by omega)
        (by unfold iabs at hs ⊢; split_ifs at hs ⊢ <;> omega)]
      exact ⟨rfl, rfl⟩

theorem getLinePoints_chain (p q : Point) :
    List.Chain' isNeighbor8 (getLinePoints p q) := by
  rw [getLinePoints_cases]
  split_ifs <;> exact lineFrom_chain _ _ _ _ _

/-- The bridge does not depend on the order of its two end pixels. -/
theorem getLinePoints_comm (p q : Point) : getLinePoints p q = getLinePoints q p := by
  rw [getLinePoints_cases p q, getLinePoints_cases q p]
  have hy : iabs (p.y - q.y) = iabs (q.y - p.y) := by
    unfold iabs; split_ifs <;> omega
  have hx : iabs (p.x - q.x) = iabs (q.x - p.x) := by
    unfold iabs; split_ifs <;> omega
  rw [hy, hx]
  by_cases hs : iabs (q.y - p.y) > iabs (q.x - p.x)
  · simp only [if_pos hs]
    have hne : p.y ≠ q.y := by
      intro h; rw [h] at hs; unfold iabs at hs; split_ifs at hs <;> omega
    by_cases hgt : p.y > q.y
    · rw [if_pos hgt, if_neg (by omega)]
    · rw [if_neg hgt, if_pos (by omega)]
  · simp only [if_neg hs]
    by_cases hgt : p.x > q.x
    · rw [if_pos hgt, if_neg (by omega)]
    · rw [if_neg hgt]
      by_cases hlt : q.x > p.x
      · rw [if_pos hlt]
      · rw [if_neg hlt]
        have hxe : p.x = q.x := by omega
        have hye : p.y = q.y := by
          rw [hxe] at hs; unfold iabs at hs; split_ifs at hs <;> omega
        rw [hxe, hye]

theorem lineLoop_transpose (s : Bool) (x1 dx dy ystep : Int) :
    ∀ (fuel : Nat) (x y e : Int),
      lineLoop (!s) x1 dx dy ystep fuel x y e =
        (lineLoop s x1 dx dy ystep fuel x y e).map Point.transpose := by
  intro fuel
  induction fuel with
  | zero => intro x y e; rfl
  | succ n ih =>
    intro x y e
    by_cases hx : x ≤ x1
    · rw [lineLoop_succ _ _ _ _ _ _ _ _ _ hx, lineLoop_succ _ _ _ _ _ _ _ _ _ hx,
        List.map_cons, ih]
      cases s <;> rfl
    · rw [lineLoop_past _ _ _ _ _ _ _ _ _ (not_le.mp hx),
        lineLoop_past _ _ _ _ _ _ _ _ _ (not_le.mp hx)]
      rfl

theorem lineFrom_transpose (x0 y0 x1 y1 : Int) :
    lineFrom false x0 y0 x1 y1 = (lineFrom true x0 y0 x1 y1).map Point.transpose := by
  unfold lineFrom
  exact lineLoop_transpose true _ _ _ _ _ _ _ _

theorem lineFrom_transpose_true (x0 y0 x1 y1 : Int) :
    lineFrom true x0 y0 x1 y1 = (lineFrom false x0 y0 x1 y1).map Point.transpose := by
  unfold lineFrom
  exact lineLoop_transpose false _ _ _ _ _ _ _ _

theorem mem_map_transpose (pt : Point) (l : List Point) :
    pt ∈ l.map Point.transpose ↔ pt.transpose ∈ l := by
  constructor
  · intro h
    obtain ⟨a, ha, rfl⟩ := List.mem_map.mp h
    exact ha
  · intro h
    exact List.mem_map.mpr ⟨pt.transpose, h, rfl⟩

/-- On an exact diagonal the loop steps `y` in every iteration. -/
theorem lineLoop_diag_mem (x1 dx ystep e : Int) (he' : e < dx)
    (hs : ystep = 1 ∨ ystep = -1) (pt : Point) :
    ∀ (fuel : Nat) (x y : Int), (x1 - x + 1).toNat ≤ fuel →
      (pt ∈ lineLoop false x1 dx dx ystep fuel x y e ↔
        x ≤ pt.x ∧ pt.x ≤ x1 ∧ pt.y - y = ystep * (pt.x - x)) := by
  intro fuel
  induction fuel with
  | zero =>
    intro x y hf
    simp only [lineLoop, List.not_mem_nil, false_iff]
    omega
  | succ n ih =>
    intro x y hf
    by_cases hx : x ≤ x1
    · rw [lineLoop_succ _ _ _ _ _ _ _ _ _ hx, List.mem_cons]
      have hlt : e - dx < 0 := by omega
      have e1 : e - dx + dx = e := by ring
      simp only [if_pos hlt, Bool.false_eq_true, if_false, e1]
      rw [ih (x + 1) (y + ystep) (by omega)]
      have hpt : pt = (⟨x, y⟩ : Point) ↔ pt.x = x ∧ pt.y = y := by
        constructor
        · intro h; subst h; exact ⟨rfl, rfl⟩
        · intro h; cases pt; simp only at h; rw [h.1, h.2]
      rw [hpt]
      rcases hs with h | h <;> subst h <;> constructor <;> intro hh <;> omega
    · rw [lineLoop_past _ _ _ _ _ _ _ _ _ (not_le.mp hx)]
      simp only [List.not_mem_nil, false_iff]
      omega

theorem lineFrom_diag_mem (x0 y0 x1 y1 : Int) (h : x0 < x1)
    (hd : iabs (y1 - y0) = x1 - x0) (pt : Point) :
    pt ∈ lineFrom false x0 y0 x1 y1 ↔
      x0 ≤ pt.x ∧ pt.x ≤ x1 ∧
        pt.y - y0 = (if y0 < y1 then (1 : Int) else -1) * (pt.x - x0) := by
  unfold lineFrom
  have hb := tdiv_two_bounds (x1 - x0) (by omega)
  simp only [hd]
  apply lineLoop_diag_mem x1 (x1 - x0) _ _ hb.2 _ pt _ x0 y0 (le_refl _)
  split_ifs
  · exact Or.inl rfl
  · exact Or.inr rfl

theorem lineFrom_single (s : Bool) (x0 y0 : Int) :
    lineFrom s x0 y0 x0 y0 = [if s then (⟨y0, x0⟩ : Point) else ⟨x0, y0⟩] := by
  unfold lineFrom
  have hk : (x0 - x0 + 1).toNat = 0 + 1 := by omega
  simp only [hk]
  rw [lineLoop_succ _ _ _ _ _ _ _ _ _ (le_refl _), lineLoop_past _ _ _ _ _ _ _ _ _ (by omega)]

theorem transpose_x (pt : Point) : pt.transpose.x = pt.y := rfl

theorem transpose_y (pt : Point) : pt.transpose.y = pt.x := rfl

/-- Transposing both end pixels transposes the set of bridge pixels. -/
theorem getLinePoints_transpose_mem (p q pt : Point) :
    pt ∈ getLinePoints p.transpose q.transpose ↔ pt.transpose ∈ getLinePoints p q := by
  have hT : getLinePoints p.transpose q.transpose =
      if iabs (q.x - p.x) > iabs (q.y - p.y) then
        (if p.x > q.x then lineFrom true q.x q.y p.x p.y else lineFrom true p.x p.y q.x q.y)
      else
        (if p.y > q.y then lineFrom false q.y q.x p.y p.x
          else lineFrom false p.y p.x q.y q.x) :=
    getLinePoints_cases _ _
  rw [hT, getLinePoints_cases p q]
  rcases lt_trichotomy (iabs (q.y - p.y)) (iabs (q.x - p.x)) with hlt | heq | hgt
  · -- shallow line, steep after transposition
    rw [if_pos hlt, if_neg (not_lt.mpr hlt.le)]
    split_ifs <;> rw [lineFrom_transpose_true, mem_map_transpose]
  · rw [if_neg (not_lt.mpr heq.le), if_neg (not_lt.mpr heq.ge)]
    by_cases hpq : p.x = q.x
    · have hy : p.y = q.y := by
        rw [hpq] at heq; unfold iabs at heq; split_ifs at heq <;> omega
      rw [hpq, hy]
      simp only [gt_iff_lt, lt_self_iff_false, if_false, lineFrom_single, Bool.false_eq_true,
        List.mem_singleton]
      constructor
      · intro h; rw [h]; rfl
      · intro h; cases pt; simp only [Point.transpose, Point.mk.injEq] at h ⊢; exact ⟨h.2, h.1⟩
    · have hyne : p.y ≠ q.y := by
        intro h; rw [h] at heq; unfold iabs at heq; split_ifs at heq <;> omega
      have hxy : p.x > q.x ∨ p.x < q.x := by omega
      have hyx : p.y > q.y ∨ p.y < q.y := by omega
      rcases hxy with hx | hx <;> rcases hyx with hy | hy
      · rw [if_pos hx, if_pos hy,
          lineFrom_diag_mem _ _ _ _ hy
            (by unfold iabs at heq ⊢; split_ifs at heq ⊢ <;> omega),
          lineFrom_diag_mem _ _ _ _ hx
            (by unfold iabs at heq ⊢; split_ifs at heq ⊢ <;> omega),
          transpose_x, transpose_y]
        unfold iabs at heq
        split_ifs at heq ⊢ <;> constructor <;> intro hh <;> omega
      · rw [if_pos hx, if_neg (not_lt.mpr hy.le),
          lineFrom_diag_mem _ _ _ _ hy
            (by unfold iabs at heq ⊢; split_ifs at heq ⊢ <;> omega),
          lineFrom_diag_mem _ _ _ _ hx
            (by unfold iabs at heq ⊢; split_ifs at heq ⊢ <;> omega),
          transpose_x, transpose_y]
        unfold iabs at heq
        split_ifs at heq ⊢ <;> constructor <;> intro hh <;> omega
      · rw [if_neg (not_lt.mpr hx.le), if_pos hy,
          lineFrom_diag_mem _ _ _ _ hy
            (by unfold iabs at heq ⊢; split_ifs at heq ⊢ <;> omega),
          lineFrom_diag_mem _ _ _ _ hx
            (by unfold iabs at heq ⊢; split_ifs at heq ⊢ <;> omega),
          transpose_x, transpose_y]
        unfold iabs at heq
        split_ifs at heq ⊢ <;> constructor <;> intro hh <;> omega
      · rw [if_neg (not_lt.mpr hx.le), if_neg (not_lt.mpr hy.le),
          lineFrom_diag_mem _ _ _ _ hy
            (by unfold iabs at heq ⊢; split_ifs at heq ⊢ <;> omega),
          lineFrom_diag_mem _ _ _ _ hx
            (by unfold iabs at heq ⊢; split_ifs at heq ⊢ <;> omega),
          transpose_x, transpose_y]
        unfold iabs at heq
        split_ifs at heq ⊢ <;> constructor <;> intro hh <;> omega
  · rw [if_neg (not_lt.mpr hgt.le), if_pos hgt]
    split_ifs <;> rw [lineFrom_transpose, mem_map_transpose]

/-! ### Claims on `getLinePoints` -/

/-- C7: `getLinePoints (1,0) (0,0)` returns `[(0,0), (1,0)]`: because of the
left-to-right normalisation the returned sequence starts at the given end point
and ends at the given start point, so its first element is not `p`. -/
theorem getLinePoints_starts_at_left_pixel :
    getLinePoints ⟨1, 0⟩ ⟨0, 0⟩ = [⟨0, 0⟩, ⟨1, 0⟩] ∧
    (getLinePoints ⟨1, 0⟩ ⟨0, 0⟩).head? ≠ some ⟨1, 0⟩ ∧
    (getLinePoints ⟨1, 0⟩ ⟨0, 0⟩).getLast? ≠ some ⟨0, 0⟩ := by
  decide

/-- C8: for all pixels `p` and `q` the bridge `getLinePoints p q` contains both
`p` and `q`, and every two consecutive points of it are 8-neighbours. -/
theorem getLinePoints_contains_ends_and_is_connected (p q : Point) :
    p ∈ getLinePoints p q ∧ q ∈ getLinePoints p q ∧
    List.Chain' isNeighbor8 (getLinePoints p q) := by
  refine ⟨?_, ?_, getLinePoints_chain p q⟩
  · rcases getLinePoints_ends p q with h | h
    · exact List.mem_of_mem_head? h.1
    · exact List.mem_of_mem_getLast? h.2
  · rcases getLinePoints_ends p q with h | h
    · exact List.mem_of_mem_getLast? h.2
    · exact List.mem_of_mem_head? h.1

/-- C9: `getLinePoints p q` and `getLinePoints q p` have exactly the same
points, and the bridge between the transposed pixels consists of exactly the
transposed points of the bridge between `p` and `q`. -/
theorem getLinePoints_symmetric (p q : Point) :
    (∀ pt, pt ∈ getLinePoints p q ↔ pt ∈ getLinePoints q p) ∧
    (∀ pt, pt ∈ getLinePoints p.transpose q.transpose ↔
      pt ∈ (getLinePoints p q).map Point.transpose) := by
  constructor
  · intro pt
    rw [getLinePoints_comm]
  · intro pt
    rw [mem_map_transpose]
    exact getLinePoints_transpose_mem p q pt

/-! ## The splice of `mergeEdges` -/

theorem head?_getLast?_of_ne_nil {α : Type} (l : List α) (h : l ≠ []) :
    ∃ a b, l.head? = some a ∧ l.getLast? = some b := by
  cases l with
  | nil => exact absurd rfl h
  | cons a t => exact ⟨a, _, rfl, List.getLast?_eq_getLast _ (by simp)⟩

theorem tail_getLast?_of_two_le {α : Type} (l : List α) (h : 2 ≤ l.length) :
    l.tail.getLast? = l.getLast? := by
  match l, h with
  | _ :: _ :: _, _ => simp

theorem dropLast_head?_of_two_le {α : Type} (l : List α) (h : 2 ≤ l.length) :
    l.dropLast.head? = l.head? := by
  match l, h with
  | _ :: _ :: _, _ => simp

theorem head?_eq_getLast?_of_length_one {α : Type} (l : List α) (h : l.length = 1) :
    l.getLast? = l.head? := by
  match l, h with
  | [_], _ => rfl

/-- Outside the one undefined corner the code computes the tabulated splice. -/
theorem spliceEdges_eq_spliceSpec (A B : List Point) (hA : A ≠ []) (hB : B ≠ [])
    (hdef : ¬ (B.length = 1 ∧ A.head? = B.head?)) :
    spliceEdges A B = some (spliceSpec A B) := by
  obtain ⟨a, al, ha, hal⟩ := head?_getLast?_of_ne_nil A hA
  obtain ⟨b, bl, hb, hbl⟩ := head?_getLast?_of_ne_nil B hB
  have hlen : 1 ≤ B.length := List.length_pos.mpr hB
  unfold spliceEdges spliceSpec
  simp only [ha, hal, hb, hbl, Option.bind_eq_bind, Option.some_bind, Option.pure_def,
    Option.some.injEq]
  by_cases h1 : a = b
  · have h2 : 2 ≤ B.length := by
      rcases Nat.lt_or_ge B.length 2 with h | h
      · exact absurd ⟨by omega, by rw [ha, hb, h1]⟩ hdef
      · exact h
    simp only [h1, if_true, tail_getLast?_of_two_le B h2, hbl, Option.some_bind,
      Option.some.injEq]
  · simp only [h1, if_false]
    by_cases h3 : a = bl
    · have h2 : 2 ≤ B.length := by
        rcases Nat.lt_or_ge B.length 2 with h | h
        · have h5 := head?_eq_getLast?_of_length_one B (by omega)
          rw [hb, hbl] at h5
          exact absurd (h3.trans (Option.some.inj h5)) h1
        · exact h
      simp only [h3, if_true, dropLast_head?_of_two_le B h2, hb, Option.some_bind,
        Option.some.injEq]
    · simp only [h3, if_false]
      split_ifs <;> rfl

/-- The undefined corner: a one-point second edge that starts where the first
edge starts makes `mergeEdges` call `back()` on an empty vector. -/
theorem spliceEdges_single_shared_front (A : List Point) (b : Point)
    (h : A.head? = some b) : spliceEdges A [b] = none := by
  have hA : A ≠ [] := by intro h0; rw [h0] at h; simp at h
  obtain ⟨a, al, ha, hal⟩ := head?_getLast?_of_ne_nil A hA
  unfold spliceEdges
  rw [h] at ha
  simp [h, hal]

/-! ## Vector access -/

theorem vecGet?_eq_some_of_lt {α : Type} (v : List α) (i : Int) (h0 : 0 ≤ i)
    (h1 : i < v.length) : ∃ a, vecGet? v i = some a := by
  have h : i.toNat < v.length := by omega
  exact ⟨v[i.toNat], by simp [vecGet?, h0, List.getElem?_eq_getElem h]⟩

theorem vecGet?_bounds {α : Type} (v : List α) (i : Int) (a : α)
    (h : vecGet? v i = some a) : 0 ≤ i ∧ i < v.length := by
  unfold vecGet? at h
  split_ifs at h with h0
  have := (List.getElem?_eq_some_iff.mp h).1
  omega

theorem vecSet?_eq_some_of_lt {α : Type} (v : List α) (i : Int) (a : α) (h0 : 0 ≤ i)
    (h1 : i < v.length) : vecSet? v i a = some (v.set i.toNat a) := by
  have h : i.toNat < v.length := by omega
  simp [vecSet?, h0, h]

theorem vecSet?_spec {α : Type} (v v2 : List α) (i : Int) (a : α)
    (h : vecSet? v i a = some v2) :
    0 ≤ i ∧ i < v.length ∧ v2 = v.set i.toNat a := by
  unfold vecSet? at h
  split_ifs at h with h0
  simp only [Option.some.injEq] at h
  exact ⟨h0.1, by omega, h.symm⟩

theorem vecGet?_set {α : Type} (v : List α) (i j : Int) (a : α) (h0 : 0 ≤ i)
    (h1 : i < v.length) :
    vecGet? (v.set i.toNat a) j = if j = i then some a else vecGet? v j := by
  unfold vecGet?
  by_cases hj : 0 ≤ j
  · simp only [hj, if_true]
    by_cases hij : j = i
    · subst hij
      have h : j.toNat < v.length := by omega
      simp [h]
    · have hne : i.toNat ≠ j.toNat := by omega
      simp [hij, List.getElem?_set_ne hne]
  · have hij : j ≠ i := by omega
    simp [hj, hij]

/-! ## Pixel positions -/

theorem pos_bounds (m : EdgeMap) (p : Point) (hb : m.inBounds p) :
    0 ≤ m.pos p.x p.y ∧ m.pos p.x p.y < m.rows * m.cols := by
  obtain ⟨h1, h2, h3, h4⟩ := hb
  unfold EdgeMap.pos
  constructor
  · have := mul_nonneg h3 (le_trans h1 h2.le)
    omega
  · have h5 : (p.y + 1) * m.cols ≤ m.rows * m.cols :=
      mul_le_mul_of_nonneg_right (by omega) (le_trans h1 h2.le)
    have h6 : (p.y + 1) * m.cols = p.y * m.cols + m.cols := by ring
    omega

theorem pos_injective (m : EdgeMap) (p q : Point) (hp : m.inBounds p) (hq : m.inBounds q)
    (h : m.pos p.x p.y = m.pos q.x q.y) : p = q := by
  obtain ⟨p1, p2, p3, p4⟩ := hp
  obtain ⟨q1, q2, q3, q4⟩ := hq
  unfold EdgeMap.pos at h
  have hy : p.y = q.y := by
    rcases lt_trichotomy p.y q.y with hlt | heq | hgt
    · exfalso
      have h5 : (p.y + 1) * m.cols ≤ q.y * m.cols :=
        mul_le_mul_of_nonneg_right (by omega) (by omega)
      have h6 : (p.y + 1) * m.cols = p.y * m.cols + m.cols := by ring
      omega
    · exact heq
    · exfalso
      have h5 : (q.y + 1) * m.cols ≤ p.y * m.cols :=
        mul_le_mul_of_nonneg_right (by omega) (by omega)
      have h6 : (q.y + 1) * m.cols = q.y * m.cols + m.cols := by ring
      omega
  have hx : p.x = q.x := by rw [hy] at h; omega
  cases p; cases q; simp only at hx hy; rw [hx, hy]

/-! ## The edge-id index -/

theorem getEdgeIds_of_inBounds (m : EdgeMap) (hm : m.WF) (p : Point) (hb : m.inBounds p) :
    m.getEdgeIds p.x p.y = some (m.idsAt p) := by
  obtain ⟨h0, h1⟩ := pos_bounds m p hb
  obtain ⟨a, ha⟩ := vecGet?_eq_some_of_lt m.dataEdgeIds (m.pos p.x p.y) h0
    (by rw [hm.2.2.1]; exact h1)
  unfold EdgeMap.idsAt EdgeMap.getEdgeIds
  rw [ha]; rfl

/-- How a write to the id list of one pixel is seen from every pixel. -/
theorem idsAt_set (m : EdgeMap) (hm : m.WF) (p : Point) (hb : m.inBounds p)
    (l : List Int) (q : Point) (hq : m.inBounds q) :
    EdgeMap.idsAt { m with dataEdgeIds := m.dataEdgeIds.set (m.pos p.x p.y).toNat l } q =
      if q = p then l else m.idsAt q := by
  obtain ⟨h0, h1⟩ := pos_bounds m p hb
  unfold EdgeMap.idsAt EdgeMap.getEdgeIds
  have hpos : EdgeMap.pos { m with dataEdgeIds := (m.dataEdgeIds.set (m.pos p.x p.y).toNat l) }
      q.x q.y = m.pos q.x q.y := rfl
  simp only [hpos]
  rw [vecGet?_set _ _ _ _ h0 (by rw [hm.2.2.1]; exact h1)]
  by_cases hqp : q = p
  · subst hqp; simp
  · have : m.pos q.x q.y ≠ m.pos p.x p.y := fun h => hqp (pos_injective m q p hq hb h)
    simp [hqp, this]

theorem eraseEdgeId_spec (m : EdgeMap) (hm : m.WF) (p : Point) (hb : m.inBounds p)
    (e : Int) :
    ∃ m2, m.eraseEdgeId p.x p.y e = some m2 ∧ m2.rows = m.rows ∧ m2.cols = m.cols ∧
      m2.dataClusters = m.dataClusters ∧ m2.WF ∧
      ∀ q, m.inBounds q → m2.idsAt q = if q = p then (m.idsAt q).erase e else m.idsAt q := by
  obtain ⟨h0, h1⟩ := pos_bounds m p hb
  have hget := getEdgeIds_of_inBounds m hm p hb
  unfold EdgeMap.getEdgeIds at hget
  unfold EdgeMap.eraseEdgeId
  simp only [hget, Option.bind_eq_bind, Option.some_bind, Option.pure_def]
  by_cases he : e ∈ m.idsAt p
  · rw [if_pos he, vecSet?_eq_some_of_lt _ _ _ h0 (by rw [hm.2.2.1]; exact h1)]
    refine ⟨_, rfl, rfl, rfl, rfl, ?_, ?_⟩
    · refine ⟨hm.1, hm.2.1, ?_, hm.2.2.2⟩
      simp only [List.length_set]; exact hm.2.2.1
    · intro q hq
      rw [idsAt_set m hm p hb _ q hq]
      by_cases hqp : q = p
      · subst hqp; simp
      · rw [if_neg hqp, if_neg hqp]
  · rw [if_neg he]
    refine ⟨m, rfl, rfl, rfl, rfl, hm, ?_⟩
    intro q _
    by_cases hqp : q = p
    · subst hqp; rw [if_pos rfl, List.erase_of_not_mem he]
    · rw [if_neg hqp]

theorem pushBackEdgeId_spec (m : EdgeMap) (hm : m.WF) (p : Point) (hb : m.inBounds p)
    (e : Int) :
    ∃ m2, m.pushBackEdgeId p.x p.y e = some m2 ∧ m2.rows = m.rows ∧ m2.cols = m.cols ∧
      m2.dataClusters = m.dataClusters ∧ m2.WF ∧
      ∀ q, m.inBounds q → m2.idsAt q =
        if q = p then (if e ∈ m.idsAt q then m.idsAt q else m.idsAt q ++ [e])
        else m.idsAt q := by
  obtain ⟨h0, h1⟩ := pos_bounds m p hb
  have hget := getEdgeIds_of_inBounds m hm p hb
  unfold EdgeMap.getEdgeIds at hget
  unfold EdgeMap.pushBackEdgeId
  simp only [hget, Option.bind_eq_bind, Option.some_bind, Option.pure_def]
  by_cases he : e ∈ m.idsAt p
  · rw [if_pos he]
    refine ⟨m, rfl, rfl, rfl, rfl, hm, ?_⟩
    intro q _
    by_cases hqp : q = p
    · subst hqp; rw [if_pos rfl, if_pos he]
    · rw [if_neg hqp]
  · rw [if_neg he, vecSet?_eq_some_of_lt _ _ _ h0 (by rw [hm.2.2.1]; exact h1)]
    refine ⟨_, rfl, rfl, rfl, rfl, ?_, ?_⟩
    · refine ⟨hm.1, hm.2.1, ?_, hm.2.2.2⟩
      simp only [List.length_set]; exact hm.2.2.1
    · intro q hq
      rw [idsAt_set m hm p hb _ q hq]
      by_cases hqp : q = p
      · subst hqp; rw [if_pos rfl, if_pos rfl, if_neg he]
      · rw [if_neg hqp, if_neg hqp]

theorem inBounds_congr (m m2 : EdgeMap) (hr : m2.rows = m.rows) (hc : m2.cols = m.cols)
    (p : Point) : m2.inBounds p ↔ m.inBounds p := by
  unfold EdgeMap.inBounds; rw [hr, hc]

/-- One iteration of the loop of `mergeEdges`: at pixel `p` the id `b` is
erased and the id `a` is pushed. -/
theorem reassign_step_spec (m : EdgeMap) (hm : m.WF) (hn : m.IdsNodup) (p : Point)
    (hb : m.inBounds p) (a b : Int) :
    ∃ m2, (do let m1 ← m.eraseEdgeId p.x p.y b; m1.pushBackEdgeId p.x p.y a) = some m2 ∧
      m2.rows = m.rows ∧ m2.cols = m.cols ∧ m2.dataClusters = m.dataClusters ∧ m2.WF ∧
      m2.IdsNodup ∧
      ∀ q, m.inBounds q → ∀ x, (x ∈ m2.idsAt q ↔
        if q = p then (x = a ∨ (x ∈ m.idsAt q ∧ x ≠ b)) else x ∈ m.idsAt q) := by
  obtain ⟨m1, h1, r1, c1, d1, wf1, ids1⟩ := eraseEdgeId_spec m hm p hb b
  have hb1 : m1.inBounds p := (inBounds_congr m m1 r1 c1 p).mpr hb
  obtain ⟨m2, h2, r2, c2, d2, wf2, ids2⟩ := pushBackEdgeId_spec m1 wf1 p hb1 a
  refine ⟨m2, ?_, r2.trans r1, c2.trans c1, d2.trans d1, wf2, ?_, ?_⟩
  · simp only [h1, Option.bind_eq_bind, Option.some_bind, h2]
  · intro q hq
    have hq1 : m1.inBounds q := (inBounds_congr m1 m2 r2 c2 q).mp hq
    have hq0 : m.inBounds q := (inBounds_congr m m1 r1 c1 q).mp hq1
    rw [ids2 q hq1]
    have hnd1 : (m1.idsAt q).Nodup := by
      rw [ids1 q hq0]
      split_ifs
      · exact (hn q hq0).erase b
      · exact hn q hq0
    split_ifs with hqp hmem
    · exact hnd1
    · exact List.Nodup.append hnd1 (List.nodup_singleton a)
        (by intro y hy hy2; rw [List.mem_singleton] at hy2; subst hy2; exact hmem hy)
    · exact hnd1
  · intro q hq x
    have hq1 : m1.inBounds q := (inBounds_congr m m1 r1 c1 q).mpr hq
    rw [ids2 q hq1, ids1 q hq]
    by_cases hqp : q = p
    · simp only [hqp, if_true]
      have hnd := hn p hb
      by_cases ha : a ∈ (m.idsAt p).erase b
      · rw [if_pos ha, hnd.mem_erase_iff]
        constructor
        · intro h; exact Or.inr ⟨h.2, h.1⟩
        · rintro (h | h)
          · rw [h]; exact hnd.mem_erase_iff.mp ha
          · exact ⟨h.2, h.1⟩
      · rw [if_neg ha, List.mem_append, List.mem_singleton, hnd.mem_erase_iff]
        constructor
        · rintro (h | h)
          · exact Or.inr ⟨h.2, h.1⟩
          · exact Or.inl h
        · rintro (h | h)
          · exact Or.inr h
          · exact Or.inl ⟨h.2, h.1⟩
    · simp only [hqp, if_false]

/-- The effect of the loop of `mergeEdges` on the edge-id index: at the pixels
of the second edge the id `b` is replaced by `a`, elsewhere nothing changes. -/
theorem reassignEdgeIds_spec (a b : Int) :
    ∀ (B : List Point) (m : EdgeMap), m.WF → m.IdsNodup → (∀ p ∈ B, m.inBounds p) →
    ∃ m2, reassignEdgeIds m B a b = some m2 ∧
      m2.rows = m.rows ∧ m2.cols = m.cols ∧ m2.dataClusters = m.dataClusters ∧ m2.WF ∧
      m2.IdsNodup ∧
      ∀ q, m.inBounds q → ∀ x, (x ∈ m2.idsAt q ↔
        if q ∈ B then (x = a ∨ (x ∈ m.idsAt q ∧ x ≠ b)) else x ∈ m.idsAt q) := by
  intro B
  induction B with
  | nil =>
    intro m hm hn _
    exact ⟨m, rfl, rfl, rfl, rfl, hm, hn, fun q _ x => by simp⟩
  | cons p B ih =>
    intro m hm hn hB
    obtain ⟨m1, h1, r1, c1, d1, wf1, n1, ids1⟩ :=
      reassign_step_spec m hm hn p (hB p (List.mem_cons_self _ _)) a b
    obtain ⟨m2, h2, r2, c2, d2, wf2, n2, ids2⟩ := ih m1 wf1 n1
      (fun q hq => (inBounds_congr m m1 r1 c1 q).mpr (hB q (List.mem_cons_of_mem _ hq)))
    refine ⟨m2, ?_, r2.trans r1, c2.trans c1, d2.trans d1, wf2, n2, ?_⟩
    · unfold reassignEdgeIds at h2 ⊢
      rw [List.foldlM_cons]
      simp only [Option.bind_eq_bind] at h1 ⊢
      rw [h1]
      exact h2
    · intro q hq x
      have hq1 : m1.inBounds q := (inBounds_congr m m1 r1 c1 q).mpr hq
      rw [ids2 q hq1 x]
      by_cases hqp : q = p
      · have hmem : q ∈ p :: B := by rw [hqp]; exact List.mem_cons_self _ _
        rw [if_pos hmem]
        have := ids1 q hq
        simp only [hqp, if_true] at this ⊢
        split_ifs
        · rw [this]; tauto
        · rw [this]
      · have := ids1 q hq
        simp only [hqp, if_false] at this
        simp only [List.mem_cons, hqp, false_or, this]

/-! ## The pixels of a spliced edge -/

theorem mem_head_or_tail {α : Type} (l : List α) (p : α) (h : p ∈ l) :
    l.head? = some p ∨ p ∈ l.tail := by
  cases l with
  | nil => simp at h
  | cons a t =>
    rcases List.mem_cons.mp h with h | h
    · left; rw [h]; rfl
    · right; exact h

theorem mem_dropLast_or_last {α : Type} (l : List α) (p : α) (h : p ∈ l) :
    p ∈ l.dropLast ∨ l.getLast? = some p := by
  have hne : l ≠ [] := by intro h0; rw [h0] at h; simp at h
  have hl := List.getLast?_eq_getLast l hne
  have hd := List.dropLast_append_getLast? (l.getLast hne) (by rw [hl]; exact rfl)
  rw [← hd] at h
  rcases List.mem_append.mp h with h | h
  · left; exact h
  · right; rw [List.mem_singleton] at h; rw [hl, h]

theorem getLast?_of_tail {α : Type} (l : List α) (p : α) (h : l.tail.getLast? = some p) :
    l.getLast? = some p := by
  rw [List.getLast?_tail] at h
  split_ifs at h
  exact h

theorem head?_of_dropLast {α : Type} (l : List α) (p : α) (h : l.dropLast.head? = some p) :
    l.head? = some p := by
  rw [List.head?_dropLast] at h
  split_ifs at h
  exact h

theorem spliceSpec_subset (A B : List Point) (p : Point) (h : p ∈ spliceSpec A B) :
    p ∈ A ∨ p ∈ B := by
  have key1 : ∀ X : List Point, (∀ q ∈ X, q ∈ B) → p ∈ X ++ A → p ∈ A ∨ p ∈ B := by
    intro X hX hp
    rcases List.mem_append.mp hp with h1 | h1
    · exact Or.inr (hX p h1)
    · exact Or.inl h1
  have key2 : ∀ X : List Point, (∀ q ∈ X, q ∈ B) → p ∈ A ++ X → p ∈ A ∨ p ∈ B := by
    intro X hX hp
    rcases List.mem_append.mp hp with h1 | h1
    · exact Or.inl h1
    · exact Or.inr (hX p h1)
  unfold spliceSpec at h
  split_ifs at h
  · exact key1 _ (fun q hq => List.mem_of_mem_tail
      (List.mem_of_mem_dropLast (List.mem_reverse.mp hq))) h
  · exact key1 _ (fun q hq => List.mem_of_mem_tail (List.mem_reverse.mp hq)) h
  · exact key1 _ (fun q hq => List.mem_of_mem_dropLast (List.mem_of_mem_tail hq)) h
  · exact key1 _ (fun q hq => List.mem_of_mem_dropLast hq) h
  · exact key2 _ (fun q hq => List.mem_of_mem_tail hq) h
  · exact key2 _ (fun q hq => List.mem_of_mem_dropLast (List.mem_reverse.mp hq)) h
  · exact Or.inl h

theorem spliceSpec_left (A B : List Point) (p : Point) (h : p ∈ A) : p ∈ spliceSpec A B := by
  unfold spliceSpec
  split_ifs <;>
    first
    | exact h
    | exact List.mem_append_right _ h
    | exact List.mem_append_left _ h

/-- When the two edges share an end pixel, no pixel of the second edge is
lost by the splice. -/
theorem spliceSpec_right (A B : List Point) (hs : sharesEndpoint A B) (p : Point)
    (h : p ∈ B) : p ∈ spliceSpec A B := by
  have memA_head : ∀ q, A.head? = some q → q ∈ A := fun q hq => List.mem_of_mem_head? hq
  have memA_last : ∀ q, A.getLast? = some q → q ∈ A := fun q hq => List.mem_of_mem_getLast? hq
  unfold spliceSpec
  by_cases c1 : A.head? = B.head?
  · rw [if_pos c1, List.mem_append]
    rcases mem_head_or_tail B p h with h1 | h1
    · exact Or.inr (memA_head p (c1.trans h1))
    · by_cases c2 : A.getLast? = B.getLast?
      · rw [if_pos c2, List.mem_reverse]
        rcases mem_dropLast_or_last B.tail p h1 with h2 | h2
        · exact Or.inl h2
        · exact Or.inr (memA_last p (c2.trans (getLast?_of_tail B p h2)))
      · rw [if_neg c2, List.mem_reverse]
        exact Or.inl h1
  · rw [if_neg c1]
    by_cases c3 : A.head? = B.getLast?
    · rw [if_pos c3, List.mem_append]
      rcases mem_dropLast_or_last B p h with h1 | h1
      · by_cases c4 : A.getLast? = B.head?
        · rw [if_pos c4]
          rcases mem_head_or_tail B.dropLast p h1 with h2 | h2
          · exact Or.inr (memA_last p (c4.trans (head?_of_dropLast B p h2)))
          · exact Or.inl h2
        · rw [if_neg c4]
          exact Or.inl h1
      · exact Or.inr (memA_head p (c3.trans h1))
    · rw [if_neg c3]
      by_cases c5 : A.getLast? = B.head?
      · rw [if_pos c5, List.mem_append]
        rcases mem_head_or_tail B p h with h1 | h1
        · exact Or.inl (memA_last p (c5.trans h1))
        · exact Or.inr h1
      · rw [if_neg c5]
        by_cases c6 : A.getLast? = B.getLast?
        · rw [if_pos c6, List.mem_append, List.mem_reverse]
          rcases mem_dropLast_or_last B p h with h1 | h1
          · exact Or.inr h1
          · exact Or.inl (memA_last p (c6.trans h1))
        · rcases hs with h0 | h0 | h0 | h0
          · exact absurd h0 c1
          · exact absurd h0 c3
          · exact absurd h0 c5
          · exact absurd h0 c6

theorem spliceSpec_ne_nil (A B : List Point) (hA : A ≠ []) : spliceSpec A B ≠ [] := by
  obtain ⟨a, _, ha, _⟩ := head?_getLast?_of_ne_nil A hA
  have := spliceSpec_left A B a (List.mem_of_mem_head? ha)
  intro h0
  rw [h0] at this
  simp at this

/-! ## `mergeEdges` on the whole state -/

/-- What the body of `mergeEdges` computes for two non-empty edges, outside the undefined corner `singlePointAtFront`. -/
theorem mergeOrdered_spec (s : EdgeProcessor) (a b : Int) (A B : List Point)
    (hA : s.edges.getEdge a = some A) (hB : s.edges.getEdge b = some B)
    (hAne : A ≠ []) (hBne : B ≠ []) (hdef : ¬ singlePointAtFront A B)
    (hm : s.edgeMap.WF) (hn : s.edgeMap.IdsNodup) (hBin : ∀ p ∈ B, s.edgeMap.inBounds p) :
    ∃ m2, reassignEdgeIds s.edgeMap B a b = some m2 ∧
      mergeOrdered s a b = some
        { edgeIdCounter := s.edgeIdCounter
          edges := ⟨((s.edges.data.set a.toNat []).set b.toNat []).set a.toNat (spliceSpec A B)⟩
          edgeMap := m2 } := by
  obtain ⟨m2, hre, _⟩ := reassignEdgeIds_spec a b B s.edgeMap hm hn hBin
  refine ⟨m2, hre, ?_⟩
  obtain ⟨ha0, ha1⟩ := vecGet?_bounds _ _ _ hA
  obtain ⟨hb0, hb1⟩ := vecGet?_bounds _ _ _ hB
  unfold mergeOrdered
  simp only [hA, hB, Option.bind_eq_bind, Option.some_bind, Edges.clearEdge, Edges.overwrite]
  rw [vecSet?_eq_some_of_lt _ _ _ ha0 ha1]
  simp only [Option.map_some', Option.some_bind]
  rw [vecSet?_eq_some_of_lt _ _ _ hb0 (by simp only [List.length_set]; exact hb1)]
  simp only [Option.map_some', Option.some_bind, hre,
    spliceEdges_eq_spliceSpec A B hAne hBne hdef]
  rw [vecSet?_eq_some_of_lt _ _ _ ha0 (by simp only [List.length_set]; exact ha1)]
  rfl

/-- Reading the edge table after a merge. -/
theorem getEdge_after_merge (e : Edges) (a b : Int) (A B R : List Point)
    (hA : e.getEdge a = some A) (hB : e.getEdge b = some B) (i : Int) :
    Edges.getEdge ⟨((e.data.set a.toNat []).set b.toNat []).set a.toNat R⟩ i =
      if i = a then some R else if i = b then some [] else e.getEdge i := by
  obtain ⟨ha0, ha1⟩ := vecGet?_bounds _ _ _ hA
  obtain ⟨hb0, hb1⟩ := vecGet?_bounds _ _ _ hB
  unfold Edges.getEdge
  rw [vecGet?_set _ _ _ _ ha0 (by simp only [List.length_set]; exact ha1)]
  by_cases hia : i = a
  · rw [if_pos hia, if_pos hia]
  · rw [if_neg hia, if_neg hia, vecGet?_set _ _ _ _ hb0 (by simp only [List.length_set]; exact hb1)]
    by_cases hib : i = b
    · rw [if_pos hib, if_pos hib]
    · rw [if_neg hib, if_neg hib, vecGet?_set _ _ _ _ ha0 ha1, if_neg hia]

theorem mergeEdges_comm (s : EdgeProcessor) (a b : Int) :
    mergeEdges s a b = mergeEdges s b a := by
  unfold mergeEdges
  rcases lt_trichotomy a b with h | h | h
  · rw [if_neg (by omega), if_neg (by omega), if_pos h]
  · subst h; rfl
  · rw [if_pos h, if_neg (by omega), if_neg (by omega)]

theorem mergeEdges_of_lt (s : EdgeProcessor) (a b : Int) (h : a < b) :
    mergeEdges s a b = mergeOrdered s a b := by
  unfold mergeEdges
  rw [if_neg (by omega), if_neg (by omega)]

/-- A merge of two edges that share an end pixel establishes the state
invariant; the pixels of the second edge need not carry its id beforehand. -/
theorem mergeOrdered_agree_of (s : EdgeProcessor) (a b : Int) (A B : List Point)
    (hab : a ≠ b) (hA : s.edges.getEdge a = some A) (hB : s.edges.getEdge b = some B)
    (hAne : A ≠ []) (hBne : B ≠ []) (hdef : ¬ singlePointAtFront A B)
    (hshare : sharesEndpoint A B)
    (hm : s.edgeMap.WF) (hn : s.edgeMap.IdsNodup)
    (hsound : ∀ p, s.edgeMap.inBounds p → ∀ e ∈ s.edgeMap.idsAt p,
      ∃ E, s.edges.getEdge e = some E ∧ E ≠ [] ∧ p ∈ E)
    (hreg : ∀ e E, e ≠ b → s.edges.getEdge e = some E → ∀ p ∈ E,
      s.edgeMap.inBounds p ∧ e ∈ s.edgeMap.idsAt p)
    (hBin : ∀ p ∈ B, s.edgeMap.inBounds p) :
    ∃ s2, mergeOrdered s a b = some s2 ∧ s2.edgeMap.WF ∧ s2.edgeMap.IdsNodup ∧
      TableIndexAgree s2 ∧ s2.edgeIdCounter = s.edgeIdCounter ∧
      s2.edges.data.length = s.edges.data.length ∧
      s2.edgeMap.rows = s.edgeMap.rows ∧ s2.edgeMap.cols = s.edgeMap.cols ∧
      s2.edgeMap.dataClusters = s.edgeMap.dataClusters := by
  obtain ⟨m2, hre, hmerge⟩ := mergeOrdered_spec s a b A B hA hB hAne hBne hdef hm hn hBin
  obtain ⟨m3, hre3, r2, c2, d2, wf2, n2, ids2⟩ := reassignEdgeIds_spec a b B s.edgeMap hm hn hBin
  rw [hre] at hre3
  obtain rfl : m2 = m3 := Option.some.inj hre3
  refine ⟨_, hmerge, wf2, n2, ?_, rfl, by simp only [List.length_set], r2, c2, d2⟩
  have hget := getEdge_after_merge s.edges a b A B (spliceSpec A B) hA hB
  have hib : ∀ p, m2.inBounds p ↔ s.edgeMap.inBounds p := inBounds_congr s.edgeMap m2 r2 c2
  have sound : ∀ p, s.edgeMap.inBounds p → ∀ e ∈ m2.idsAt p,
      ∃ E, Edges.getEdge
        ⟨((s.edges.data.set a.toNat []).set b.toNat []).set a.toNat (spliceSpec A B)⟩ e = some E ∧
        E ≠ [] ∧ p ∈ E := by
    intro p hp e he
    rw [ids2 p hp e] at he
    rw [hget e]
    -- the id is stored because it was stored before, or because it is the id `a` just pushed
    have old : e ∈ s.edgeMap.idsAt p → e ≠ b →
        ∃ E, (if e = a then some (spliceSpec A B) else if e = b then some [] else
          s.edges.getEdge e) = some E ∧ E ≠ [] ∧ p ∈ E := by
      intro he1 heb
      obtain ⟨E, hE, hEne, hpE⟩ := hsound p hp e he1
      by_cases hea : e = a
      · rw [if_pos hea]
        subst hea
        rw [hA] at hE
        obtain rfl : A = E := Option.some.inj hE
        exact ⟨_, rfl, spliceSpec_ne_nil A B hAne, spliceSpec_left A B p hpE⟩
      · rw [if_neg hea, if_neg heb]
        exact ⟨E, hE, hEne, hpE⟩
    by_cases hpB : p ∈ B
    · rw [if_pos hpB] at he
      rcases he with he | he
      · subst he
        rw [if_pos rfl]
        exact ⟨_, rfl, spliceSpec_ne_nil A B hAne, spliceSpec_right A B hshare p hpB⟩
      · exact old he.1 he.2
    · rw [if_neg hpB] at he
      apply old he
      intro heb
      subst heb
      obtain ⟨E, hE, _, hpE⟩ := hsound p hp e he
      rw [hB] at hE
      obtain rfl : B = E := Option.some.inj hE
      exact hpB hpE
  constructor
  · intro p hp e he
    exact sound p ((hib p).mp hp) e he
  · intro e E hE p hpE
    rw [hget e] at hE
    show m2.inBounds p ∧ e ∈ m2.idsAt p
    by_cases hea : e = a
    · rw [if_pos hea] at hE
      obtain rfl : spliceSpec A B = E := Option.some.inj hE
      rcases spliceSpec_subset A B p hpE with h1 | h1
      · obtain ⟨hp, hmem⟩ := hreg a A hab hA p h1
        refine ⟨(hib p).mpr hp, ?_⟩
        rw [ids2 p hp e]
        split_ifs
        · exact Or.inl hea
        · rw [hea]; exact hmem
      · have hp := hBin p h1
        refine ⟨(hib p).mpr hp, ?_⟩
        rw [ids2 p hp e, if_pos h1]
        exact Or.inl hea
    · rw [if_neg hea] at hE
      by_cases heb : e = b
      · rw [if_pos heb] at hE
        obtain rfl : [] = E := Option.some.inj hE
        simp at hpE
      · rw [if_neg heb] at hE
        obtain ⟨hp, hmem⟩ := hreg e E heb hE p hpE
        refine ⟨(hib p).mpr hp, ?_⟩
        rw [ids2 p hp e]
        split_ifs
        · exact Or.inr ⟨hmem, heb⟩
        · exact hmem
  · intro e hE p hp hmem
    obtain ⟨E, hE2, hEne, _⟩ := sound p ((hib p).mp hp) e hmem
    rw [hE] at hE2
    exact hEne (Option.some.inj hE2).symm

/-- The state invariant survives a merge of two edges that share an end pixel. -/
theorem mergeOrdered_agree (s : EdgeProcessor) (a b : Int) (A B : List Point)
    (hab : a ≠ b) (hA : s.edges.getEdge a = some A) (hB : s.edges.getEdge b = some B)
    (hAne : A ≠ []) (hBne : B ≠ []) (hdef : ¬ singlePointAtFront A B)
    (hshare : sharesEndpoint A B)
    (hm : s.edgeMap.WF) (hn : s.edgeMap.IdsNodup) (hinv : TableIndexAgree s) :
    ∃ s2, mergeOrdered s a b = some s2 ∧ s2.edgeMap.WF ∧ s2.edgeMap.IdsNodup ∧
      TableIndexAgree s2 := by
  obtain ⟨s2, h1, h2, h3, h4, _⟩ := mergeOrdered_agree_of s a b A B hab hA hB hAne hBne hdef
    hshare hm hn hinv.stored_sound (fun e E _ hE => hinv.edge_registered e E hE)
    (fun p hp => (hinv.edge_registered b B hB p hp).1)
  exact ⟨s2, h1, h2, h3, h4⟩

/-! ## Soundness of the executable checks -/

theorem mem_allPixels (m : EdgeMap) (p : Point) (h : m.inBounds p) : p ∈ m.allPixels := by
  obtain ⟨h1, h2, h3, h4⟩ := h
  have hy : p.y.toNat < m.rows.toNat := by omega
  have hx : p.x.toNat < m.cols.toNat := by omega
  have hp : Point.mk (Int.ofNat p.x.toNat) (Int.ofNat p.y.toNat) = p := by
    cases p with
    | mk x y =>
      simp only at h1 h3
      simp only [Point.mk.injEq, Int.ofNat_eq_coe]
      constructor <;> omega
  unfold EdgeMap.allPixels
  simp only [List.mem_flatMap, List.mem_map, List.mem_range]
  exact ⟨p.y.toNat, hy, p.x.toNat, hx, hp⟩

theorem idsNodupCheck_sound (m : EdgeMap) (h : m.idsNodupCheck = true) : m.IdsNodup := by
  intro p hp
  unfold EdgeMap.idsNodupCheck at h
  rw [List.all_eq_true] at h
  exact of_decide_eq_true (h p (mem_allPixels m p hp))

theorem agreeCheck_sound (s : EdgeProcessor) (h : agreeCheck s = true) :
    TableIndexAgree s := by
  unfold agreeCheck at h
  rw [Bool.and_eq_true, List.all_eq_true, List.all_eq_true] at h
  obtain ⟨h1, h2⟩ := h
  have sound : ∀ p, s.edgeMap.inBounds p → ∀ e ∈ s.edgeMap.idsAt p,
      ∃ E, s.edges.getEdge e = some E ∧ E ≠ [] ∧ p ∈ E := by
    intro p hp e he
    have := h1 p (mem_allPixels _ p hp)
    rw [List.all_eq_true] at this
    have := this e he
    cases hE : s.edges.getEdge e with
    | none => rw [hE] at this; simp at this
    | some E =>
      rw [hE] at this
      exact ⟨E, rfl, of_decide_eq_true this⟩
  refine ⟨sound, ?_, ?_⟩
  · intro e E hE p hpE
    obtain ⟨he0, he1⟩ := vecGet?_bounds _ _ _ hE
    have := h2 e.toNat (List.mem_range.mpr (by omega))
    have hcast : ((e.toNat : Nat) : Int) = e := by omega
    rw [hcast, hE, List.all_eq_true] at this
    exact of_decide_eq_true (this p hpE)
  · intro e hE p hp hmem
    obtain ⟨E, hE2, hEne, _⟩ := sound p hp e hmem
    rw [hE] at hE2
    exact hEne (Option.some.inj hE2).symm

/-! ## End pixels of a spliced edge -/

theorem spliceSpec_getLast? (A B : List Point) (hA : A ≠ []) :
    (spliceSpec A B).getLast? = A.getLast? ∨ (spliceSpec A B).getLast? = B.head? ∨
      (spliceSpec A B).getLast? = B.getLast? := by
  obtain ⟨a, al, ha, hal⟩ := head?_getLast?_of_ne_nil A hA
  unfold spliceSpec
  split_ifs
  · left; rw [List.getLast?_append, hal]; rfl
  · left; rw [List.getLast?_append, hal]; rfl
  · left; rw [List.getLast?_append, hal]; rfl
  · left; rw [List.getLast?_append, hal]; rfl
  · rw [List.getLast?_append]
    cases h : B.tail.getLast? with
    | none => left; rfl
    | some x => right; right; rw [getLast?_of_tail B x h]; rfl
  · rw [List.getLast?_append, List.getLast?_reverse]
    cases h : B.dropLast.head? with
    | none => left; rfl
    | some x => right; left; rw [head?_of_dropLast B x h]; rfl
  · left; rfl

theorem tail_dropLast_eq_nil {α : Type} (l : List α) (h : l.length ≤ 2) :
    l.tail.dropLast = [] := by
  match l, h with
  | [], _ => rfl
  | [_], _ => rfl
  | [_, _], _ => rfl

theorem dropLast_tail_eq_nil {α : Type} (l : List α) (h : l.length ≤ 2) :
    l.dropLast.tail = [] := by
  match l, h with
  | [], _ => rfl
  | [_], _ => rfl
  | [_, _], _ => rfl

theorem spliceSpec_head? (A B : List Point) (hA : A ≠ []) (hB : B ≠ [])
    (hdef : ¬ singlePointAtFront A B) (hboth : ¬ (sharesBothEnds A B ∧ 3 ≤ B.length)) :
    (spliceSpec A B).head? = A.head? ∨ (spliceSpec A B).head? = B.head? ∨
      (spliceSpec A B).head? = B.getLast? := by
  obtain ⟨a, al, ha, hal⟩ := head?_getLast?_of_ne_nil A hA
  obtain ⟨b, bl, hb, hbl⟩ := head?_getLast?_of_ne_nil B hB
  have hlen : 1 ≤ B.length := List.length_pos.mpr hB
  unfold spliceSpec
  by_cases c1 : A.head? = B.head?
  · rw [if_pos c1]
    have h2 : 2 ≤ B.length := by
      rcases Nat.lt_or_ge B.length 2 with h | h
      · exact absurd ⟨by omega, c1⟩ hdef
      · exact h
    by_cases c2 : A.getLast? = B.getLast?
    · rw [if_pos c2]
      have h3 : B.length ≤ 2 := by
        rcases Nat.lt_or_ge 2 B.length with h | h
        · exact absurd ⟨Or.inl ⟨c1, c2⟩, h⟩ hboth
        · exact h
      rw [tail_dropLast_eq_nil B h3]
      left; rfl
    · rw [if_neg c2, List.head?_append, List.head?_reverse, tail_getLast?_of_two_le B h2, hbl]
      right; right; rfl
  · rw [if_neg c1]
    by_cases c3 : A.head? = B.getLast?
    · rw [if_pos c3]
      have h2 : 2 ≤ B.length := by
        rcases Nat.lt_or_ge B.length 2 with h | h
        · have h5 := head?_eq_getLast?_of_length_one B (by omega)
          exact absurd (c3.trans h5) c1
        · exact h
      by_cases c4 : A.getLast? = B.head?
      · rw [if_pos c4]
        have h3 : B.length ≤ 2 := by
          rcases Nat.lt_or_ge 2 B.length with h | h
          · exact absurd ⟨Or.inr ⟨c3, c4⟩, h⟩ hboth
          · exact h
        rw [dropLast_tail_eq_nil B h3]
        left; rfl
      · rw [if_neg c4, List.head?_append, dropLast_head?_of_two_le B h2, hb]
        right; left; rfl
    · rw [if_neg c3]
      split_ifs
      · left; rw [List.head?_append, ha]; rfl
      · left; rw [List.head?_append, ha]; rfl
      · left; rfl

/-! ### Claims on `mergeEdges` -/

/-- The frame of a merge of two distinct non-empty edges, outside the undefined
corner: the splice is written at the smaller id, the larger id becomes a
tombstone, no other position and not the size of the table changes, and the
order of the two arguments is irrelevant. -/
theorem mergeEdges_frame (s : EdgeProcessor) (a b : Int) (A B : List Point) (hab : a ≠ b)
    (hA : s.edges.getEdge (min a b) = some A) (hB : s.edges.getEdge (max a b) = some B)
    (hAne : A ≠ []) (hBne : B ≠ []) (hdef : ¬ singlePointAtFront A B)
    (hm : s.edgeMap.WF) (hn : s.edgeMap.IdsNodup) (hBin : ∀ p ∈ B, s.edgeMap.inBounds p) :
    ∃ s2, mergeEdges s a b = some s2 ∧
      s2.edges.getEdge (min a b) = some (spliceSpec A B) ∧
      s2.edges.getEdge (max a b) = some [] ∧
      s2.edges.size = s.edges.size ∧
      (∀ i, i ≠ a → i ≠ b → s2.edges.getEdge i = s.edges.getEdge i) ∧
      mergeEdges s b a = some s2 := by
  obtain ⟨m2, _, hmerge⟩ := mergeOrdered_spec s (min a b) (max a b) A B hA hB hAne hBne hdef
    hm hn hBin
  have hlt : min a b < max a b := by
    rcases lt_or_gt_of_ne hab with h | h
    · rw [min_eq_left h.le, max_eq_right h.le]; exact h
    · rw [min_eq_right h.le, max_eq_left h.le]; exact h
  have hmm : mergeEdges s a b = mergeOrdered s (min a b) (max a b) := by
    rcases lt_or_gt_of_ne hab with h | h
    · rw [min_eq_left h.le, max_eq_right h.le, mergeEdges_of_lt s a b h]
    · rw [min_eq_right h.le, max_eq_left h.le, mergeEdges_comm, mergeEdges_of_lt s b a h]
  have hget := getEdge_after_merge s.edges (min a b) (max a b) A B (spliceSpec A B) hA hB
  refine ⟨_, hmm.trans hmerge, ?_, ?_, ?_, ?_, ?_⟩
  · rw [hget, if_pos rfl]
  · rw [hget, if_neg (ne_of_gt hlt), if_pos rfl]
  · simp only [Edges.size, List.length_set]
  · intro i hia hib
    have h1 : i ≠ min a b := by
      rcases min_choice a b with h | h <;> rw [h] <;> assumption
    have h2 : i ≠ max a b := by
      rcases max_choice a b with h | h <;> rw [h] <;> assumption
    rw [hget, if_neg h1, if_neg h2]
  · rw [mergeEdges_comm, hmm.trans hmerge]

/-- C2 (counterexample): on the consistent state `disjointPairState` the merge
of the two edges, which have no common end pixel, registers id 0 at the pixel
`(1,0)` although edge 0 does not pass through it. -/
theorem mergeEdges_breaks_agreement_without_shared_end :
    TableIndexAgree disjointPairState ∧
    disjointPairState.edges.getEdge 0 = some [⟨0, 0⟩] ∧
    disjointPairState.edges.getEdge 1 = some [⟨1, 0⟩] ∧
    mergeEdges disjointPairState 0 1 = some disjointPairMerged ∧
    ¬ TableIndexAgree disjointPairMerged := by
  refine ⟨agreeCheck_sound _ (by decide), by decide, by decide, by decide, ?_⟩
  intro h
  obtain ⟨E, hE, _, hp⟩ := h.stored_sound ⟨1, 0⟩ (by decide) 0 (by decide)
  have h0 : disjointPairMerged.edges.getEdge 0 = some [⟨0, 0⟩] := by decide
  rw [h0] at hE
  obtain rfl := Option.some.inj hE
  revert hp
  decide

/-- Why the id lists have to be duplicate-free: `eraseEdgeId` removes one
occurrence only, so on `duplicateIdState` the merge leaves the id of the
tombstone behind at the pixel `(1,0)`. -/
theorem mergeEdges_keeps_duplicate_id :
    TableIndexAgree duplicateIdState ∧
    (mergeEdges duplicateIdState 0 1).map (fun s => (s.edges.getEdge 1, s.edgeMap.idsAt ⟨1, 0⟩)) =
      some (some [], [0, 1]) := by
  exact ⟨agreeCheck_sound _ (by decide), by decide⟩

/-- C2 (amended): if the id lists are duplicate-free, the invariant holds, the
two distinct ids name non-empty edges that share an end pixel, and the edge at
the larger id is not a single pixel on the first pixel of the other one, then
`mergeEdges` returns a state in which the invariant holds again. -/
theorem mergeEdges_preserves_agreement (s : EdgeProcessor) (a b : Int) (A B : List Point)
    (hab : a ≠ b)
    (hA : s.edges.getEdge (min a b) = some A) (hB : s.edges.getEdge (max a b) = some B)
    (hAne : A ≠ []) (hBne : B ≠ []) (hshare : sharesEndpoint A B)
    (hdef : ¬ singlePointAtFront A B)
    (hm : s.edgeMap.WF) (hn : s.edgeMap.IdsNodup) (hinv : TableIndexAgree s) :
    ∃ s2, mergeEdges s a b = some s2 ∧ s2.edgeMap.WF ∧ s2.edgeMap.IdsNodup ∧
      TableIndexAgree s2 := by
  have hmm : mergeEdges s a b = mergeOrdered s (min a b) (max a b) := by
    rcases lt_or_gt_of_ne hab with h | h
    · rw [min_eq_left h.le, max_eq_right h.le, mergeEdges_of_lt s a b h]
    · rw [min_eq_right h.le, max_eq_left h.le, mergeEdges_comm, mergeEdges_of_lt s b a h]
  rw [hmm]
  have hlt : min a b ≠ max a b := by
    rcases lt_or_gt_of_ne hab with h | h
    · rw [min_eq_left h.le, max_eq_right h.le]; exact hab
    · rw [min_eq_right h.le, max_eq_left h.le]; exact fun e => hab e.symm
  exact mergeOrdered_agree s (min a b) (max a b) A B hlt hA hB hAne hBne hdef hshare hm hn hinv

/-- A run of `mergeEdges_preserves_agreement` on `chainedPairState`. -/
theorem mergeEdges_preserves_agreement_witness :
    ∃ s2, mergeEdges chainedPairState 0 1 = some s2 ∧ s2.edgeMap.WF ∧ s2.edgeMap.IdsNodup ∧
      TableIndexAgree s2 :=
  mergeEdges_preserves_agreement chainedPairState 0 1 [⟨0, 0⟩, ⟨1, 0⟩] [⟨1, 0⟩, ⟨2, 0⟩]
    (by decide) (by decide) (by decide) (by decide) (by decide) (by decide) (by decide)
    (by decide) (idsNodupCheck_sound _ (by decide)) (agreeCheck_sound _ (by decide))

/-- C3: for `A = [(0,0),(1,0)]` and the one-pixel edge `B = [(0,0)]` the code
erases the only point of `B` and then reads `back()` of the empty vector, so
no edge is defined, whereas the tabulated splice is `A`. -/
theorem spliceEdges_undefined_for_single_pixel_at_front :
    spliceEdges [⟨0, 0⟩, ⟨1, 0⟩] [⟨0, 0⟩] = none ∧
    spliceSpec [⟨0, 0⟩, ⟨1, 0⟩] [⟨0, 0⟩] = [⟨0, 0⟩, ⟨1, 0⟩] := by
  decide

/-- C4: on `singlePixelBridgeState` (edge 0 is `[(0,0),(1,0)]`, edge 1 is the
single pixel `[(0,0)]`) `mergeEdges 0 1` and `mergeEdges 1 0` run into the
undefined `back()` of an empty vector and deliver no state. -/
theorem mergeEdges_undefined_on_single_pixel_bridge :
    singlePixelBridgeState.edges.getEdge 0 = some [⟨0, 0⟩, ⟨1, 0⟩] ∧
    singlePixelBridgeState.edges.getEdge 1 = some [⟨0, 0⟩] ∧
    mergeEdges singlePixelBridgeState 0 1 = none ∧
    mergeEdges singlePixelBridgeState 1 0 = none := by
  decide

/-- C5: `mergeEdges a a` returns normally and leaves the whole state (edge
table, edge-id index, cluster index) unchanged, for every id `a`. -/
theorem mergeEdges_same_id (s : EdgeProcessor) (a : Int) : mergeEdges s a a = some s := by
  unfold mergeEdges
  rw [if_neg (lt_irrefl a), if_pos rfl]

/-- C6 (counterexample): merging the two arcs of `twoArcsState`, which share
both end pixels, yields an edge that starts at `(1,1)`, a pixel that is none of
the four end pixels. -/
theorem mergeEdges_first_point_not_an_end_pixel :
    spliceEdges [⟨0, 0⟩, ⟨1, 0⟩, ⟨2, 0⟩] [⟨0, 0⟩, ⟨0, 1⟩, ⟨1, 1⟩, ⟨2, 0⟩] =
      some [⟨1, 1⟩, ⟨0, 1⟩, ⟨0, 0⟩, ⟨1, 0⟩, ⟨2, 0⟩] ∧
    (mergeEdges twoArcsState 0 1).bind (fun s => s.edges.getEdge 0) =
      some [⟨1, 1⟩, ⟨0, 1⟩, ⟨0, 0⟩, ⟨1, 0⟩, ⟨2, 0⟩] ∧
    (⟨1, 1⟩ : Point) ∉ [(⟨0, 0⟩ : Point), ⟨2, 0⟩, ⟨0, 0⟩, ⟨2, 0⟩] := by
  decide

/-- C6 (amended): outside the undefined corner the splice of two non-empty
edges ends at one of the four end pixels, and it also starts at one of them
unless the edges share both end pixels and the second edge has three or more
points. -/
theorem spliceEdges_end_pixels (A B : List Point) (hA : A ≠ []) (hB : B ≠ [])
    (hdef : ¬ singlePointAtFront A B) :
    ∃ R, spliceEdges A B = some R ∧
      (R.getLast? = A.getLast? ∨ R.getLast? = B.head? ∨ R.getLast? = B.getLast?) ∧
      (¬ (sharesBothEnds A B ∧ 3 ≤ B.length) →
        (R.head? = A.head? ∨ R.head? = B.head? ∨ R.head? = B.getLast?)) :=
  ⟨spliceSpec A B, spliceEdges_eq_spliceSpec A B hA hB hdef, spliceSpec_getLast? A B hA,
    fun hboth => spliceSpec_head? A B hA hB hdef hboth⟩

/-- A run of `spliceEdges_end_pixels` on two edges meeting at `(1,0)`. -/
theorem spliceEdges_end_pixels_witness :
    ∃ R, spliceEdges [⟨0, 0⟩, ⟨1, 0⟩] [⟨1, 0⟩, ⟨2, 0⟩] = some R ∧
      (R.getLast? = some ⟨1, 0⟩ ∨ R.getLast? = some ⟨1, 0⟩ ∨ R.getLast? = some ⟨2, 0⟩) ∧
      (¬ (sharesBothEnds [⟨0, 0⟩, ⟨1, 0⟩] [⟨1, 0⟩, ⟨2, 0⟩] ∧
          3 ≤ [(⟨1, 0⟩ : Point), ⟨2, 0⟩].length) →
        (R.head? = some ⟨0, 0⟩ ∨ R.head? = some ⟨1, 0⟩ ∨ R.head? = some ⟨2, 0⟩)) :=
  spliceEdges_end_pixels [⟨0, 0⟩, ⟨1, 0⟩] [⟨1, 0⟩, ⟨2, 0⟩] (by decide) (by decide) (by decide)

/-! ## Direct neighbours -/

theorem mem_cond_singleton (g c : Prop) [Decidable g] [Decidable c] (pt q : Point) :
    q ∈ (if g then (if c then [pt] else []) else []) ↔ g ∧ c ∧ q = pt := by
  split_ifs with hg hc
  · simp [hg, hc]
  · simp [hc]
  · simp [hg]

theorem point_eq_iff (q : Point) (a b : Int) : q = Point.mk a b ↔ q.x = a ∧ q.y = b := by
  cases q
  simp

/-- Membership in `getDirectNeighbors`, position by position. -/
theorem mem_getDirectNeighbors_cases (img : Mat) (p q : Point) :
    q ∈ getDirectNeighbors img p ↔
      ((p.x - 1 ≥ 0 ∧ p.y - 1 ≥ 0) ∧
        (img.px (p.y - 1) (p.x - 1) > 0 ∧
          ¬ (img.px (p.y - 1) p.x > 0 ∨ img.px p.y (p.x - 1) > 0)) ∧
        q = Point.mk (p.x - 1) (p.y - 1)) ∨
      (p.y - 1 ≥ 0 ∧ img.px (p.y - 1) p.x > 0 ∧ q = Point.mk p.x (p.y - 1)) ∨
      ((p.x + 1 < img.cols ∧ p.y - 1 ≥ 0) ∧
        (img.px (p.y - 1) (p.x + 1) > 0 ∧
          ¬ (img.px (p.y - 1) p.x > 0 ∨ img.px p.y (p.x + 1) > 0)) ∧
        q = Point.mk (p.x + 1) (p.y - 1)) ∨
      (p.x + 1 < img.cols ∧ img.px p.y (p.x + 1) > 0 ∧ q = Point.mk (p.x + 1) p.y) ∨
      ((p.x + 1 < img.cols ∧ p.y + 1 < img.rows) ∧
        (img.px (p.y + 1) (p.x + 1) > 0 ∧
          ¬ (img.px p.y (p.x + 1) > 0 ∨ img.px (p.y + 1) p.x > 0)) ∧
        q = Point.mk (p.x + 1) (p.y + 1)) ∨
      (p.y + 1 < img.rows ∧ img.px (p.y + 1) p.x > 0 ∧ q = Point.mk p.x (p.y + 1)) ∨
      ((p.x - 1 ≥ 0 ∧ p.y + 1 < img.rows) ∧
        (img.px (p.y + 1) (p.x - 1) > 0 ∧
          ¬ (img.px (p.y + 1) p.x > 0 ∨ img.px p.y (p.x - 1) > 0)) ∧
        q = Point.mk (p.x - 1) (p.y + 1)) ∨
      (p.x - 1 ≥ 0 ∧ img.px p.y (p.x - 1) > 0 ∧ q = Point.mk (p.x - 1) p.y) := by
  unfold getDirectNeighbors
  simp only [List.mem_append, mem_cond_singleton, or_assoc]

theorem getDirectNeighbors_sound (img : Mat) (p q : Point) (hp : img.inside p)
    (h : q ∈ getDirectNeighbors img p) :
    img.inside q ∧ img.px q.y q.x > 0 ∧ isNeighbor8 p q ∧
      (q.x ≠ p.x → q.y ≠ p.y → img.px q.y p.x = 0 ∧ img.px p.y q.x = 0) := by
  rw [mem_getDirectNeighbors_cases] at h
  obtain ⟨px, py⟩ := p
  obtain ⟨qx, qy⟩ := q
  unfold Mat.inside at hp ⊢
  unfold isNeighbor8 iabs
  simp only [point_eq_iff, Point.mk.injEq] at hp h ⊢
  rcases h with h | h | h | h | h | h | h | h
  · obtain ⟨h1, h2, rfl, rfl⟩ := h; omega
  · obtain ⟨h1, h2, rfl, rfl⟩ := h; omega
  · obtain ⟨h1, h2, rfl, rfl⟩ := h; omega
  · obtain ⟨h1, h2, rfl, rfl⟩ := h; omega
  · obtain ⟨h1, h2, rfl, rfl⟩ := h; omega
  · obtain ⟨h1, h2, rfl, rfl⟩ := h; omega
  · obtain ⟨h1, h2, rfl, rfl⟩ := h; omega
  · obtain ⟨h1, h2, rfl, rfl⟩ := h; omega

theorem getDirectNeighbors_complete (img : Mat) (p q : Point) (hp : img.inside p)
    (h1 : img.inside q) (h2 : img.px q.y q.x > 0) (h3 : isNeighbor8 p q)
    (h4 : q.x ≠ p.x → q.y ≠ p.y → img.px q.y p.x = 0 ∧ img.px p.y q.x = 0) :
    q ∈ getDirectNeighbors img p := by
  rw [mem_getDirectNeighbors_cases]
  obtain ⟨px, py⟩ := p
  obtain ⟨qx, qy⟩ := q
  unfold Mat.inside at hp h1
  unfold isNeighbor8 iabs at h3
  simp only [point_eq_iff, Point.mk.injEq] at hp h1 h2 h3 h4 ⊢
  have hx : qx = px - 1 ∨ qx = px ∨ qx = px + 1 := by omega
  have hy : qy = py - 1 ∨ qy = py ∨ qy = py + 1 := by omega
  have hne : ¬ (qx = px ∧ qy = py) := by omega
  clear h3
  rcases hx with rfl | rfl | rfl <;> rcases hy with rfl | rfl | rfl
  · have := h4 (by omega) (by omega)
    exact Or.inl ⟨by omega, by omega, by omega⟩
  · exact Or.inr (Or.inr (Or.inr (Or.inr (Or.inr (Or.inr (Or.inr
      ⟨by omega, by omega, by omega⟩))))))
  · have := h4 (by omega) (by omega)
    exact Or.inr (Or.inr (Or.inr (Or.inr (Or.inr (Or.inr (Or.inl
      ⟨by omega, by omega, by omega⟩))))))
  · exact Or.inr (Or.inl ⟨by omega, by omega, by omega⟩)
  · exact absurd ⟨rfl, rfl⟩ hne
  · exact Or.inr (Or.inr (Or.inr (Or.inr (Or.inr (Or.inl
      ⟨by omega, by omega, by omega⟩)))))
  · have := h4 (by omega) (by omega)
    exact Or.inr (Or.inr (Or.inl ⟨by omega, by omega, by omega⟩))
  · exact Or.inr (Or.inr (Or.inr (Or.inl ⟨by omega, by omega, by omega⟩)))
  · have := h4 (by omega) (by omega)
    exact Or.inr (Or.inr (Or.inr (Or.inr (Or.inl ⟨by omega, by omega, by omega⟩))))

/-- The direct neighbours of a pixel of the image are the edge pixels of the
image at Chebyshev distance one, where a diagonal one is dropped as soon as one
of the two orthogonal pixels between it and `p` is an edge pixel. -/
theorem mem_getDirectNeighbors (img : Mat) (p q : Point) (hp : img.inside p) :
    q ∈ getDirectNeighbors img p ↔
      img.inside q ∧ img.px q.y q.x > 0 ∧ isNeighbor8 p q ∧
        (q.x ≠ p.x → q.y ≠ p.y → img.px q.y p.x = 0 ∧ img.px p.y q.x = 0) :=
  ⟨getDirectNeighbors_sound img p q hp,
    fun h => getDirectNeighbors_complete img p q hp h.1 h.2.1 h.2.2.1 h.2.2.2⟩

theorem isNeighbor8_symm (p q : Point) (h : isNeighbor8 p q) : isNeighbor8 q p := by
  unfold isNeighbor8 iabs at h ⊢
  omega

/-- The direct-neighbour relation is symmetric between edge pixels of the image. -/
theorem getDirectNeighbors_symm (img : Mat) (p q : Point) (hp : img.inside p)
    (hpe : img.px p.y p.x > 0) (h : q ∈ getDirectNeighbors img p) :
    p ∈ getDirectNeighbors img q := by
  obtain ⟨h1, _, h3, h4⟩ := getDirectNeighbors_sound img p q hp h
  refine getDirectNeighbors_complete img q p h1 hp hpe (isNeighbor8_symm p q h3) ?_
  intro hx hy
  have := h4 (fun e => hx e.symm) (fun e => hy e.symm)
  exact ⟨this.2, this.1⟩

theorem cond_singleton_sublist (g c : Prop) [Decidable g] [Decidable c] (pt : Point) :
    List.Sublist (if g then (if c then [pt] else []) else []) [pt] := by
  split_ifs
  · exact List.Sublist.refl _
  · exact List.nil_sublist _
  · exact List.nil_sublist _

/-- The neighbour list has no repetitions. -/
theorem getDirectNeighbors_nodup (img : Mat) (p : Point) :
    (getDirectNeighbors img p).Nodup := by
  have hsub : List.Sublist (getDirectNeighbors img p)
      ([Point.mk (p.x - 1) (p.y - 1)] ++ [Point.mk p.x (p.y - 1)] ++
        [Point.mk (p.x + 1) (p.y - 1)] ++ [Point.mk (p.x + 1) p.y] ++
        [Point.mk (p.x + 1) (p.y + 1)] ++ [Point.mk p.x (p.y + 1)] ++
        [Point.mk (p.x - 1) (p.y + 1)] ++ [Point.mk (p.x - 1) p.y]) := by
    unfold getDirectNeighbors
    exact List.Sublist.append (List.Sublist.append (List.Sublist.append (List.Sublist.append
      (List.Sublist.append (List.Sublist.append (List.Sublist.append
        (cond_singleton_sublist _ _ _) (cond_singleton_sublist _ _ _))
        (cond_singleton_sublist _ _ _)) (cond_singleton_sublist _ _ _))
        (cond_singleton_sublist _ _ _)) (cond_singleton_sublist _ _ _))
        (cond_singleton_sublist _ _ _)) (cond_singleton_sublist _ _ _)
  refine List.Nodup.sublist hsub ?_
  simp only [List.singleton_append, List.cons_append, List.nil_append, List.nodup_cons,
    List.mem_cons, List.mem_singleton, Point.mk.injEq, List.not_mem_nil, List.nodup_nil,
    or_false, not_or, not_and, and_true, true_implies, not_false_eq_true]
  omega

/-! ## The raster order -/

theorem mem_raster (img : Mat) (p : Point) : p ∈ img.raster ↔ img.inside p := by
  unfold Mat.raster Mat.inside
  simp only [List.mem_flatMap, List.mem_map, List.mem_range, Int.ofNat_eq_coe]
  constructor
  · rintro ⟨y, hy, x, hx, rfl⟩
    simp only
    omega
  · intro h
    refine ⟨p.y.toNat, by omega, p.x.toNat, by omega, ?_⟩
    cases p with
    | mk x y =>
      simp only at h
      simp only [Point.mk.injEq]
      constructor <;> omega

theorem length_raster (img : Mat) : img.raster.length = img.rows * img.cols := by
  unfold Mat.raster
  rw [List.length_flatMap]
  simp only [Function.comp_def, List.length_map, List.length_range, List.map_const',
    List.sum_replicate, smul_eq_mul]

/-- A repetition-free list of pixels of the image has at most `rows * cols`
elements. -/
theorem length_le_of_nodup_inside (img : Mat) (l : List Point) (hn : l.Nodup)
    (hin : ∀ p ∈ l, img.inside p) : l.length ≤ img.rows * img.cols := by
  rw [← length_raster]
  exact (List.subperm_of_subset hn (fun p hp => (mem_raster img p).mpr (hin p hp))).length_le

/-! ## The expansion loops of `preprocessClusters` -/

/-- The inner `for` loop appends to the list exactly the neighbours that pass
the cluster-point test and are not yet listed. -/
theorem expandCluster_spec (img : Mat) :
    ∀ (neighbors cp : List Point), ∃ ext, expandCluster img cp neighbors = cp ++ ext ∧
      (∀ r ∈ ext, r ∈ neighbors ∧ isClusterPoint img r = true) ∧
      (cp.Nodup → (cp ++ ext).Nodup) ∧
      (∀ n ∈ neighbors, isClusterPoint img n = true → n ∈ cp ++ ext) := by
  intro neighbors
  induction neighbors with
  | nil =>
    intro cp
    exact ⟨[], by simp [expandCluster], by simp, by simp, by simp⟩
  | cons n rest ih =>
    intro cp
    unfold expandCluster at ih ⊢
    rw [List.foldl_cons]
    by_cases hmem : n ∈ cp
    · obtain ⟨ext, h1, h2, h3, h4⟩ := ih cp
      simp only [hmem, not_true_eq_false, if_false]
      refine ⟨ext, h1, ?_, h3, ?_⟩
      · intro r hr
        exact ⟨List.mem_cons_of_mem _ (h2 r hr).1, (h2 r hr).2⟩
      · intro k hk hcp
        rcases List.mem_cons.mp hk with rfl | hk
        · exact List.mem_append_left _ hmem
        · exact h4 k hk hcp
    · by_cases hcp : isClusterPoint img n = true
      · obtain ⟨ext, h1, h2, h3, h4⟩ := ih (cp ++ [n])
        simp only [hmem, not_false_eq_true, if_true, hcp]
        refine ⟨n :: ext, ?_, ?_, ?_, ?_⟩
        · rw [h1, List.append_assoc]; rfl
        · intro r hr
          rcases List.mem_cons.mp hr with rfl | hr
          · exact ⟨List.mem_cons_self _ _, hcp⟩
          · exact ⟨List.mem_cons_of_mem _ (h2 r hr).1, (h2 r hr).2⟩
        · intro hnd
          have : (cp ++ [n]).Nodup := by
            refine List.Nodup.append hnd (List.nodup_singleton n) ?_
            intro y hy hy2
            rw [List.mem_singleton] at hy2
            subst hy2
            exact hmem hy
          have := h3 this
          rw [List.append_assoc] at this
          exact this
        · intro k hk hkcp
          have e : cp ++ n :: ext = cp ++ [n] ++ ext := by rw [List.append_assoc]; rfl
          rw [e]
          rcases List.mem_cons.mp hk with rfl | hk
          · exact List.mem_append_left _ (List.mem_append_right _ (List.mem_singleton.mpr rfl))
          · exact h4 k hk hkcp
      · obtain ⟨ext, h1, h2, h3, h4⟩ := ih cp
        simp only [hmem, not_false_eq_true, if_true, hcp, Bool.false_eq_true, if_false]
        refine ⟨ext, h1, ?_, h3, ?_⟩
        · intro r hr
          exact ⟨List.mem_cons_of_mem _ (h2 r hr).1, (h2 r hr).2⟩
        · intro k hk hkcp
          rcases List.mem_cons.mp hk with rfl | hk
          · exact absurd hkcp hcp
          · exact h4 k hk hkcp

/-- The `while` loop of the expansion terminates within the given bound and
returns a repetition-free list of cluster points, all linked to the seed,
that is closed under the expansion step. -/
theorem growCluster_spec (img : Mat) (s : Point) :
    ∀ (fuel : Nat) (cp : List Point) (c : Nat), c ≤ cp.length → cp.Nodup →
      ClusterPoints img cp → (∀ r ∈ cp, Linked img s r) →
      (∀ i, i < c → ∀ r, cp[i]? = some r →
        ∀ n ∈ getDirectNeighbors img r, isClusterPoint img n = true → n ∈ cp) →
      img.rows * img.cols + 1 ≤ fuel + c →
      ∃ C, growCluster img fuel cp c = some C ∧ C.Nodup ∧ ClusterPoints img C ∧
        (∀ r ∈ C, Linked img s r) ∧ ClosedCluster img C ∧ (∀ r ∈ cp, r ∈ C) := by
  intro fuel
  induction fuel with
  | zero =>
    intro cp c hc hnd hcl _ _ hfuel
    have := length_le_of_nodup_inside img cp hnd (fun p hp => (hcl p hp).1)
    omega
  | succ fuel ih =>
    intro cp c hc hnd hcl hlink hdone hfuel
    unfold growCluster
    cases hget : cp[c]? with
    | none =>
      simp only
      refine ⟨cp, rfl, hnd, hcl, hlink, ?_, fun r hr => hr⟩
      intro q hq n hn hcp
      obtain ⟨i, hi, hqi⟩ := List.getElem_of_mem hq
      have hlen : cp.length ≤ c := List.getElem?_eq_none_iff.mp hget
      exact hdone i (by omega) q (by rw [List.getElem?_eq_getElem hi, hqi]) n hn hcp
    | some point =>
      simp only
      have hclt : c < cp.length := (List.getElem?_eq_some_iff.mp hget).1
      have hpmem : point ∈ cp := List.getElem?_mem hget
      obtain ⟨ext, h1, h2, h3, h4⟩ := expandCluster_spec img (getDirectNeighbors img point) cp
      rw [h1]
      have hpin := (hcl point hpmem).1
      obtain ⟨C, hC, hCn, hCc, hCl, hCcl, hCsub⟩ := ih (cp ++ ext) (c + 1)
        (by rw [List.length_append]; omega) (h3 hnd)
        (by
          intro q hq
          rcases List.mem_append.mp hq with hq | hq
          · exact hcl q hq
          · obtain ⟨hqn, hqc⟩ := h2 q hq
            obtain ⟨hin, hedge, _⟩ := getDirectNeighbors_sound img point q hpin hqn
            exact ⟨hin, hedge, hqc⟩)
        (by
          intro q hq
          rcases List.mem_append.mp hq with hq | hq
          · exact hlink q hq
          · obtain ⟨hqn, hqc⟩ := h2 q hq
            exact Linked.step point q (hlink point hpmem) hqn hqc)
        (by
          intro i hi r hr n hn hcp
          rcases Nat.lt_succ_iff_lt_or_eq.mp hi with hlt | heq
          · rw [List.getElem?_append_left (by omega)] at hr
            exact List.mem_append_left _ (hdone i hlt r hr n hn hcp)
          · subst heq
            rw [List.getElem?_append_left hclt, hget] at hr
            obtain rfl := Option.some.inj hr
            exact h4 n hn hcp)
        (by omega)
      exact ⟨C, hC, hCn, hCc, hCl, hCcl, fun r hr => hCsub r (List.mem_append_left _ hr)⟩

/-! ## Writing the cluster index -/

theorem getClusterPoints_of_inBounds (m : EdgeMap) (hm : m.WF) (p : Point)
    (hb : m.inBounds p) : m.getClusterPoints p.x p.y = some (m.clusterAt p) := by
  obtain ⟨h0, h1⟩ := pos_bounds m p hb
  obtain ⟨a, ha⟩ := vecGet?_eq_some_of_lt m.dataClusters (m.pos p.x p.y) h0
    (by rw [hm.2.2.2]; exact h1)
  unfold EdgeMap.clusterAt EdgeMap.getClusterPoints
  rw [ha]; rfl

theorem pushBackClusterPoints_spec (m : EdgeMap) (hm : m.WF) (p : Point)
    (hb : m.inBounds p) (V : List Point) :
    ∃ m2, m.pushBackClusterPoints p.x p.y V = some m2 ∧ m2.rows = m.rows ∧
      m2.cols = m.cols ∧ m2.dataEdgeIds = m.dataEdgeIds ∧ m2.WF ∧
      ∀ q, m.inBounds q → m2.clusterAt q = if q = p then V else m.clusterAt q := by
  obtain ⟨h0, h1⟩ := pos_bounds m p hb
  unfold EdgeMap.pushBackClusterPoints
  rw [vecSet?_eq_some_of_lt _ _ _ h0 (by rw [hm.2.2.2]; exact h1)]
  refine ⟨_, rfl, rfl, rfl, rfl, ?_, ?_⟩
  · refine ⟨hm.1, hm.2.1, hm.2.2.1, ?_⟩
    simp only [List.length_set]; exact hm.2.2.2
  · intro q hq
    unfold EdgeMap.clusterAt EdgeMap.getClusterPoints
    have hpos : EdgeMap.pos { m with dataClusters := (m.dataClusters.set (m.pos p.x p.y).toNat V) }
        q.x q.y = m.pos q.x q.y := rfl
    simp only [hpos]
    rw [vecGet?_set _ _ _ _ h0 (by rw [hm.2.2.2]; exact h1)]
    by_cases hqp : q = p
    · subst hqp; simp
    · have : m.pos q.x q.y ≠ m.pos p.x p.y := fun h => hqp (pos_injective m q p hq hb h)
      simp [hqp, this]

/-- Saving the list `V` at every pixel of `l`. -/
theorem storeAt_spec (V : List Point) :
    ∀ (l : List Point) (m : EdgeMap), m.WF → (∀ p ∈ l, m.inBounds p) →
    ∃ m2, l.foldlM (fun m i => m.pushBackClusterPoints i.x i.y V) m = some m2 ∧
      m2.rows = m.rows ∧ m2.cols = m.cols ∧ m2.dataEdgeIds = m.dataEdgeIds ∧ m2.WF ∧
      ∀ q, m.inBounds q → m2.clusterAt q = if q ∈ l then V else m.clusterAt q := by
  intro l
  induction l with
  | nil =>
    intro m hm _
    exact ⟨m, rfl, rfl, rfl, rfl, hm, fun q _ => by simp⟩
  | cons p rest ih =>
    intro m hm hl
    obtain ⟨m1, h1, r1, c1, d1, wf1, cl1⟩ :=
      pushBackClusterPoints_spec m hm p (hl p (List.mem_cons_self _ _)) V
    obtain ⟨m2, h2, r2, c2, d2, wf2, cl2⟩ := ih m1 wf1
      (fun q hq => (inBounds_congr m m1 r1 c1 q).mpr (hl q (List.mem_cons_of_mem _ hq)))
    refine ⟨m2, ?_, r2.trans r1, c2.trans c1, d2.trans d1, wf2, ?_⟩
    · rw [List.foldlM_cons]
      simp only [Option.bind_eq_bind, h1, Option.some_bind]
      exact h2
    · intro q hq
      rw [cl2 q ((inBounds_congr m m1 r1 c1 q).mpr hq), cl1 q hq]
      by_cases hqr : q ∈ rest
      · simp [hqr]
      · by_cases hqp : q = p
        · simp [hqp]
        · simp [hqr, hqp]

theorem inside_iff_inBounds (img : Mat) (m : EdgeMap) (hr : m.rows = img.rows)
    (hc : m.cols = img.cols) (p : Point) : img.inside p ↔ m.inBounds p := by
  unfold Mat.inside EdgeMap.inBounds
  rw [hr, hc]

theorem idsAt_congr (m m2 : EdgeMap) (hc : m2.cols = m.cols)
    (hd : m2.dataEdgeIds = m.dataEdgeIds) (p : Point) : m2.idsAt p = m.idsAt p := by
  unfold EdgeMap.idsAt EdgeMap.getEdgeIds EdgeMap.pos
  rw [hc, hd]

theorem clusterAt_congr (m m2 : EdgeMap) (hc : m2.cols = m.cols)
    (hd : m2.dataClusters = m.dataClusters) (p : Point) : m2.clusterAt p = m.clusterAt p := by
  unfold EdgeMap.clusterAt EdgeMap.getClusterPoints EdgeMap.pos
  rw [hc, hd]

/-! ## Linked pixels -/

theorem linked_clusterPoint (img : Mat) (s : Point) (hs : img.inside s)
    (hse : img.px s.y s.x > 0) (hsc : isClusterPoint img s = true) (r : Point)
    (h : Linked img s r) :
    img.inside r ∧ img.px r.y r.x > 0 ∧ isClusterPoint img r = true := by
  induction h with
  | seed => exact ⟨hs, hse, hsc⟩
  | step r n _ hn hcp ih =>
    obtain ⟨hin, hedge, _⟩ := getDirectNeighbors_sound img r n ih.1 hn
    exact ⟨hin, hedge, hcp⟩

/-- A closed list that contains a pixel linked to the seed contains the seed. -/
theorem linked_back (img : Mat) (s : Point) (hs : img.inside s)
    (hse : img.px s.y s.x > 0) (hsc : isClusterPoint img s = true) (L : List Point)
    (hL : ClosedCluster img L) (r : Point) (h : Linked img s r) : r ∈ L → s ∈ L := by
  induction h with
  | seed => exact fun h => h
  | step r n hlink hn _ ih =>
    intro hnL
    obtain ⟨hrin, hre, hrc⟩ := linked_clusterPoint img s hs hse hsc r hlink
    exact ih (hL n hnL r (getDirectNeighbors_symm img r n hrin hre hn) hrc)

/-! ## One step and the whole run of `preprocessClusters` -/

/-- The cluster grown from an unclustered seed touches no pixel that already
belongs to a cluster. -/
theorem grown_cluster_fresh (img : Mat) (m : EdgeMap) (hok : ClusterIndexOk img m)
    (s : Point) (hs : img.inside s) (hse : img.px s.y s.x > 0)
    (hsc : isClusterPoint img s = true) (hempty : m.clusterAt s = [])
    (r : Point) (hr : Linked img s r) : m.clusterAt r = [] := by
  by_contra hne
  obtain ⟨hrin, _, _⟩ := linked_clusterPoint img s hs hse hsc r hr
  have h1 := hok.self_mem r hrin hne
  have h2 := linked_back img s hs hse hsc _ (hok.closed r hrin) r hr h1
  have h3 := hok.replicated r hrin s h2
  rw [hempty] at h3
  exact hne h3.symm

theorem preprocessPixel_spec (img : Mat) (m : EdgeMap) (p : Point)
    (hok : ClusterIndexOk img m) (hp : img.inside p) :
    ∃ m2, preprocessPixel img m p = some m2 ∧ ClusterIndexOk img m2 ∧
      m2.dataEdgeIds = m.dataEdgeIds ∧
      (∀ q, img.inside q → m.clusterAt q ≠ [] → m2.clusterAt q = m.clusterAt q) ∧
      (img.px p.y p.x > 0 → isClusterPoint img p = true → m2.clusterAt p ≠ []) := by
  have hib := inside_iff_inBounds img m hok.rows_eq hok.cols_eq
  have hget := getClusterPoints_of_inBounds m hok.wf p ((hib p).mp hp)
  unfold preprocessPixel
  by_cases hedge : img.px p.y p.x > 0
  · simp only [hedge, if_true, hget, Option.bind_eq_bind, Option.some_bind, Option.pure_def]
    by_cases hlen : (m.clusterAt p).length = 0
    · have hempty : m.clusterAt p = [] := List.length_eq_zero.mp hlen
      simp only [hlen, if_true]
      by_cases hcp : isClusterPoint img p = true
      · simp only [hcp, if_true]
        obtain ⟨C, hC, hCn, hCc, hCl, hCcl, hCsub⟩ := growCluster_spec img p
          (img.rows * img.cols + 1) [p] 0 (Nat.zero_le _) (List.nodup_singleton p)
          (by intro q hq; rw [List.mem_singleton] at hq; subst hq; exact ⟨hp, hedge, hcp⟩)
          (by intro q hq; rw [List.mem_singleton] at hq; subst hq; exact Linked.seed)
          (by intro i hi; omega) (by omega)
        have hpC : p ∈ C := hCsub p (List.mem_singleton.mpr rfl)
        have hfresh : ∀ r ∈ C, m.clusterAt r = [] := fun r hr =>
          grown_cluster_fresh img m hok p hp hedge hcp hempty r (hCl r hr)
        obtain ⟨m2, hst, r2, c2, d2, wf2, cl2⟩ := storeAt_spec C C m hok.wf
          (fun q hq => (hib q).mp (hCc q hq).1)
        have hcl : ∀ q, img.inside q → m2.clusterAt q = if q ∈ C then C else m.clusterAt q :=
          fun q hq => cl2 q ((hib q).mp hq)
        rw [hC]
        simp only [Option.some_bind]
        unfold storeCluster
        refine ⟨m2, hst, ?_, d2, ?_, ?_⟩
        · refine ⟨wf2, r2.trans hok.rows_eq, c2.trans hok.cols_eq, ?_, ?_, ?_, ?_, ?_⟩
          · intro q hq hne
            rw [hcl q hq] at hne ⊢
            split_ifs at hne ⊢ with hqC
            · exact hqC
            · exact hok.self_mem q hq hne
          · intro q hq
            rw [hcl q hq]
            split_ifs
            · exact hCn
            · exact hok.nodup q hq
          · intro q hq r hr
            rw [hcl q hq] at hr ⊢
            split_ifs at hr ⊢ with hqC
            · rw [hcl r (hCc r hr).1, if_pos hr]
            · have hrin := (hok.members q hq r hr).1
              have hrep := hok.replicated q hq r hr
              have hrC : r ∉ C := by
                intro hrC
                have := hfresh r hrC
                rw [hrep] at this
                rw [this] at hr
                simp at hr
              rw [hcl r hrin, if_neg hrC, hrep]
          · intro q hq
            rw [hcl q hq]
            split_ifs
            · exact hCc
            · exact hok.members q hq
          · intro q hq
            rw [hcl q hq]
            split_ifs
            · exact hCcl
            · exact hok.closed q hq
        · intro q hq hne
          have hqC : q ∉ C := fun h => hne (hfresh q h)
          rw [hcl q hq, if_neg hqC]
        · intro _ _
          rw [hcl p hp, if_pos hpC]
          intro h0
          rw [h0] at hpC
          simp at hpC
      · simp only [hcp, Bool.false_eq_true, if_false]
        exact ⟨m, rfl, hok, rfl, fun _ _ _ => rfl, fun _ h => h.elim⟩
    · simp only [hlen, if_false]
      refine ⟨m, rfl, hok, rfl, fun _ _ _ => rfl, fun _ _ h0 => ?_⟩
      rw [h0] at hlen
      exact hlen rfl
  · simp only [hedge, if_false, Option.pure_def]
    exact ⟨m, rfl, hok, rfl, fun _ _ _ => rfl, fun h => h.elim⟩

/-- Running the pixel step over any list of pixels of the image. -/
theorem preprocessFold_spec (img : Mat) :
    ∀ (l : List Point) (m : EdgeMap), ClusterIndexOk img m → (∀ p ∈ l, img.inside p) →
    ∃ m2, l.foldlM (preprocessPixel img) m = some m2 ∧ ClusterIndexOk img m2 ∧
      m2.dataEdgeIds = m.dataEdgeIds ∧
      (∀ q, img.inside q → m.clusterAt q ≠ [] → m2.clusterAt q = m.clusterAt q) ∧
      (∀ p ∈ l, img.px p.y p.x > 0 → isClusterPoint img p = true → m2.clusterAt p ≠ []) := by
  intro l
  induction l with
  | nil =>
    intro m hok _
    exact ⟨m, rfl, hok, rfl, fun _ _ _ => rfl, fun p hp => by simp at hp⟩
  | cons p rest ih =>
    intro m hok hl
    have hp := hl p (List.mem_cons_self _ _)
    obtain ⟨m1, h1, ok1, d1, keep1, new1⟩ := preprocessPixel_spec img m p hok hp
    obtain ⟨m2, h2, ok2, d2, keep2, new2⟩ := ih m1 ok1
      (fun q hq => hl q (List.mem_cons_of_mem _ hq))
    refine ⟨m2, ?_, ok2, d2.trans d1, ?_, ?_⟩
    · rw [List.foldlM_cons]
      simp only [Option.bind_eq_bind, h1, Option.some_bind]
      exact h2
    · intro q hq hne
      have e1 := keep1 q hq hne
      rw [keep2 q hq (by rw [e1]; exact hne), e1]
    · intro q hq hedge hcp
      rcases List.mem_cons.mp hq with rfl | hq
      · have hne := new1 hedge hcp
        rw [keep2 q hp hne]
        exact hne
      · exact new2 q hq hedge hcp

theorem clusterAt_of_clustersEmpty (m : EdgeMap) (h : m.ClustersEmpty) (p : Point) :
    m.clusterAt p = [] := by
  unfold EdgeMap.clusterAt EdgeMap.getClusterPoints
  cases hget : vecGet? m.dataClusters (m.pos p.x p.y) with
  | none => rfl
  | some L =>
    unfold vecGet? at hget
    split_ifs at hget
    exact h L (List.getElem?_mem hget)

theorem clusterIndexOk_of_reset (img : Mat) (m : EdgeMap) (hwf : m.WF)
    (hr : m.rows = img.rows) (hc : m.cols = img.cols) (hreset : m.ClustersEmpty) :
    ClusterIndexOk img m := by
  have h0 := clusterAt_of_clustersEmpty m hreset
  refine ⟨hwf, hr, hc, ?_, ?_, ?_, ?_, ?_⟩
  · intro p _ hne; exact absurd (h0 p) hne
  · intro p _; rw [h0 p]; exact List.nodup_nil
  · intro p _ q hq; rw [h0 p] at hq; simp at hq
  · intro p _ q hq; rw [h0 p] at hq; simp at hq
  · intro p _ q hq; rw [h0 p] at hq; simp at hq

theorem foldlM_append_option {α β : Type} (f : β → α → Option β) (l1 l2 : List α) (b : β) :
    (l1 ++ l2).foldlM f b = (l1.foldlM f b).bind (fun b1 => l2.foldlM f b1) := by
  rw [List.foldlM_append]
  rfl

/-- What `preprocessClusters` establishes on a reset cluster index. -/
theorem preprocessClusters_spec (img : Mat) (m0 : EdgeMap) (hwf : m0.WF)
    (hr : m0.rows = img.rows) (hc : m0.cols = img.cols) (hreset : m0.ClustersEmpty) :
    ∃ m, preprocessClusters img m0 = some m ∧ ClusterIndexOk img m ∧
      m.dataEdgeIds = m0.dataEdgeIds ∧
      (∀ p, img.inside p → img.px p.y p.x > 0 → isClusterPoint img p = true →
        m.clusterAt p ≠ []) := by
  obtain ⟨m, h1, h2, h3, _, h5⟩ := preprocessFold_spec img img.raster m0
    (clusterIndexOk_of_reset img m0 hwf hr hc hreset) (fun p hp => (mem_raster img p).mp hp)
  exact ⟨m, h1, h2, h3, fun p hp => h5 p ((mem_raster img p).mpr hp)⟩

/-! ### Claim on `preprocessClusters` -/

/-- C10: on a reset cluster index `preprocessClusters` returns a replicated
index: a non-empty cluster list of a pixel contains that pixel, has no
duplicates and is stored unchanged at each of its points; and a list that is
non-empty at some moment of the raster scan is still the same list at the end,
so no later seed overwrites it. -/
theorem preprocessClusters_replicated (img : Mat) (m0 : EdgeMap) (hwf : m0.WF)
    (hr : m0.rows = img.rows) (hc : m0.cols = img.cols) (hreset : m0.ClustersEmpty) :
    ∃ m, preprocessClusters img m0 = some m ∧
      (∀ p, img.inside p → m.clusterAt p ≠ [] →
        p ∈ m.clusterAt p ∧ (m.clusterAt p).Nodup ∧
          ∀ q ∈ m.clusterAt p, m.clusterAt q = m.clusterAt p) ∧
      (∀ pre post, img.raster = pre ++ post →
        ∃ m1, pre.foldlM (preprocessPixel img) m0 = some m1 ∧
          post.foldlM (preprocessPixel img) m1 = some m ∧
          ∀ p, img.inside p → m1.clusterAt p ≠ [] → m.clusterAt p = m1.clusterAt p) := by
  obtain ⟨m, hm, hok, _, _⟩ := preprocessClusters_spec img m0 hwf hr hc hreset
  refine ⟨m, hm, ?_, ?_⟩
  · intro p hp hne
    exact ⟨hok.self_mem p hp hne, hok.nodup p hp, hok.replicated p hp⟩
  · intro pre post hsplit
    have hin : ∀ p, p ∈ pre ++ post → img.inside p := by
      intro p hp; rw [← hsplit] at hp; exact (mem_raster img p).mp hp
    obtain ⟨m1, h1, ok1, _, _, _⟩ := preprocessFold_spec img pre m0
      (clusterIndexOk_of_reset img m0 hwf hr hc hreset)
      (fun p hp => hin p (List.mem_append_left _ hp))
    obtain ⟨m2, h2, _, _, keep2, _⟩ := preprocessFold_spec img post m1 ok1
      (fun p hp => hin p (List.mem_append_right _ hp))
    have : preprocessClusters img m0 = some m2 := by
      unfold preprocessClusters
      rw [hsplit, foldlM_append_option, h1]
      exact h2
    rw [hm] at this
    obtain rfl := Option.some.inj this
    exact ⟨m1, h1, h2, keep2⟩

/-- A run of `preprocessClusters_replicated` on the `2 × 2` block of edge pixels. -/
theorem preprocessClusters_replicated_witness :
    ∃ m, preprocessClusters (Mat.ofRows [[1, 1], [1, 1]]) (EdgeMap.init 2 2) = some m ∧
      (∀ p, (Mat.ofRows [[1, 1], [1, 1]]).inside p → m.clusterAt p ≠ [] →
        p ∈ m.clusterAt p ∧ (m.clusterAt p).Nodup ∧
          ∀ q ∈ m.clusterAt p, m.clusterAt q = m.clusterAt p) ∧
      (∀ pre post, (Mat.ofRows [[1, 1], [1, 1]]).raster = pre ++ post →
        ∃ m1, pre.foldlM (preprocessPixel (Mat.ofRows [[1, 1], [1, 1]])) (EdgeMap.init 2 2) =
            some m1 ∧
          post.foldlM (preprocessPixel (Mat.ofRows [[1, 1], [1, 1]])) m1 = some m ∧
          ∀ p, (Mat.ofRows [[1, 1], [1, 1]]).inside p → m1.clusterAt p ≠ [] →
            m.clusterAt p = m1.clusterAt p) :=
  preprocessClusters_replicated (Mat.ofRows [[1, 1], [1, 1]]) (EdgeMap.init 2 2)
    (by decide) (by decide) (by decide) (by decide)

/-! ## Reading the maps during tracing -/

theorem getNumberOfEdgeIds_of_inBounds (m : EdgeMap) (hm : m.WF) (p : Point)
    (hb : m.inBounds p) :
    m.getNumberOfEdgeIds p.x p.y = some ((m.idsAt p).length : Int) := by
  have h := getEdgeIds_of_inBounds m hm p hb
  unfold EdgeMap.getEdgeIds at h
  unfold EdgeMap.getNumberOfEdgeIds
  rw [h]; rfl

theorem isCluster_of_inBounds (m : EdgeMap) (hm : m.WF) (p : Point) (hb : m.inBounds p) :
    m.isCluster p.x p.y = some (decide ((m.clusterAt p).length ≥ 1)) := by
  have h := getClusterPoints_of_inBounds m hm p hb
  unfold EdgeMap.getClusterPoints at h
  unfold EdgeMap.isCluster
  rw [h]; rfl

/-- The test that admits a neighbour to `unvisitedNeighbors`. -/
theorem admitsNeighbor_of_inBounds (m : EdgeMap) (hm : m.WF) (p : Point) (hb : m.inBounds p) :
    admitsNeighbor m p = some (decide (m.idsAt p = [] ∨ m.clusterAt p ≠ [])) := by
  unfold admitsNeighbor
  rw [getNumberOfEdgeIds_of_inBounds m hm p hb]
  simp only [Option.bind_eq_bind, Option.some_bind, Option.pure_def]
  by_cases h0 : m.idsAt p = []
  · simp [h0]
  · have hlen : ((m.idsAt p).length : Int) ≠ 0 := by
      have := List.length_pos.mpr h0
      omega
    rw [if_neg hlen, isCluster_of_inBounds m hm p hb]
    by_cases hc : m.clusterAt p = []
    · simp [h0, hc]
    · have := List.length_pos.mpr hc
      simp [h0, hc]
      omega

theorem unvisitedNeighbors_loop (m : EdgeMap) (hm : m.WF) :
    ∀ (l acc : List Point), (∀ p ∈ l, m.inBounds p) →
    l.foldlM
      (fun unvisited point => do
        let wanted ← admitsNeighbor m point
        pure (if wanted then unvisited ++ [point] else unvisited))
      acc =
    some (acc ++ l.filter fun n => decide (m.idsAt n = [] ∨ m.clusterAt n ≠ [])) := by
  intro l
  induction l with
  | nil => intro acc _; simp
  | cons p rest ih =>
    intro acc hl
    have hp := hl p (List.mem_cons_self _ _)
    rw [List.foldlM_cons]
    simp only [Option.bind_eq_bind, Option.pure_def, admitsNeighbor_of_inBounds m hm p hp,
      Option.some_bind] at ih ⊢
    rw [ih _ (fun q hq => hl q (List.mem_cons_of_mem _ hq))]
    by_cases hd : m.idsAt p = [] ∨ m.clusterAt p ≠ []
    · simp [hd, List.filter_cons]
    · simp [hd, List.filter_cons]

theorem unvisitedNeighbors_eq (m : EdgeMap) (hm : m.WF) (l : List Point)
    (hl : ∀ p ∈ l, m.inBounds p) :
    unvisitedNeighbors m l =
      some (l.filter fun n => decide (m.idsAt n = [] ∨ m.clusterAt n ≠ [])) := by
  unfold unvisitedNeighbors
  rw [unvisitedNeighbors_loop m hm l [] hl]
  rfl

/-! ## The number of pixels without an id -/

theorem countP_lt_of_imp {α : Type} (P Q : α → Bool) :
    ∀ (l : List α), (∀ x ∈ l, Q x = true → P x = true) →
      (∃ x ∈ l, P x = true ∧ Q x = false) → l.countP Q < l.countP P := by
  intro l
  induction l with
  | nil => intro _ h; obtain ⟨x, hx, _⟩ := h; simp at hx
  | cons a rest ih =>
    intro himp hex
    have hle : rest.countP Q ≤ rest.countP P :=
      List.countP_mono_left (fun x hx => himp x (List.mem_cons_of_mem _ hx))
    have ha := himp a (List.mem_cons_self _ _)
    rw [List.countP_cons, List.countP_cons]
    obtain ⟨x, hx, hPx, hQx⟩ := hex
    rcases List.mem_cons.mp hx with rfl | hx
    · simp only [hPx, hQx, if_true, Bool.false_eq_true, if_false]
      omega
    · have := ih (fun y hy => himp y (List.mem_cons_of_mem _ hy)) ⟨x, hx, hPx, hQx⟩
      by_cases hQa : Q a = true
      · simp only [hQa, ha hQa, if_true]; omega
      · simp only [hQa, Bool.false_eq_true, if_false]
        split_ifs <;> omega

theorem idless_le (img : Mat) (m : EdgeMap) : idless img m ≤ img.rows * img.cols := by
  unfold idless
  rw [← length_raster]
  exact List.countP_le_length _

/-- Registering an id at a pixel that had none decreases the number of pixels
without an id. -/
theorem idless_lt (img : Mat) (m m2 : EdgeMap) (q : Point) (hq : img.inside q)
    (hmono : ∀ p, img.inside p → m2.idsAt p = [] → m.idsAt p = [])
    (h0 : m.idsAt q = []) (h1 : m2.idsAt q ≠ []) : idless img m2 < idless img m := by
  unfold idless
  apply countP_lt_of_imp
  · intro p hp h
    simp only [decide_eq_true_eq] at h ⊢
    exact hmono p ((mem_raster img p).mp hp) h
  · exact ⟨q, (mem_raster img q).mpr hq, by simp [h0], by simp [h1]⟩

/-! ## Registering the current pixel -/

theorem mapOk_inBounds (img : Mat) (m : EdgeMap) (hm : MapOk img m) (p : Point) :
    img.inside p ↔ m.inBounds p :=
  inside_iff_inBounds img m hm.rows_eq hm.cols_eq p

/-- The first statement of `traceEdge`: the id `c` is registered at `q`. -/
theorem pushBackEdgeId_mapOk (img : Mat) (m : EdgeMap) (hm : MapOk img m) (q : Point)
    (hq : img.inside q) (c : Int) :
    ∃ m2, m.pushBackEdgeId q.x q.y c = some m2 ∧ MapOk img m2 ∧
      m2.dataClusters = m.dataClusters ∧ m2.cols = m.cols ∧
      (∀ p, img.inside p → ∀ x, (x ∈ m2.idsAt p ↔ x ∈ m.idsAt p ∨ (x = c ∧ p = q))) ∧
      (∀ p, m2.clusterAt p = m.clusterAt p) := by
  obtain ⟨m2, h1, r2, c2, d2, wf2, ids2⟩ :=
    pushBackEdgeId_spec m hm.wf q ((mapOk_inBounds img m hm q).mp hq) c
  have hcl : ∀ p, m2.clusterAt p = m.clusterAt p := clusterAt_congr m m2 c2 d2
  refine ⟨m2, h1, ⟨wf2, r2.trans hm.rows_eq, c2.trans hm.cols_eq, ?_, ?_⟩, d2, c2, ?_, hcl⟩
  · intro p hp
    have hp0 : m.inBounds p := (inBounds_congr m m2 r2 c2 p).mp hp
    rw [ids2 p hp0]
    split_ifs with hpq hmem
    · exact hm.nodup p hp0
    · exact List.Nodup.append (hm.nodup p hp0) (List.nodup_singleton c)
        (by intro y hy hy2; rw [List.mem_singleton] at hy2; subst hy2; exact hmem hy)
    · exact hm.nodup p hp0
  · intro p hp he hcp
    rw [hcl p]
    exact hm.complete p hp he hcp
  · intro p hp x
    rw [ids2 p ((mapOk_inBounds img m hm p).mp hp)]
    by_cases hpq : p = q
    · subst hpq
      simp only [if_true, and_true]
      split_ifs with hmem
      · constructor
        · exact fun h => Or.inl h
        · rintro (h | h)
          · exact h
          · rw [h]; exact hmem
      · rw [List.mem_append, List.mem_singleton]
    · simp only [hpq, if_false, and_false, or_false]

/-! ## One call of `traceEdge` -/

/-- The body of `traceEdge` after the id has been registered at the current
pixel `q` and the unvisited neighbours have been collected. -/
theorem traceEdge_unfold (img : Mat) (fuel : Nat) (s : EdgeProcessor) (q : Point)
    (E : List Point) (m1 : EdgeMap) (hm1 : m1.WF) (hr : m1.rows = img.rows)
    (hc : m1.cols = img.cols) (hq : img.inside q)
    (hpush : s.edgeMap.pushBackEdgeId q.x q.y s.edgeIdCounter = some m1) :
    traceEdge img (fuel + 1) s q E =
      match (if m1.clusterAt q = [] then
          (getDirectNeighbors img q).filter
            (fun n => decide (m1.idsAt n = [] ∨ m1.clusterAt n ≠ []))
        else []) with
      | [n0, n1] =>
        (traceEdge img fuel { s with edgeMap := m1 } n0 [q]).bind fun s1 =>
          (traceEdge img fuel s1 n1 [q]).bind fun s2 =>
            mergeEdges s2 (s2.edgeIdCounter - 2) (s2.edgeIdCounter - 1)
      | [n0] => traceEdge img fuel { s with edgeMap := m1 } n0 (E ++ [q])
      | [] =>
        some { edgeIdCounter := s.edgeIdCounter + 1
               edges := s.edges.pushBack (E ++ [q])
               edgeMap := m1 }
      | _ => some { s with edgeMap := m1 } := by
  have hib := inside_iff_inBounds img m1 hr hc
  have hcl := isCluster_of_inBounds m1 hm1 q ((hib q).mp hq)
  have hunv := unvisitedNeighbors_eq m1 hm1 (getDirectNeighbors img q)
    (fun p hp => (hib p).mp (getDirectNeighbors_sound img q p hq hp).1)
  rw [traceEdge]
  simp only [hpush, Option.bind_eq_bind, Option.some_bind, hcl, Option.pure_def]
  by_cases hcq : m1.clusterAt q = []
  · have hdec : decide ((m1.clusterAt q).length ≥ 1) = false := by rw [hcq]; rfl
    rw [hdec, if_pos hcq]
    simp only [Bool.not_false, if_true, hunv, Option.some_bind]
  · have hdec : decide ((m1.clusterAt q).length ≥ 1) = true := by
      have := List.length_pos.mpr hcq
      simpa using this
    rw [hdec, if_neg hcq]
    simp only [Bool.not_true, Bool.false_eq_true, if_false, Option.some_bind]

theorem length_filter_le_one {α : Type} (P : α → Bool) (l : List α) (hlen : l.length ≤ 2)
    (a : α) (ha : a ∈ l) (hPa : P a = false) : (l.filter P).length ≤ 1 := by
  have h1 := List.length_eq_countP_add_countP P l
  have h2 : 0 < l.countP (fun x => ¬ P x) := by
    rw [List.countP_pos_iff]
    exact ⟨a, ha, by simp [hPa]⟩
  rw [← List.countP_eq_length_filter]
  omega

theorem eq_nil_of_subset_nil {α : Type} (l l2 : List α) (h : ∀ x, x ∈ l → x ∈ l2)
    (h2 : l2 = []) : l = [] := by
  subst h2
  exact List.eq_nil_iff_forall_not_mem.mpr (fun x hx => by simpa using h x hx)

/-- Ending the current edge at `q`. -/
theorem followPost_finalize (img : Mat) (s : EdgeProcessor) (q : Point) (E : List Point)
    (m1 : EdgeMap) (hq : img.inside q) (hqe : img.px q.y q.x > 0) (hm1 : MapOk img m1)
    (hd1 : m1.dataClusters = s.edgeMap.dataClusters)
    (hids1 : ∀ p, img.inside p → ∀ x,
      (x ∈ m1.idsAt p ↔ x ∈ s.edgeMap.idsAt p ∨ (x = s.edgeIdCounter ∧ p = q))) :
    FollowPost img s q E [q]
      { edgeIdCounter := s.edgeIdCounter + 1
        edges := s.edges.pushBack (E ++ [q])
        edgeMap := m1 } := by
  refine ⟨rfl, rfl, rfl, hm1, hd1, ?_, ?_, ?_, ?_⟩
  · intro p hp x
    rw [hids1 p hp x, List.mem_singleton]
  · intro p hp
    rw [List.mem_singleton] at hp
    subst hp
    exact ⟨hq, hqe⟩
  · intro p hp
    rw [List.mem_singleton] at hp
    exact Or.inl hp
  · intro p hp hne
    rw [List.mem_singleton] at hp
    exact absurd hp hne

theorem not_clusterPoint_of_unclustered (img : Mat) (m : EdgeMap) (hm : MapOk img m)
    (q : Point) (hq : img.inside q) (hqe : img.px q.y q.x > 0) (hcq : m.clusterAt q = []) :
    (getDirectNeighbors img q).length ≤ 2 := by
  have hncp : ¬ isClusterPoint img q = true := fun h => hm.complete q hq hqe h hcq
  unfold isClusterPoint at hncp
  simp only [Bool.or_eq_true, decide_eq_true_eq, not_or] at hncp
  omega

/-- A call of `traceEdge` that continues an edge from the visited pixel `pred`
into its direct neighbour `q` never branches: it walks on until no neighbour is
admitted and then appends the edge to the table. -/
theorem traceEdge_follow (img : Mat) :
    ∀ (fuel : Nat) (s : EdgeProcessor) (q : Point) (E : List Point) (pred : Point),
      MapOk img s.edgeMap → img.inside pred → img.px pred.y pred.x > 0 →
      s.edgeMap.clusterAt pred = [] → s.edgeMap.idsAt pred ≠ [] →
      q ∈ getDirectNeighbors img pred →
      (s.edgeMap.clusterAt q ≠ [] ∨ s.edgeMap.idsAt q = [] ∨
        ∀ n ∈ getDirectNeighbors img q,
          s.edgeMap.idsAt n ≠ [] ∧ s.edgeMap.clusterAt n = []) →
      idless img s.edgeMap + 1 ≤ fuel →
      ∃ path s2, traceEdge img fuel s q E = some s2 ∧ FollowPost img s q E path s2 := by
  intro fuel
  induction fuel with
  | zero => intro s q E pred _ _ _ _ _ _ _ hfuel; omega
  | succ fuel ih =>
    intro s q E pred hm hpin hpe hpc hpi hq hentry hfuel
    obtain ⟨hqin, hqe, _, _⟩ := getDirectNeighbors_sound img pred q hpin hq
    obtain ⟨m1, hpush, hm1, hd1, hc1, hids1, hcl1⟩ :=
      pushBackEdgeId_mapOk img s.edgeMap hm q hqin s.edgeIdCounter
    have hmono : ∀ p, img.inside p → m1.idsAt p = [] → s.edgeMap.idsAt p = [] :=
      fun p hp h0 => eq_nil_of_subset_nil _ _ (fun x hx => (hids1 p hp x).mpr (Or.inl hx)) h0
    have hfin := followPost_finalize img s q E m1 hqin hqe hm1 hd1 hids1
    rw [traceEdge_unfold img fuel s q E m1 hm1.wf hm1.rows_eq hm1.cols_eq hqin hpush]
    by_cases hcq : m1.clusterAt q = []
    · rw [if_pos hcq]
      have hcq0 : s.edgeMap.clusterAt q = [] := by rw [← hcl1 q]; exact hcq
      have hlen2 := not_clusterPoint_of_unclustered img m1 hm1 q hqin hqe hcq
      have hpred_mem : pred ∈ getDirectNeighbors img q :=
        getDirectNeighbors_symm img pred q hpin hpe hq
      have hpred_vis : decide (m1.idsAt pred = [] ∨ m1.clusterAt pred ≠ []) = false := by
        rw [decide_eq_false_iff_not, not_or]
        exact ⟨fun h0 => hpi (hmono pred hpin h0), by rw [hcl1 pred, hpc]; simp⟩
      have hU1 := length_filter_le_one
        (fun n => decide (m1.idsAt n = [] ∨ m1.clusterAt n ≠ [])) (getDirectNeighbors img q)
        hlen2 pred hpred_mem hpred_vis
      cases hU : (getDirectNeighbors img q).filter
          (fun n => decide (m1.idsAt n = [] ∨ m1.clusterAt n ≠ [])) with
      | nil =>
        refine ⟨[q], _, ?_, hfin⟩
        rfl
      | cons n0 rest =>
        have hrest : rest = [] := by
          rw [hU] at hU1
          simp only [List.length_cons] at hU1
          exact List.length_eq_zero.mp (by omega)
        subst hrest
        have hn0 : n0 ∈ (getDirectNeighbors img q).filter
            (fun n => decide (m1.idsAt n = [] ∨ m1.clusterAt n ≠ [])) := by
          rw [hU]; exact List.mem_singleton.mpr rfl
        rw [List.mem_filter, decide_eq_true_eq] at hn0
        obtain ⟨hn0mem, hn0adm⟩ := hn0
        obtain ⟨hn0in, _, _, _⟩ := getDirectNeighbors_sound img q n0 hqin hn0mem
        -- the pixel `q` had no id before this call
        have hq0 : s.edgeMap.idsAt q = [] := by
          rcases hentry with h | h | h
          · exact absurd hcq0 h
          · exact h
          · exfalso
            obtain ⟨h1, h2⟩ := h n0 hn0mem
            rcases hn0adm with h3 | h3
            · exact h1 (hmono n0 hn0in h3)
            · rw [hcl1 n0] at h3; exact h3 h2
        have hq1 : m1.idsAt q ≠ [] := by
          intro h0
          have : s.edgeIdCounter ∈ m1.idsAt q := (hids1 q hqin _).mpr (Or.inr ⟨rfl, rfl⟩)
          rw [h0] at this
          simp at this
        have hlt := idless_lt img s.edgeMap m1 q hqin hmono hq0 hq1
        obtain ⟨path, s2, htr, post⟩ := ih { s with edgeMap := m1 } n0 (E ++ [q]) q hm1 hqin hqe
          hcq hq1 hn0mem
          (by rcases hn0adm with h3 | h3
              · exact Or.inr (Or.inl h3)
              · exact Or.inl h3)
          (by show idless img m1 + 1 ≤ fuel; omega)
        refine ⟨q :: path, s2, htr, ?_⟩
        refine ⟨rfl, ?_, post.counter, post.mapOk, post.clusters.trans hd1, ?_, ?_, ?_, ?_⟩
        · rw [post.edges, List.append_assoc]; rfl
        · intro p hp x
          rw [post.ids p hp x]
          show x ∈ m1.idsAt p ∨ (x = s.edgeIdCounter ∧ p ∈ path) ↔ _
          rw [hids1 p hp x, List.mem_cons]
          constructor
          · rintro ((h | h) | h)
            · exact Or.inl h
            · exact Or.inr ⟨h.1, Or.inl h.2⟩
            · exact Or.inr ⟨h.1, Or.inr h.2⟩
          · rintro (h | ⟨h1, h2 | h2⟩)
            · exact Or.inl (Or.inl h)
            · exact Or.inl (Or.inr ⟨h1, h2⟩)
            · exact Or.inr ⟨h1, h2⟩
        · intro p hp
          rcases List.mem_cons.mp hp with rfl | hp
          · exact ⟨hqin, hqe⟩
          · exact post.inside p hp
        · intro p hp
          rcases List.mem_cons.mp hp with rfl | hp
          · exact Or.inl rfl
          · right
            have hpin2 := (post.inside p hp).1
            have key : m1.idsAt p = [] ∨ m1.clusterAt p ≠ [] := by
              rcases post.entered p hp with h | h | h
              · rw [h]; exact hn0adm
              · exact Or.inl h
              · exact Or.inr h
            rcases key with h | h
            · exact Or.inl (hmono p hpin2 h)
            · rw [hcl1 p] at h; exact Or.inr h
        · intro p hp hne
          rcases List.mem_cons.mp hp with rfl | hp
          · exact absurd rfl hne
          · by_cases hpn : p = n0
            · subst hpn
              exact ⟨q, List.mem_cons_self _ _, hn0mem, hcq0⟩
            · obtain ⟨r, hr, h1, h2⟩ := post.chain p hp hpn
              refine ⟨r, List.mem_cons_of_mem _ hr, h1, ?_⟩
              rw [← hcl1 r]; exact h2
    · rw [if_neg hcq]
      refine ⟨[q], _, ?_, hfin⟩
      rfl

/-! ## Appending an edge to the table -/

theorem vecGet?_append_singleton {α : Type} (l : List α) (a : α) (i : Int) :
    vecGet? (l ++ [a]) i = if i = l.length then some a else vecGet? l i := by
  unfold vecGet?
  by_cases h0 : 0 ≤ i
  · simp only [h0, if_true]
    by_cases heq : i = l.length
    · have : i.toNat = l.length := by omega
      rw [if_pos heq, this]
      simp
    · rw [if_neg heq]
      rcases Nat.lt_or_ge i.toNat l.length with hlt | hge
      · rw [List.getElem?_append_left hlt]
      · have hgt : l.length < i.toNat := by omega
        rw [List.getElem?_eq_none (by simp only [List.length_append, List.length_singleton]; omega),
          List.getElem?_eq_none hge]
  · have : i ≠ l.length := by omega
    simp [h0, this]

/-- The raster-loop invariant after an edge with a fresh id has been appended
and registered at its pixels. -/
theorem traceInv_append (img : Mat) (s s2 : EdgeProcessor) (Enew : List Point)
    (hinv : TraceInv img s) (hmap : MapOk img s2.edgeMap)
    (hedges : s2.edges.data = s.edges.data ++ [Enew])
    (hcounter : s2.edgeIdCounter = s.edgeIdCounter + 1) (hEne : Enew ≠ [])
    (hin : ∀ p ∈ Enew, img.inside p)
    (hids : ∀ p, img.inside p → ∀ x,
      (x ∈ s2.edgeMap.idsAt p ↔ x ∈ s.edgeMap.idsAt p ∨ (x = s.edgeIdCounter ∧ p ∈ Enew))) :
    TraceInv img s2 := by
  have hb := mapOk_inBounds img s.edgeMap hinv.mapOk
  have hb2 := mapOk_inBounds img s2.edgeMap hmap
  have hget : ∀ i, s2.edges.getEdge i =
      if i = s.edgeIdCounter then some Enew else s.edges.getEdge i := by
    intro i
    unfold Edges.getEdge
    rw [hedges, vecGet?_append_singleton, hinv.counter]
  have sound : ∀ p, s2.edgeMap.inBounds p → ∀ e ∈ s2.edgeMap.idsAt p,
      ∃ E, s2.edges.getEdge e = some E ∧ E ≠ [] ∧ p ∈ E := by
    intro p hp e he
    have hpi := (hb2 p).mpr hp
    rw [hids p hpi e] at he
    rw [hget e]
    rcases he with he | ⟨he, hpE⟩
    · obtain ⟨E, hE, hEne2, hpE⟩ := hinv.agree.stored_sound p ((hb p).mp hpi) e he
      have hne : e ≠ s.edgeIdCounter := by
        have := (vecGet?_bounds _ _ _ hE).2
        rw [hinv.counter]
        omega
      rw [if_neg hne]
      exact ⟨E, hE, hEne2, hpE⟩
    · rw [if_pos he]
      exact ⟨Enew, rfl, hEne, hpE⟩
  refine ⟨hmap, ⟨sound, ?_, ?_⟩, ?_⟩
  · intro e E hE p hpE
    rw [hget e] at hE
    by_cases he : e = s.edgeIdCounter
    · rw [if_pos he] at hE
      obtain rfl := Option.some.inj hE
      have hpi := hin p hpE
      exact ⟨(hb2 p).mp hpi, (hids p hpi e).mpr (Or.inr ⟨he, hpE⟩)⟩
    · rw [if_neg he] at hE
      obtain ⟨hp, hmem⟩ := hinv.agree.edge_registered e E hE p hpE
      have hpi := (hb p).mpr hp
      exact ⟨(hb2 p).mp hpi, (hids p hpi e).mpr (Or.inl hmem)⟩
  · intro e hE p hp hmem
    obtain ⟨E, hE2, hEne2, _⟩ := sound p hp e hmem
    rw [hE] at hE2
    exact hEne2 (Option.some.inj hE2).symm
  · rw [hcounter, hedges, hinv.counter]
    simp

/-- The merge at the end of the two-way branch: the two edges traced from the
seed `p` are the last two entries of the table, the first one fully registered,
the second one registered at all its pixels but the seed. -/
theorem traceInv_merge (img : Mat) (s3 s4 : EdgeProcessor) (T : List (List Point))
    (p : Point) (path1 path2 : List Point) (hinv3 : TraceInv img s3)
    (hT : s3.edges.data = T ++ [p :: path1]) (hmap4 : MapOk img s4.edgeMap)
    (hedges4 : s4.edges.data = s3.edges.data ++ [p :: path2])
    (hcounter4 : s4.edgeIdCounter = s3.edgeIdCounter + 1) (hpath2 : path2 ≠ [])
    (hin2 : ∀ q ∈ path2, img.inside q)
    (hids4 : ∀ q, img.inside q → ∀ x,
      (x ∈ s4.edgeMap.idsAt q ↔
        x ∈ s3.edgeMap.idsAt q ∨ (x = s3.edgeIdCounter ∧ q ∈ path2))) :
    ∃ s5, mergeEdges s4 (s4.edgeIdCounter - 2) (s4.edgeIdCounter - 1) = some s5 ∧
      TraceInv img s5 := by
  have hb3 := mapOk_inBounds img s3.edgeMap hinv3.mapOk
  have hb4 := mapOk_inBounds img s4.edgeMap hmap4
  have hc3 : s3.edgeIdCounter = (T.length : Int) + 1 := by
    rw [hinv3.counter, hT]; simp
  have hget4 : ∀ i, s4.edges.getEdge i =
      if i = s3.edgeIdCounter then some (p :: path2) else s3.edges.getEdge i := by
    intro i
    unfold Edges.getEdge
    rw [hedges4, vecGet?_append_singleton, hinv3.counter]
  have hA3 : s3.edges.getEdge (s3.edgeIdCounter - 1) = some (p :: path1) := by
    unfold Edges.getEdge
    rw [hT, vecGet?_append_singleton, if_pos (by omega)]
  have hA : s4.edges.getEdge (s3.edgeIdCounter - 1) = some (p :: path1) := by
    rw [hget4, if_neg (by omega), hA3]
  have hB : s4.edges.getEdge s3.edgeIdCounter = some (p :: path2) := by
    rw [hget4, if_pos rfl]
  have hpin : img.inside p :=
    (hb3 p).mpr (hinv3.agree.edge_registered _ _ hA3 p (List.mem_cons_self _ _)).1
  have e1 : s4.edgeIdCounter - 2 = s3.edgeIdCounter - 1 := by omega
  have e2 : s4.edgeIdCounter - 1 = s3.edgeIdCounter := by omega
  rw [e1, e2, mergeEdges_of_lt _ _ _ (by omega)]
  obtain ⟨s5, h5, wf5, nd5, ag5, cnt5, len5, r5, c5, d5⟩ :=
    mergeOrdered_agree_of s4 (s3.edgeIdCounter - 1) s3.edgeIdCounter (p :: path1) (p :: path2)
      (by omega) hA hB (by simp) (by simp)
      (by
        unfold singlePointAtFront
        intro h
        have := h.1
        simp only [List.length_cons] at this
        exact hpath2 (List.length_eq_zero.mp (by omega)))
      (Or.inl rfl) hmap4.wf hmap4.nodup
      (by
        intro q hq e he
        have hqi := (hb4 q).mpr hq
        rw [hids4 q hqi e] at he
        rw [hget4 e]
        rcases he with he | ⟨he, hqE⟩
        · obtain ⟨E, hE, hEne, hqE⟩ := hinv3.agree.stored_sound q ((hb3 q).mp hqi) e he
          have hne : e ≠ s3.edgeIdCounter := by
            have := (vecGet?_bounds _ _ _ hE).2
            rw [hinv3.counter]
            omega
          rw [if_neg hne]
          exact ⟨E, hE, hEne, hqE⟩
        · rw [if_pos he]
          exact ⟨_, rfl, by simp, List.mem_cons_of_mem _ hqE⟩)
      (by
        intro e E hne hE q hqE
        rw [hget4 e, if_neg hne] at hE
        obtain ⟨hq, hmem⟩ := hinv3.agree.edge_registered e E hE q hqE
        have hqi := (hb3 q).mpr hq
        exact ⟨(hb4 q).mp hqi, (hids4 q hqi e).mpr (Or.inl hmem)⟩)
      (by
        intro q hq
        rcases List.mem_cons.mp hq with rfl | hq
        · exact (hb4 q).mp hpin
        · exact (hb4 q).mp (hin2 q hq))
  refine ⟨s5, h5, ⟨⟨wf5, r5.trans hmap4.rows_eq, c5.trans hmap4.cols_eq, nd5, ?_⟩, ag5, ?_⟩⟩
  · intro q hq hqe hcp
    rw [clusterAt_congr s4.edgeMap s5.edgeMap c5 d5 q]
    exact hmap4.complete q hq hqe hcp
  · rw [cnt5, len5, hcounter4, hedges4, hinv3.counter]
    simp

/-! ## A trace started at a seed pixel -/

theorem ne_of_mem_getDirectNeighbors (img : Mat) (p q : Point) (hp : img.inside p)
    (h : q ∈ getDirectNeighbors img p) : q ≠ p := by
  obtain ⟨_, _, h3, _⟩ := getDirectNeighbors_sound img p q hp h
  intro e
  subst e
  unfold isNeighbor8 iabs at h3
  omega

theorem mem_of_two {α : Type} (l : List α) (hn : l.Nodup) (hlen : l.length ≤ 2) (a b : α)
    (ha : a ∈ l) (hb : b ∈ l) (hab : a ≠ b) : ∀ n ∈ l, n = a ∨ n = b := by
  match l, hn, hlen, ha, hb with
  | [], _, _, ha, _ => simp at ha
  | [x], _, _, ha, hb =>
    rw [List.mem_singleton] at ha hb
    exact absurd (ha.trans hb.symm) hab
  | [x, y], _, _, ha, hb =>
    intro n hnm
    simp only [List.mem_cons, List.mem_singleton, List.not_mem_nil, or_false] at ha hb hnm
    rcases ha with rfl | rfl <;> rcases hb with rfl | rfl <;> rcases hnm with rfl | rfl <;>
      first
      | exact absurd rfl hab
      | exact Or.inl rfl
      | exact Or.inr rfl
  | _ :: _ :: _ :: _, _, hlen, _, _ => simp at hlen

/-- The entry condition of the second branch: the second neighbour `n1` of the
seed `p` is in a cluster, or still without an id, or it was reached by the
first branch and then all its direct neighbours are visited. -/
theorem second_branch_entry (img : Mat) (s1 s3 : EdgeProcessor) (p n0 n1 : Point)
    (path1 E : List Point) (hm1 : MapOk img s1.edgeMap) (post1 : FollowPost img s1 n0 E path1 s3)
    (hp : img.inside p) (hpe : img.px p.y p.x > 0) (hpc : s1.edgeMap.clusterAt p = [])
    (hpi : s1.edgeMap.idsAt p ≠ []) (hn0 : n0 ∈ getDirectNeighbors img p)
    (hn1 : n1 ∈ getDirectNeighbors img p) (hne : n1 ≠ n0)
    (hadm : s1.edgeMap.idsAt n1 = [] ∨ s1.edgeMap.clusterAt n1 ≠ []) :
    s3.edgeMap.clusterAt n1 ≠ [] ∨ s3.edgeMap.idsAt n1 = [] ∨
      ∀ n ∈ getDirectNeighbors img n1,
        s3.edgeMap.idsAt n ≠ [] ∧ s3.edgeMap.clusterAt n = [] := by
  have hcl : ∀ q, s3.edgeMap.clusterAt q = s1.edgeMap.clusterAt q :=
    clusterAt_congr s1.edgeMap s3.edgeMap
      (post1.mapOk.cols_eq.trans hm1.cols_eq.symm) post1.clusters
  obtain ⟨hn1in, hn1e, _, _⟩ := getDirectNeighbors_sound img p n1 hp hn1
  have hkeep : ∀ q, img.inside q → s1.edgeMap.idsAt q ≠ [] → s3.edgeMap.idsAt q ≠ [] := by
    intro q hq h0 h3
    apply h0
    exact eq_nil_of_subset_nil _ _ (fun x hx => (post1.ids q hq x).mpr (Or.inl hx)) h3
  by_cases hc1 : s1.edgeMap.clusterAt n1 = []
  · have hi1 : s1.edgeMap.idsAt n1 = [] := by
      rcases hadm with h | h
      · exact h
      · exact absurd hc1 h
    by_cases hmem : n1 ∈ path1
    · right; right
      obtain ⟨r, hr, hn1r, hrc⟩ := post1.chain n1 hmem hne
      obtain ⟨hrin, hre⟩ := post1.inside r hr
      have hrn1 : r ∈ getDirectNeighbors img n1 := getDirectNeighbors_symm img r n1 hrin hre hn1r
      have hpn1 : p ∈ getDirectNeighbors img n1 := getDirectNeighbors_symm img p n1 hp hpe hn1
      have hrp : p ≠ r := by
        intro e
        subst e
        rcases post1.entered p hr with h | h | h
        · exact ne_of_mem_getDirectNeighbors img p n0 hp hn0 h.symm
        · exact hpi h
        · exact h hpc
      have hlen2 := not_clusterPoint_of_unclustered img s1.edgeMap hm1 n1 hn1in hn1e hc1
      intro n hn
      rcases mem_of_two _ (getDirectNeighbors_nodup img n1) hlen2 p r hpn1 hrn1 hrp n hn with
        rfl | rfl
      · exact ⟨hkeep n hp hpi, by rw [hcl n]; exact hpc⟩
      · refine ⟨?_, by rw [hcl n]; exact hrc⟩
        intro h0
        have : s1.edgeIdCounter ∈ s3.edgeMap.idsAt n :=
          (post1.ids n hrin _).mpr (Or.inr ⟨rfl, hr⟩)
        rw [h0] at this
        simp at this
    · right; left
      apply List.eq_nil_iff_forall_not_mem.mpr
      intro x hx
      rcases (post1.ids n1 hn1in x).mp hx with h | h
      · rw [hi1] at h; simp at h
      · exact hmem h.2
  · left
    rw [hcl n1]
    exact hc1

/-- The call of `traceEdge` that `traceEdges` makes at a seed pixel (an edge
pixel without an id and outside every cluster) returns and re-establishes the
invariant of the raster loop. -/
theorem traceEdge_seed (img : Mat) (s : EdgeProcessor) (p : Point) (hinv : TraceInv img s)
    (hp : img.inside p) (hpe : img.px p.y p.x > 0) (hcl : s.edgeMap.clusterAt p = []) :
    ∃ s2, traceEdge img (img.rows * img.cols + 2) s p [] = some s2 ∧ TraceInv img s2 := by
  obtain ⟨m1, hpush, hm1, hd1, hc1, hids1, hcl1⟩ :=
    pushBackEdgeId_mapOk img s.edgeMap hinv.mapOk p hp s.edgeIdCounter
  have hcq : m1.clusterAt p = [] := by rw [hcl1 p]; exact hcl
  have hq1 : m1.idsAt p ≠ [] := by
    intro h0
    have : s.edgeIdCounter ∈ m1.idsAt p := (hids1 p hp _).mpr (Or.inr ⟨rfl, rfl⟩)
    rw [h0] at this
    simp at this
  have hlen2 := not_clusterPoint_of_unclustered img m1 hm1 p hp hpe hcq
  have hUlen : ((getDirectNeighbors img p).filter
      (fun n => decide (m1.idsAt n = [] ∨ m1.clusterAt n ≠ []))).length ≤ 2 :=
    le_trans (List.length_filter_le _ _) hlen2
  have hUnd : ((getDirectNeighbors img p).filter
      (fun n => decide (m1.idsAt n = [] ∨ m1.clusterAt n ≠ []))).Nodup :=
    (getDirectNeighbors_nodup img p).filter _
  have hUmem : ∀ n ∈ (getDirectNeighbors img p).filter
      (fun n => decide (m1.idsAt n = [] ∨ m1.clusterAt n ≠ [])),
      n ∈ getDirectNeighbors img p ∧ (m1.idsAt n = [] ∨ m1.clusterAt n ≠ []) := by
    intro n hn
    rw [List.mem_filter, decide_eq_true_eq] at hn
    exact hn
  -- the invariant after a first or only branch that walked `path`
  have single : ∀ (n0 : Point) (path : List Point) (s3 : EdgeProcessor),
      FollowPost img { s with edgeMap := m1 } n0 [p] path s3 → TraceInv img s3 := by
    intro n0 path s3 post
    refine traceInv_append img s s3 (p :: path) hinv post.mapOk post.edges post.counter
      (by simp) ?_ ?_
    · intro q hq
      rcases List.mem_cons.mp hq with rfl | hq
      · exact hp
      · exact (post.inside q hq).1
    · intro q hq x
      rw [post.ids q hq x]
      show x ∈ m1.idsAt q ∨ (x = s.edgeIdCounter ∧ q ∈ path) ↔ _
      rw [hids1 q hq x, List.mem_cons]
      constructor
      · rintro ((h | h) | h)
        · exact Or.inl h
        · exact Or.inr ⟨h.1, Or.inl h.2⟩
        · exact Or.inr ⟨h.1, Or.inr h.2⟩
      · rintro (h | ⟨h1, h2 | h2⟩)
        · exact Or.inl (Or.inl h)
        · exact Or.inl (Or.inr ⟨h1, h2⟩)
        · exact Or.inr ⟨h1, h2⟩
  have hfuel : ∀ m : EdgeMap, idless img m + 1 ≤ img.rows * img.cols + 1 := by
    intro m
    have := idless_le img m
    omega
  rw [traceEdge_unfold img (img.rows * img.cols + 1) s p [] m1 hm1.wf hm1.rows_eq hm1.cols_eq
    hp hpush, if_pos hcq]
  cases hU : (getDirectNeighbors img p).filter
      (fun n => decide (m1.idsAt n = [] ∨ m1.clusterAt n ≠ [])) with
  | nil =>
    refine ⟨_, rfl, ?_⟩
    refine traceInv_append img s _ [p] hinv hm1 rfl rfl (by simp) ?_ ?_
    · intro q hq
      rw [List.mem_singleton] at hq
      subst hq
      exact hp
    · intro q hq x
      show x ∈ m1.idsAt q ↔ _
      rw [hids1 q hq x, List.mem_singleton]
  | cons n0 rest =>
    have hn0 := hUmem n0 (by rw [hU]; exact List.mem_cons_self _ _)
    cases rest with
    | nil =>
      obtain ⟨path, s3, htr, post⟩ := traceEdge_follow img (img.rows * img.cols + 1)
        { s with edgeMap := m1 } n0 [p] p hm1 hp hpe hcq hq1 hn0.1
        (by rcases hn0.2 with h | h
            · exact Or.inr (Or.inl h)
            · exact Or.inl h)
        (hfuel m1)
      exact ⟨s3, htr, single n0 path s3 post⟩
    | cons n1 rest2 =>
      have hn1 := hUmem n1 (by rw [hU]; simp)
      have hrest2 : rest2 = [] := by
        rw [hU] at hUlen
        simp only [List.length_cons] at hUlen
        exact List.length_eq_zero.mp (by omega)
      subst hrest2
      have hne : n1 ≠ n0 := by
        rw [hU] at hUnd
        intro e
        subst e
        simp at hUnd
      obtain ⟨path1, s3, htr1, post1⟩ := traceEdge_follow img (img.rows * img.cols + 1)
        { s with edgeMap := m1 } n0 [p] p hm1 hp hpe hcq hq1 hn0.1
        (by rcases hn0.2 with h | h
            · exact Or.inr (Or.inl h)
            · exact Or.inl h)
        (hfuel m1)
      have hinv3 := single n0 path1 s3 post1
      have hcl3 : ∀ q, s3.edgeMap.clusterAt q = m1.clusterAt q :=
        clusterAt_congr m1 s3.edgeMap
          (post1.mapOk.cols_eq.trans hm1.cols_eq.symm) post1.clusters
      have hp3 : s3.edgeMap.idsAt p ≠ [] := by
        intro h0
        exact hq1 (eq_nil_of_subset_nil _ _
          (fun x hx => (post1.ids p hp x).mpr (Or.inl hx)) h0)
      obtain ⟨path2, s4, htr2, post2⟩ := traceEdge_follow img (img.rows * img.cols + 1)
        s3 n1 [p] p post1.mapOk hp hpe (by rw [hcl3 p]; exact hcq) hp3 hn1.1
        (second_branch_entry img { s with edgeMap := m1 } s3 p n0 n1 path1 [p] hm1 post1 hp hpe
          hcq hq1 hn0.1 hn1.1 hne hn1.2)
        (hfuel s3.edgeMap)
      have hpath2 : path2 ≠ [] := by
        intro h0
        have := post2.head
        rw [h0] at this
        simp at this
      obtain ⟨s5, h5, hinv5⟩ := traceInv_merge img s3 s4 s.edges.data p path1 path2 hinv3
        post1.edges post2.mapOk post2.edges post2.counter hpath2
        (fun q hq => (post2.inside q hq).1) post2.ids
      refine ⟨s5, ?_, hinv5⟩
      show (traceEdge img (img.rows * img.cols + 1) { s with edgeMap := m1 } n0 [p]).bind _ = _
      rw [htr1]
      show (traceEdge img (img.rows * img.cols + 1) s3 n1 [p]).bind _ = _
      rw [htr2]
      exact h5

/-! ## The raster loop of `traceEdges` -/

theorem tracePixel_spec (img : Mat) (s : EdgeProcessor) (p : Point) (hinv : TraceInv img s)
    (hp : img.inside p) : ∃ s2, tracePixel img s p = some s2 ∧ TraceInv img s2 := by
  have hb := (mapOk_inBounds img s.edgeMap hinv.mapOk p).mp hp
  unfold tracePixel
  by_cases hedge : img.px p.y p.x > 0
  · simp only [hedge, if_true, getNumberOfEdgeIds_of_inBounds s.edgeMap hinv.mapOk.wf p hb,
      getClusterPoints_of_inBounds s.edgeMap hinv.mapOk.wf p hb, Option.bind_eq_bind,
      Option.some_bind, Option.pure_def]
    by_cases hn : ((s.edgeMap.idsAt p).length : Int) = 0
    · rw [if_pos hn]
      by_cases hc : (s.edgeMap.clusterAt p).length = 0
      · rw [if_pos hc]
        exact traceEdge_seed img s p hinv hp hedge (List.length_eq_zero.mp hc)
      · rw [if_neg hc]
        exact ⟨s, rfl, hinv⟩
    · rw [if_neg hn]
      exact ⟨s, rfl, hinv⟩
  · simp only [hedge, if_false, Option.pure_def]
    exact ⟨s, rfl, hinv⟩

theorem traceFold_spec (img : Mat) :
    ∀ (l : List Point) (s : EdgeProcessor), TraceInv img s → (∀ p ∈ l, img.inside p) →
    ∃ s2, l.foldlM (tracePixel img) s = some s2 ∧ TraceInv img s2 := by
  intro l
  induction l with
  | nil => intro s hinv _; exact ⟨s, rfl, hinv⟩
  | cons p rest ih =>
    intro s hinv hl
    obtain ⟨s1, h1, hinv1⟩ := tracePixel_spec img s p hinv (hl p (List.mem_cons_self _ _))
    obtain ⟨s2, h2, hinv2⟩ := ih s1 hinv1 (fun q hq => hl q (List.mem_cons_of_mem _ hq))
    refine ⟨s2, ?_, hinv2⟩
    rw [List.foldlM_cons]
    simp only [Option.bind_eq_bind, h1, Option.some_bind]
    exact h2

/-! ## The state at the start of `traceEdges` -/

theorem init_wf (rows cols : Nat) : (EdgeMap.init rows cols).WF := by
  have h : (0 : Int) ≤ (rows : Int) * (cols : Int) :=
    mul_nonneg (Int.ofNat_nonneg _) (Int.ofNat_nonneg _)
  unfold EdgeMap.WF EdgeMap.init
  simp only [List.length_replicate]
  refine ⟨Int.ofNat_nonneg _, Int.ofNat_nonneg _, ?_, ?_⟩ <;> omega

theorem init_clustersEmpty (rows cols : Int) : (EdgeMap.init rows cols).ClustersEmpty := by
  intro L hL
  exact List.eq_of_mem_replicate hL

theorem idsAt_of_all_empty (m : EdgeMap) (h : ∀ L ∈ m.dataEdgeIds, L = []) (p : Point) :
    m.idsAt p = [] := by
  unfold EdgeMap.idsAt EdgeMap.getEdgeIds
  cases hget : vecGet? m.dataEdgeIds (m.pos p.x p.y) with
  | none => rfl
  | some L =>
    unfold vecGet? at hget
    split_ifs at hget
    exact h L (List.getElem?_mem hget)

/-- The invariant of the raster loop holds when the loop is entered. -/
theorem traceInv_start (img : Mat) (m : EdgeMap) (hok : ClusterIndexOk img m)
    (hids : ∀ L ∈ m.dataEdgeIds, L = [])
    (hcomplete : ∀ p, img.inside p → img.px p.y p.x > 0 → isClusterPoint img p = true →
      m.clusterAt p ≠ []) :
    TraceInv img { edgeIdCounter := 0, edges := ⟨[]⟩, edgeMap := m } := by
  have h0 := idsAt_of_all_empty m hids
  refine ⟨⟨hok.wf, hok.rows_eq, hok.cols_eq, ?_, hcomplete⟩, ⟨?_, ?_, ?_⟩, rfl⟩
  · intro p _
    show (m.idsAt p).Nodup
    rw [h0 p]
    exact List.nodup_nil
  · intro p _ e he
    have : e ∈ m.idsAt p := he
    rw [h0 p] at this
    simp at this
  · intro e E hE
    have := vecGet?_bounds _ _ _ hE
    simp at this
    omega
  · intro e _ p _ he
    have : e ∈ m.idsAt p := he
    rw [h0 p] at this
    simp at this

/-- The run of `traceEdges` returns and leaves the invariant of its raster loop. -/
theorem traceEdges_spec (img : Mat) (s : EdgeProcessor) :
    ∃ s2, traceEdges img s = some s2 ∧ TraceInv img s2 := by
  obtain ⟨m, hm, hok, hd, hcomplete⟩ := preprocessClusters_spec img
    (EdgeMap.init img.rows img.cols) (init_wf img.rows img.cols) rfl rfl
    (init_clustersEmpty _ _)
  have hids : ∀ L ∈ m.dataEdgeIds, L = [] := by
    intro L hL
    rw [hd] at hL
    exact List.eq_of_mem_replicate hL
  obtain ⟨s2, h2, hinv2⟩ := traceFold_spec img img.raster
    { edgeIdCounter := 0, edges := ⟨[]⟩, edgeMap := m }
    (traceInv_start img m hok hids hcomplete) (fun p hp => (mem_raster img p).mp hp)
  refine ⟨s2, ?_, hinv2⟩
  unfold traceEdges
  simp only [hm, Option.bind_eq_bind, Option.some_bind]
  exact h2

/-! ### Claim on `traceEdges` -/

/-- C1: for every image `traceEdges` returns a state in which the edge table
and the edge-id index agree both ways: every id stored at a pixel names a
non-empty edge through that pixel, every pixel of every edge lies in the grid
and carries the id of the edge, and the id of an empty edge (tombstone) is
stored at no pixel. -/
theorem traceEdges_table_index_agree (img : Mat) (s : EdgeProcessor) :
    ∃ s2, traceEdges img s = some s2 ∧
      s2.edgeMap.rows = img.rows ∧ s2.edgeMap.cols = img.cols ∧
      (∀ p, s2.edgeMap.inBounds p → ∀ e ∈ s2.edgeMap.idsAt p,
        ∃ E, s2.edges.getEdge e = some E ∧ E ≠ [] ∧ p ∈ E) ∧
      (∀ e E, s2.edges.getEdge e = some E → ∀ p ∈ E,
        s2.edgeMap.inBounds p ∧ e ∈ s2.edgeMap.idsAt p) ∧
      (∀ e, s2.edges.getEdge e = some [] → ∀ p, s2.edgeMap.inBounds p →
        e ∉ s2.edgeMap.idsAt p) := by
  obtain ⟨s2, h2, hinv2⟩ := traceEdges_spec img s
  exact ⟨s2, h2, hinv2.mapOk.rows_eq, hinv2.mapOk.cols_eq, hinv2.agree.stored_sound,
    hinv2.agree.edge_registered, hinv2.agree.no_tombstone⟩

/-! ## The occupancy code and the direct neighbours against their specification -/

theorem weight_term (g g2 c : Prop) [Decidable g] [Decidable g2] [Decidable c] (w : Nat)
    (h : g ↔ g2) : (if g then (if c then w else 0) else 0) = if g2 ∧ c then w else 0 := by
  by_cases hg : g <;> by_cases hc : c <;> simp [hg, hc, ← h]

theorem weight_term_le (g c : Prop) [Decidable g] [Decidable c] (w : Nat) :
    (if g then (if c then w else 0) else 0) ≤ w := by
  split_ifs <;> omega

theorem getBinaryCode_le (img : Mat) (p : Point) : getBinaryCode img p ≤ 255 := by
  unfold getBinaryCode
  have h1 := weight_term_le (p.x - 1 ≥ 0 ∧ p.y - 1 ≥ 0) (img.px (p.y - 1) (p.x - 1) > 0) 128
  have h2 := weight_term_le (p.y - 1 ≥ 0) (img.px (p.y - 1) p.x > 0) 64
  have h3 := weight_term_le (p.x + 1 < img.cols ∧ p.y - 1 ≥ 0)
    (img.px (p.y - 1) (p.x + 1) > 0) 32
  have h4 := weight_term_le (p.x + 1 < img.cols) (img.px p.y (p.x + 1) > 0) 16
  have h5 := weight_term_le (p.x + 1 < img.cols ∧ p.y + 1 < img.rows)
    (img.px (p.y + 1) (p.x + 1) > 0) 8
  have h6 := weight_term_le (p.y + 1 < img.rows) (img.px (p.y + 1) p.x > 0) 4
  have h7 := weight_term_le (p.x - 1 ≥ 0 ∧ p.y + 1 < img.rows)
    (img.px (p.y + 1) (p.x - 1) > 0) 2
  have h8 := weight_term_le (p.x - 1 ≥ 0) (img.px p.y (p.x - 1) > 0) 1
  omega

theorem getBinaryCode_eq_spec (img : Mat) (p : Point) (hp : img.inside p) :
    getBinaryCode img p = binaryCodeSpec img p := by
  obtain ⟨hx0, hx1, hy0, hy1⟩ := hp
  unfold getBinaryCode binaryCodeSpec neighborWeights Mat.isEdge Mat.inside
  simp only [List.map, List.sum_cons, List.sum_nil]
  simp only [add_zero, ← sub_eq_add_neg]
  rw [weight_term (p.x - 1 ≥ 0 ∧ p.y - 1 ≥ 0)
      (0 ≤ p.x - 1 ∧ p.x - 1 < img.cols ∧ 0 ≤ p.y - 1 ∧ p.y - 1 < img.rows) _ 128 (by omega),
    weight_term (p.y - 1 ≥ 0)
      (0 ≤ p.x ∧ p.x < img.cols ∧ 0 ≤ p.y - 1 ∧ p.y - 1 < img.rows) _ 64 (by omega),
    weight_term (p.x + 1 < img.cols ∧ p.y - 1 ≥ 0)
      (0 ≤ p.x + 1 ∧ p.x + 1 < img.cols ∧ 0 ≤ p.y - 1 ∧ p.y - 1 < img.rows) _ 32 (by omega),
    weight_term (p.x + 1 < img.cols)
      (0 ≤ p.x + 1 ∧ p.x + 1 < img.cols ∧ 0 ≤ p.y ∧ p.y < img.rows) _ 16 (by omega),
    weight_term (p.x + 1 < img.cols ∧ p.y + 1 < img.rows)
      (0 ≤ p.x + 1 ∧ p.x + 1 < img.cols ∧ 0 ≤ p.y + 1 ∧ p.y + 1 < img.rows) _ 8 (by omega),
    weight_term (p.y + 1 < img.rows)
      (0 ≤ p.x ∧ p.x < img.cols ∧ 0 ≤ p.y + 1 ∧ p.y + 1 < img.rows) _ 4 (by omega),
    weight_term (p.x - 1 ≥ 0 ∧ p.y + 1 < img.rows)
      (0 ≤ p.x - 1 ∧ p.x - 1 < img.cols ∧ 0 ≤ p.y + 1 ∧ p.y + 1 < img.rows) _ 2 (by omega),
    weight_term (p.x - 1 ≥ 0)
      (0 ≤ p.x - 1 ∧ p.x - 1 < img.cols ∧ 0 ≤ p.y ∧ p.y < img.rows) _ 1 (by omega)]
  simp only [Nat.add_assoc]

/-- C13: for an in-bounds pixel the occupancy code computed by `getBinaryCode`
is the sum of the weights TL=128, TC=64, TR=32, MR=16, BR=8, BC=4, BL=2, ML=1
over exactly the neighbours that lie inside the image and have a positive
value (neighbours outside the image contribute nothing), and it is at most
255. -/
theorem getBinaryCode_is_weighted_occupancy (img : Mat) (p : Point) (hp : img.inside p) :
    getBinaryCode img p =
      (neighborWeights.map fun (dx, dy, w) =>
        if img.inside ⟨p.x + dx, p.y + dy⟩ ∧ img.px (p.y + dy) (p.x + dx) > 0 then w
        else 0).sum ∧
    getBinaryCode img p = binaryCodeSpec img p ∧
    0 ≤ getBinaryCode img p ∧ getBinaryCode img p ≤ 255 :=
  ⟨getBinaryCode_eq_spec img p hp, getBinaryCode_eq_spec img p hp, Nat.zero_le _,
    getBinaryCode_le img p⟩

/-- The occupancy code of the top left pixel of a `2 × 2` block of edge pixels. -/
theorem getBinaryCode_is_weighted_occupancy_witness :
    (Mat.ofRows [[1, 1], [1, 1]]).inside ⟨0, 0⟩ ∧
      getBinaryCode (Mat.ofRows [[1, 1], [1, 1]]) ⟨0, 0⟩ = 28 := by
  refine ⟨by decide, ?_⟩
  rw [(getBinaryCode_is_weighted_occupancy (Mat.ofRows [[1, 1], [1, 1]]) ⟨0, 0⟩
    (by decide)).2.1]
  decide

theorem map_filter_eq_flatMap {α β : Type} (f : α → Bool) (g : α → β) (l : List α) :
    (l.filter f).map g = l.flatMap fun a => if f a then [g a] else [] := by
  induction l with
  | nil => rfl
  | cons a l ih =>
    rw [List.flatMap_cons, List.filter_cons]
    by_cases h : f a = true
    · simp only [h, if_true, List.map_cons, ih, List.singleton_append]
    · simp only [h, if_false, ih, List.nil_append, Bool.false_eq_true]

theorem append_congr {α : Type} {a b c d : List α} (h1 : a = c) (h2 : b = d) :
    a ++ b = c ++ d := by rw [h1, h2]

theorem cond_singleton_eq (g c t : Prop) [Decidable g] [Decidable c] [Decidable t]
    (a : Point) (h : (g ∧ c) ↔ t) :
    (if g then (if c then [a] else []) else []) = if decide t = true then [a] else [] := by
  by_cases hg : g <;> by_cases hc : c <;> simp [hg, hc, ← h]

theorem getDirectNeighbors_eq_spec (img : Mat) (p : Point) (hp : img.inside p) :
    getDirectNeighbors img p = directNeighborsSpec img p := by
  obtain ⟨hx0, hx1, hy0, hy1⟩ := hp
  unfold getDirectNeighbors directNeighborsSpec
  rw [map_filter_eq_flatMap]
  unfold neighborWeights directSpecTest Mat.isEdge Mat.inside
  simp only [List.flatMap_cons, List.flatMap_nil, List.append_assoc, List.append_nil,
    add_zero, ← sub_eq_add_neg]
  refine append_congr (cond_singleton_eq _ _ _ _ ?_) (append_congr (cond_singleton_eq _ _ _ _ ?_)
    (append_congr (cond_singleton_eq _ _ _ _ ?_) (append_congr (cond_singleton_eq _ _ _ _ ?_)
    (append_congr (cond_singleton_eq _ _ _ _ ?_) (append_congr (cond_singleton_eq _ _ _ _ ?_)
    (append_congr (cond_singleton_eq _ _ _ _ ?_) (cond_singleton_eq _ _ _ _ ?_)))))))
  all_goals omega

/-- C14: for an in-bounds pixel `getDirectNeighbors` returns, in the fixed order
TL, TC, TR, MR, BR, BC, BL, ML, exactly those of the eight neighbours that are
edge pixels of the image and, when diagonal, have neither of the two
orthogonal neighbours of `p` next to them set as an edge pixel. -/
theorem getDirectNeighbors_is_filtered_clockwise_list (img : Mat) (p : Point)
    (hp : img.inside p) :
    getDirectNeighbors img p =
      (neighborWeights.filter fun (dx, dy, _) => decide (directSpecTest img p dx dy)).map
        fun (dx, dy, _) => Point.mk (p.x + dx) (p.y + dy) :=
  getDirectNeighbors_eq_spec img p hp

/-- The direct neighbours of the top left pixel of a `2 × 2` block of edge
pixels: the diagonal neighbour is suppressed. -/
theorem getDirectNeighbors_is_filtered_clockwise_list_witness :
    (Mat.ofRows [[1, 1], [1, 1]]).inside ⟨0, 0⟩ ∧
      getDirectNeighbors (Mat.ofRows [[1, 1], [1, 1]]) ⟨0, 0⟩ = [⟨1, 0⟩, ⟨0, 1⟩] := by
  refine ⟨by decide, ?_⟩
  rw [getDirectNeighbors_is_filtered_clockwise_list (Mat.ofRows [[1, 1], [1, 1]]) ⟨0, 0⟩
    (by decide)]
  decide

/-! ## The operations on the edge-id index -/

theorem pushBackEdgeId_of_mem (m : EdgeMap) (hm : m.WF) (p : Point) (hb : m.inBounds p)
    (e : Int) (he : e ∈ m.idsAt p) : m.pushBackEdgeId p.x p.y e = some m := by
  have hget := getEdgeIds_of_inBounds m hm p hb
  unfold EdgeMap.getEdgeIds at hget
  unfold EdgeMap.pushBackEdgeId
  simp only [hget, Option.bind_eq_bind, Option.some_bind, Option.pure_def, if_pos he]

theorem eraseEdgeId_of_not_mem (m : EdgeMap) (hm : m.WF) (p : Point) (hb : m.inBounds p)
    (e : Int) (he : e ∉ m.idsAt p) : m.eraseEdgeId p.x p.y e = some m := by
  have hget := getEdgeIds_of_inBounds m hm p hb
  unfold EdgeMap.getEdgeIds at hget
  unfold EdgeMap.eraseEdgeId
  simp only [hget, Option.bind_eq_bind, Option.some_bind, Option.pure_def, if_neg he]

theorem pushBackEdgeId_nodup (m m2 : EdgeMap) (hm : m.WF) (p : Point) (hb : m.inBounds p)
    (e : Int) (h : m.pushBackEdgeId p.x p.y e = some m2) (hn : m.IdsNodup) : m2.IdsNodup := by
  obtain ⟨m3, h3, r3, c3, _, _, ids3⟩ := pushBackEdgeId_spec m hm p hb e
  rw [h] at h3
  obtain rfl := Option.some.inj h3
  intro q hq
  have hq1 := (inBounds_congr m m2 r3 c3 q).mp hq
  rw [ids3 q hq1]
  split_ifs with hqp he
  · exact hn q hq1
  · refine List.Nodup.append (hn q hq1) (List.nodup_singleton e) ?_
    intro y hy hy2
    rw [List.mem_singleton] at hy2
    subst hy2
    exact he hy
  · exact hn q hq1

theorem eraseEdgeId_nodup (m m2 : EdgeMap) (hm : m.WF) (p : Point) (hb : m.inBounds p)
    (e : Int) (h : m.eraseEdgeId p.x p.y e = some m2) (hn : m.IdsNodup) : m2.IdsNodup := by
  obtain ⟨m3, h3, r3, c3, _, _, ids3⟩ := eraseEdgeId_spec m hm p hb e
  rw [h] at h3
  obtain rfl := Option.some.inj h3
  intro q hq
  have hq1 := (inBounds_congr m m2 r3 c3 q).mp hq
  rw [ids3 q hq1]
  split_ifs with hqp
  · exact (hn q hq1).erase e
  · exact hn q hq1

/-- C15: at a pixel of the grid `pushBackEdgeId` appends the id exactly when it
is not yet stored there, leaves the id lists of all other pixels and the
cluster index as they are, and a second call with the same arguments changes
nothing; duplicate-free id lists stay duplicate-free under `pushBackEdgeId` and
under `eraseEdgeId`. -/
theorem pushBackEdgeId_appends_unless_present (m : EdgeMap) (hm : m.WF) (p : Point)
    (hb : m.inBounds p) (e : Int) :
    ∃ m2, m.pushBackEdgeId p.x p.y e = some m2 ∧
      m2.idsAt p = (if e ∈ m.idsAt p then m.idsAt p else m.idsAt p ++ [e]) ∧
      (∀ q, m.inBounds q → q ≠ p → m2.idsAt q = m.idsAt q) ∧
      m2.dataClusters = m.dataClusters ∧ m2.rows = m.rows ∧ m2.cols = m.cols ∧
      m2.pushBackEdgeId p.x p.y e = some m2 ∧
      (m.IdsNodup → m2.IdsNodup) ∧
      ∃ m3, m.eraseEdgeId p.x p.y e = some m3 ∧ (m.IdsNodup → m3.IdsNodup) := by
  obtain ⟨m2, h2, r2, c2, d2, wf2, ids2⟩ := pushBackEdgeId_spec m hm p hb e
  obtain ⟨m3, h3, _⟩ := eraseEdgeId_spec m hm p hb e
  have hp2 := ids2 p hb
  rw [if_pos rfl] at hp2
  refine ⟨m2, h2, hp2, ?_, d2, r2, c2, ?_, pushBackEdgeId_nodup m m2 hm p hb e h2,
    m3, h3, eraseEdgeId_nodup m m3 hm p hb e h3⟩
  · intro q hq hqp
    rw [ids2 q hq, if_neg hqp]
  · refine pushBackEdgeId_of_mem m2 wf2 p ((inBounds_congr m m2 r2 c2 p).mpr hb) e ?_
    rw [hp2]
    split_ifs with he
    · exact he
    · exact List.mem_append_right _ (List.mem_singleton.mpr rfl)

/-- A run of `pushBackEdgeId_appends_unless_present` on the pixel `(2,0)` of
the map `pairClusterMap`, which stores the id 5 there. -/
theorem pushBackEdgeId_appends_unless_present_witness :
    ∃ m2, pairClusterMap.pushBackEdgeId 2 0 7 = some m2 ∧
      m2.idsAt ⟨2, 0⟩ = (if (7 : Int) ∈ pairClusterMap.idsAt ⟨2, 0⟩ then
        pairClusterMap.idsAt ⟨2, 0⟩ else pairClusterMap.idsAt ⟨2, 0⟩ ++ [7]) ∧
      (∀ q, pairClusterMap.inBounds q → q ≠ ⟨2, 0⟩ → m2.idsAt q = pairClusterMap.idsAt q) ∧
      m2.dataClusters = pairClusterMap.dataClusters ∧ m2.rows = pairClusterMap.rows ∧
      m2.cols = pairClusterMap.cols ∧
      m2.pushBackEdgeId 2 0 7 = some m2 ∧
      (pairClusterMap.IdsNodup → m2.IdsNodup) ∧
      ∃ m3, pairClusterMap.eraseEdgeId 2 0 7 = some m3 ∧
        (pairClusterMap.IdsNodup → m3.IdsNodup) :=
  pushBackEdgeId_appends_unless_present pairClusterMap (by decide) ⟨2, 0⟩ (by decide) 7

/-- C16: at a pixel of the grid `eraseEdgeId` returns the state unchanged when
the id is not stored there; otherwise the first occurrence of the id is
removed, so for a duplicate-free list the new list consists of the other ids
in their old order and no longer contains the id.  The id lists of the other
pixels and the cluster index are not touched. -/
theorem eraseEdgeId_removes_id (m : EdgeMap) (hm : m.WF) (p : Point)
    (hb : m.inBounds p) (e : Int) :
    ∃ m2, m.eraseEdgeId p.x p.y e = some m2 ∧
      (e ∉ m.idsAt p → m2 = m) ∧
      (e ∈ m.idsAt p → (m.idsAt p).Nodup →
        m2.idsAt p = (m.idsAt p).filter (fun x => decide (x ≠ e)) ∧ e ∉ m2.idsAt p) ∧
      (∀ q, m.inBounds q → q ≠ p → m2.idsAt q = m.idsAt q) ∧
      m2.dataClusters = m.dataClusters := by
  obtain ⟨m2, h2, r2, c2, d2, wf2, ids2⟩ := eraseEdgeId_spec m hm p hb e
  have hp2 := ids2 p hb
  rw [if_pos rfl] at hp2
  refine ⟨m2, h2, ?_, ?_, ?_, d2⟩
  · intro he
    rw [eraseEdgeId_of_not_mem m hm p hb e he] at h2
    exact (Option.some.inj h2).symm
  · intro _ hn
    rw [hp2, hn.erase_eq_filter]
    refine ⟨?_, ?_⟩
    · congr 1
      funext x
      by_cases hx : x = e <;> simp [hx]
    · simp
  · intro q hq hqp
    rw [ids2 q hq, if_neg hqp]

/-- A run of `eraseEdgeId_removes_id`: the id 2 is erased at the pixel `(0,0)`
of `pairClusterMap`, where the ids `[2, 0]` are stored. -/
theorem eraseEdgeId_removes_id_witness :
    ∃ m2, pairClusterMap.eraseEdgeId 0 0 2 = some m2 ∧
      ((2 : Int) ∉ pairClusterMap.idsAt ⟨0, 0⟩ → m2 = pairClusterMap) ∧
      ((2 : Int) ∈ pairClusterMap.idsAt ⟨0, 0⟩ → (pairClusterMap.idsAt ⟨0, 0⟩).Nodup →
        m2.idsAt ⟨0, 0⟩ = (pairClusterMap.idsAt ⟨0, 0⟩).filter (fun x => decide (x ≠ 2)) ∧
          (2 : Int) ∉ m2.idsAt ⟨0, 0⟩) ∧
      (∀ q, pairClusterMap.inBounds q → q ≠ ⟨0, 0⟩ → m2.idsAt q = pairClusterMap.idsAt q) ∧
      m2.dataClusters = pairClusterMap.dataClusters :=
  eraseEdgeId_removes_id pairClusterMap (by decide) ⟨0, 0⟩ (by decide) 2

/-! ## The operations on the cluster index -/

theorem copyClusterTo_eq (m : EdgeMap) (hm : m.WF) (p : Point) (hb : m.inBounds p)
    (r : Point) :
    m.copyClusterTo p.x p.y r = m.pushBackClusterPoints r.x r.y (m.clusterAt p) := by
  have hget := getClusterPoints_of_inBounds m hm p hb
  unfold EdgeMap.getClusterPoints at hget
  unfold EdgeMap.copyClusterTo EdgeMap.pushBackClusterPoints
  simp only [hget, Option.bind_eq_bind, Option.some_bind]

/-- The loop of `addPointToCluster`: the list stored at `p` is copied to every
pixel of `l`. -/
theorem copyLoop_spec (p : Point) (L : List Point) :
    ∀ (l : List Point) (m : EdgeMap), m.WF → m.inBounds p → m.clusterAt p = L →
      (∀ r ∈ l, m.inBounds r) →
    ∃ m2, l.foldlM (fun (m : EdgeMap) r => m.copyClusterTo p.x p.y r) m = some m2 ∧
      m2.rows = m.rows ∧ m2.cols = m.cols ∧ m2.dataEdgeIds = m.dataEdgeIds ∧ m2.WF ∧
      ∀ q, m.inBounds q → m2.clusterAt q = if q ∈ l then L else m.clusterAt q := by
  intro l
  induction l with
  | nil =>
    intro m hm _ _ _
    exact ⟨m, rfl, rfl, rfl, rfl, hm, fun q _ => by simp⟩
  | cons r rest ih =>
    intro m hm hp hL hl
    obtain ⟨m1, h1, r1, c1, d1, wf1, cl1⟩ :=
      pushBackClusterPoints_spec m hm r (hl r (List.mem_cons_self _ _)) L
    have hp1 : m1.inBounds p := (inBounds_congr m m1 r1 c1 p).mpr hp
    have hL1 : m1.clusterAt p = L := by
      rw [cl1 p hp]
      split_ifs
      · rfl
      · exact hL
    obtain ⟨m2, h2, r2, c2, d2, wf2, cl2⟩ := ih m1 wf1 hp1 hL1
      (fun q hq => (inBounds_congr m m1 r1 c1 q).mpr (hl q (List.mem_cons_of_mem _ hq)))
    refine ⟨m2, ?_, r2.trans r1, c2.trans c1, d2.trans d1, wf2, ?_⟩
    · rw [List.foldlM_cons, copyClusterTo_eq m hm p hp r, hL]
      simp only [Option.bind_eq_bind, h1, Option.some_bind]
      exact h2
    · intro q hq
      rw [cl2 q ((inBounds_congr m m1 r1 c1 q).mpr hq), cl1 q hq]
      by_cases hqr : q ∈ rest
      · simp [hqr]
      · by_cases hqp : q = r
        · simp [hqp]
        · simp [hqr, hqp]

theorem addPointToCluster_spec (m : EdgeMap) (hm : m.WF) (p q : Point)
    (hp : m.inBounds p) (hq : m.inBounds q) (hin : ∀ r ∈ m.clusterAt p, m.inBounds r) :
    ∃ m2, m.addPointToCluster p.x p.y q = some m2 ∧
      m2.rows = m.rows ∧ m2.cols = m.cols ∧ m2.dataEdgeIds = m.dataEdgeIds ∧ m2.WF ∧
      ∀ r, m.inBounds r → m2.clusterAt r =
        if r = p ∨ r ∈ m.clusterAt p ++ [q] then m.clusterAt p ++ [q] else m.clusterAt r := by
  have hget := getClusterPoints_of_inBounds m hm p hp
  unfold EdgeMap.getClusterPoints at hget
  obtain ⟨m1, h1, r1, c1, d1, wf1, cl1⟩ :=
    pushBackClusterPoints_spec m hm p hp (m.clusterAt p ++ [q])
  have hib := inBounds_congr m m1 r1 c1
  obtain ⟨m2, h2, r2, c2, d2, wf2, cl2⟩ := copyLoop_spec p (m.clusterAt p ++ [q])
    (m.clusterAt p ++ [q]) m1 wf1 ((hib p).mpr hp) (by rw [cl1 p hp, if_pos rfl])
    (by
      intro r hr
      rcases List.mem_append.mp hr with hr | hr
      · exact (hib r).mpr (hin r hr)
      · rw [List.mem_singleton] at hr
        subst hr
        exact (hib r).mpr hq)
  unfold EdgeMap.pushBackClusterPoints at h1
  unfold EdgeMap.addPointToCluster
  simp only [hget, Option.bind_eq_bind, Option.some_bind]
  cases hset : vecSet? m.dataClusters (m.pos p.x p.y) (m.clusterAt p ++ [q]) with
  | none => rw [hset] at h1; simp at h1
  | some d =>
    rw [hset] at h1
    simp only [Option.bind_eq_bind, Option.some_bind, Option.pure_def, Option.some.injEq] at h1
    simp only [Option.some_bind]
    rw [h1]
    refine ⟨m2, h2, r2.trans r1, c2.trans c1, d2.trans d1, wf2, ?_⟩
    intro r hr
    rw [cl2 r ((hib r).mpr hr), cl1 r hr]
    by_cases hrL : r ∈ m.clusterAt p ++ [q]
    · simp [hrL]
    · by_cases hrp : r = p
      · simp [hrp]
      · simp [hrL, hrp]

/-- C17: `addPointToCluster(p, q)` appends `q` to the cluster list at `p`, and
afterwards every pixel of the new list (`q` included) stores exactly the new
list, so replication within the cluster of `p` holds for the enlarged cluster;
pixels outside the new list other than `p` keep their lists, and the edge-id
index is not touched. -/
theorem addPointToCluster_appends_and_propagates (m : EdgeMap) (hm : m.WF) (p q : Point)
    (hp : m.inBounds p) (hq : m.inBounds q) (hin : ∀ r ∈ m.clusterAt p, m.inBounds r) :
    ∃ m2, m.addPointToCluster p.x p.y q = some m2 ∧
      m2.clusterAt p = m.clusterAt p ++ [q] ∧
      (∀ r ∈ m2.clusterAt p, m2.clusterAt r = m2.clusterAt p) ∧
      m2.clusterAt q = m.clusterAt p ++ [q] ∧
      ((∀ r ∈ m.clusterAt p, m.clusterAt r = m.clusterAt p) →
        ∀ r ∈ m2.clusterAt p, m2.clusterAt r = m2.clusterAt p) ∧
      (∀ r, m.inBounds r → r ≠ p → r ∉ m.clusterAt p ++ [q] →
        m2.clusterAt r = m.clusterAt r) ∧
      m2.dataEdgeIds = m.dataEdgeIds := by
  obtain ⟨m2, h2, r2, c2, d2, wf2, cl2⟩ := addPointToCluster_spec m hm p q hp hq hin
  have hpp : m2.clusterAt p = m.clusterAt p ++ [q] := by
    rw [cl2 p hp, if_pos (Or.inl rfl)]
  have hmem : ∀ r ∈ m.clusterAt p ++ [q], m.inBounds r := by
    intro r hr
    rcases List.mem_append.mp hr with hr | hr
    · exact hin r hr
    · rw [List.mem_singleton] at hr
      subst hr
      exact hq
  have hrep : ∀ r ∈ m2.clusterAt p, m2.clusterAt r = m2.clusterAt p := by
    intro r hr
    rw [hpp] at hr ⊢
    rw [cl2 r (hmem r hr), if_pos (Or.inr hr)]
  refine ⟨m2, h2, hpp, hrep, ?_, fun _ => hrep, ?_, d2⟩
  · rw [← hpp]
    exact hrep q (by rw [hpp]; exact List.mem_append_right _ (List.mem_singleton.mpr rfl))
  · intro r hr hrp hrL
    rw [cl2 r hr, if_neg (by tauto)]

/-- A run of `addPointToCluster_appends_and_propagates`: the pixel `(2,0)` is
added to the cluster of `(0,0)` in `pairClusterMap`. -/
theorem addPointToCluster_appends_and_propagates_witness :
    ∃ m2, pairClusterMap.addPointToCluster 0 0 ⟨2, 0⟩ = some m2 ∧
      m2.clusterAt ⟨0, 0⟩ = pairClusterMap.clusterAt ⟨0, 0⟩ ++ [⟨2, 0⟩] ∧
      (∀ r ∈ m2.clusterAt ⟨0, 0⟩, m2.clusterAt r = m2.clusterAt ⟨0, 0⟩) ∧
      m2.clusterAt ⟨2, 0⟩ = pairClusterMap.clusterAt ⟨0, 0⟩ ++ [⟨2, 0⟩] ∧
      ((∀ r ∈ pairClusterMap.clusterAt ⟨0, 0⟩,
          pairClusterMap.clusterAt r = pairClusterMap.clusterAt ⟨0, 0⟩) →
        ∀ r ∈ m2.clusterAt ⟨0, 0⟩, m2.clusterAt r = m2.clusterAt ⟨0, 0⟩) ∧
      (∀ r, pairClusterMap.inBounds r → r ≠ ⟨0, 0⟩ →
        r ∉ pairClusterMap.clusterAt ⟨0, 0⟩ ++ [⟨2, 0⟩] →
        m2.clusterAt r = pairClusterMap.clusterAt r) ∧
      m2.dataEdgeIds = pairClusterMap.dataEdgeIds :=
  addPointToCluster_appends_and_propagates pairClusterMap (by decide) ⟨0, 0⟩ ⟨2, 0⟩
    (by decide) (by decide) (by decide)

theorem clearCluster_spec (m : EdgeMap) (hm : m.WF) (p : Point) (hp : m.inBounds p)
    (hin : ∀ r ∈ m.clusterAt p, m.inBounds r) :
    ∃ m2, m.clearCluster p.x p.y = some m2 ∧
      m2.rows = m.rows ∧ m2.cols = m.cols ∧ m2.dataEdgeIds = m.dataEdgeIds ∧ m2.WF ∧
      ∀ r, m.inBounds r → m2.clusterAt r = if r ∈ m.clusterAt p then [] else m.clusterAt r := by
  have hget := getClusterPoints_of_inBounds m hm p hp
  unfold EdgeMap.getClusterPoints at hget
  obtain ⟨m2, h2, rest⟩ := storeAt_spec [] (m.clusterAt p) m hm hin
  refine ⟨m2, ?_, rest⟩
  unfold EdgeMap.clearCluster
  simp only [hget, Option.bind_eq_bind, Option.some_bind]
  exact h2

/-- C18: after `clearCluster(p)` every pixel of the cluster list that was
stored at `p` has an empty cluster list (`p` itself when it is a member of that
list), every other pixel keeps its list, and the edge-id index is not
touched. -/
theorem clearCluster_empties_members (m : EdgeMap) (hm : m.WF) (p : Point)
    (hp : m.inBounds p) (hin : ∀ r ∈ m.clusterAt p, m.inBounds r) :
    ∃ m2, m.clearCluster p.x p.y = some m2 ∧
      (∀ r ∈ m.clusterAt p, m2.clusterAt r = []) ∧
      (p ∈ m.clusterAt p → m2.clusterAt p = []) ∧
      (∀ r, m.inBounds r → r ∉ m.clusterAt p → m2.clusterAt r = m.clusterAt r) ∧
      m2.dataEdgeIds = m.dataEdgeIds := by
  obtain ⟨m2, h2, _, _, d2, _, cl2⟩ := clearCluster_spec m hm p hp hin
  refine ⟨m2, h2, ?_, ?_, ?_, d2⟩
  · intro r hr
    rw [cl2 r (hin r hr), if_pos hr]
  · intro h
    rw [cl2 p hp, if_pos h]
  · intro r hr hrL
    rw [cl2 r hr, if_neg hrL]

/-- A run of `clearCluster_empties_members` on the cluster of `pairClusterMap`. -/
theorem clearCluster_empties_members_witness :
    ∃ m2, pairClusterMap.clearCluster 0 0 = some m2 ∧
      (∀ r ∈ pairClusterMap.clusterAt ⟨0, 0⟩, m2.clusterAt r = []) ∧
      (⟨0, 0⟩ ∈ pairClusterMap.clusterAt ⟨0, 0⟩ → m2.clusterAt ⟨0, 0⟩ = []) ∧
      (∀ r, pairClusterMap.inBounds r → r ∉ pairClusterMap.clusterAt ⟨0, 0⟩ →
        m2.clusterAt r = pairClusterMap.clusterAt r) ∧
      m2.dataEdgeIds = pairClusterMap.dataEdgeIds :=
  clearCluster_empties_members pairClusterMap (by decide) ⟨0, 0⟩ (by decide) (by decide)

theorem point_ext_iff (a b : Point) : a = b ↔ a.x = b.x ∧ a.y = b.y := by
  cases a; cases b; simp

/-! ## The set of edge ids of a cluster -/

theorem mem_setInsert (s : List Int) (a x : Int) :
    x ∈ EdgeMap.setInsert s a ↔ x = a ∨ x ∈ s := by
  unfold EdgeMap.setInsert
  split_ifs with h
  · constructor
    · exact fun hx => Or.inr hx
    · rintro (rfl | hx)
      · exact h
      · exact hx
  · rw [List.mem_orderedInsert]

theorem setInsert_sorted (s : List Int) (a : Int)
    (h : s.Sorted (fun x y => x ≤ y) ∧ s.Nodup) :
    (EdgeMap.setInsert s a).Sorted (fun x y => x ≤ y) ∧ (EdgeMap.setInsert s a).Nodup := by
  unfold EdgeMap.setInsert
  split_ifs with hmem
  · exact h
  · refine ⟨List.Sorted.orderedInsert a s h.1, ?_⟩
    rw [(List.perm_orderedInsert (fun x y => x ≤ y) a s).nodup_iff]
    exact List.nodup_cons.mpr ⟨hmem, h.2⟩

theorem foldl_setInsert_spec (ids : List Int) :
    ∀ (s : List Int), s.Sorted (fun x y => x ≤ y) ∧ s.Nodup →
      ((ids.foldl EdgeMap.setInsert s).Sorted (fun x y => x ≤ y) ∧
        (ids.foldl EdgeMap.setInsert s).Nodup) ∧
      ∀ x, x ∈ ids.foldl EdgeMap.setInsert s ↔ x ∈ s ∨ x ∈ ids := by
  induction ids with
  | nil =>
    intro s hs
    exact ⟨hs, fun x => by simp⟩
  | cons a rest ih =>
    intro s hs
    obtain ⟨h1, h2⟩ := ih (EdgeMap.setInsert s a) (setInsert_sorted s a hs)
    rw [List.foldl_cons]
    refine ⟨h1, fun x => ?_⟩
    rw [h2 x, mem_setInsert, List.mem_cons]
    tauto

/-- The outer loop of `getClusterEdgeIds` over the points of the cluster. -/
theorem clusterIdsLoop_spec (m : EdgeMap) (hm : m.WF) :
    ∀ (points : List Point) (s : List Int), (∀ r ∈ points, m.inBounds r) →
      s.Sorted (fun x y => x ≤ y) ∧ s.Nodup →
    ∃ ids, points.foldlM
        (fun (edgeIdsInCluster : List Int) point => do
          let ids ← vecGet? m.dataEdgeIds (m.pos point.x point.y)
          pure (ids.foldl EdgeMap.setInsert edgeIdsInCluster)) s = some ids ∧
      (ids.Sorted (fun x y => x ≤ y) ∧ ids.Nodup) ∧
      ∀ x, x ∈ ids ↔ x ∈ s ∨ ∃ r ∈ points, x ∈ m.idsAt r := by
  intro points
  induction points with
  | nil =>
    intro s _ hs
    exact ⟨s, rfl, hs, fun x => by simp⟩
  | cons r rest ih =>
    intro s hin hs
    have hget := getEdgeIds_of_inBounds m hm r (hin r (List.mem_cons_self _ _))
    unfold EdgeMap.getEdgeIds at hget
    obtain ⟨h1, h2⟩ := foldl_setInsert_spec (m.idsAt r) s hs
    obtain ⟨ids, h3, h4, h5⟩ := ih ((m.idsAt r).foldl EdgeMap.setInsert s)
      (fun q hq => hin q (List.mem_cons_of_mem _ hq)) h1
    refine ⟨ids, ?_, h4, fun x => ?_⟩
    · rw [List.foldlM_cons]
      simp only [hget, Option.bind_eq_bind, Option.some_bind, Option.pure_def]
      exact h3
    · rw [h5 x, h2 x]
      constructor
      · rintro ((hx | hx) | ⟨q, hq, hx⟩)
        · exact Or.inl hx
        · exact Or.inr ⟨r, List.mem_cons_self _ _, hx⟩
        · exact Or.inr ⟨q, List.mem_cons_of_mem _ hq, hx⟩
      · rintro (hx | ⟨q, hq, hx⟩)
        · exact Or.inl (Or.inl hx)
        · rcases List.mem_cons.mp hq with rfl | hq
          · exact Or.inl (Or.inr hx)
          · exact Or.inr ⟨q, hq, hx⟩

/-- C19: for a pixel of the grid whose cluster list consists of pixels of the
grid, `getClusterEdgeIds` returns a strictly increasing list (sorted, without
duplicates) that contains an id exactly when the id is stored at some pixel of
that cluster list; the result is empty when the pixel is in no cluster. -/
theorem getClusterEdgeIds_sorted_union (m : EdgeMap) (hm : m.WF) (p : Point)
    (hp : m.inBounds p) (hin : ∀ r ∈ m.clusterAt p, m.inBounds r) :
    ∃ ids, m.getClusterEdgeIds p.x p.y = some ids ∧
      ids.Sorted (fun x y => x < y) ∧
      (∀ e, e ∈ ids ↔ ∃ r ∈ m.clusterAt p, e ∈ m.idsAt r) ∧
      (m.clusterAt p = [] → ids = []) := by
  have hget := getClusterPoints_of_inBounds m hm p hp
  unfold EdgeMap.getClusterPoints at hget
  obtain ⟨ids, h1, h2, h3⟩ := clusterIdsLoop_spec m hm (m.clusterAt p) [] hin
    ⟨List.sorted_nil, List.nodup_nil⟩
  have hmem : ∀ e, e ∈ ids ↔ ∃ r ∈ m.clusterAt p, e ∈ m.idsAt r := by
    intro e
    rw [h3 e]
    simp
  refine ⟨ids, ?_, h2.1.lt_of_le h2.2, hmem, ?_⟩
  · unfold EdgeMap.getClusterEdgeIds
    simp only [hget, Option.bind_eq_bind, Option.some_bind]
    exact h1
  · intro hempty
    apply List.eq_nil_iff_forall_not_mem.mpr
    intro e he
    obtain ⟨r, hr, _⟩ := (hmem e).mp he
    rw [hempty] at hr
    simp at hr

/-- A run of `getClusterEdgeIds_sorted_union` on the cluster of
`pairClusterMap`, whose pixels store the ids `[2, 0]` and `[1, 2]`. -/
theorem getClusterEdgeIds_sorted_union_witness :
    pairClusterMap.getClusterEdgeIds 0 0 = some [0, 1, 2] ∧
    ∃ ids, pairClusterMap.getClusterEdgeIds 0 0 = some ids ∧
      ids.Sorted (fun x y => x < y) ∧
      (∀ e, e ∈ ids ↔ ∃ r ∈ pairClusterMap.clusterAt ⟨0, 0⟩, e ∈ pairClusterMap.idsAt r) ∧
      (pairClusterMap.clusterAt ⟨0, 0⟩ = [] → ids = []) :=
  ⟨by decide,
    getClusterEdgeIds_sorted_union pairClusterMap (by decide) ⟨0, 0⟩ (by decide) (by decide)⟩

/-! ## Closed edges -/

theorem normBelowOneAndHalf_iff (d : Point) :
    normBelowOneAndHalf d = true ↔ max (iabs d.x) (iabs d.y) ≤ 1 := by
  unfold normBelowOneAndHalf Point.normSq iabs
  rw [decide_eq_true_eq]
  constructor
  · intro h
    have hx : -1 ≤ d.x ∧ d.x ≤ 1 := by
      constructor
      · by_contra hc
        nlinarith [mul_self_nonneg d.y]
      · by_contra hc
        nlinarith [mul_self_nonneg d.y]
    have hy : -1 ≤ d.y ∧ d.y ≤ 1 := by
      constructor
      · by_contra hc
        nlinarith [mul_self_nonneg d.x]
      · by_contra hc
        nlinarith [mul_self_nonneg d.x]
    omega
  · intro h
    have hx : -1 ≤ d.x ∧ d.x ≤ 1 := by omega
    have hy : -1 ≤ d.y ∧ d.y ≤ 1 := by omega
    have h1 : d.x * d.x ≤ 1 := by nlinarith
    have h2 : d.y * d.y ≤ 1 := by nlinarith
    omega

theorem isClosed_eq (e : Edges) (id : Int) (E : List Point) (a b : Point)
    (hE : e.getEdge id = some E) (ha : E.head? = some a) (hb : E.getLast? = some b) :
    e.isClosed id =
      some (decide (max (iabs (a.x - b.x)) (iabs (a.y - b.y)) ≤ 1 ∧ E.length ≥ 4)) := by
  unfold Edges.getEdge at hE
  unfold Edges.isClosed Edges.getStartPoint Edges.getEndPoint Edges.getEdgeSize
  simp only [hE, ha, hb, Option.bind_eq_bind, Option.some_bind, Option.map_some',
    Option.pure_def]
  by_cases hn : normBelowOneAndHalf (a.sub b) = true
  · have := (normBelowOneAndHalf_iff (a.sub b)).mp hn
    unfold Point.sub at this
    simp only at this
    simp [hn, this]
  · have : ¬ max (iabs (a.x - b.x)) (iabs (a.y - b.y)) ≤ 1 := fun h =>
      hn ((normBelowOneAndHalf_iff (a.sub b)).mpr h)
    simp [hn, this]

theorem chebyshev_le_one_iff (a b : Point) :
    max (iabs (a.x - b.x)) (iabs (a.y - b.y)) ≤ 1 ↔ a = b ∨ isNeighbor8 a b := by
  unfold isNeighbor8 iabs
  rw [point_ext_iff a b]
  constructor
  · intro h
    by_cases hx : a.x = b.x
    · by_cases hy : a.y = b.y
      · exact Or.inl ⟨hx, hy⟩
      · right
        omega
    · right
      omega
  · rintro (⟨hx, hy⟩ | h)
    · omega
    · omega

/-- C20 (counterexample): the edge of `returningEdge` has five pixels and its
first and last pixel are the same pixel `(0,0)`; `isClosed` is true although
the two end pixels are not 8-neighbours (they are not distinct). -/
theorem isClosed_true_for_equal_end_pixels :
    returningEdge.isClosed 0 = some true ∧
      returningEdge.getStartPoint 0 = some ⟨0, 0⟩ ∧
      returningEdge.getEndPoint 0 = some ⟨0, 0⟩ ∧
      ¬ isNeighbor8 ⟨0, 0⟩ ⟨0, 0⟩ := by
  decide

/-- C20 (amended): for a non-empty edge `isClosed` returns, and it is true
exactly when the edge has at least four pixels and its first and last pixel
are 8-neighbours or the same pixel, that is, when their Chebyshev distance is
at most one. -/
theorem isClosed_iff_length_and_gap (e : Edges) (id : Int) (E : List Point)
    (hE : e.getEdge id = some E) (hne : E ≠ []) :
    ∃ a b r, E.head? = some a ∧ E.getLast? = some b ∧ e.isClosed id = some r ∧
      (r = true ↔ E.length ≥ 4 ∧ (a = b ∨ isNeighbor8 a b)) ∧
      (r = true → E.length ≥ 4 ∧ max (iabs (a.x - b.x)) (iabs (a.y - b.y)) ≤ 1) := by
  obtain ⟨a, ha⟩ : ∃ a, E.head? = some a := by
    cases E with
    | nil => exact absurd rfl hne
    | cons x _ => exact ⟨x, rfl⟩
  obtain ⟨b, hb⟩ : ∃ b, E.getLast? = some b :=
    ⟨E.getLast hne, List.getLast?_eq_getLast E hne⟩
  refine ⟨a, b, _, ha, hb, isClosed_eq e id E a b hE ha hb, ?_, ?_⟩
  · rw [decide_eq_true_eq, chebyshev_le_one_iff]
    tauto
  · rw [decide_eq_true_eq]
    tauto

/-- A run of `isClosed_iff_length_and_gap` on the ring of eight pixels. -/
theorem isClosed_iff_length_and_gap_witness :
    ringEdge.isClosed 0 = some true ∧
    ∃ a b r, [(⟨0, 0⟩ : Point), ⟨1, 0⟩, ⟨2, 0⟩, ⟨2, 1⟩, ⟨2, 2⟩, ⟨1, 2⟩, ⟨0, 2⟩, ⟨0, 1⟩].head? =
        some a ∧
      [(⟨0, 0⟩ : Point), ⟨1, 0⟩, ⟨2, 0⟩, ⟨2, 1⟩, ⟨2, 2⟩, ⟨1, 2⟩, ⟨0, 2⟩, ⟨0, 1⟩].getLast? =
        some b ∧
      ringEdge.isClosed 0 = some r ∧
      (r = true ↔
        [(⟨0, 0⟩ : Point), ⟨1, 0⟩, ⟨2, 0⟩, ⟨2, 1⟩, ⟨2, 2⟩, ⟨1, 2⟩, ⟨0, 2⟩, ⟨0, 1⟩].length ≥ 4 ∧
          (a = b ∨ isNeighbor8 a b)) ∧
      (r = true →
        [(⟨0, 0⟩ : Point), ⟨1, 0⟩, ⟨2, 0⟩, ⟨2, 1⟩, ⟨2, 2⟩, ⟨1, 2⟩, ⟨0, 2⟩, ⟨0, 1⟩].length ≥ 4 ∧
          max (iabs (a.x - b.x)) (iabs (a.y - b.y)) ≤ 1) :=
  ⟨by decide, isClosed_iff_length_and_gap ringEdge 0 _ (by decide) (by decide)⟩

/-! ## Which pixels are clustered, and how clusters hang together -/

theorem linked_trans (img : Mat) (a b c : Point) (h1 : Linked img a b)
    (h2 : Linked img b c) : Linked img a c := by
  induction h2 with
  | seed => exact h1
  | step r n _ hn hcp ih => exact Linked.step r n ih hn hcp

theorem linked_symm (img : Mat) (s : Point) (hs : img.inside s)
    (hse : img.px s.y s.x > 0) (hsc : isClusterPoint img s = true) (r : Point)
    (h : Linked img s r) : Linked img r s := by
  induction h with
  | seed => exact Linked.seed
  | step r n hlink hn _ ih =>
    obtain ⟨hrin, hre, hrc⟩ := linked_clusterPoint img s hs hse hsc r hlink
    have hback : Linked img n r :=
      Linked.step n r Linked.seed (getDirectNeighbors_symm img r n hrin hre hn) hrc
    exact linked_trans img n r s hback ih

/-- The effect of `preprocessPixel`: either nothing changes, or the pixel is
an unclustered cluster point and the cluster grown from it is stored at each
of its points. -/
theorem preprocessPixel_cases (img : Mat) (m : EdgeMap) (p : Point)
    (hok : ClusterIndexOk img m) (hp : img.inside p) :
    ∃ m2, preprocessPixel img m p = some m2 ∧
      (m2 = m ∨
        (img.px p.y p.x > 0 ∧ isClusterPoint img p = true ∧
          ∃ C, (∀ r ∈ C, Linked img p r) ∧ ClusterPoints img C ∧
            ∀ q, img.inside q → m2.clusterAt q = if q ∈ C then C else m.clusterAt q)) := by
  have hib := inside_iff_inBounds img m hok.rows_eq hok.cols_eq
  have hget := getClusterPoints_of_inBounds m hok.wf p ((hib p).mp hp)
  by_cases hedge : img.px p.y p.x > 0
  · by_cases hlen : (m.clusterAt p).length = 0
    · by_cases hcp : isClusterPoint img p = true
      · obtain ⟨C, hC, _, hCc, hCl, _, _⟩ := growCluster_spec img p
          (img.rows * img.cols + 1) [p] 0 (Nat.zero_le _) (List.nodup_singleton p)
          (by intro q hq; rw [List.mem_singleton] at hq; subst hq; exact ⟨hp, hedge, hcp⟩)
          (by intro q hq; rw [List.mem_singleton] at hq; subst hq; exact Linked.seed)
          (by intro i hi; omega) (by omega)
        obtain ⟨m2, hst, _, _, _, _, cl2⟩ := storeAt_spec C C m hok.wf
          (fun q hq => (hib q).mp (hCc q hq).1)
        have hval : preprocessPixel img m p = some m2 := by
          unfold preprocessPixel
          simp only [hedge, if_true, hget, Option.bind_eq_bind, Option.some_bind, hlen, hcp,
            hC]
          exact hst
        exact ⟨m2, hval, Or.inr ⟨hedge, hcp, C, hCl, hCc, fun q hq => cl2 q ((hib q).mp hq)⟩⟩
      · have hval : preprocessPixel img m p = some m := by
          unfold preprocessPixel
          simp only [hedge, if_true, hget, Option.bind_eq_bind, Option.some_bind, hlen, hcp,
            Bool.false_eq_true, if_false, Option.pure_def]
        exact ⟨m, hval, Or.inl rfl⟩
    · have hval : preprocessPixel img m p = some m := by
        unfold preprocessPixel
        simp only [hedge, if_true, hget, Option.bind_eq_bind, Option.some_bind, hlen,
          if_false, Option.pure_def]
      exact ⟨m, hval, Or.inl rfl⟩
  · have hval : preprocessPixel img m p = some m := by
      unfold preprocessPixel
      simp only [hedge, if_false, Option.pure_def]
    exact ⟨m, hval, Or.inl rfl⟩

theorem preprocessPixel_linked (img : Mat) (m m2 : EdgeMap) (p : Point)
    (hok : ClusterIndexOk img m) (hlink : ClustersLinked img m) (hp : img.inside p)
    (h : preprocessPixel img m p = some m2) : ClustersLinked img m2 := by
  obtain ⟨m3, h3, hcase⟩ := preprocessPixel_cases img m p hok hp
  rw [h] at h3
  obtain rfl := Option.some.inj h3
  rcases hcase with rfl | ⟨hedge, hcp, C, hCl, hCc, hcl⟩
  · exact hlink
  · intro q hq r hr
    rw [hcl q hq] at hr
    split_ifs at hr with hqC
    · exact linked_trans img q p r (linked_symm img p hp hedge hcp q (hCl q hqC)) (hCl r hr)
    · exact hlink q hq r hr

theorem preprocessFold_linked (img : Mat) :
    ∀ (l : List Point) (m m2 : EdgeMap), ClusterIndexOk img m → ClustersLinked img m →
      (∀ p ∈ l, img.inside p) → l.foldlM (preprocessPixel img) m = some m2 →
      ClustersLinked img m2 := by
  intro l
  induction l with
  | nil =>
    intro m m2 _ hlink _ h
    rw [List.foldlM_nil] at h
    obtain rfl := Option.some.inj h
    exact hlink
  | cons p rest ih =>
    intro m m2 hok hlink hl h
    have hp := hl p (List.mem_cons_self _ _)
    obtain ⟨m1, h1, ok1, _⟩ := preprocessPixel_spec img m p hok hp
    rw [List.foldlM_cons] at h
    simp only [Option.bind_eq_bind, h1, Option.some_bind] at h
    exact ih m1 m2 ok1 (preprocessPixel_linked img m m1 p hok hlink hp h1)
      (fun q hq => hl q (List.mem_cons_of_mem _ hq)) h

theorem preprocessClusters_linked (img : Mat) (m0 m : EdgeMap) (hwf : m0.WF)
    (hr : m0.rows = img.rows) (hc : m0.cols = img.cols) (hreset : m0.ClustersEmpty)
    (h : preprocessClusters img m0 = some m) : ClustersLinked img m := by
  refine preprocessFold_linked img img.raster m0 m
    (clusterIndexOk_of_reset img m0 hwf hr hc hreset) ?_
    (fun p hp => (mem_raster img p).mp hp) h
  intro p _ q hq
  rw [clusterAt_of_clustersEmpty m0 hreset p] at hq
  simp at hq

/-- C11: after `preprocessClusters` on a reset cluster index, a pixel of the
image is in a cluster (its cluster list is non-empty, `isCluster` answers
true) if and only if it is an edge pixel and a cluster point, that is, its
occupancy code contains a corner four-cluster or it has more than two direct
neighbours. -/
theorem preprocessClusters_clusters_exactly_cluster_points (img : Mat) (m0 : EdgeMap)
    (hwf : m0.WF) (hr : m0.rows = img.rows) (hc : m0.cols = img.cols)
    (hreset : m0.ClustersEmpty) :
    ∃ m, preprocessClusters img m0 = some m ∧
      ∀ p, img.inside p →
        (m.clusterAt p ≠ [] ↔
          img.px p.y p.x > 0 ∧
            (containsFourCluster (getBinaryCode img p) = true ∨
              (getDirectNeighbors img p).length > 2)) ∧
        m.isCluster p.x p.y = some (decide (m.clusterAt p ≠ [])) := by
  obtain ⟨m, hm, hok, _, hcomplete⟩ := preprocessClusters_spec img m0 hwf hr hc hreset
  refine ⟨m, hm, fun p hp => ⟨?_, ?_⟩⟩
  · have hcp : isClusterPoint img p = true ↔
        (containsFourCluster (getBinaryCode img p) = true ∨
          (getDirectNeighbors img p).length > 2) := by
      unfold isClusterPoint
      rw [Bool.or_eq_true, decide_eq_true_eq]
    rw [← hcp]
    constructor
    · intro hne
      obtain ⟨_, hedge, hc⟩ := hok.members p hp p (hok.self_mem p hp hne)
      exact ⟨hedge, hc⟩
    · rintro ⟨hedge, hc⟩
      exact hcomplete p hp hedge hc
  · rw [isCluster_of_inBounds m hok.wf p
      ((inside_iff_inBounds img m hok.rows_eq hok.cols_eq p).mp hp)]
    congr 1
    by_cases h0 : m.clusterAt p = []
    · simp [h0]
    · have := List.length_pos.mpr h0
      simp only [h0, ne_eq, not_false_eq_true, decide_True, decide_eq_true_eq]
      omega

/-- A run of `preprocessClusters_clusters_exactly_cluster_points` on the image
`diagonalJunctionsImage`. -/
theorem preprocessClusters_clusters_exactly_cluster_points_witness :
    ∃ m, preprocessClusters diagonalJunctionsImage (EdgeMap.init 4 4) = some m ∧
      ∀ p, diagonalJunctionsImage.inside p →
        (m.clusterAt p ≠ [] ↔
          diagonalJunctionsImage.px p.y p.x > 0 ∧
            (containsFourCluster (getBinaryCode diagonalJunctionsImage p) = true ∨
              (getDirectNeighbors diagonalJunctionsImage p).length > 2)) ∧
        m.isCluster p.x p.y = some (decide (m.clusterAt p ≠ [])) :=
  preprocessClusters_clusters_exactly_cluster_points diagonalJunctionsImage
    (EdgeMap.init 4 4) (by decide) (by decide) (by decide) (by decide)

/-- C12 (counterexample): in `diagonalJunctionsImage` the edge pixels `(2,1)`
and `(1,2)` are cluster points and 8-neighbours of each other, but
`preprocessClusters` puts them into two different clusters, each consisting of
the one pixel. -/
theorem preprocessClusters_separates_diagonal_cluster_points :
    ∃ m, preprocessClusters diagonalJunctionsImage (EdgeMap.init 4 4) = some m ∧
      diagonalJunctionsImage.px 1 2 > 0 ∧ diagonalJunctionsImage.px 2 1 > 0 ∧
      isClusterPoint diagonalJunctionsImage ⟨2, 1⟩ = true ∧
      isClusterPoint diagonalJunctionsImage ⟨1, 2⟩ = true ∧
      isNeighbor8 ⟨2, 1⟩ ⟨1, 2⟩ ∧
      m.clusterAt ⟨2, 1⟩ = [⟨2, 1⟩] ∧ m.clusterAt ⟨1, 2⟩ = [⟨1, 2⟩] := by
  refine ⟨_, rfl, ?_⟩
  decide

/-- C12 (amended): on a reset cluster index `preprocessClusters` produces
clusters that are maximal connected sets of cluster points under the
direct-neighbour relation: the points of a cluster list are edge pixels that
pass the cluster-point test, each of them is linked to the pixel storing the
list by steps to direct neighbours that are cluster points, and two cluster
points one of which is a direct neighbour of the other store the same
list. -/
theorem preprocessClusters_clusters_maximal_connected (img : Mat) (m0 : EdgeMap)
    (hwf : m0.WF) (hr : m0.rows = img.rows) (hc : m0.cols = img.cols)
    (hreset : m0.ClustersEmpty) :
    ∃ m, preprocessClusters img m0 = some m ∧
      (∀ p, img.inside p → ∀ q ∈ m.clusterAt p,
        img.inside q ∧ img.px q.y q.x > 0 ∧ isClusterPoint img q = true) ∧
      (∀ p, img.inside p → ∀ q ∈ m.clusterAt p, Linked img p q) ∧
      (∀ p q, img.inside p → img.px p.y p.x > 0 → isClusterPoint img p = true →
        q ∈ getDirectNeighbors img p → isClusterPoint img q = true →
        q ∈ m.clusterAt p ∧ m.clusterAt q = m.clusterAt p) := by
  obtain ⟨m, hm, hok, _, hcomplete⟩ := preprocessClusters_spec img m0 hwf hr hc hreset
  refine ⟨m, hm, hok.members, preprocessClusters_linked img m0 m hwf hr hc hreset hm, ?_⟩
  intro p q hp hedge hcp hq hcq
  have hne := hcomplete p hp hedge hcp
  have hself := hok.self_mem p hp hne
  have hqC := hok.closed p hp p hself q hq hcq
  exact ⟨hqC, hok.replicated p hp q hqC⟩

/-- A run of `preprocessClusters_clusters_maximal_connected` on the `2 × 2`
block of edge pixels. -/
theorem preprocessClusters_clusters_maximal_connected_witness :
    ∃ m, preprocessClusters (Mat.ofRows [[1, 1], [1, 1]]) (EdgeMap.init 2 2) = some m ∧
      (∀ p, (Mat.ofRows [[1, 1], [1, 1]]).inside p → ∀ q ∈ m.clusterAt p,
        (Mat.ofRows [[1, 1], [1, 1]]).inside q ∧ (Mat.ofRows [[1, 1], [1, 1]]).px q.y q.x > 0 ∧
          isClusterPoint (Mat.ofRows [[1, 1], [1, 1]]) q = true) ∧
      (∀ p, (Mat.ofRows [[1, 1], [1, 1]]).inside p → ∀ q ∈ m.clusterAt p,
        Linked (Mat.ofRows [[1, 1], [1, 1]]) p q) ∧
      (∀ p q, (Mat.ofRows [[1, 1], [1, 1]]).inside p →
        (Mat.ofRows [[1, 1], [1, 1]]).px p.y p.x > 0 →
        isClusterPoint (Mat.ofRows [[1, 1], [1, 1]]) p = true →
        q ∈ getDirectNeighbors (Mat.ofRows [[1, 1], [1, 1]]) p →
        isClusterPoint (Mat.ofRows [[1, 1], [1, 1]]) q = true →
        q ∈ m.clusterAt p ∧ m.clusterAt q = m.clusterAt p) :=
  preprocessClusters_clusters_maximal_connected (Mat.ofRows [[1, 1], [1, 1]])
    (EdgeMap.init 2 2) (by decide) (by decide) (by decide) (by decide)

/-! ## Points along an edge -/

theorem toInt32_sizeSub_of_le (len n : Nat) (h : n ≤ len) (hlen : len < 2147483648) :
    toInt32 (sizeSub len n) = (len : Int) - n := by
  unfold toInt32 sizeSub
  omega

theorem toInt32_sizeSub_of_gt (len n : Nat) (h : len < n) (hn : n ≤ len + 2147483648) :
    toInt32 (sizeSub len n) < 0 := by
  unfold toInt32 sizeSub
  omega

theorem drop_reverse_eq {α : Type} (l : List α) (k : Nat) (hk : k ≤ l.length) :
    (l.drop (l.length - k)).reverse = l.reverse.take k := by
  rw [List.reverse_drop]
  congr 1
  omega

/-- For counts up to `2^31` above the length of the edge the function returns
the first `min n |E|` points walking from the anchor. -/
theorem getPointsAlongEdgeFromPoint_spec (e : Edges) (id : Int) (E : List Point)
    (a : Point) (n : Nat) (hE : e.getEdge id = some E) (hne : E ≠ [])
    (hlen : E.length < 2147483648) (hn : n ≤ E.length + 2147483648) :
    e.getPointsAlongEdgeFromPoint id a n = some
      (if E.head? = some a then E.take (min n E.length)
       else if E.getLast? = some a then E.reverse.take (min n E.length)
       else []) := by
  obtain ⟨f, hf⟩ : ∃ f, E.head? = some f := by
    cases E with
    | nil => exact absurd rfl hne
    | cons x _ => exact ⟨x, rfl⟩
  obtain ⟨b, hb⟩ : ∃ b, E.getLast? = some b :=
    ⟨E.getLast hne, List.getLast?_eq_getLast E hne⟩
  unfold Edges.getEdge at hE
  unfold Edges.getPointsAlongEdgeFromPoint
  simp only [hE, hf, hb, Option.bind_eq_bind, Option.some_bind, Option.pure_def,
    Option.some.injEq]
  by_cases hfa : f = a
  · rw [if_pos hfa, if_pos hfa]
  · rw [if_neg hfa, if_neg hfa]
    by_cases hba : b = a
    · rw [if_pos hba, if_pos hba]
      congr 1
      by_cases hle : n ≤ E.length
      · rw [toInt32_sizeSub_of_le E.length n hle hlen, min_eq_left hle]
        have : (max ((E.length : Int) - n) 0).toNat = E.length - n := by omega
        rw [this]
        exact drop_reverse_eq E n hle
      · have hlt : E.length < n := by omega
        have := toInt32_sizeSub_of_gt E.length n hlt hn
        rw [max_eq_right this.le, min_eq_right hlt.le]
        simp
    · rw [if_neg hba, if_neg hba]

/-- C21: for the edge `[(0,0), (1,0)]`, the anchor `(1,0)` (its last point) and
the count `2^64 - 1` (the largest `size_t`) the function returns the empty
list, whereas the first two points of the reversed edge are expected; from the
anchor `(0,0)` the same count yields the whole edge.  The count `2^32 + 1`
yields one point only. -/
theorem getPointsAlongEdgeFromPoint_drops_points_for_huge_count :
    (Edges.mk [[⟨0, 0⟩, ⟨1, 0⟩]]).getPointsAlongEdgeFromPoint 0 ⟨1, 0⟩
      18446744073709551615 = some [] ∧
    (Edges.mk [[⟨0, 0⟩, ⟨1, 0⟩]]).getPointsAlongEdgeFromPoint 0 ⟨0, 0⟩
      18446744073709551615 = some [⟨0, 0⟩, ⟨1, 0⟩] ∧
    (Edges.mk [[⟨0, 0⟩, ⟨1, 0⟩]]).getPointsAlongEdgeFromPoint 0 ⟨1, 0⟩
      4294967297 = some [⟨1, 0⟩] ∧
    ([⟨0, 0⟩, ⟨1, 0⟩] : List Point).reverse.take
      (min 18446744073709551615 ([⟨0, 0⟩, ⟨1, 0⟩] : List Point).length) =
        [⟨1, 0⟩, ⟨0, 0⟩] := by
  decide

/-! ## Compaction of the edge table -/

theorem vecRemove_foldl {α : Type} [DecidableEq α] (value : α) (v kept : List α) :
    v.foldl (fun kept a => if a = value then kept else kept ++ [a]) kept =
      kept ++ v.filter (fun a => decide (a ≠ value)) := by
  induction v generalizing kept with
  | nil => simp
  | cons a rest ih =>
    rw [List.foldl_cons, ih, List.filter_cons]
    by_cases h : a = value
    · simp [h]
    · simp [h]

theorem vecRemove_eq_filter {α : Type} [DecidableEq α] (v : List α) (value : α) :
    vecRemove v value = v.filter (fun a => decide (a ≠ value)) := by
  unfold vecRemove
  rw [vecRemove_foldl]
  rfl

/-- C22: `eraseEmptyEdges` leaves exactly the non-empty edges of the table, in
their original order; applying it twice is the same as applying it once, and
a table without empty edges is not changed. -/
theorem eraseEmptyEdges_keeps_nonempty_in_order (e : Edges) :
    e.eraseEmptyEdges.data = e.data.filter (fun E => decide (E ≠ [])) ∧
    e.eraseEmptyEdges.data.Sublist e.data ∧
    (∀ E, E ∈ e.eraseEmptyEdges.data ↔ E ∈ e.data ∧ E ≠ []) ∧
    e.eraseEmptyEdges.eraseEmptyEdges = e.eraseEmptyEdges ∧
    ((∀ E ∈ e.data, E ≠ []) → e.eraseEmptyEdges = e) := by
  have h : e.eraseEmptyEdges.data = e.data.filter (fun E => decide (E ≠ [])) :=
    vecRemove_eq_filter e.data []
  refine ⟨h, ?_, ?_, ?_, ?_⟩
  · rw [h]; exact List.filter_sublist _
  · intro E
    rw [h, List.mem_filter, decide_eq_true_eq]
  · have h2 := vecRemove_eq_filter e.eraseEmptyEdges.data ([] : List Point)
    unfold Edges.eraseEmptyEdges at h h2 ⊢
    simp only at h h2 ⊢
    rw [h2, h, List.filter_filter]
    congr 1
    simp
  · intro hall
    cases e with
    | mk data =>
      unfold Edges.eraseEmptyEdges
      simp only at hall ⊢
      rw [vecRemove_eq_filter]
      congr 1
      rw [List.filter_eq_self]
      intro E hE
      exact decide_eq_true (hall E hE)

/-! ## `cleanUpEdges` -/

theorem getEdgeIdLoop_mem (E : List Point) :
    ∀ (l : List (List Point)) (k : Nat), E ∈ l →
      ∃ j, Edges.getEdgeIdLoop E l k = k + j ∧ l[j]? = some E := by
  intro l
  induction l with
  | nil => intro k h; simp at h
  | cons F rest ih =>
    intro k h
    unfold Edges.getEdgeIdLoop
    by_cases hF : F = E
    · rw [if_pos hF]
      exact ⟨0, rfl, by simp [hF]⟩
    · rw [if_neg hF]
      have hrest : E ∈ rest := by
        rcases List.mem_cons.mp h with h | h
        · exact absurd h.symm hF
        · exact h
      obtain ⟨j, h1, h2⟩ := ih (k + 1) hrest
      exact ⟨j + 1, by rw [h1]; omega, by simpa using h2⟩

theorem getEdgeIdLoop_nodup (E : List Point) :
    ∀ (l : List (List Point)) (k i : Nat), l.Nodup → l[i]? = some E →
      Edges.getEdgeIdLoop E l k = k + i := by
  intro l
  induction l with
  | nil => intro k i _ h; simp at h
  | cons F rest ih =>
    intro k i hn h
    unfold Edges.getEdgeIdLoop
    obtain ⟨hF, hn2⟩ := List.nodup_cons.mp hn
    cases i with
    | zero =>
      simp only [List.getElem?_cons_zero, Option.some.injEq] at h
      rw [if_pos h]
      rfl
    | succ i =>
      simp only [List.getElem?_cons_succ] at h
      have hne : F ≠ E := by
        intro heq
        rw [heq] at hF
        exact hF (List.getElem?_mem h)
      rw [if_neg hne, ih (k + 1) i hn2 h]
      omega

/-- Writing one id at all points of an edge. -/
theorem registerEdge_spec (c : Int) :
    ∀ (E : List Point) (m : EdgeMap), m.WF → m.IdsNodup → (∀ p ∈ E, m.inBounds p) →
    ∃ m2, registerEdge m E c = some m2 ∧ m2.rows = m.rows ∧ m2.cols = m.cols ∧
      m2.dataClusters = m.dataClusters ∧ m2.WF ∧ m2.IdsNodup ∧
      ∀ q, m.inBounds q → ∀ x, (x ∈ m2.idsAt q ↔ x ∈ m.idsAt q ∨ (x = c ∧ q ∈ E)) := by
  intro E
  induction E with
  | nil =>
    intro m hm hn _
    exact ⟨m, rfl, rfl, rfl, rfl, hm, hn, fun q _ x => by simp⟩
  | cons p rest ih =>
    intro m hm hn hE
    have hp := hE p (List.mem_cons_self _ _)
    obtain ⟨m1, h1, r1, c1, d1, wf1, ids1⟩ := pushBackEdgeId_spec m hm p hp c
    have hib := inBounds_congr m m1 r1 c1
    obtain ⟨m2, h2, r2, c2, d2, wf2, n2, ids2⟩ := ih m1 wf1
      (pushBackEdgeId_nodup m m1 hm p hp c h1 hn)
      (fun q hq => (hib q).mpr (hE q (List.mem_cons_of_mem _ hq)))
    refine ⟨m2, ?_, r2.trans r1, c2.trans c1, d2.trans d1, wf2, n2, ?_⟩
    · unfold registerEdge at h2 ⊢
      rw [List.foldlM_cons]
      simp only [Option.bind_eq_bind, h1, Option.some_bind]
      exact h2
    · intro q hq x
      rw [ids2 q ((hib q).mpr hq) x, ids1 q hq, List.mem_cons]
      by_cases hqp : q = p
      · subst hqp
        rw [if_pos rfl]
        by_cases hc : c ∈ m.idsAt q
        · rw [if_pos hc]
          constructor
          · rintro (h | ⟨h, h3⟩)
            · exact Or.inl h
            · exact Or.inr ⟨h, Or.inr h3⟩
          · rintro (h | ⟨h, _⟩)
            · exact Or.inl h
            · exact Or.inl (h ▸ hc)
        · rw [if_neg hc, List.mem_append, List.mem_singleton]
          constructor
          · rintro ((h | h) | ⟨h, h3⟩)
            · exact Or.inl h
            · exact Or.inr ⟨h, Or.inl rfl⟩
            · exact Or.inr ⟨h, Or.inr h3⟩
          · rintro (h | ⟨h, _⟩)
            · exact Or.inl (Or.inl h)
            · exact Or.inl (Or.inr h)
      · rw [if_neg hqp]
        constructor
        · rintro (h | ⟨h, h3⟩)
          · exact Or.inl h
          · exact Or.inr ⟨h, Or.inr h3⟩
        · rintro (h | ⟨h, h3 | h3⟩)
          · exact Or.inl h
          · exact absurd h3 hqp
          · exact Or.inr ⟨h, h3⟩

/-- The outer loop of `cleanUpEdges`: every edge of the list is registered
under the id that `g` assigns to it. -/
theorem registerLoop_spec (g : List Point → Int) :
    ∀ (L : List (List Point)) (m : EdgeMap), m.WF → m.IdsNodup →
      (∀ E ∈ L, ∀ p ∈ E, m.inBounds p) →
    ∃ m2, L.foldlM (fun (m : EdgeMap) edge => registerEdge m edge (g edge)) m = some m2 ∧
      m2.rows = m.rows ∧ m2.cols = m.cols ∧
      m2.dataClusters = m.dataClusters ∧ m2.WF ∧ m2.IdsNodup ∧
      ∀ q, m.inBounds q → ∀ x,
        (x ∈ m2.idsAt q ↔ x ∈ m.idsAt q ∨ ∃ E ∈ L, q ∈ E ∧ x = g E) := by
  intro L
  induction L with
  | nil =>
    intro m hm hn _
    exact ⟨m, rfl, rfl, rfl, rfl, hm, hn, fun q _ x => by simp⟩
  | cons E rest ih =>
    intro m hm hn hL
    obtain ⟨m1, h1, r1, c1, d1, wf1, n1, ids1⟩ := registerEdge_spec (g E) E m hm hn
      (hL E (List.mem_cons_self _ _))
    have hib := inBounds_congr m m1 r1 c1
    obtain ⟨m2, h2, r2, c2, d2, wf2, n2, ids2⟩ := ih m1 wf1 n1
      (fun F hF p hp => (hib p).mpr (hL F (List.mem_cons_of_mem _ hF) p hp))
    refine ⟨m2, ?_, r2.trans r1, c2.trans c1, d2.trans d1, wf2, n2, ?_⟩
    · rw [List.foldlM_cons]
      simp only [Option.bind_eq_bind, h1, Option.some_bind]
      exact h2
    · intro q hq x
      rw [ids2 q ((hib q).mpr hq) x, ids1 q hq x]
      constructor
      · rintro ((h | ⟨h, h3⟩) | ⟨F, hF, h3, h4⟩)
        · exact Or.inl h
        · exact Or.inr ⟨E, List.mem_cons_self _ _, h3, h⟩
        · exact Or.inr ⟨F, List.mem_cons_of_mem _ hF, h3, h4⟩
      · rintro (h | ⟨F, hF, h3, h4⟩)
        · exact Or.inl (Or.inl h)
        · rcases List.mem_cons.mp hF with rfl | hF
          · exact Or.inl (Or.inr ⟨h4, h3⟩)
          · exact Or.inr ⟨F, hF, h3, h4⟩

theorem resetEdgeIdMap_spec (m : EdgeMap) (hm : m.WF) :
    m.resetEdgeIdMap.WF ∧ m.resetEdgeIdMap.IdsNodup ∧
      (∀ p, m.resetEdgeIdMap.idsAt p = []) ∧
      (∀ p, m.resetEdgeIdMap.inBounds p ↔ m.inBounds p) := by
  have hempty : ∀ p, m.resetEdgeIdMap.idsAt p = [] := by
    intro p
    apply idsAt_of_all_empty
    intro L hL
    unfold EdgeMap.resetEdgeIdMap at hL
    exact (List.mem_replicate.mp hL).2
  refine ⟨?_, ?_, hempty, fun p => Iff.rfl⟩
  · obtain ⟨h1, h2, _, h4⟩ := hm
    refine ⟨h1, h2, ?_, h4⟩
    have := mul_nonneg h1 h2
    unfold EdgeMap.resetEdgeIdMap
    simp only [List.length_replicate]
    omega
  · intro p _
    rw [hempty p]
    exact List.nodup_nil

/-- What `cleanUpEdges` does on any state whose edges lie inside the grid: the
empty edges are removed, and a pixel stores exactly the ids that `getEdgeId`
assigns to the surviving edges through it, that is, for each such edge the
position of the first edge with the same point sequence. -/
theorem cleanUpEdges_spec (s : EdgeProcessor) (hm : s.edgeMap.WF)
    (hin : ∀ E ∈ s.edges.data, ∀ p ∈ E, s.edgeMap.inBounds p) :
    ∃ s2, cleanUpEdges s = some s2 ∧
      s2.edges.data = s.edges.data.filter (fun E => decide (E ≠ [])) ∧
      s2.edgeIdCounter = s.edgeIdCounter ∧
      s2.edgeMap.rows = s.edgeMap.rows ∧ s2.edgeMap.cols = s.edgeMap.cols ∧
      s2.edgeMap.dataClusters = s.edgeMap.dataClusters ∧ s2.edgeMap.WF ∧
      s2.edgeMap.IdsNodup ∧
      ∀ q, s.edgeMap.inBounds q → ∀ x,
        (x ∈ s2.edgeMap.idsAt q ↔
          ∃ E ∈ s2.edges.data, q ∈ E ∧ x = s2.edges.getEdgeId E) := by
  obtain ⟨wf0, n0, e0, _⟩ := resetEdgeIdMap_spec s.edgeMap hm
  have hdata : s.edges.eraseEmptyEdges.data = s.edges.data.filter (fun E => decide (E ≠ [])) :=
    vecRemove_eq_filter s.edges.data []
  obtain ⟨m2, h2, r2, c2, d2, wf2, n2, ids2⟩ := registerLoop_spec
    (fun E => s.edges.eraseEmptyEdges.getEdgeId E) s.edges.eraseEmptyEdges.data
    s.edgeMap.resetEdgeIdMap wf0 n0
    (by
      intro E hE p hp
      rw [hdata] at hE
      exact hin E (List.mem_of_mem_filter hE) p hp)
  refine ⟨{ s with edges := s.edges.eraseEmptyEdges, edgeMap := m2 }, ?_, hdata, rfl, r2, c2,
    d2, wf2, n2, ?_⟩
  · unfold cleanUpEdges
    simp only [h2, Option.bind_eq_bind, Option.some_bind, Option.pure_def]
  · intro q hq x
    rw [ids2 q hq x, e0 q]
    simp only [List.not_mem_nil, false_or]

/-- C23: in `twinEdgesState` the ids 0 and 1 name two edges with the same point
sequence and the state is consistent.  After `cleanUpEdges` both edges survive,
but `getEdgeId` finds position 0 for either of them: the id 1 is stored at no
pixel of edge 1. -/
theorem cleanUpEdges_misses_id_of_twin_edge :
    TableIndexAgree twinEdgesState ∧
    ∃ s, cleanUpEdges twinEdgesState = some s ∧
      s.edges.data = [[⟨0, 0⟩, ⟨1, 0⟩], [⟨0, 0⟩, ⟨1, 0⟩]] ∧
      s.edgeMap.dataEdgeIds = [[0], [0]] ∧
      (1 : Int) ∉ s.edgeMap.idsAt ⟨0, 0⟩ ∧ (1 : Int) ∉ s.edgeMap.idsAt ⟨1, 0⟩ := by
  refine ⟨agreeCheck_sound _ (by decide), _, rfl, ?_⟩
  decide

/-- When the surviving edges are pairwise different, `cleanUpEdges` leaves a
consistent state: the id stored for an edge is its position. -/
theorem cleanUpEdges_agree (s : EdgeProcessor) (hm : s.edgeMap.WF)
    (hin : ∀ E ∈ s.edges.data, ∀ p ∈ E, s.edgeMap.inBounds p)
    (hdistinct : (s.edges.data.filter (fun E => decide (E ≠ []))).Nodup) :
    ∃ s2, cleanUpEdges s = some s2 ∧
      s2.edges.data = s.edges.data.filter (fun E => decide (E ≠ [])) ∧
      s2.edgeMap.dataClusters = s.edgeMap.dataClusters ∧
      (∀ E ∈ s2.edges.data, E ≠ []) ∧
      (∀ q, s.edgeMap.inBounds q → ∀ x,
        (x ∈ s2.edgeMap.idsAt q ↔
          ∃ i : Nat, x = (i : Int) ∧ ∃ E, s2.edges.data[i]? = some E ∧ q ∈ E)) ∧
      TableIndexAgree s2 := by
  obtain ⟨s2, h2, hdata, _, r2, c2, d2, wf2, n2, ids2⟩ := cleanUpEdges_spec s hm hin
  have hne : ∀ E ∈ s2.edges.data, E ≠ [] := by
    intro E hE
    rw [hdata] at hE
    exact of_decide_eq_true (List.mem_filter.mp hE).2
  have hnd : s2.edges.data.Nodup := by rw [hdata]; exact hdistinct
  have hids : ∀ q, s.edgeMap.inBounds q → ∀ x,
      (x ∈ s2.edgeMap.idsAt q ↔
        ∃ i : Nat, x = (i : Int) ∧ ∃ E, s2.edges.data[i]? = some E ∧ q ∈ E) := by
    intro q hq x
    rw [ids2 q hq x]
    constructor
    · rintro ⟨E, hE, hqE, rfl⟩
      obtain ⟨j, h1, h3⟩ := getEdgeIdLoop_mem E s2.edges.data 0 hE
      refine ⟨j, ?_, E, h3, hqE⟩
      unfold Edges.getEdgeId
      rw [h1, Nat.zero_add]
    · rintro ⟨i, rfl, E, hE, hqE⟩
      refine ⟨E, List.getElem?_mem hE, hqE, ?_⟩
      unfold Edges.getEdgeId
      rw [getEdgeIdLoop_nodup E s2.edges.data 0 i hnd hE, Nat.zero_add]
  have hib := inBounds_congr s.edgeMap s2.edgeMap r2 c2
  have hgetE : ∀ (e : Int) (E : List Point), s2.edges.getEdge e = some E →
      ∃ i : Nat, e = (i : Int) ∧ s2.edges.data[i]? = some E := by
    intro e E hE
    unfold Edges.getEdge vecGet? at hE
    split_ifs at hE with h0
    exact ⟨e.toNat, by omega, hE⟩
  refine ⟨s2, h2, hdata, d2, hne, hids, ?_, ?_, ?_⟩
  · intro p hp e he
    obtain ⟨i, rfl, E, hE, hpE⟩ := (hids p ((hib p).mp hp) e).mp he
    refine ⟨E, ?_, hne E (List.getElem?_mem hE), hpE⟩
    unfold Edges.getEdge vecGet?
    simp [hE]
  · intro e E hE p hp
    obtain ⟨i, rfl, hEi⟩ := hgetE e E hE
    have hEmem : E ∈ s.edges.data := by
      have := List.getElem?_mem hEi
      rw [hdata] at this
      exact List.mem_of_mem_filter this
    have hpb := hin E hEmem p hp
    exact ⟨(hib p).mpr hpb, (hids p hpb _).mpr ⟨i, rfl, E, hEi, hp⟩⟩
  · intro e hE
    obtain ⟨i, rfl, hEi⟩ := hgetE e [] hE
    exact absurd rfl (hne [] (List.getElem?_mem hEi))

/-! ## Tracing of three small images -/

/-- The run of `traceEdges` resets counter, edge table and maps, so its result
does not depend on the state it starts from. -/
theorem traceEdges_start_irrelevant (img : Mat) (s0 s1 : EdgeProcessor) :
    traceEdges img s0 = traceEdges img s1 := rfl

/-- C24 (counterexample): on the plus-shaped image `traceEdges` leaves four
non-empty edges, not three. -/
theorem traceEdges_plus_has_four_edges :
    ∃ s, traceEdges plusImage EdgeProcessor.create = some s ∧
      (s.edges.data.filter fun E => decide (E ≠ [])).length = 4 := by
  refine ⟨_, rfl, ?_⟩
  decide

/-- C24 (amended): on the plus-shaped image `traceEdges`, started from any
state, yields the single cluster `[(1,1)]`, stored at the pixel `(1,1)`, and
exactly four edges, one per arm, each of length 2 and each ending at `(1,1)`;
they have the ids 0 to 3, and `getClusterEdgeIds(1,1)` is the list of these
four ids. -/
theorem traceEdges_plus_image (s0 : EdgeProcessor) :
    ∃ s, traceEdges plusImage s0 = some s ∧
      s.edges.data = [[⟨1, 0⟩, ⟨1, 1⟩], [⟨0, 1⟩, ⟨1, 1⟩], [⟨2, 1⟩, ⟨1, 1⟩], [⟨1, 2⟩, ⟨1, 1⟩]] ∧
      s.edgeMap.dataClusters = [[], [], [], [], [⟨1, 1⟩], [], [], [], []] ∧
      s.edgeMap.getClusterEdgeIds 1 1 = some [0, 1, 2, 3] := by
  rw [traceEdges_start_irrelevant plusImage s0 EdgeProcessor.create]
  refine ⟨_, rfl, ?_⟩
  decide

/-- C25: on the `3 × 3` image whose eight border pixels are set `traceEdges`,
started from any state, finds no cluster and leaves exactly one non-empty
edge, at id 0 (id 1 is the tombstone of the merge); the edge has length 8,
visits each of the eight border pixels once, and `isClosed` holds for it. -/
theorem traceEdges_ring_image (s0 : EdgeProcessor) :
    ∃ s, traceEdges ringImage s0 = some s ∧
      s.edges.data =
        [[⟨0, 0⟩, ⟨1, 0⟩, ⟨2, 0⟩, ⟨2, 1⟩, ⟨2, 2⟩, ⟨1, 2⟩, ⟨0, 2⟩, ⟨0, 1⟩], []] ∧
      s.edgeMap.ClustersEmpty ∧
      (s.edges.data.filter fun E => decide (E ≠ [])).length = 1 ∧
      ([⟨0, 0⟩, ⟨1, 0⟩, ⟨2, 0⟩, ⟨2, 1⟩, ⟨2, 2⟩, ⟨1, 2⟩, ⟨0, 2⟩, ⟨0, 1⟩] : List Point).Nodup ∧
      (∀ p, ringImage.inside p → ringImage.px p.y p.x > 0 →
        p ∈ ([⟨0, 0⟩, ⟨1, 0⟩, ⟨2, 0⟩, ⟨2, 1⟩, ⟨2, 2⟩, ⟨1, 2⟩, ⟨0, 2⟩, ⟨0, 1⟩] : List Point)) ∧
      s.edges.isClosed 0 = some true := by
  rw [traceEdges_start_irrelevant ringImage s0 EdgeProcessor.create]
  refine ⟨_, rfl, ?_, ?_, ?_, ?_, ?_, ?_⟩
  · decide
  · decide
  · decide
  · decide
  · intro p hp hpx
    have key : ∀ q ∈ ringImage.raster, ringImage.px q.y q.x > 0 →
        q ∈ ([⟨0, 0⟩, ⟨1, 0⟩, ⟨2, 0⟩, ⟨2, 1⟩, ⟨2, 2⟩, ⟨1, 2⟩, ⟨0, 2⟩, ⟨0, 1⟩] : List Point) := by
      decide
    exact key p ((mem_raster ringImage p).mpr hp) hpx
  · decide

/-! ## Post-processing of a freshly constructed processor -/

/-- C30 (counterexample): `cleanUpEdges` on a freshly constructed processor
returns normally; the state is the one it started from. -/
theorem cleanUpEdges_returns_on_fresh_processor :
    cleanUpEdges EdgeProcessor.create = some EdgeProcessor.create := by
  decide

/-- C30 (amended): on a freshly constructed processor, before any
`traceEdges`, each of the post-processing operations `cleanUpEdges`,
`removeEdgesShorterThan`, `connectEdgesInTwoEdgeClusters`,
`removeZeroAndOneEdgeClusters` and `threePointEdgesToClusters` returns normally
and leaves the state as it is (`removeEdgesShorterThan` returns false): the
edge table is empty and the map has no pixel, so no loop body is executed. -/
theorem postprocessing_is_noop_on_fresh_processor :
    (∃ s, cleanUpEdges EdgeProcessor.create = some s ∧ s = EdgeProcessor.create) ∧
    (∀ n free dangling bridged,
      removeEdgesShorterThan EdgeProcessor.create n free dangling bridged =
        some (EdgeProcessor.create, false)) ∧
    (∀ o d, connectEdgesInTwoEdgeClusters o d EdgeProcessor.create =
      some EdgeProcessor.create) ∧
    removeZeroAndOneEdgeClusters EdgeProcessor.create = some EdgeProcessor.create ∧
    threePointEdgesToClusters EdgeProcessor.create = some EdgeProcessor.create := by
  refine ⟨⟨_, by decide, rfl⟩, ?_, ?_, by decide, by decide⟩
  · intro n free dangling bridged
    rfl
  · intro o d
    rfl

/-! ## Tracing a one-row image -/

theorem getDirectNeighbors_row (img : Mat) (hrows : img.rows = 1) (k : Int) :
    getDirectNeighbors img ⟨k, 0⟩ =
      (if k + 1 < img.cols then (if img.px 0 (k + 1) > 0 then [Point.mk (k + 1) 0] else [])
        else []) ++
      (if k - 1 ≥ 0 then (if img.px 0 (k - 1) > 0 then [Point.mk (k - 1) 0] else []) else []) := by
  unfold getDirectNeighbors
  simp only [hrows]
  have h1 : ¬ ((0 : Int) - 1 ≥ 0) := by omega
  have h2 : ¬ ((0 : Int) + 1 < ((1 : Nat) : Int)) := by omega
  simp only [h1, h2, and_false, false_and, if_false, List.nil_append, List.append_nil]

theorem getBinaryCode_row (img : Mat) (hrows : img.rows = 1) (k : Int) :
    getBinaryCode img ⟨k, 0⟩ =
      (if k + 1 < img.cols then (if img.px 0 (k + 1) > 0 then 16 else 0) else 0) +
      (if k - 1 ≥ 0 then (if img.px 0 (k - 1) > 0 then 1 else 0) else 0) := by
  unfold getBinaryCode
  simp only [hrows]
  have h1 : ¬ ((0 : Int) - 1 ≥ 0) := by omega
  have h2 : ¬ ((0 : Int) + 1 < ((1 : Nat) : Int)) := by omega
  simp only [h1, h2, and_false, false_and, if_false, Nat.zero_add, Nat.add_zero]

/-- No pixel of a one-row image passes the cluster-point test. -/
theorem isClusterPoint_row (img : Mat) (hrows : img.rows = 1) (k : Int) :
    isClusterPoint img ⟨k, 0⟩ = false := by
  have h17 : containsFourCluster (16 + 1) = false := by decide
  have h16 : containsFourCluster (16 + 0) = false := by decide
  have h1 : containsFourCluster (0 + 1) = false := by decide
  have h0 : containsFourCluster (0 + 0) = false := by decide
  unfold isClusterPoint
  rw [getBinaryCode_row img hrows, getDirectNeighbors_row img hrows]
  split_ifs <;> simp [h17, h16, h1, h0]

theorem inside_row (img : Mat) (hrows : img.rows = 1) (p : Point) (hp : img.inside p) :
    p = ⟨p.x, 0⟩ := by
  obtain ⟨_, _, h3, h4⟩ := hp
  rw [hrows] at h4
  have : p.y = 0 := by omega
  cases p
  simp only at this
  rw [this]

/-- On a one-row image `preprocessClusters` leaves the map as it is. -/
theorem preprocessFold_row (img : Mat) (hrows : img.rows = 1) (m : EdgeMap) (hwf : m.WF)
    (hr : m.rows = img.rows) (hc : m.cols = img.cols) :
    ∀ l : List Point, (∀ p ∈ l, img.inside p) → l.foldlM (preprocessPixel img) m = some m := by
  intro l
  induction l with
  | nil => intro _; rfl
  | cons p rest ih =>
    intro hl
    have hp := hl p (List.mem_cons_self _ _)
    have hb := (inside_iff_inBounds img m hr hc p).mp hp
    have hstep : preprocessPixel img m p = some m := by
      unfold preprocessPixel
      rw [getClusterPoints_of_inBounds m hwf p hb]
      have hcp : isClusterPoint img p = false := by
        rw [inside_row img hrows p hp]
        exact isClusterPoint_row img hrows p.x
      simp only [hcp, Option.bind_eq_bind, Option.some_bind, Option.pure_def]
      split_ifs <;> first | rfl | contradiction
    rw [List.foldlM_cons]
    show (preprocessPixel img m p).bind _ = _
    rw [hstep]
    exact ih (fun q hq => hl q (List.mem_cons_of_mem _ hq))

/-- A pixel that already carries an id is skipped by the raster loop. -/
theorem tracePixel_skip (img : Mat) (s : EdgeProcessor) (p : Point) (hwf : s.edgeMap.WF)
    (hb : s.edgeMap.inBounds p) (hids : s.edgeMap.idsAt p ≠ []) :
    tracePixel img s p = some s := by
  unfold tracePixel
  rw [getNumberOfEdgeIds_of_inBounds s.edgeMap hwf p hb]
  have hlen : ¬ (((s.edgeMap.idsAt p).length : Int) = 0) := by
    intro h
    exact hids (List.length_eq_zero.mp (by omega))
  simp only [Option.bind_eq_bind, Option.some_bind, Option.pure_def, if_neg hlen]
  split_ifs <;> rfl

theorem traceFold_skip (img : Mat) (s : EdgeProcessor) (hwf : s.edgeMap.WF) :
    ∀ l : List Point, (∀ p ∈ l, s.edgeMap.inBounds p ∧ s.edgeMap.idsAt p ≠ []) →
      l.foldlM (tracePixel img) s = some s := by
  intro l
  induction l with
  | nil => intro _; rfl
  | cons p rest ih =>
    intro hl
    rw [List.foldlM_cons]
    show (tracePixel img s p).bind _ = _
    rw [tracePixel_skip img s p hwf (hl p (List.mem_cons_self _ _)).1
      (hl p (List.mem_cons_self _ _)).2]
    exact ih (fun q hq => hl q (List.mem_cons_of_mem _ hq))

/-- The recursion of `traceEdge` along a one-row image whose pixels are all
set: started at column `k` with the columns from `k` on unvisited and the
column before `k` visited, it walks to the last column and stores one edge. -/
theorem traceEdge_row (img : Mat) (hrows : img.rows = 1)
    (hset : ∀ x : Int, 0 ≤ x → x < img.cols → img.px 0 x > 0) :
    ∀ (j k fuel : Nat) (s : EdgeProcessor) (E : List Point),
      k + j + 1 = img.cols → j < fuel → s.edgeMap.WF → s.edgeMap.rows = img.rows →
      s.edgeMap.cols = img.cols → s.edgeMap.ClustersEmpty →
      (∀ i : Nat, k ≤ i → i < img.cols → s.edgeMap.idsAt ⟨i, 0⟩ = []) →
      (∀ i : Nat, i + 1 = k → s.edgeMap.idsAt ⟨i, 0⟩ ≠ []) →
      ∃ s2, traceEdge img fuel s ⟨k, 0⟩ E = some s2 ∧
        s2.edges.data = s.edges.data ++
          [E ++ (List.range (j + 1)).map fun i => Point.mk ((k + i : Nat) : Int) 0] ∧
        s2.edgeIdCounter = s.edgeIdCounter + 1 ∧
        s2.edgeMap.WF ∧ s2.edgeMap.rows = img.rows ∧ s2.edgeMap.cols = img.cols ∧
        s2.edgeMap.dataClusters = s.edgeMap.dataClusters ∧
        (∀ i : Nat, i < img.cols → s2.edgeMap.idsAt ⟨i, 0⟩ =
          if k ≤ i then [s.edgeIdCounter] else s.edgeMap.idsAt ⟨i, 0⟩) := by
  intro j
  induction j with
  | zero =>
    intro k fuel s E hk hfuel hwf hr hc hce hfree hprev
    obtain ⟨f, rfl⟩ : ∃ f, fuel = f + 1 := ⟨fuel - 1, by omega⟩
    have hq : img.inside ⟨(k : Int), 0⟩ := by
      unfold Mat.inside
      simp only [hrows]
      omega
    have hib := inside_iff_inBounds img s.edgeMap hr hc
    obtain ⟨m1, hpush, r1, c1, d1, wf1, ids1⟩ :=
      pushBackEdgeId_spec s.edgeMap hwf ⟨(k : Int), 0⟩ ((hib _).mp hq) s.edgeIdCounter
    have hcl : ∀ p, m1.clusterAt p = [] := fun p => by
      rw [clusterAt_congr s.edgeMap m1 c1 d1 p]
      exact clusterAt_of_clustersEmpty s.edgeMap hce p
    rw [traceEdge_unfold img f s ⟨(k : Int), 0⟩ E m1 wf1 (r1.trans hr) (c1.trans hc) hq hpush]
    rw [if_pos (hcl _), getDirectNeighbors_row img hrows]
    have hlast : ¬ ((k : Int) + 1 < img.cols) := by omega
    rw [if_neg hlast, List.nil_append]
    have hfilt : List.filter (fun n => decide (m1.idsAt n = [] ∨ m1.clusterAt n ≠ []))
        (if (k : Int) - 1 ≥ 0 then
          (if img.px 0 ((k : Int) - 1) > 0 then [Point.mk ((k : Int) - 1) 0] else [])
         else []) = [] := by
      by_cases hk0 : (k : Int) - 1 ≥ 0
      · rw [if_pos hk0, if_pos (hset _ hk0 (by omega))]
        obtain ⟨i, hi⟩ : ∃ i : Nat, i + 1 = k := ⟨k - 1, by omega⟩
        have hki : (k : Int) - 1 = (i : Int) := by omega
        have hbi : s.edgeMap.inBounds ⟨(i : Int), 0⟩ := by
          apply (hib _).mp
          unfold Mat.inside
          simp only [hrows]
          omega
        have hne : (Point.mk (i : Int) 0) ≠ ⟨(k : Int), 0⟩ := by
          intro h
          injection h with h1 _
          omega
        have h1 := ids1 _ hbi
        rw [if_neg hne] at h1
        rw [hki]
        simp only [List.filter_cons, List.filter_nil, h1, hcl, hprev i hi, ne_eq,
          not_true_eq_false, or_self, decide_False, Bool.false_eq_true, if_false]
      · rw [if_neg hk0]
        rfl
    rw [hfilt]
    refine ⟨_, rfl, ?_, rfl, wf1, r1.trans hr, c1.trans hc, d1, ?_⟩
    · simp [Edges.pushBack, List.range_succ]
    · intro i hi
      have hbi : s.edgeMap.inBounds ⟨(i : Int), 0⟩ := by
        apply (hib _).mp
        unfold Mat.inside
        simp only [hrows]
        omega
      show m1.idsAt _ = _
      rw [ids1 _ hbi]
      by_cases hik : i = k
      · subst hik
        rw [if_pos rfl, hfree i (le_refl _) hi]
        simp
      · have hne : (Point.mk (i : Int) 0) ≠ ⟨(k : Int), 0⟩ := by
          intro h
          injection h with h1 _
          omega
        rw [if_neg hne, if_neg (by omega)]
  | succ j ih =>
    intro k fuel s E hk hfuel hwf hr hc hce hfree hprev
    obtain ⟨f, rfl⟩ : ∃ f, fuel = f + 1 := ⟨fuel - 1, by omega⟩
    have hq : img.inside ⟨(k : Int), 0⟩ := by
      unfold Mat.inside
      simp only [hrows]
      omega
    have hib := inside_iff_inBounds img s.edgeMap hr hc
    obtain ⟨m1, hpush, r1, c1, d1, wf1, ids1⟩ :=
      pushBackEdgeId_spec s.edgeMap hwf ⟨(k : Int), 0⟩ ((hib _).mp hq) s.edgeIdCounter
    have hcl : ∀ p, m1.clusterAt p = [] := fun p => by
      rw [clusterAt_congr s.edgeMap m1 c1 d1 p]
      exact clusterAt_of_clustersEmpty s.edgeMap hce p
    have hbi : ∀ i : Nat, i < img.cols → s.edgeMap.inBounds ⟨(i : Int), 0⟩ := by
      intro i hi
      apply (hib _).mp
      unfold Mat.inside
      simp only [hrows]
      omega
    have hneq : ∀ i : Nat, i ≠ k → (Point.mk (i : Int) 0) ≠ ⟨(k : Int), 0⟩ := by
      intro i hik h
      injection h with h1 _
      omega
    have hidk : m1.idsAt ⟨(k : Int), 0⟩ = [s.edgeIdCounter] := by
      rw [ids1 _ (hbi k (by omega)), if_pos rfl, hfree k (le_refl _) (by omega)]
      simp
    have hido : ∀ i : Nat, i < img.cols → i ≠ k →
        m1.idsAt ⟨(i : Int), 0⟩ = s.edgeMap.idsAt ⟨(i : Int), 0⟩ := by
      intro i hi hik
      rw [ids1 _ (hbi i hi), if_neg (hneq i hik)]
    rw [traceEdge_unfold img f s ⟨(k : Int), 0⟩ E m1 wf1 (r1.trans hr) (c1.trans hc) hq hpush]
    rw [if_pos (hcl _), getDirectNeighbors_row img hrows]
    have hnext : (k : Int) + 1 < img.cols := by omega
    rw [if_pos hnext, if_pos (hset _ (by omega) hnext)]
    have hk1 : (k : Int) + 1 = ((k + 1 : Nat) : Int) := by push_cast; rfl
    have hfilt : List.filter (fun n => decide (m1.idsAt n = [] ∨ m1.clusterAt n ≠ []))
        ([Point.mk ((k : Int) + 1) 0] ++ (if (k : Int) - 1 ≥ 0 then
          (if img.px 0 ((k : Int) - 1) > 0 then [Point.mk ((k : Int) - 1) 0] else [])
         else [])) = [Point.mk ((k + 1 : Nat) : Int) 0] := by
      have hfirst : m1.idsAt ⟨((k + 1 : Nat) : Int), 0⟩ = [] := by
        rw [hido (k + 1) (by omega) (by omega)]
        exact hfree (k + 1) (by omega) (by omega)
      rw [hk1]
      by_cases hk0 : (k : Int) - 1 ≥ 0
      · rw [if_pos hk0, if_pos (hset _ hk0 (by omega))]
        obtain ⟨i, hi⟩ : ∃ i : Nat, i + 1 = k := ⟨k - 1, by omega⟩
        have hki : (k : Int) - 1 = (i : Int) := by omega
        rw [hki]
        have h1 := hido i (by omega) (by omega)
        simp only [List.singleton_append, List.filter_cons, List.filter_nil, h1, hcl,
          hprev i hi, hfirst, ne_eq, not_true_eq_false, or_self, or_false, decide_False,
          decide_True, Bool.false_eq_true, if_false, if_true]
      · rw [if_neg hk0]
        simp only [List.append_nil, List.filter_cons, List.filter_nil, hfirst, hcl, ne_eq,
          not_true_eq_false, or_false, decide_True, if_true]
    rw [hfilt]
    obtain ⟨s2, htr, hdata, hcnt, wf2, r2, c2, d2, ids2⟩ :=
      ih (k + 1) f { s with edgeMap := m1 } (E ++ [⟨(k : Int), 0⟩]) (by omega) (by omega) wf1
        (r1.trans hr) (c1.trans hc)
        (by intro L hL
            have hL2 : L ∈ m1.dataClusters := hL
            rw [d1] at hL2
            exact hce L hL2)
        (by intro i hki hi
            show m1.idsAt _ = []
            rw [hido i hi (by omega)]
            exact hfree i (by omega) hi)
        (by intro i hi
            have : i = k := by omega
            subst this
            show m1.idsAt _ ≠ []
            rw [hidk]
            simp)
    refine ⟨s2, htr, ?_, hcnt, wf2, r2, c2, d2.trans d1, ?_⟩
    · rw [hdata]
      show s.edges.data ++ _ = _
      congr 2
      rw [List.range_succ_eq_map (j + 1), List.map_cons, List.map_map, List.append_assoc]
      congr 1
      simp only [List.singleton_append, Nat.add_zero, List.cons.injEq, true_and]
      apply List.map_congr_left
      intro a _
      simp only [Function.comp]
      congr 2
      omega
    · intro i hi
      rw [ids2 i hi]
      by_cases hik : i = k
      · subst hik
        rw [if_neg (by omega), if_pos (le_refl _)]
        exact hidk
      · by_cases hlt : k + 1 ≤ i
        · rw [if_pos hlt, if_pos (by omega)]
        · rw [if_neg hlt, if_neg (by omega)]
          exact hido i hi hik

theorem raster_row (img : Mat) (hrows : img.rows = 1) :
    img.raster = (List.range img.cols).map fun (x : Nat) => Point.mk (x : Int) 0 := by
  unfold Mat.raster
  rw [hrows]
  simp [List.range_succ]

/-! ### Claim on one-row images -/

/-- C26: for every image with one row and `n ≥ 1` columns, started from any
processor state: if all pixels are set, `traceEdges` returns a state whose
edge table holds exactly one edge, the pixels `(0,0), (1,0), ..., (n-1,0)` in
this order, at position 0 (the counter is 1 and every pixel stores the id list
`[0]`), and whose cluster index is empty everywhere; and if the image is 1 x 1
with its pixel unset, the run returns a state with no edge, no id and no
cluster. -/
theorem traceEdges_row_image (img : Mat) (s0 : EdgeProcessor) (hrows : img.rows = 1)
    (hcols : 1 ≤ img.cols) :
    ((∀ x : Int, 0 ≤ x → x < img.cols → img.px 0 x > 0) →
      ∃ s, traceEdges img s0 = some s ∧
        s.edges.data = [(List.range img.cols).map fun (i : Nat) => Point.mk (i : Int) 0] ∧
        s.edges.getEdge 0 = some ((List.range img.cols).map fun (i : Nat) => Point.mk (i : Int) 0) ∧
        s.edgeIdCounter = 1 ∧ s.edgeMap.ClustersEmpty ∧
        (∀ i : Nat, i < img.cols → s.edgeMap.idsAt ⟨i, 0⟩ = [0])) ∧
    (img.cols = 1 → img.px 0 0 = 0 →
      ∃ s, traceEdges img s0 = some s ∧ s.edges.data = [] ∧ s.edgeIdCounter = 0 ∧
        s.edgeMap.ClustersEmpty ∧ s.edgeMap.idsAt ⟨0, 0⟩ = []) := by
  have hwf0 : (EdgeMap.init img.rows img.cols).WF := init_wf img.rows img.cols
  have hpre : preprocessClusters img (EdgeMap.init img.rows img.cols) =
      some (EdgeMap.init img.rows img.cols) :=
    preprocessFold_row img hrows _ hwf0 rfl rfl img.raster
      (fun p hp => (mem_raster img p).mp hp)
  have hids0 : ∀ p, (EdgeMap.init img.rows img.cols).idsAt p = [] :=
    idsAt_of_all_empty _ (fun L hL => List.eq_of_mem_replicate hL)
  constructor
  · intro hset
    obtain ⟨s, htr, hdata, hcnt, wf, r, c, d, ids⟩ := traceEdge_row img hrows hset
      (img.cols - 1) 0 (img.rows * img.cols + 2)
      { edgeIdCounter := 0, edges := ⟨[]⟩, edgeMap := EdgeMap.init img.rows img.cols } []
      (by omega) (by rw [hrows]; omega) hwf0 rfl rfl (init_clustersEmpty _ _)
      (fun i _ _ => hids0 _) (fun i hi => by omega)
    have hE : (List.range (img.cols - 1 + 1)).map
        (fun i => Point.mk ((0 + i : Nat) : Int) 0) =
        (List.range img.cols).map fun (i : Nat) => Point.mk (i : Int) 0 := by
      rw [Nat.sub_add_cancel hcols]
      apply List.map_congr_left
      intro a _
      rw [Nat.zero_add]
    have hdata2 : s.edges.data =
        [(List.range img.cols).map fun (i : Nat) => Point.mk (i : Int) 0] := by
      rw [hdata, List.nil_append, hE]
      rfl
    refine ⟨s, ?_, hdata2, ?_, hcnt, ?_, ?_⟩
    · unfold traceEdges
      simp only [hpre, Option.bind_eq_bind, Option.some_bind]
      rw [raster_row img hrows]
      obtain ⟨n, hn⟩ : ∃ n, img.cols = n + 1 := ⟨img.cols - 1, by omega⟩
      have hrange : List.range img.cols = 0 :: (List.range n).map Nat.succ := by
        rw [hn, List.range_succ_eq_map]
      rw [hrange, List.map_cons, List.foldlM_cons]
      have hseed : tracePixel img
          { edgeIdCounter := 0, edges := Edges.clear s0.edges,
            edgeMap := EdgeMap.init img.rows img.cols } ⟨((0 : Nat) : Int), 0⟩ = some s := by
        unfold tracePixel
        have hb : (EdgeMap.init img.rows img.cols).inBounds ⟨((0 : Nat) : Int), 0⟩ := by
          unfold EdgeMap.inBounds EdgeMap.init
          simp only [hrows]
          omega
        rw [getNumberOfEdgeIds_of_inBounds _ hwf0 _ hb, getClusterPoints_of_inBounds _ hwf0 _ hb,
          hids0, clusterAt_of_clustersEmpty _ (init_clustersEmpty _ _)]
        simp only [if_pos (hset 0 (le_refl _) (by omega)), Option.bind_eq_bind,
          Option.some_bind, List.length_nil, Nat.cast_zero, if_true]
        exact htr
      show (tracePixel img _ _).bind _ = _
      rw [hseed]
      apply traceFold_skip img s wf
      intro p hp
      rw [List.mem_map] at hp
      obtain ⟨a, ha, rfl⟩ := hp
      rw [List.mem_map] at ha
      obtain ⟨b, hb, rfl⟩ := ha
      rw [List.mem_range] at hb
      refine ⟨?_, ?_⟩
      · unfold EdgeMap.inBounds
        rw [r, c, hrows]
        simp only
        omega
      · rw [ids (b + 1) (by omega), if_pos (Nat.zero_le _)]
        simp
    · unfold Edges.getEdge
      rw [hdata2]
      rfl
    · intro L hL
      rw [d] at hL
      exact init_clustersEmpty _ _ L hL
    · intro i hi
      rw [ids i hi, if_pos (Nat.zero_le _)]
  · intro h1 hpx
    refine ⟨{ edgeIdCounter := 0, edges := ⟨[]⟩, edgeMap := EdgeMap.init img.rows img.cols },
      ?_, rfl, rfl, init_clustersEmpty _ _, hids0 _⟩
    unfold traceEdges
    simp only [hpre, Option.bind_eq_bind, Option.some_bind]
    have hrange : List.range img.cols = [0] := by rw [h1]; rfl
    rw [raster_row img hrows, hrange]
    have hskip : tracePixel img
        { edgeIdCounter := 0, edges := Edges.clear s0.edges,
          edgeMap := EdgeMap.init img.rows img.cols } ⟨((0 : Nat) : Int), 0⟩ =
        some ⟨0, ⟨[]⟩, EdgeMap.init img.rows img.cols⟩ := by
      unfold tracePixel
      have : ¬ (img.px 0 ((0 : Nat) : Int) > 0) := by
        rw [Nat.cast_zero, hpx]
        omega
      rw [if_neg this]
      rfl
    show (tracePixel img _ _).bind _ = _
    rw [hskip]
    rfl

theorem traceEdges_row_image_witness :
    rowImage.rows = 1 ∧ 1 ≤ rowImage.cols ∧
    (∃ s, traceEdges rowImage EdgeProcessor.create = some s ∧
      s.edges.data = [[⟨0, 0⟩, ⟨1, 0⟩, ⟨2, 0⟩, ⟨3, 0⟩, ⟨4, 0⟩]] ∧
      s.edgeMap.ClustersEmpty) := by
  obtain ⟨s, h1, h2, _, _, h5, _⟩ :=
    (traceEdges_row_image rowImage EdgeProcessor.create rfl (by decide)).1 (by
      intro x h0 h5
      have h5b : x < 5 := h5
      interval_cases x <;> decide)
  exact ⟨rfl, by decide, s, h1, h2, h5⟩

/-! ## `removeEdgesShorterThan` on a state without clusters -/

theorem foldlM_fixed {α β : Type} (f : β → α → Option β) (b : β) :
    ∀ l : List α, (∀ a ∈ l, f b a = some b) → l.foldlM f b = some b := by
  intro l
  induction l with
  | nil => intro _; rfl
  | cons a rest ih =>
    intro h
    rw [List.foldlM_cons]
    show (f b a).bind _ = _
    rw [h a (List.mem_cons_self _ _)]
    exact ih (fun x hx => h x (List.mem_cons_of_mem _ hx))

theorem inBounds_of_mem_allPixels (m : EdgeMap) (p : Point) (h : p ∈ m.allPixels) :
    m.inBounds p := by
  unfold EdgeMap.allPixels at h
  simp only [List.mem_flatMap, List.mem_map, List.mem_range] at h
  obtain ⟨y, hy, x, hx, rfl⟩ := h
  unfold EdgeMap.inBounds
  simp only [Int.ofNat_eq_coe]
  omega

/-- Without clusters `connectEdgesInTwoEdgeClusters` changes nothing. -/
theorem connectEdgesInTwoEdgeClusters_of_no_cluster (o d : Bool) (s : EdgeProcessor)
    (hwf : s.edgeMap.WF) (hce : s.edgeMap.ClustersEmpty) :
    connectEdgesInTwoEdgeClusters o d s = some s := by
  unfold connectEdgesInTwoEdgeClusters
  apply foldlM_fixed
  intro p hp
  have hget := getClusterPoints_of_inBounds s.edgeMap hwf p (inBounds_of_mem_allPixels _ p hp)
  rw [clusterAt_of_clustersEmpty s.edgeMap hce p] at hget
  unfold EdgeMap.getClusterPoints at hget
  unfold connectAt EdgeMap.getClusterEdgeIds
  rw [hget]
  rfl

/-- Without clusters `removeZeroAndOneEdgeClusters` changes nothing. -/
theorem removeZeroAndOneEdgeClusters_of_no_cluster (s : EdgeProcessor)
    (hwf : s.edgeMap.WF) (hce : s.edgeMap.ClustersEmpty) :
    removeZeroAndOneEdgeClusters s = some s := by
  unfold removeZeroAndOneEdgeClusters
  apply foldlM_fixed
  intro p hp
  unfold removeClusterAt
  rw [isCluster_of_inBounds s.edgeMap hwf p (inBounds_of_mem_allPixels _ p hp),
    clusterAt_of_clustersEmpty s.edgeMap hce p]
  rfl

/-- The loop that erases one id at all pixels of an edge. -/
theorem eraseLoop_spec (e : Int) :
    ∀ (E : List Point) (m : EdgeMap), m.WF → m.IdsNodup → (∀ p ∈ E, m.inBounds p) →
      ∃ m2, E.foldlM (fun (m : EdgeMap) px => m.eraseEdgeId px.x px.y e) m = some m2 ∧
        m2.rows = m.rows ∧ m2.cols = m.cols ∧ m2.dataClusters = m.dataClusters ∧ m2.WF ∧
        ∀ q, m.inBounds q → m2.idsAt q =
          if q ∈ E then (m.idsAt q).filter (fun x => decide (x ≠ e)) else m.idsAt q := by
  intro E
  induction E with
  | nil =>
    intro m hm _ _
    exact ⟨m, rfl, rfl, rfl, rfl, hm, fun q _ => by simp⟩
  | cons p rest ih =>
    intro m hm hn hin
    have hp := hin p (List.mem_cons_self _ _)
    obtain ⟨m1, h1, r1, c1, d1, wf1, ids1⟩ := eraseEdgeId_spec m hm p hp e
    have hn1 : m1.IdsNodup := eraseEdgeId_nodup m m1 hm p hp e h1 hn
    have hib := inBounds_congr m m1 r1 c1
    obtain ⟨m2, h2, r2, c2, d2, wf2, ids2⟩ := ih m1 wf1 hn1
      (fun q hq => (hib q).mpr (hin q (List.mem_cons_of_mem _ hq)))
    refine ⟨m2, ?_, r2.trans r1, c2.trans c1, d2.trans d1, wf2, ?_⟩
    · rw [List.foldlM_cons]
      show (m.eraseEdgeId p.x p.y e).bind _ = _
      rw [h1]
      exact h2
    · intro q hq
      rw [ids2 q ((hib q).mpr hq), ids1 q hq]
      have herase : (m.idsAt q).erase e = (m.idsAt q).filter (fun x => decide (x ≠ e)) := by
        rw [(hn q hq).erase_eq_filter e]
        apply List.filter_congr
        intro x _
        by_cases hx : x = e <;> simp [hx]
      by_cases hqr : q ∈ rest
      · rw [if_pos hqr, if_pos (List.mem_cons_of_mem _ hqr)]
        by_cases hqp : q = p
        · rw [if_pos hqp, herase, List.filter_filter]
          simp
        · rw [if_neg hqp]
      · rw [if_neg hqr]
        by_cases hqp : q = p
        · rw [if_pos hqp, herase, if_pos (by rw [hqp]; exact List.mem_cons_self _ _)]
        · rw [if_neg hqp, if_neg (by
            intro h
            rcases List.mem_cons.mp h with h | h
            · exact hqp h
            · exact hqr h)]

theorem getEdge_natCast (e : Edges) (i : Nat) : e.getEdge (i : Int) = e.data[i]? := by
  unfold Edges.getEdge vecGet?
  simp

theorem isShort_of_getEdge (e : Edges) (n : Nat) (x : Int) (E : List Point)
    (h : e.getEdge x = some E) :
    e.isShort n x = decide (E.length > 0 ∧ E.length < n) := by
  unfold Edges.isShort
  rw [h]

/-- One iteration of the loop of `removeEdgesShorterThan` keeps the invariant. -/
theorem removeShortAt_step (s : EdgeProcessor) (n : Nat)
    (hnd : s.edgeMap.IdsNodup) (hagree : TableIndexAgree s) (hce : s.edgeMap.ClustersEmpty)
    (i : Nat) (hi : i < s.edges.data.length) (acc : EdgeProcessor × Bool)
    (hinv : RemoveInv s n i acc) :
    ∃ acc2, removeShortAt n true false false acc i = some acc2 ∧
      RemoveInv s n (i + 1) acc2 := by
  have hE : s.edges.data[i]? = some (s.edges.data[i]) := List.getElem?_eq_getElem hi
  generalize s.edges.data[i] = E at hE
  have hgetS : s.edges.getEdge (i : Int) = some E := by rw [getEdge_natCast]; exact hE
  have hgetA : acc.1.edges.getEdge (i : Int) = some E := by
    rw [getEdge_natCast, hinv.table i, if_neg (lt_irrefl i)]
    exact hE
  have hshortI := isShort_of_getEdge s.edges n (i : Int) E hgetS
  have hib := inBounds_congr s.edgeMap acc.1.edgeMap hinv.rows_eq hinv.cols_eq
  have hinE : ∀ p ∈ E, acc.1.edgeMap.inBounds p := fun p hp =>
    (hib p).mpr (hagree.edge_registered (i : Int) E hgetS p hp).1
  have hclA : ∀ p, acc.1.edgeMap.clusterAt p = [] := fun p => by
    rw [clusterAt_congr s.edgeMap acc.1.edgeMap hinv.cols_eq hinv.clusters p]
    exact clusterAt_of_clustersEmpty s.edgeMap hce p
  unfold removeShortAt
  rw [hgetA]
  simp only [Option.bind_eq_bind, Option.some_bind]
  by_cases hshort : E.length > 0 ∧ E.length < n
  · rw [if_pos hshort]
    have hsI : s.edges.isShort n (i : Int) = true := by rw [hshortI]; exact decide_eq_true hshort
    obtain ⟨a, ha⟩ : ∃ a, E.head? = some a := by
      cases E with
      | nil => simp at hshort
      | cons a t => exact ⟨a, rfl⟩
    obtain ⟨b, hb⟩ : ∃ b, E.getLast? = some b := by
      cases hl : E.getLast? with
      | none =>
        rw [List.getLast?_eq_none_iff] at hl
        rw [hl] at hshort
        simp at hshort
      | some b => exact ⟨b, rfl⟩
    have haE : a ∈ E := List.mem_of_mem_head? ha
    have hbE : b ∈ E := List.mem_of_mem_getLast? hb
    have hnA : acc.1.edgeMap.IdsNodup := by
      intro p hp
      rw [hinv.ids p ((hib p).mp hp)]
      exact (hnd p ((hib p).mp hp)).filter _
    obtain ⟨m2, h2, r2, c2, d2, wf2, ids2⟩ :=
      eraseLoop_spec (i : Int) E acc.1.edgeMap hinv.wf hnA hinE
    have hlenA : i < acc.1.edges.data.length := by rw [hinv.len]; exact hi
    have hclear : acc.1.edges.clearEdge (i : Int) =
        some ⟨acc.1.edges.data.set i []⟩ := by
      unfold Edges.clearEdge
      rw [vecSet?_eq_some_of_lt _ _ _ (Int.ofNat_nonneg _) (by omega)]
      simp
    have hrem : removeEdge acc.1 E (i : Int) =
        some { acc.1 with edges := ⟨acc.1.edges.data.set i []⟩, edgeMap := m2 } := by
      unfold removeEdge
      rw [h2, hclear]
      rfl
    rw [ha, hb]
    simp only [Option.some_bind, isCluster_of_inBounds _ hinv.wf a (hinE a haE),
      isCluster_of_inBounds _ hinv.wf b (hinE b hbE), hclA, List.length_nil]
    refine ⟨({ acc.1 with edges := ⟨acc.1.edges.data.set i []⟩, edgeMap := m2 }, true), ?_, ?_⟩
    · simp [removeEdgeIf, hrem]
    · refine ⟨wf2, r2.trans hinv.rows_eq, c2.trans hinv.cols_eq, d2.trans hinv.clusters,
        hinv.counter, ?_, ?_, ?_, ?_, ?_⟩
      · show (acc.1.edges.data.set i []).length = _
        rw [List.length_set]
        exact hinv.len
      · intro j
        show (acc.1.edges.data.set i [])[j]? = _
        rw [List.getElem?_set]
        by_cases hij : i = j
        · subst hij
          rw [if_pos rfl, if_pos hlenA, if_pos (Nat.lt_succ_self _), hE]
          simp [hshort.2]
        · rw [if_neg hij, hinv.table j]
          by_cases hlt : j < i
          · rw [if_pos hlt, if_pos (by omega)]
          · rw [if_neg hlt, if_neg (by omega)]
      · intro p hp
        show m2.idsAt p = _
        have hfilt : m2.idsAt p =
            (acc.1.edgeMap.idsAt p).filter (fun x => decide (x ≠ (i : Int))) := by
          rw [ids2 p ((hib p).mpr hp)]
          by_cases hpE : p ∈ E
          · rw [if_pos hpE]
          · rw [if_neg hpE]
            symm
            rw [List.filter_eq_self]
            intro x hx
            rw [hinv.ids p hp] at hx
            have hxs := List.mem_of_mem_filter hx
            apply decide_eq_true
            intro hxi
            rw [hxi] at hxs
            obtain ⟨E2, hE2, _, hpE2⟩ := hagree.stored_sound p hp _ hxs
            rw [hgetS] at hE2
            obtain rfl := Option.some.inj hE2
            exact hpE hpE2
        rw [hfilt, hinv.ids p hp, List.filter_filter]
        apply List.filter_congr
        intro x _
        by_cases hx : x = (i : Int)
        · subst hx
          simp [hsI]
        · have h1 : (x < (i : Int) + 1) ↔ x < (i : Int) := by omega
          simp [hx, h1]
      · show true = true ↔ _
        simp only [true_iff]
        exact ⟨i, Nat.lt_succ_self _, hsI⟩
      · intro h
        exact absurd h (by simp)
  · rw [if_neg hshort]
    have hsI : s.edges.isShort n (i : Int) = false := by
      rw [hshortI]
      exact decide_eq_false hshort
    refine ⟨acc, rfl, hinv.wf, hinv.rows_eq, hinv.cols_eq, hinv.clusters, hinv.counter, hinv.len,
      ?_, ?_, ?_, hinv.same⟩
    · intro j
      rw [hinv.table j]
      by_cases hij : j = i
      · subst hij
        rw [if_neg (lt_irrefl _), if_pos (Nat.lt_succ_self _), hE]
        by_cases hlen : E.length < n
        · have h0 : E = [] := List.length_eq_zero.mp (by omega)
          simp [h0]
        · simp [hlen]
      · by_cases hlt : j < i
        · rw [if_pos hlt, if_pos (by omega)]
        · rw [if_neg hlt, if_neg (by omega)]
    · intro p hp
      rw [hinv.ids p hp]
      apply List.filter_congr
      intro x _
      by_cases hx : x = (i : Int)
      · subst hx
        simp [hsI]
      · have h1 : (x < (i : Int) + 1) ↔ x < (i : Int) := by omega
        simp [h1]
    · rw [hinv.flag]
      constructor
      · rintro ⟨j, hj, hs⟩
        exact ⟨j, by omega, hs⟩
      · rintro ⟨j, hj, hs⟩
        refine ⟨j, ?_, hs⟩
        rcases Nat.lt_or_ge j i with h | h
        · exact h
        · have : j = i := by omega
          subst this
          rw [hsI] at hs
          exact absurd hs (by simp)

theorem isShort_bounds (e : Edges) (n : Nat) (x : Int) (h : e.isShort n x = true) :
    ∃ E, e.getEdge x = some E ∧ E ≠ [] ∧ E.length < n ∧ 0 ≤ x ∧ x < e.data.length := by
  unfold Edges.isShort at h
  cases hg : e.getEdge x with
  | none => rw [hg] at h; simp at h
  | some E =>
    rw [hg] at h
    have h2 := of_decide_eq_true h
    have hb := vecGet?_bounds e.data x E hg
    exact ⟨E, rfl, fun h0 => by rw [h0] at h2; simp at h2, h2.2, hb.1, hb.2⟩

theorem removeInv_start (s : EdgeProcessor) (n : Nat) (hwf : s.edgeMap.WF) :
    RemoveInv s n 0 (s, false) := by
  refine ⟨hwf, rfl, rfl, rfl, rfl, rfl, fun j => by simp, ?_, by simp, fun _ => rfl⟩
  intro p _
  symm
  rw [List.filter_eq_self]
  intro x _
  cases hs : s.edges.isShort n x with
  | false => simp
  | true =>
    obtain ⟨_, _, _, _, h0, _⟩ := isShort_bounds s.edges n x hs
    simp [h0]

/-- The loop of `removeEdgesShorterThan` returns and establishes the invariant
for all ids. -/
theorem removeShortLoop_spec (s : EdgeProcessor) (n : Nat)
    (hnd : s.edgeMap.IdsNodup) (hagree : TableIndexAgree s) (hce : s.edgeMap.ClustersEmpty) :
    ∀ (k i : Nat) (acc : EdgeProcessor × Bool), i + k = s.edges.data.length →
      RemoveInv s n i acc →
      ∃ acc2, (List.range' i k).foldlM (removeShortAt n true false false) acc = some acc2 ∧
        RemoveInv s n s.edges.data.length acc2 := by
  intro k
  induction k with
  | zero =>
    intro i acc hik hinv
    have : i = s.edges.data.length := by omega
    subst this
    exact ⟨acc, rfl, hinv⟩
  | succ k ih =>
    intro i acc hik hinv
    obtain ⟨acc1, h1, hinv1⟩ := removeShortAt_step s n hnd hagree hce i (by omega) acc hinv
    obtain ⟨acc2, h2, hinv2⟩ := ih (i + 1) acc1 (by omega) hinv1
    refine ⟨acc2, ?_, hinv2⟩
    rw [List.range'_succ, List.foldlM_cons]
    show (removeShortAt n true false false acc i).bind _ = _
    rw [h1]
    exact h2

/-- The run of `removeEdgesShorterThan` with `free` only on a state without
clusters: it returns the state and flag that the loop leaves. -/
theorem removeEdgesShorterThan_inv (s : EdgeProcessor) (n : Nat) (hwf : s.edgeMap.WF)
    (hnd : s.edgeMap.IdsNodup) (hagree : TableIndexAgree s) (hce : s.edgeMap.ClustersEmpty) :
    ∃ s2 b, removeEdgesShorterThan s n true false false = some (s2, b) ∧
      RemoveInv s n s.edges.data.length (s2, b) := by
  obtain ⟨⟨s2, b⟩, h2, hinv⟩ := removeShortLoop_spec s n hnd hagree hce s.edges.data.length 0
    (s, false) (by omega) (removeInv_start s n hwf)
  refine ⟨s2, b, ?_, hinv⟩
  unfold removeEdgesShorterThan
  rw [List.range_eq_range', h2]
  simp only [Option.bind_eq_bind, Option.some_bind]
  cases b with
  | false => rfl
  | true =>
    have hce2 : s2.edgeMap.ClustersEmpty := by
      intro L hL
      have hL2 : L ∈ s2.edgeMap.dataClusters := hL
      rw [hinv.clusters] at hL2
      exact hce L hL2
    simp only [if_true]
    rw [connectEdgesInTwoEdgeClusters_of_no_cluster false true s2 hinv.wf hce2]
    simp only [Option.some_bind]
    rw [removeZeroAndOneEdgeClusters_of_no_cluster s2 hinv.wf hce2]
    rfl

theorem getEdge_of_mem (e : Edges) (E : List Point) (h : E ∈ e.data) :
    ∃ i : Nat, e.getEdge (i : Int) = some E := by
  obtain ⟨i, hi, hE⟩ := List.getElem_of_mem h
  exact ⟨i, by rw [getEdge_natCast, List.getElem?_eq_getElem hi, hE]⟩

theorem getEdge_cases (e : Edges) (x : Int) (E : List Point) (h : e.getEdge x = some E) :
    ∃ i : Nat, x = (i : Int) ∧ e.data[i]? = some E := by
  have hb := vecGet?_bounds e.data x E h
  refine ⟨x.toNat, by omega, ?_⟩
  unfold Edges.getEdge vecGet? at h
  rw [if_pos hb.1] at h
  exact h

/-! ### Claim on `removeEdgesShorterThan` -/

/-- C27: on a consistent state without clusters (well-formed maps, duplicate
free id lists, table and index in agreement, every cluster list empty)
`removeEdgesShorterThan(n, free = true, dangling = false, bridged = false)`
returns, and its flag is true exactly when some non-empty edge is shorter than
`n`.  The edges shorter than `n` become tombstones and every other edge is
unchanged; the id lists lose exactly the ids of the removed edges, so such an
id is stored at no pixel; clusters, dimensions and counter are unchanged; the
state is again consistent, and it is the state before the call when the flag
is false.  A following `cleanUpEdges` returns with the edge table holding
exactly the non-empty edges of length at least `n` in their order, and, when
these edges are pairwise different, with the index storing for each of them
its position in the table. -/
theorem removeEdgesShorterThan_free_without_clusters (s : EdgeProcessor) (n : Nat)
    (hwf : s.edgeMap.WF) (hnd : s.edgeMap.IdsNodup) (hagree : TableIndexAgree s)
    (hce : s.edgeMap.ClustersEmpty) :
    ∃ s2 b, removeEdgesShorterThan s n true false false = some (s2, b) ∧
      (b = true ↔ ∃ E ∈ s.edges.data, E ≠ [] ∧ E.length < n) ∧
      s2.edges.data = s.edges.data.map (fun E => if E.length < n then [] else E) ∧
      (∀ p, s.edgeMap.inBounds p → s2.edgeMap.idsAt p =
        (s.edgeMap.idsAt p).filter (fun x => !s.edges.isShort n x)) ∧
      (∀ e E, s.edges.getEdge e = some E → E ≠ [] → E.length < n →
        ∀ p, s.edgeMap.inBounds p → e ∉ s2.edgeMap.idsAt p) ∧
      s2.edgeMap.dataClusters = s.edgeMap.dataClusters ∧
      s2.edgeMap.rows = s.edgeMap.rows ∧ s2.edgeMap.cols = s.edgeMap.cols ∧
      s2.edgeIdCounter = s.edgeIdCounter ∧
      (b = false → s2 = s) ∧
      TableIndexAgree s2 ∧
      ∃ s3, cleanUpEdges s2 = some s3 ∧
        s3.edges.data = s.edges.data.filter (fun E => decide (E ≠ [] ∧ n ≤ E.length)) ∧
        (s3.edges.data.Nodup → TableIndexAgree s3 ∧
          ∀ q, s.edgeMap.inBounds q → ∀ x,
            (x ∈ s3.edgeMap.idsAt q ↔
              ∃ i : Nat, x = (i : Int) ∧ ∃ E, s3.edges.data[i]? = some E ∧ q ∈ E)) := by
  obtain ⟨s2, b, hrun, hinv⟩ := removeEdgesShorterThan_inv s n hwf hnd hagree hce
  have hdata : s2.edges.data = s.edges.data.map (fun E => if E.length < n then [] else E) := by
    apply List.ext_getElem?
    intro j
    have h := hinv.table j
    simp only at h
    rw [h, List.getElem?_map]
    by_cases hj : j < s.edges.data.length
    · rw [if_pos hj]
    · rw [if_neg hj, List.getElem?_eq_none (by omega)]
      rfl
  have hids : ∀ p, s.edgeMap.inBounds p → s2.edgeMap.idsAt p =
      (s.edgeMap.idsAt p).filter (fun x => !s.edges.isShort n x) := by
    intro p hp
    have h := hinv.ids p hp
    simp only at h
    rw [h]
    apply List.filter_congr
    intro x _
    cases hs : s.edges.isShort n x with
    | false => simp
    | true =>
      obtain ⟨_, _, _, _, _, h1⟩ := isShort_bounds s.edges n x hs
      simp [h1]
  have hib := inBounds_congr s.edgeMap s2.edgeMap hinv.rows_eq hinv.cols_eq
  have hget2 : ∀ e E2, s2.edges.getEdge e = some E2 →
      ∃ E, s.edges.getEdge e = some E ∧ E2 = if E.length < n then [] else E := by
    intro e E2 h
    unfold Edges.getEdge at h
    rw [hdata] at h
    unfold vecGet? at h
    split_ifs at h with h0
    rw [List.getElem?_map] at h
    cases hE : s.edges.data[e.toNat]? with
    | none => rw [hE] at h; simp at h
    | some E =>
      rw [hE] at h
      refine ⟨E, ?_, (Option.some.inj h).symm⟩
      unfold Edges.getEdge vecGet?
      rw [if_pos h0]
      exact hE
  have hget1 : ∀ e E, s.edges.getEdge e = some E →
      s2.edges.getEdge e = some (if E.length < n then [] else E) := by
    intro e E h
    have hb := vecGet?_bounds s.edges.data e E h
    unfold Edges.getEdge vecGet? at h
    rw [if_pos hb.1] at h
    unfold Edges.getEdge vecGet?
    rw [if_pos hb.1, hdata, List.getElem?_map, h]
    rfl
  have hgone : ∀ e E, s.edges.getEdge e = some E → E ≠ [] → E.length < n →
      ∀ p, s.edgeMap.inBounds p → e ∉ s2.edgeMap.idsAt p := by
    intro e E hE hne hlt p hp hmem
    rw [hids p hp] at hmem
    have h2 := (List.mem_filter.mp hmem).2
    rw [isShort_of_getEdge s.edges n e E hE] at h2
    have : E.length > 0 ∧ E.length < n := ⟨List.length_pos.mpr hne, hlt⟩
    simp [this] at h2
  have hagree2 : TableIndexAgree s2 := by
    refine ⟨?_, ?_, ?_⟩
    · intro p hp e he
      have hp1 := (hib p).mp hp
      rw [hids p hp1] at he
      obtain ⟨hes, hns⟩ := List.mem_filter.mp he
      obtain ⟨E, hE, hne, hpE⟩ := hagree.stored_sound p hp1 e hes
      rw [isShort_of_getEdge s.edges n e E hE] at hns
      have hlen : ¬ E.length < n := by
        intro hlt
        have : E.length > 0 ∧ E.length < n := ⟨List.length_pos.mpr hne, hlt⟩
        simp [this] at hns
      refine ⟨E, ?_, hne, hpE⟩
      rw [hget1 e E hE, if_neg hlen]
    · intro e E2 hE2 p hp
      obtain ⟨E, hE, rfl⟩ := hget2 e E2 hE2
      by_cases hlt : E.length < n
      · rw [if_pos hlt] at hp
        simp at hp
      · rw [if_neg hlt] at hp
        obtain ⟨hpb, hpe⟩ := hagree.edge_registered e E hE p hp
        refine ⟨(hib p).mpr hpb, ?_⟩
        rw [hids p hpb]
        refine List.mem_filter.mpr ⟨hpe, ?_⟩
        rw [isShort_of_getEdge s.edges n e E hE]
        simp [hlt]
    · intro e he p hp hmem
      have hp1 := (hib p).mp hp
      obtain ⟨E, hE, hE2⟩ := hget2 e [] he
      have hmem2 := hmem
      rw [hids p hp1] at hmem2
      obtain ⟨hes, hns⟩ := List.mem_filter.mp hmem2
      by_cases hne : E = []
      · subst hne
        exact hagree.no_tombstone e hE p hp1 hes
      · exact hgone e E hE hne (by
          by_contra hlt
          rw [if_neg hlt] at hE2
          exact hne hE2.symm) p hp1 hmem
  have hin2 : ∀ E ∈ s2.edges.data, ∀ p ∈ E, s2.edgeMap.inBounds p := by
    intro E hE p hp
    obtain ⟨i, hi⟩ := getEdge_of_mem s2.edges E hE
    exact (hagree2.edge_registered _ E hi p hp).1
  obtain ⟨s3, h3, hdata3, _, _, _, _, _, _, _⟩ := cleanUpEdges_spec s2 hinv.wf hin2
  have hfilter : s2.edges.data.filter (fun E => decide (E ≠ [])) =
      s.edges.data.filter (fun E => decide (E ≠ [] ∧ n ≤ E.length)) := by
    rw [hdata, List.filter_map]
    have hcongr : s.edges.data.filter
        ((fun E => decide (E ≠ [])) ∘ fun E => if E.length < n then [] else E) =
        s.edges.data.filter (fun E => decide (E ≠ [] ∧ n ≤ E.length)) := by
      apply List.filter_congr
      intro E _
      simp only [Function.comp]
      by_cases hlt : E.length < n
      · have : ¬ n ≤ E.length := by omega
        simp [hlt, this]
      · have : n ≤ E.length := by omega
        simp [hlt, this]
    rw [hcongr]
    conv_rhs => rw [← List.map_id (s.edges.data.filter (fun E => decide (E ≠ [] ∧ n ≤ E.length)))]
    apply List.map_congr_left
    intro E hE
    have h2 := of_decide_eq_true (List.mem_filter.mp hE).2
    have : ¬ E.length < n := by omega
    simp [this]
  refine ⟨s2, b, hrun, ?_, hdata, hids, hgone, hinv.clusters, hinv.rows_eq, hinv.cols_eq,
    hinv.counter, hinv.same, hagree2, s3, h3, hdata3.trans hfilter, ?_⟩
  · rw [hinv.flag]
    constructor
    · rintro ⟨j, _, hs⟩
      obtain ⟨E, hE, hne, hlt, _, _⟩ := isShort_bounds s.edges n j hs
      rw [getEdge_natCast] at hE
      exact ⟨E, List.getElem?_mem hE, hne, hlt⟩
    · rintro ⟨E, hE, hne, hlt⟩
      obtain ⟨i, hi, hiE⟩ := List.getElem_of_mem hE
      refine ⟨i, hi, ?_⟩
      rw [isShort_of_getEdge s.edges n i E
        (by rw [getEdge_natCast, List.getElem?_eq_getElem hi, hiE])]
      exact decide_eq_true ⟨List.length_pos.mpr hne, hlt⟩
  · intro hN
    rw [hdata3] at hN
    obtain ⟨s4, h4, _, _, _, hids4, hagree4⟩ := cleanUpEdges_agree s2 hinv.wf hin2 hN
    rw [h3] at h4
    obtain rfl := Option.some.inj h4
    exact ⟨hagree4, fun q hq => hids4 q ((hib q).mpr hq)⟩

theorem removeEdgesShorterThan_free_without_clusters_witness :
    shortLongState.edgeMap.WF ∧ shortLongState.edgeMap.IdsNodup ∧
    TableIndexAgree shortLongState ∧ shortLongState.edgeMap.ClustersEmpty ∧
    ∃ s2 b, removeEdgesShorterThan shortLongState 3 true false false = some (s2, b) ∧
      b = true ∧ s2.edges.data = [[], [⟨0, 1⟩, ⟨1, 1⟩, ⟨2, 1⟩]] ∧
      ∃ s3, cleanUpEdges s2 = some s3 ∧ s3.edges.data = [[⟨0, 1⟩, ⟨1, 1⟩, ⟨2, 1⟩]] := by
  obtain ⟨s2, b, h1, h2, h3, _, _, _, _, _, _, _, _, s3, h4, h5, _⟩ :=
    removeEdgesShorterThan_free_without_clusters shortLongState 3 (by decide)
      (idsNodupCheck_sound _ (by decide)) (agreeCheck_sound _ (by decide)) (by decide)
  exact ⟨by decide, idsNodupCheck_sound _ (by decide), agreeCheck_sound _ (by decide),
    by decide, s2, b, h1, h2.mpr (by decide), h3, s3, h4, h5⟩

/-! ## `connectEdgesInTwoEdgeClusters` at a cluster with two incident edges -/

theorem sorted_pair_eq (l : List Int) (a b : Int) (hab : a < b)
    (hs : l.Sorted (fun x y => x < y)) (hm : ∀ e, e ∈ l ↔ e = a ∨ e = b) : l = [a, b] := by
  have hperm : l.Perm [a, b] := by
    apply (List.perm_ext_iff_of_nodup hs.nodup (by simp [hab.ne])).mpr
    intro e
    rw [hm e]
    simp
  exact List.eq_of_perm_of_sorted hperm hs (by simp [hab])

/-- A pixel without cluster is skipped by `connectEdgesInTwoEdgeClusters`. -/
theorem connectAt_of_empty (o d : Bool) (s : EdgeProcessor) (p : Point)
    (hwf : s.edgeMap.WF) (hp : s.edgeMap.inBounds p) (hc : s.edgeMap.clusterAt p = []) :
    connectAt o d s p = some s := by
  have hget := getClusterPoints_of_inBounds s.edgeMap hwf p hp
  rw [hc] at hget
  unfold EdgeMap.getClusterPoints at hget
  unfold connectAt EdgeMap.getClusterEdgeIds
  rw [hget]
  rfl

theorem isPointInCluster_of_inBounds (m : EdgeMap) (hm : m.WF) (p : Point)
    (hp : m.inBounds p) (q : Point) :
    m.isPointInCluster p.x p.y q = some (decide (q ∈ m.clusterAt p)) := by
  have hget := getClusterPoints_of_inBounds m hm p hp
  unfold EdgeMap.getClusterPoints at hget
  unfold EdgeMap.isPointInCluster
  rw [hget]
  rfl

/-- The connection point of an edge with exactly one end in the cluster. -/
theorem findStartOrEndPointInCluster_of_oneEndIn (s : EdgeProcessor) (hm : s.edgeMap.WF)
    (p : Point) (hp : s.edgeMap.inBounds p) (e : Int) (E : List Point) (cp : Point)
    (hE : s.edges.getEdge e = some E) (hone : oneEndIn (s.edgeMap.clusterAt p) E cp) :
    findStartOrEndPointInCluster s p.x p.y e = some (some cp) := by
  unfold Edges.getEdge at hE
  unfold findStartOrEndPointInCluster Edges.getStartPoint Edges.getEndPoint
  simp only [hE, Option.bind_eq_bind, Option.some_bind]
  rcases hone with ⟨h1, h2, z, h3, h4⟩ | ⟨h1, h2, z, h3, h4⟩
  · simp [h1, h3, isPointInCluster_of_inBounds s.edgeMap hm p hp, h2, h4]
  · simp [h1, h3, isPointInCluster_of_inBounds s.edgeMap hm p hp, h2, h4]

/-- The splice of an edge with the two-pixel bridge that starts at one of its
ends: the other pixel of the bridge is put in front of or behind the edge. -/
theorem spliceSpec_bridge (E : List Point) (cp1 cp2 : Point) (C : List Point)
    (h2 : cp2 ∈ C) (hone : oneEndIn C E cp1) :
    (spliceSpec E [cp1, cp2] = cp2 :: E ∧ E.head? = some cp1) ∨
    (spliceSpec E [cp1, cp2] = E ++ [cp2] ∧ E.getLast? = some cp1) := by
  rcases hone with ⟨h1, _, z, h3, h4⟩ | ⟨h1, _, z, h3, h4⟩
  · left
    refine ⟨?_, h1⟩
    have hz : z ≠ cp2 := fun h => h4 (h ▸ h2)
    unfold spliceSpec
    simp [h1, h3, hz]
  · right
    refine ⟨?_, h1⟩
    have hz : z ≠ cp2 := fun h => h4 (h ▸ h2)
    have hz1 : z ≠ cp1 := fun h => h4 (h ▸ (by assumption))
    unfold spliceSpec
    simp [h1, h3, hz, hz1]

/-- A merge of two distinct non-empty edges given in increasing order of their
ids, with the facts about the map that later steps need. -/
theorem mergeEdges_lt_spec (s : EdgeProcessor) (a b : Int) (A B : List Point) (hab : a < b)
    (hA : s.edges.getEdge a = some A) (hB : s.edges.getEdge b = some B)
    (hAne : A ≠ []) (hBne : B ≠ []) (hdef : ¬ singlePointAtFront A B)
    (hm : s.edgeMap.WF) (hn : s.edgeMap.IdsNodup) (hBin : ∀ p ∈ B, s.edgeMap.inBounds p) :
    ∃ s2, mergeEdges s a b = some s2 ∧
      (∀ i, s2.edges.getEdge i =
        if i = a then some (spliceSpec A B) else if i = b then some [] else s.edges.getEdge i) ∧
      s2.edgeIdCounter = s.edgeIdCounter ∧
      s2.edgeMap.rows = s.edgeMap.rows ∧ s2.edgeMap.cols = s.edgeMap.cols ∧
      s2.edgeMap.dataClusters = s.edgeMap.dataClusters ∧ s2.edgeMap.WF ∧
      s2.edgeMap.IdsNodup := by
  obtain ⟨m2, hre, hmerge⟩ := mergeOrdered_spec s a b A B hA hB hAne hBne hdef hm hn hBin
  obtain ⟨m3, hre3, r3, c3, d3, wf3, n3, _⟩ := reassignEdgeIds_spec a b B s.edgeMap hm hn hBin
  rw [hre] at hre3
  obtain rfl := Option.some.inj hre3
  refine ⟨_, (mergeEdges_of_lt s a b hab).trans hmerge, ?_, rfl, r3, c3, d3, wf3, n3⟩
  intro i
  exact getEdge_after_merge s.edges a b A B (spliceSpec A B) hA hB i

/-- Without a cluster on the edge the rotation search finds nothing. -/
theorem rotateToCluster_none (m : EdgeMap) (hm : m.WF) :
    ∀ (rest seen : List Point), (∀ p ∈ rest, m.inBounds p ∧ m.clusterAt p = []) →
      rotateToCluster m seen rest = some none := by
  intro rest
  induction rest with
  | nil => intro seen _; rfl
  | cons p rest ih =>
    intro seen h
    obtain ⟨hp, hc⟩ := h p (List.mem_cons_self _ _)
    unfold rotateToCluster
    rw [isCluster_of_inBounds m hm p hp, hc]
    simp only [Option.bind_eq_bind, Option.some_bind, List.length_nil]
    exact ih _ (fun q hq => h q (List.mem_cons_of_mem _ hq))

theorem oneEndIn_length (C E : List Point) (cp : Point) (h : oneEndIn C E cp) :
    2 ≤ E.length ∧ cp ∈ C ∧ cp ∈ E ∧ (E.head? = some cp ∨ E.getLast? = some cp) := by
  have hlen : 2 ≤ E.length := by
    cases E with
    | nil => rcases h with ⟨h1, _⟩ | ⟨h1, _⟩ <;> simp at h1
    | cons a t =>
      cases t with
      | nil =>
        rcases h with ⟨h1, h2, z, h3, h4⟩ | ⟨h1, h2, z, h3, h4⟩
        · simp at h1 h3
          rw [← h3, h1] at h4
          exact absurd h2 h4
        · simp at h1 h3
          rw [← h3, h1] at h4
          exact absurd h2 h4
      | cons b t2 => simp
  rcases h with ⟨h1, h2, _⟩ | ⟨h1, h2, _⟩
  · exact ⟨hlen, h2, List.mem_of_mem_head? h1, Or.inl h1⟩
  · exact ⟨hlen, h2, List.mem_of_mem_getLast? h1, Or.inr h1⟩

/-- When no pixel carries a cluster, the rotation of a closed merged edge
changes nothing. -/
theorem rotateClosedEdge_of_no_cluster (s : EdgeProcessor) (i : Int) (M : List Point)
    (hwf : s.edgeMap.WF) (hget : s.edges.getEdge i = some M) (hne : M ≠ [])
    (hin : ∀ q ∈ M, s.edgeMap.inBounds q)
    (hcl : ∀ q, s.edgeMap.inBounds q → s.edgeMap.clusterAt q = []) :
    rotateClosedEdge s i = some s := by
  obtain ⟨a, ha⟩ : ∃ a, M.head? = some a := by
    cases M with
    | nil => exact absurd rfl hne
    | cons a t => exact ⟨a, rfl⟩
  obtain ⟨b, hb⟩ : ∃ b, M.getLast? = some b := by
    cases hl : M.getLast? with
    | none => exact absurd (List.getLast?_eq_none_iff.mp hl) hne
    | some b => exact ⟨b, rfl⟩
  have haM : a ∈ M := List.mem_of_mem_head? ha
  have hbM : b ∈ M := List.mem_of_mem_getLast? hb
  have hget2 := hget
  unfold Edges.getEdge at hget2
  unfold rotateClosedEdge
  rw [isClosed_eq s.edges i M a b hget ha hb]
  simp only [Option.bind_eq_bind, Option.some_bind]
  split_ifs
  · unfold Edges.getStartPoint Edges.getEndPoint
    simp only [hget2, Option.bind_eq_bind, Option.some_bind, ha, hb,
      isCluster_of_inBounds s.edgeMap hwf a (hin a haM),
      isCluster_of_inBounds s.edgeMap hwf b (hin b hbM), hcl a (hin a haM),
      hcl b (hin b hbM), List.length_nil, hget,
      rotateToCluster_none s.edgeMap hwf M [] (fun q hq => ⟨hin q hq, hcl q (hin q hq)⟩)]
    rfl
  · rfl

/-- The bridge and the two merges at a cluster with two incident edges. -/
theorem bridgeAndMerge_spec (s : EdgeProcessor) (C : List Point) (i0 i1 : Int)
    (E0 E1 : List Point) (cp1 cp2 : Point) (hwf : s.edgeMap.WF) (hnd : s.edgeMap.IdsNodup)
    (hC : s.edgeMap.OnlyCluster C) (h01 : i0 < i1)
    (hE0 : s.edges.getEdge i0 = some E0) (hE1 : s.edges.getEdge i1 = some E1)
    (hin1 : ∀ p ∈ E1, s.edgeMap.inBounds p)
    (h0 : oneEndIn C E0 cp1) (h1 : oneEndIn C E1 cp2) (p : Point) (hp : p ∈ C) :
    ∃ s2, bridgeAndMerge s p i0 i1 [cp1, cp2] true = some s2 ∧
      Connected s i0 i1 E0 E1 cp1 cp2 s2 := by
  obtain ⟨hCne, hCin, hCat⟩ := hC
  obtain ⟨hlen0, hc1, hc1E, _⟩ := oneEndIn_length C E0 cp1 h0
  obtain ⟨hlen1, hc2, hc2E, hend2⟩ := oneEndIn_length C E1 cp2 h1
  obtain ⟨hi0a, hi0b⟩ := vecGet?_bounds _ _ _ hE0
  obtain ⟨hi1a, hi1b⟩ := vecGet?_bounds _ _ _ hE1
  have hE0ne : E0 ≠ [] := fun h => by rw [h] at hlen0; simp at hlen0
  have hE1ne : E1 ≠ [] := fun h => by rw [h] at hlen1; simp at hlen1
  -- the state after the temporary edge has been pushed
  have hget1 : ∀ i, Edges.getEdge (s.edges.pushBack [cp1, cp2]) i =
      if i = (s.edges.data.length : Int) then some [cp1, cp2] else s.edges.getEdge i := by
    intro i
    unfold Edges.getEdge Edges.pushBack
    exact vecGet?_append_singleton _ _ _
  have hsize : (s.edges.pushBack [cp1, cp2]).size - 1 = (s.edges.data.length : Int) := by
    unfold Edges.size Edges.pushBack
    simp
  obtain ⟨s1, hs1, tab1, cnt1, r1, c1, d1, wf1, n1⟩ := mergeEdges_lt_spec
    { s with edges := s.edges.pushBack [cp1, cp2] } i0 (s.edges.data.length : Int)
    E0 [cp1, cp2] hi0b
    (by show Edges.getEdge (s.edges.pushBack [cp1, cp2]) i0 = _
        rw [hget1, if_neg (by omega)]
        exact hE0)
    (by show Edges.getEdge (s.edges.pushBack [cp1, cp2]) _ = _
        rw [hget1, if_pos rfl])
    hE0ne (by simp)
    (by unfold singlePointAtFront
        simp)
    hwf hnd
    (by intro q hq
        simp only [List.mem_cons, List.mem_singleton, List.not_mem_nil, or_false] at hq
        rcases hq with rfl | rfl
        · exact hCin _ hc1
        · exact hCin _ hc2)
  have hM1 : spliceSpec E0 [cp1, cp2] ≠ [] := fun h => by
    have := spliceSpec_left E0 [cp1, cp2] cp1 hc1E
    rw [h] at this
    simp at this
  have hib1 := inBounds_congr s.edgeMap s1.edgeMap r1 c1
  obtain ⟨s2, hs2, tab2, cnt2, r2, c2, d2, wf2, n2⟩ := mergeEdges_lt_spec s1 i0 i1
    (spliceSpec E0 [cp1, cp2]) E1 h01
    (by rw [tab1, if_pos rfl])
    (by rw [tab1, if_neg (by omega), if_neg (by omega)]
        show Edges.getEdge (s.edges.pushBack [cp1, cp2]) i1 = _
        rw [hget1, if_neg (by omega)]
        exact hE1)
    hM1 hE1ne
    (by unfold singlePointAtFront
        intro h
        omega)
    wf1 n1 (fun q hq => (hib1 q).mpr (hin1 q hq))
  have hib2 := inBounds_congr s.edgeMap s2.edgeMap (r2.trans r1) (c2.trans c1)
  have hcl2 : ∀ q, s2.edgeMap.clusterAt q = s.edgeMap.clusterAt q :=
    clusterAt_congr s.edgeMap s2.edgeMap (c2.trans c1) (d2.trans d1)
  have hpb := hCin p hp
  have hclp : s.edgeMap.clusterAt p = C := by rw [hCat p hpb, if_pos hp]
  obtain ⟨m3, hm3, r3, c3, _, wf3, cl3⟩ := clearCluster_spec s2.edgeMap wf2 p
    ((hib2 p).mpr hpb)
    (by intro r hr
        rw [hcl2, hclp] at hr
        exact (hib2 r).mpr (hCin r hr))
  refine ⟨{ s2 with edgeMap := m3 }, ?_, ?_⟩
  · unfold bridgeAndMerge
    simp only [Option.bind_eq_bind, hsize, hs1, Option.some_bind, hs2, if_true, hm3,
      Option.pure_def]
  · refine ⟨wf3, r3.trans (r2.trans r1), c3.trans (c2.trans c1), cnt2.trans cnt1, ?_, ?_⟩
    · intro q hq
      have hq2 : s2.edgeMap.inBounds q := (inBounds_congr s2.edgeMap m3 r3 c3 q).mp hq
      show m3.clusterAt q = []
      rw [cl3 q hq2, hcl2, hcl2, hclp]
      split_ifs with h
      · rfl
      · rw [hCat q ((hib2 q).mp hq2), if_neg h]
    · intro i
      show s2.edges.getEdge i = _
      rw [tab2]
      by_cases hi0 : i = i0
      · rw [if_pos hi0, if_pos hi0]
      · rw [if_neg hi0, if_neg hi0]
        by_cases hi1 : i = i1
        · rw [if_pos hi1, if_pos hi1]
        · rw [if_neg hi1, if_neg hi1, tab1, if_neg hi0]
          by_cases hit : i = (s.edges.data.length : Int)
          · rw [if_pos hit, if_pos hit]
          · rw [if_neg hit, if_neg hit]
            show Edges.getEdge (s.edges.pushBack [cp1, cp2]) i = _
            rw [hget1, if_neg hit]

/-- The ids that `getClusterEdgeIds` returns at a pixel with in-bounds cluster
points: a strictly increasing list of the ids stored at these points. -/
theorem getClusterEdgeIds_of_cluster (m : EdgeMap) (hm : m.WF) (p : Point)
    (hp : m.inBounds p) (hin : ∀ r ∈ m.clusterAt p, m.inBounds r) :
    ∃ ids, m.getClusterEdgeIds p.x p.y = some ids ∧
      ids.Sorted (fun x y => x < y) ∧
      ∀ e, e ∈ ids ↔ ∃ r ∈ m.clusterAt p, e ∈ m.idsAt r := by
  have hget := getClusterPoints_of_inBounds m hm p hp
  unfold EdgeMap.getClusterPoints at hget
  obtain ⟨ids, h1, h2, h3⟩ := clusterIdsLoop_spec m hm (m.clusterAt p) [] hin
    ⟨List.sorted_nil, List.nodup_nil⟩
  refine ⟨ids, ?_, h2.1.lt_of_le h2.2, ?_⟩
  · unfold EdgeMap.getClusterEdgeIds
    simp only [hget, Option.bind_eq_bind, Option.some_bind]
    exact h1
  · intro e
    rw [h3 e]
    simp

/-- The body of `connectEdgesInTwoEdgeClusters` up to the choice between
connecting and skipping, at a pixel of the one cluster. -/
theorem connectAt_cluster_eq (o d : Bool) (s : EdgeProcessor) (C : List Point) (i0 i1 : Int)
    (E0 E1 : List Point) (cp1 cp2 : Point) (hwf : s.edgeMap.WF)
    (hC : s.edgeMap.OnlyCluster C)
    (hinc : ∀ e, (∃ r ∈ C, e ∈ s.edgeMap.idsAt r) ↔ (e = i0 ∨ e = i1)) (h01 : i0 < i1)
    (hE0 : s.edges.getEdge i0 = some E0) (hE1 : s.edges.getEdge i1 = some E1)
    (hcl0 : s.edges.isClosed i0 = some false) (hcl1 : s.edges.isClosed i1 = some false)
    (h0 : oneEndIn C E0 cp1) (h1 : oneEndIn C E1 cp2) (p : Point) (hp : p ∈ C) :
    connectAt o d s p =
      (connectBranch o d s p i0 i1 cp1 cp2).bind fun s2 => rotateClosedEdge s2 i0 := by
  obtain ⟨hCne, hCin, hCat⟩ := hC
  have hpb := hCin p hp
  have hclp : s.edgeMap.clusterAt p = C := by rw [hCat p hpb, if_pos hp]
  obtain ⟨ids, hids, hsorted, hmem⟩ := getClusterEdgeIds_of_cluster s.edgeMap hwf p hpb
    (by rw [hclp]; exact hCin)
  have hidsEq : ids = [i0, i1] := sorted_pair_eq ids i0 i1 h01 hsorted
    (fun e => by rw [hmem e, hclp]; exact hinc e)
  have hlen : decide (C.length ≥ 1) = true := by
    apply decide_eq_true
    cases C with
    | nil => exact absurd rfl hCne
    | cons a t => simp
  unfold connectAt
  rw [hids, hidsEq]
  simp only [Option.bind_eq_bind, Option.some_bind, isCluster_of_inBounds s.edgeMap hwf p hpb,
    hclp, hlen, if_true, hcl0, hcl1, Bool.false_eq_true, if_false,
    findStartOrEndPointInCluster_of_oneEndIn s hwf p hpb i0 E0 cp1 hE0 (by rw [hclp]; exact h0),
    findStartOrEndPointInCluster_of_oneEndIn s hwf p hpb i1 E1 cp2 hE1 (by rw [hclp]; exact h1)]

theorem connected_rotate (s s2 : EdgeProcessor) (C : List Point) (i0 i1 : Int)
    (E0 E1 : List Point) (cp1 cp2 : Point) (hC : s.edgeMap.OnlyCluster C)
    (hin0 : ∀ p ∈ E0, s.edgeMap.inBounds p) (hin1 : ∀ p ∈ E1, s.edgeMap.inBounds p)
    (h0 : oneEndIn C E0 cp1) (h1 : oneEndIn C E1 cp2)
    (hpost : Connected s i0 i1 E0 E1 cp1 cp2 s2) :
    rotateClosedEdge s2 i0 = some s2 := by
  obtain ⟨_, hc1, hc1E, _⟩ := oneEndIn_length C E0 cp1 h0
  obtain ⟨_, hc2, _, _⟩ := oneEndIn_length C E1 cp2 h1
  have hib := inBounds_congr s.edgeMap s2.edgeMap hpost.rows_eq hpost.cols_eq
  apply rotateClosedEdge_of_no_cluster s2 i0 _ hpost.wf
    (by rw [hpost.table, if_pos rfl]) ?_ ?_ hpost.noCluster
  · intro h
    have := spliceSpec_left (spliceSpec E0 [cp1, cp2]) E1 cp1
      (spliceSpec_left E0 [cp1, cp2] cp1 hc1E)
    rw [h] at this
    simp at this
  · intro q hq
    apply (hib q).mpr
    rcases spliceSpec_subset _ _ q hq with h | h
    · rcases spliceSpec_subset _ _ q h with h | h
      · exact hin0 q h
      · simp only [List.mem_cons, List.mem_singleton, List.not_mem_nil, or_false] at h
        rcases h with rfl | rfl
        · exact hC.2.1 _ hc1
        · exact hC.2.1 _ hc2
    · exact hin1 q h

/-- The raster loop of `connectEdgesInTwoEdgeClusters` over a list of pixels
that meets the cluster: the first pixel of the cluster connects the two edges,
all other pixels are skipped. -/
theorem connectFold_spec (s : EdgeProcessor) (C : List Point) (i0 i1 : Int)
    (E0 E1 : List Point) (cp1 cp2 : Point) (hwf : s.edgeMap.WF) (hnd : s.edgeMap.IdsNodup)
    (hC : s.edgeMap.OnlyCluster C)
    (hinc : ∀ e, (∃ r ∈ C, e ∈ s.edgeMap.idsAt r) ↔ (e = i0 ∨ e = i1)) (h01 : i0 < i1)
    (hE0 : s.edges.getEdge i0 = some E0) (hE1 : s.edges.getEdge i1 = some E1)
    (hin0 : ∀ p ∈ E0, s.edgeMap.inBounds p) (hin1 : ∀ p ∈ E1, s.edgeMap.inBounds p)
    (hcl0 : s.edges.isClosed i0 = some false) (hcl1 : s.edges.isClosed i1 = some false)
    (h0 : oneEndIn C E0 cp1) (h1 : oneEndIn C E1 cp2)
    (hnear : normBelowOneAndHalf (cp1.sub cp2) = true) :
    ∀ l : List Point, (∀ q ∈ l, s.edgeMap.inBounds q) → (∃ q ∈ l, q ∈ C) →
      ∃ s2, l.foldlM (connectAt true true) s = some s2 ∧
        Connected s i0 i1 E0 E1 cp1 cp2 s2 := by
  intro l
  induction l with
  | nil =>
    intro _ h
    obtain ⟨q, hq, _⟩ := h
    simp at hq
  | cons p rest ih =>
    intro hl hex
    rw [List.foldlM_cons]
    by_cases hp : p ∈ C
    · obtain ⟨s2, hs2, hpost⟩ := bridgeAndMerge_spec s C i0 i1 E0 E1 cp1 cp2 hwf hnd hC h01
        hE0 hE1 hin1 h0 h1 p hp
      have hstep : connectAt true true s p = some s2 := by
        rw [connectAt_cluster_eq true true s C i0 i1 E0 E1 cp1 cp2 hwf hC hinc h01 hE0 hE1
          hcl0 hcl1 h0 h1 p hp]
        unfold connectBranch
        simp only [hnear, Bool.and_self, if_true, hs2, Option.some_bind]
        exact connected_rotate s s2 C i0 i1 E0 E1 cp1 cp2 hC hin0 hin1 h0 h1 hpost
      rw [hstep]
      simp only [Option.bind_eq_bind, Option.some_bind]
      refine ⟨s2, ?_, hpost⟩
      apply foldlM_fixed
      intro q hq
      have hq2 : s2.edgeMap.inBounds q :=
        (inBounds_congr s.edgeMap s2.edgeMap hpost.rows_eq hpost.cols_eq q).mpr
          (hl q (List.mem_cons_of_mem _ hq))
      exact connectAt_of_empty true true s2 q hpost.wf hq2 (hpost.noCluster q hq2)
    · have hpb := hl p (List.mem_cons_self _ _)
      rw [connectAt_of_empty true true s p hwf hpb (by rw [hC.2.2 p hpb, if_neg hp])]
      simp only [Option.bind_eq_bind, Option.some_bind]
      apply ih (fun q hq => hl q (List.mem_cons_of_mem _ hq))
      obtain ⟨q, hq, hqC⟩ := hex
      rcases List.mem_cons.mp hq with h | h
      · rw [h] at hqC
        exact absurd hqC hp
      · exact ⟨q, h, hqC⟩

/-- A decidable form of `EdgeMap.OnlyCluster` for concrete maps. -/
theorem onlyCluster_of_check (m : EdgeMap) (C : List Point) (hne : C ≠ [])
    (hin : ∀ r ∈ C, m.inBounds r)
    (h : ∀ p ∈ m.allPixels, m.clusterAt p = if p ∈ C then C else []) : m.OnlyCluster C :=
  ⟨hne, hin, fun p hp => h p (mem_allPixels m p hp)⟩

/-! ### Claim on `connectEdgesInTwoEdgeClusters` -/

/-- C29 (counterexample): in `touchingEdgesState` (consistent, one cluster
`[(1,0)]` with exactly the two incident edges 0 and 1, both not closed, each
with exactly one end pixel in the cluster) the two connection points are the
same pixel `(1,0)`, hence not 8-neighbours, and
`connectEdgesInTwoEdgeClusters(true, true)` nevertheless merges the two edges
and clears the cluster. -/
theorem connectEdgesInTwoEdgeClusters_merges_touching_edges :
    TableIndexAgree touchingEdgesState ∧
    touchingEdgesState.edgeMap.getClusterEdgeIds 1 0 = some [0, 1] ∧
    touchingEdgesState.edgeMap.clusterAt ⟨1, 0⟩ = [⟨1, 0⟩] ∧
    touchingEdgesState.edges.isClosed 0 = some false ∧
    touchingEdgesState.edges.isClosed 1 = some false ∧
    findStartOrEndPointInCluster touchingEdgesState 1 0 0 = some (some ⟨1, 0⟩) ∧
    findStartOrEndPointInCluster touchingEdgesState 1 0 1 = some (some ⟨1, 0⟩) ∧
    ¬ isNeighbor8 ⟨1, 0⟩ ⟨1, 0⟩ ∧
    ∃ s2, connectEdgesInTwoEdgeClusters true true touchingEdgesState = some s2 ∧
      s2 ≠ touchingEdgesState ∧
      s2.edges.data = [[⟨0, 0⟩, ⟨1, 0⟩, ⟨1, 0⟩, ⟨2, 0⟩], [], []] ∧
      s2.edgeMap.dataClusters = [[], [], []] := by
  refine ⟨agreeCheck_sound _ (by decide), by decide, by decide, by decide, by decide,
    by decide, by decide, by decide, _, rfl, ?_, ?_, ?_⟩
  · decide
  · decide
  · decide

/-- C29 (amended): let `s` be a consistent state (well-formed maps, duplicate
free id lists, table and index in agreement) whose only cluster is `C`, let
exactly the two ids `i0 < i1` be stored at the pixels of `C`, both edges not
closed, each with exactly one end pixel in `C` (`cp1` for `i0`, `cp2` for
`i1`).  If the two connection points coincide or are 8-neighbours,
`connectEdgesInTwoEdgeClusters(true, true)` returns a state with a non-empty
merged edge at `i0` whose pixels are exactly the pixels of the two edges, a
tombstone at `i1` and at the id of the temporary bridge, every other edge
unchanged and an empty cluster list at every pixel.  If the two connection
points are different and not 8-neighbours, the call with
`onlyIf8Neighbors = true` returns the state unchanged. -/
theorem connectEdgesInTwoEdgeClusters_two_edge_cluster (s : EdgeProcessor) (C : List Point)
    (i0 i1 : Int) (E0 E1 : List Point) (cp1 cp2 : Point)
    (hwf : s.edgeMap.WF) (hnd : s.edgeMap.IdsNodup) (hagree : TableIndexAgree s)
    (hC : s.edgeMap.OnlyCluster C)
    (hinc : ∀ e, (∃ r ∈ C, e ∈ s.edgeMap.idsAt r) ↔ (e = i0 ∨ e = i1)) (h01 : i0 < i1)
    (hE0 : s.edges.getEdge i0 = some E0) (hE1 : s.edges.getEdge i1 = some E1)
    (hcl0 : s.edges.isClosed i0 = some false) (hcl1 : s.edges.isClosed i1 = some false)
    (h0 : oneEndIn C E0 cp1) (h1 : oneEndIn C E1 cp2) :
    ((cp1 = cp2 ∨ isNeighbor8 cp1 cp2) →
      ∃ s2 M, connectEdgesInTwoEdgeClusters true true s = some s2 ∧
        s2.edges.getEdge i0 = some M ∧ M ≠ [] ∧
        (∀ p, p ∈ M ↔ p ∈ E0 ∨ p ∈ E1) ∧
        s2.edges.getEdge i1 = some [] ∧
        s2.edges.getEdge (s.edges.data.length : Int) = some [] ∧
        (∀ i, i ≠ i0 → i ≠ i1 → i ≠ (s.edges.data.length : Int) →
          s2.edges.getEdge i = s.edges.getEdge i) ∧
        (∀ q, s.edgeMap.inBounds q → s2.edgeMap.clusterAt q = [])) ∧
    (cp1 ≠ cp2 → ¬ isNeighbor8 cp1 cp2 →
      ∀ d, connectEdgesInTwoEdgeClusters true d s = some s) := by
  have hin0 : ∀ p ∈ E0, s.edgeMap.inBounds p := fun p hp =>
    (hagree.edge_registered i0 E0 hE0 p hp).1
  have hin1 : ∀ p ∈ E1, s.edgeMap.inBounds p := fun p hp =>
    (hagree.edge_registered i1 E1 hE1 p hp).1
  obtain ⟨_, hc1, hc1E, _⟩ := oneEndIn_length C E0 cp1 h0
  obtain ⟨_, hc2, hc2E, hend2⟩ := oneEndIn_length C E1 cp2 h1
  obtain ⟨hi0a, hi0b⟩ := vecGet?_bounds _ _ _ hE0
  obtain ⟨hi1a, hi1b⟩ := vecGet?_bounds _ _ _ hE1
  have hnormiff : normBelowOneAndHalf (cp1.sub cp2) = true ↔
      (cp1 = cp2 ∨ isNeighbor8 cp1 cp2) := by
    rw [normBelowOneAndHalf_iff, ← chebyshev_le_one_iff]
    rfl
  constructor
  · intro hnb
    have hnear := hnormiff.mpr hnb
    obtain ⟨q0, hq0⟩ : ∃ q, q ∈ C := by
      cases hCl : C with
      | nil => exact absurd hCl hC.1
      | cons a t => exact ⟨a, List.mem_cons_self _ _⟩
    obtain ⟨s2, hs2, hpost⟩ := connectFold_spec s C i0 i1 E0 E1 cp1 cp2 hwf hnd hC hinc h01
      hE0 hE1 hin0 hin1 hcl0 hcl1 h0 h1 hnear s.edgeMap.allPixels
      (fun q hq => inBounds_of_mem_allPixels _ q hq)
      ⟨q0, mem_allPixels _ q0 (hC.2.1 q0 hq0), hq0⟩
    have hshare : sharesEndpoint (spliceSpec E0 [cp1, cp2]) E1 := by
      unfold sharesEndpoint
      rcases spliceSpec_bridge E0 cp1 cp2 C hc2 h0 with ⟨hM, _⟩ | ⟨hM, _⟩
      · rw [hM]
        rcases hend2 with h | h
        · left
          rw [h]
          rfl
        · right; left
          rw [h]
          rfl
      · rw [hM]
        have hl : (E0 ++ [cp2]).getLast? = some cp2 := by simp
        rcases hend2 with h | h
        · right; right; left
          rw [h, hl]
        · right; right; right
          rw [h, hl]
    refine ⟨s2, spliceSpec (spliceSpec E0 [cp1, cp2]) E1, hs2, ?_, ?_, ?_, ?_, ?_, ?_, ?_⟩
    · rw [hpost.table, if_pos rfl]
    · intro h
      have := spliceSpec_left (spliceSpec E0 [cp1, cp2]) E1 cp1
        (spliceSpec_left E0 [cp1, cp2] cp1 hc1E)
      rw [h] at this
      simp at this
    · intro p
      constructor
      · intro hp
        rcases spliceSpec_subset _ _ p hp with h | h
        · rcases spliceSpec_subset _ _ p h with h | h
          · exact Or.inl h
          · simp only [List.mem_cons, List.mem_singleton, List.not_mem_nil, or_false] at h
            rcases h with rfl | rfl
            · exact Or.inl hc1E
            · exact Or.inr hc2E
        · exact Or.inr h
      · rintro (h | h)
        · exact spliceSpec_left _ _ p (spliceSpec_left _ _ p h)
        · exact spliceSpec_right _ _ hshare p h
    · rw [hpost.table, if_neg (by omega), if_pos rfl]
    · rw [hpost.table, if_neg (by omega), if_neg (by omega), if_pos rfl]
    · intro i h1 h2 h3
      rw [hpost.table, if_neg h1, if_neg h2, if_neg h3]
    · intro q hq
      exact hpost.noCluster q
        ((inBounds_congr s.edgeMap s2.edgeMap hpost.rows_eq hpost.cols_eq q).mpr hq)
  · intro hne hn8 d
    have hfar : normBelowOneAndHalf (cp1.sub cp2) = false := by
      cases hv : normBelowOneAndHalf (cp1.sub cp2) with
      | false => rfl
      | true =>
        rcases hnormiff.mp hv with h | h
        · exact absurd h hne
        · exact absurd h hn8
    unfold connectEdgesInTwoEdgeClusters
    apply foldlM_fixed
    intro p hp
    have hpb := inBounds_of_mem_allPixels _ p hp
    by_cases hpC : p ∈ C
    · rw [connectAt_cluster_eq true d s C i0 i1 E0 E1 cp1 cp2 hwf hC hinc h01 hE0 hE1
        hcl0 hcl1 h0 h1 p hpC]
      unfold connectBranch
      simp only [hfar, Bool.and_false, Bool.false_eq_true, if_false, Bool.not_true,
        Option.bind_eq_bind, Option.some_bind]
      unfold rotateClosedEdge
      rw [hcl0]
      rfl
    · exact connectAt_of_empty true d s p hwf hpb (by rw [hC.2.2 p hpb, if_neg hpC])

theorem connectEdgesInTwoEdgeClusters_two_edge_cluster_witness :
    isNeighbor8 ⟨1, 0⟩ ⟨2, 0⟩ ∧
    ∃ s2 M, connectEdgesInTwoEdgeClusters true true bridgedPairState = some s2 ∧
      s2.edges.getEdge 0 = some M ∧ M ≠ [] ∧
      (∀ p, p ∈ M ↔ p ∈ [Point.mk 0 0, ⟨1, 0⟩] ∨ p ∈ [Point.mk 2 0, ⟨3, 0⟩]) ∧
      s2.edges.getEdge 1 = some [] ∧
      s2.edges.getEdge (bridgedPairState.edges.data.length : Int) = some [] ∧
      (∀ i, i ≠ 0 → i ≠ 1 → i ≠ (bridgedPairState.edges.data.length : Int) →
        s2.edges.getEdge i = bridgedPairState.edges.getEdge i) ∧
      (∀ q, bridgedPairState.edgeMap.inBounds q → s2.edgeMap.clusterAt q = []) := by
  have h8 : isNeighbor8 ⟨1, 0⟩ ⟨2, 0⟩ := by decide
  refine ⟨h8, ?_⟩
  refine (connectEdgesInTwoEdgeClusters_two_edge_cluster bridgedPairState [⟨1, 0⟩, ⟨2, 0⟩] 0 1
    [⟨0, 0⟩, ⟨1, 0⟩] [⟨2, 0⟩, ⟨3, 0⟩] ⟨1, 0⟩ ⟨2, 0⟩ (by decide)
    (idsNodupCheck_sound _ (by decide)) (agreeCheck_sound _ (by decide))
    (onlyCluster_of_check _ _ (by decide) (by decide) (by decide)) ?_ (by decide) rfl rfl
    (by decide) (by decide)
    (Or.inr ⟨rfl, by decide, ⟨0, 0⟩, rfl, by decide⟩)
    (Or.inl ⟨rfl, by decide, ⟨3, 0⟩, rfl, by decide⟩)).1 (Or.inr h8)
  intro e
  have h1 : bridgedPairState.edgeMap.idsAt ⟨1, 0⟩ = [0] := by decide
  have h2 : bridgedPairState.edgeMap.idsAt ⟨2, 0⟩ = [1] := by decide
  constructor
  · rintro ⟨r, hr, he⟩
    simp only [List.mem_cons, List.mem_singleton, List.not_mem_nil, or_false] at hr
    rcases hr with rfl | rfl
    · rw [h1] at he
      simp at he
      exact Or.inl he
    · rw [h2] at he
      simp at he
      exact Or.inr he
  · rintro (rfl | rfl)
    · exact ⟨⟨1, 0⟩, by simp, by rw [h1]; simp⟩
    · exact ⟨⟨2, 0⟩, by simp, by rw [h2]; simp⟩

/-! ## `threePointEdgesToClusters` -/

/-- When the id sets of the two clusters differ and the list of the second
cluster ends with the end pixel of the edge, the two clusters are merged: all
pixels of both clusters and the middle pixel store one common list, the edge
is a tombstone and its id is erased. -/
theorem threePointEdgesToClusters_merges_on_different_ids :
    ∃ s2, threePointEdgesToClusters threeEdgeLastState = some s2 ∧
      s2.edges.data = [[], [⟨3, 0⟩]] ∧
      s2.edgeMap.dataEdgeIds = [[], [], [], [1]] ∧
      s2.edgeMap.dataClusters =
        List.replicate 4 [⟨0, 0⟩, ⟨1, 0⟩, ⟨3, 0⟩, ⟨2, 0⟩] := by
  refine ⟨_, rfl, ?_, ?_, ?_⟩ <;> decide

/-- When the list of the second cluster starts with the end pixel of the edge
and has a further point, the loop that absorbs the second cluster assigns to
the list it walks before the walk is over; the embedding has no result. -/
theorem threePointEdgesToClusters_reads_assigned_list :
    threePointEdgesToClusters threeEdgeFirstState = none := by
  decide

/-- The smallest state on which the two clusters at the ends of a three-pixel
edge stay apart: the edge is the only edge, so both clusters have the id set
`{0}`, which the code takes for "same cluster". -/
theorem threePointEdgesToClusters_apart_minimal :
    threeEdgeState.edgeMap.WF ∧ TableIndexAgree threeEdgeState ∧
    threeEdgeState.edgeMap.getClusterEdgeIds 0 0 =
      threeEdgeState.edgeMap.getClusterEdgeIds 2 0 ∧
    ∃ s2, threePointEdgesToClusters threeEdgeState = some s2 ∧
      s2.edges.getEdge 0 = some [] ∧
      s2.edgeMap.dataEdgeIds = [[], [], []] ∧
      s2.edgeMap.clusterAt ⟨0, 0⟩ = [⟨0, 0⟩, ⟨1, 0⟩] ∧
      s2.edgeMap.clusterAt ⟨2, 0⟩ = [⟨2, 0⟩] := by
  refine ⟨by decide, agreeCheck_sound _ (by decide), by decide, _, rfl, ?_, ?_, ?_, ?_⟩ <;>
    decide

/-! ### Claim on `threePointEdgesToClusters` -/

/-- C28: on the image `dumbbellImage` (two 2 x 2 blocks joined by the pixel
`(2,1)`) `traceEdges` returns a consistent state whose edge 0 is the
three-pixel edge `(1,1), (2,1), (3,1)`; its first pixel lies in the cluster of
the left block and its last pixel in the pixel-disjoint cluster of the right
block.  `threePointEdgesToClusters` then returns; edge 0 is a tombstone, id 0
is stored at no pixel and the middle pixel is in the cluster list of the first
pixel, but the two clusters are not merged: the first pixel stores the left
block with the middle pixel, the last pixel still stores the right block
alone.  Both clusters have the id set `{0}`, and equal id sets are what the
code tests for "same cluster". -/
theorem threePointEdgesToClusters_leaves_clusters_apart :
    ∃ s1, traceEdges dumbbellImage EdgeProcessor.create = some s1 ∧
      s1.edgeMap.WF ∧ TableIndexAgree s1 ∧
      s1.edges.getEdge 0 = some [⟨1, 1⟩, ⟨2, 1⟩, ⟨3, 1⟩] ∧
      s1.edgeMap.clusterAt ⟨1, 1⟩ = [⟨0, 0⟩, ⟨1, 0⟩, ⟨0, 1⟩, ⟨1, 1⟩] ∧
      s1.edgeMap.clusterAt ⟨3, 1⟩ = [⟨3, 0⟩, ⟨4, 0⟩, ⟨3, 1⟩, ⟨4, 1⟩] ∧
      s1.edgeMap.getClusterEdgeIds 1 1 = some [0] ∧
      s1.edgeMap.getClusterEdgeIds 3 1 = some [0] ∧
      ∃ s2, threePointEdgesToClusters s1 = some s2 ∧
        s2.edges.getEdge 0 = some [] ∧
        (∀ L ∈ s2.edgeMap.dataEdgeIds, L = []) ∧
        (⟨2, 1⟩ : Point) ∈ s2.edgeMap.clusterAt ⟨1, 1⟩ ∧
        s2.edgeMap.clusterAt ⟨1, 1⟩ = [⟨0, 0⟩, ⟨1, 0⟩, ⟨0, 1⟩, ⟨1, 1⟩, ⟨2, 1⟩] ∧
        s2.edgeMap.clusterAt ⟨3, 1⟩ = [⟨3, 0⟩, ⟨4, 0⟩, ⟨3, 1⟩, ⟨4, 1⟩] ∧
        ¬ ((⟨1, 1⟩ : Point) ∈ s2.edgeMap.clusterAt ⟨3, 1⟩) := by
  refine ⟨_, rfl, by decide, agreeCheck_sound _ (by decide), by decide, by decide, by decide,
    by decide, by decide, _, rfl, ?_, ?_, ?_, ?_, ?_, ?_⟩ <;> decide

/-! ## Symmetry of the direct-neighbour relation -/

/-- C37: for every image and all edge pixels `p` and `q` inside the image, `q`
is in `getDirectNeighbors(img, p)` if and only if `p` is in
`getDirectNeighbors(img, q)`. -/
theorem getDirectNeighbors_symmetric (img : Mat) (p q : Point) (hp : img.inside p)
    (hq : img.inside q) (hpe : img.px p.y p.x > 0) (hqe : img.px q.y q.x > 0) :
    q ∈ getDirectNeighbors img p ↔ p ∈ getDirectNeighbors img q :=
  ⟨getDirectNeighbors_symm img p q hp hpe, getDirectNeighbors_symm img q p hq hqe⟩

/-- A run of `getDirectNeighbors_symmetric` on the plus-shaped image: the top
pixel `(1,0)` and the centre `(1,1)` are direct neighbours of each other. -/
theorem getDirectNeighbors_symmetric_witness :
    (⟨1, 0⟩ : Point) ∈ getDirectNeighbors plusImage ⟨1, 1⟩ ∧
    ((⟨1, 0⟩ : Point) ∈ getDirectNeighbors plusImage ⟨1, 1⟩ ↔
      (⟨1, 1⟩ : Point) ∈ getDirectNeighbors plusImage ⟨1, 0⟩) :=
  ⟨by decide, getDirectNeighbors_symmetric plusImage ⟨1, 1⟩ ⟨1, 0⟩ (by decide) (by decide)
    (by decide) (by decide)⟩

/-! ## Reading an end of an empty edge in `mergeEdges` -/

/-- C38: `mergeEdges` does read `back()` of an empty vector.  For non-empty
edges `A` (smaller id) and `B` the splice of the code is undefined exactly when
`B` is a single pixel equal to the first pixel of `A`: case I erases the only
point of `B` and then compares `firstEdge.back()` with `secondEdge.back()`.
The state `startTouchingState` is consistent, its two edges start at the same
cluster pixel `(1,0)`, and `connectEdgesInTwoEdgeClusters(false, false)` pushes
the one-pixel bridge `getLinePoints((1,0), (1,0)) = [(1,0)]` and merges it with
edge 0, which has no defined result. -/
theorem mergeEdges_reads_back_of_emptied_edge :
    (∀ A B : List Point, A ≠ [] → B ≠ [] →
      (spliceEdges A B = none ↔ (B.length = 1 ∧ A.head? = B.head?))) ∧
    TableIndexAgree startTouchingState ∧
    startTouchingState.edgeMap.getClusterEdgeIds 1 0 = some [0, 1] ∧
    findStartOrEndPointInCluster startTouchingState 1 0 0 = some (some ⟨1, 0⟩) ∧
    findStartOrEndPointInCluster startTouchingState 1 0 1 = some (some ⟨1, 0⟩) ∧
    getLinePoints ⟨1, 0⟩ ⟨1, 0⟩ = [⟨1, 0⟩] ∧
    mergeEdges { startTouchingState with
      edges := startTouchingState.edges.pushBack [⟨1, 0⟩] } 0 2 = none ∧
    connectEdgesInTwoEdgeClusters false false startTouchingState = none := by
  refine ⟨?_, agreeCheck_sound _ (by decide), by decide, by decide, by decide, by decide,
    by decide, by decide⟩
  intro A B hA hB
  constructor
  · intro h
    by_contra hdef
    rw [spliceEdges_eq_spliceSpec A B hA hB hdef] at h
    exact absurd h (by simp)
  · rintro ⟨h1, h2⟩
    match B, h1 with
    | [b], _ => exact spliceEdges_single_shared_front A b h2

/-! ## A merge without a common end pixel -/

/-- The loop of `mergeEdges` over the second edge returns on every well-formed
map that contains the pixels of the edge; no assumption on the id lists. -/
theorem reassignEdgeIds_returns (a b : Int) :
    ∀ (B : List Point) (m : EdgeMap), m.WF → (∀ p ∈ B, m.inBounds p) →
    ∃ m2, reassignEdgeIds m B a b = some m2 ∧
      m2.rows = m.rows ∧ m2.cols = m.cols ∧ m2.dataClusters = m.dataClusters ∧ m2.WF := by
  intro B
  induction B with
  | nil =>
    intro m hm _
    exact ⟨m, rfl, rfl, rfl, rfl, hm⟩
  | cons p B ih =>
    intro m hm hB
    have hp := hB p (List.mem_cons_self _ _)
    obtain ⟨m1, h1, r1, c1, d1, wf1, _⟩ := eraseEdgeId_spec m hm p hp b
    obtain ⟨m2, h2, r2, c2, d2, wf2, _⟩ :=
      pushBackEdgeId_spec m1 wf1 p ((inBounds_congr m m1 r1 c1 p).mpr hp) a
    obtain ⟨m3, h3, r3, c3, d3, wf3⟩ := ih m2 wf2
      (fun q hq => (inBounds_congr m1 m2 r2 c2 q).mpr
        ((inBounds_congr m m1 r1 c1 q).mpr (hB q (List.mem_cons_of_mem _ hq))))
    refine ⟨m3, ?_, r3.trans (r2.trans r1), c3.trans (c2.trans c1), d3.trans (d2.trans d1), wf3⟩
    unfold reassignEdgeIds at h3 ⊢
    rw [List.foldlM_cons]
    simp only [Option.bind_eq_bind, h1, Option.some_bind, h2]
    exact h3

/-- The body of `mergeEdges` on two non-empty edges outside the undefined
corner, without an assumption on the id lists. -/
theorem mergeOrdered_returns (s : EdgeProcessor) (a b : Int) (A B : List Point)
    (hA : s.edges.getEdge a = some A) (hB : s.edges.getEdge b = some B)
    (hAne : A ≠ []) (hBne : B ≠ []) (hdef : ¬ singlePointAtFront A B)
    (hm : s.edgeMap.WF) (hBin : ∀ p ∈ B, s.edgeMap.inBounds p) :
    ∃ m2, reassignEdgeIds s.edgeMap B a b = some m2 ∧
      mergeOrdered s a b = some
        { edgeIdCounter := s.edgeIdCounter
          edges := ⟨((s.edges.data.set a.toNat []).set b.toNat []).set a.toNat (spliceSpec A B)⟩
          edgeMap := m2 } := by
  obtain ⟨m2, hre, _⟩ := reassignEdgeIds_returns a b B s.edgeMap hm hBin
  refine ⟨m2, hre, ?_⟩
  obtain ⟨ha0, ha1⟩ := vecGet?_bounds _ _ _ hA
  obtain ⟨hb0, hb1⟩ := vecGet?_bounds _ _ _ hB
  unfold mergeOrdered
  simp only [hA, hB, Option.bind_eq_bind, Option.some_bind, Edges.clearEdge, Edges.overwrite]
  rw [vecSet?_eq_some_of_lt _ _ _ ha0 ha1]
  simp only [Option.map_some', Option.some_bind]
  rw [vecSet?_eq_some_of_lt _ _ _ hb0 (by simp only [List.length_set]; exact hb1)]
  simp only [Option.map_some', Option.some_bind, hre,
    spliceEdges_eq_spliceSpec A B hAne hBne hdef]
  rw [vecSet?_eq_some_of_lt _ _ _ ha0 (by simp only [List.length_set]; exact ha1)]
  rfl

/-- Without a common end pixel the tabulated splice is the first edge. -/
theorem spliceSpec_of_no_shared_end (A B : List Point) (h : ¬ sharesEndpoint A B) :
    spliceSpec A B = A := by
  unfold sharesEndpoint at h
  simp only [not_or] at h
  unfold spliceSpec
  rw [if_neg h.1, if_neg h.2.1, if_neg h.2.2.1, if_neg h.2.2.2]

/-- C33: for all ids `a < b` of non-empty edges `A` and `B` without a common
end pixel (neither `A.first` nor `A.last` equals `B.first` or `B.last`), on a
well-formed map that contains the pixels of `B`, `mergeEdges(a, b)` returns and
the edge stored at position `a` afterwards is exactly `A`; position `b` holds
the empty edge and every other position is unchanged. -/
theorem mergeEdges_without_shared_end_keeps_first (s : EdgeProcessor) (a b : Int)
    (A B : List Point) (hab : a < b)
    (hA : s.edges.getEdge a = some A) (hB : s.edges.getEdge b = some B)
    (hAne : A ≠ []) (hBne : B ≠ []) (hno : ¬ sharesEndpoint A B)
    (hm : s.edgeMap.WF) (hBin : ∀ p ∈ B, s.edgeMap.inBounds p) :
    ∃ s2, mergeEdges s a b = some s2 ∧ s2.edges.getEdge a = some A ∧
      s2.edges.getEdge b = some [] ∧
      ∀ i, i ≠ a → i ≠ b → s2.edges.getEdge i = s.edges.getEdge i := by
  have hdef : ¬ singlePointAtFront A B := by
    unfold singlePointAtFront
    unfold sharesEndpoint at hno
    intro h
    exact hno (Or.inl h.2)
  obtain ⟨m2, _, hmerge⟩ := mergeOrdered_returns s a b A B hA hB hAne hBne hdef hm hBin
  have hget := getEdge_after_merge s.edges a b A B (spliceSpec A B) hA hB
  rw [spliceSpec_of_no_shared_end A B hno] at hget hmerge
  refine ⟨_, (mergeEdges_of_lt s a b hab).trans hmerge, ?_, ?_, ?_⟩
  · rw [hget, if_pos rfl]
  · rw [hget, if_neg (by omega), if_pos rfl]
  · intro i h1 h2
    rw [hget, if_neg h1, if_neg h2]

/-- A run of `mergeEdges_without_shared_end_keeps_first` on
`disjointPairState`, whose edges `[(0,0)]` and `[(1,0)]` share no end pixel. -/
theorem mergeEdges_without_shared_end_keeps_first_witness :
    ¬ sharesEndpoint [(⟨0, 0⟩ : Point)] [⟨1, 0⟩] ∧
    ∃ s2, mergeEdges disjointPairState 0 1 = some s2 ∧
      s2.edges.getEdge 0 = some [⟨0, 0⟩] ∧ s2.edges.getEdge 1 = some [] ∧
      ∀ i, i ≠ 0 → i ≠ 1 → s2.edges.getEdge i = disjointPairState.edges.getEdge i :=
  ⟨by decide, mergeEdges_without_shared_end_keeps_first disjointPairState 0 1 [⟨0, 0⟩] [⟨1, 0⟩]
    (by decide) (by decide) (by decide) (by decide) (by decide) (by decide) (by decide)
    (by decide)⟩

/-! ## The id used for the rotation in `connectEdgesInTwoEdgeClusters` -/

/-- Whatever the map, a result of `getClusterEdgeIds` is strictly increasing. -/
theorem getClusterEdgeIds_sorted (m : EdgeMap) (x y : Int) (ids : List Int)
    (h : m.getClusterEdgeIds x y = some ids) : ids.Sorted (fun a b => a < b) := by
  have loop : ∀ (points : List Point) (s ids : List Int),
      s.Sorted (fun a b => a ≤ b) ∧ s.Nodup →
      points.foldlM
        (fun (edgeIdsInCluster : List Int) point => do
          let ids ← vecGet? m.dataEdgeIds (m.pos point.x point.y)
          pure (ids.foldl EdgeMap.setInsert edgeIdsInCluster)) s = some ids →
      ids.Sorted (fun a b => a ≤ b) ∧ ids.Nodup := by
    intro points
    induction points with
    | nil =>
      intro s ids hs hrun
      obtain rfl := Option.some.inj hrun
      exact hs
    | cons r rest ih =>
      intro s ids hs hrun
      rw [List.foldlM_cons] at hrun
      cases hget : vecGet? m.dataEdgeIds (m.pos r.x r.y) with
      | none => simp [hget] at hrun
      | some L =>
        simp only [hget, Option.bind_eq_bind, Option.some_bind, Option.pure_def] at hrun
        exact ih _ ids (foldl_setInsert_spec L s hs).1 hrun
  unfold EdgeMap.getClusterEdgeIds at h
  cases hpts : vecGet? m.dataClusters (m.pos x y) with
  | none => simp [hpts] at h
  | some points =>
    simp only [hpts, Option.bind_eq_bind, Option.some_bind] at h
    obtain ⟨h1, h2⟩ := loop points [] ids ⟨List.sorted_nil, List.nodup_nil⟩ h
    exact h1.lt_of_le h2

/-- The body of `connectEdgesInTwoEdgeClusters` with the smaller id for the
rotation is the body of the source. -/
theorem connectAtSmallerId_eq (o d : Bool) (s : EdgeProcessor) (p : Point) :
    connectAtSmallerId o d s p = connectAt o d s p := by
  unfold connectAtSmallerId connectAt
  cases hids : s.edgeMap.getClusterEdgeIds p.x p.y with
  | none => rfl
  | some ids =>
    have hsorted := getClusterEdgeIds_sorted s.edgeMap p.x p.y ids hids
    simp only [Option.bind_eq_bind, Option.some_bind]
    match ids, hsorted with
    | [], _ => rfl
    | [_], _ => rfl
    | [id0, id1], hs =>
      have hlt : id0 < id1 := by
        have := List.rel_of_sorted_cons hs id1 (List.mem_singleton.mpr rfl)
        exact this
      have hmin : min id0 id1 = id0 := min_eq_left hlt.le
      simp only [hmin]
    | _ :: _ :: _ :: _, _ => rfl

/-- C36: whenever `getClusterEdgeIds` returns exactly two ids, the first is
smaller than the second, so `std::min(ids[0], ids[0])`, which is `ids[0]`,
equals `std::min(ids[0], ids[1])`, the smaller of the two ids, at which
`mergeEdges` stores the merged edge.  Therefore the body of
`connectEdgesInTwoEdgeClusters` and the whole operation agree, on every state
and for all flags, with the variant that uses the smaller id for the
rotation. -/
theorem connectEdgesInTwoEdgeClusters_rotates_smaller_id :
    (∀ (m : EdgeMap) (x y id0 id1 : Int), m.getClusterEdgeIds x y = some [id0, id1] →
      id0 < id1 ∧ min id0 id0 = min id0 id1) ∧
    (∀ (o d : Bool) (s : EdgeProcessor) (p : Point),
      connectAt o d s p = connectAtSmallerId o d s p) ∧
    (∀ (o d : Bool) (s : EdgeProcessor),
      connectEdgesInTwoEdgeClusters o d s = connectEdgesInTwoEdgeClustersSmallerId o d s) := by
  refine ⟨?_, fun o d s p => (connectAtSmallerId_eq o d s p).symm, ?_⟩
  · intro m x y id0 id1 h
    have hs := getClusterEdgeIds_sorted m x y _ h
    have hlt : id0 < id1 := List.rel_of_sorted_cons hs id1 (List.mem_singleton.mpr rfl)
    exact ⟨hlt, by rw [min_self, min_eq_left hlt.le]⟩
  · intro o d s
    unfold connectEdgesInTwoEdgeClusters connectEdgesInTwoEdgeClustersSmallerId
    have : connectAt o d = connectAtSmallerId o d := by
      funext s p
      exact (connectAtSmallerId_eq o d s p).symm
    rw [this]

/-! ## `removeZeroAndOneEdgeClusters` -/

/-- A replicated cluster index is one whose pixels pass the check of
`EdgeMap.Replicated`. -/
theorem replicated_of_allPixels (m : EdgeMap)
    (h : ∀ p ∈ m.allPixels, m.clusterAt p ≠ [] →
      p ∈ m.clusterAt p ∧
        ∀ q ∈ m.clusterAt p, m.inBounds q ∧ m.clusterAt q = m.clusterAt p) :
    m.Replicated :=
  fun p hp => h p (mem_allPixels m p hp)

/-- The result of `getClusterEdgeIds` depends on the cluster list at the pixel
and on the edge-id index only. -/
theorem getClusterEdgeIds_congr (m m2 : EdgeMap) (hc : m2.cols = m.cols)
    (hd : m2.dataEdgeIds = m.dataEdgeIds) (x y x2 y2 : Int)
    (hcl : m2.getClusterPoints x2 y2 = m.getClusterPoints x y) :
    m2.getClusterEdgeIds x2 y2 = m.getClusterEdgeIds x y := by
  unfold EdgeMap.getClusterPoints at hcl
  unfold EdgeMap.getClusterEdgeIds
  rw [hcl]
  simp only [EdgeMap.pos, hc, hd]

/-- The pixels of one cluster of a replicated index have the same cluster edge
ids. -/
theorem getClusterEdgeIds_of_mem (m : EdgeMap) (hm : m.WF) (hrep : m.Replicated)
    (p q : Point) (hp : m.inBounds p) (hq : q ∈ m.clusterAt p) :
    m.getClusterEdgeIds q.x q.y = m.getClusterEdgeIds p.x p.y := by
  have hne : m.clusterAt p ≠ [] := List.ne_nil_of_mem hq
  obtain ⟨hqb, hqc⟩ := (hrep p hp hne).2 q hq
  apply getClusterEdgeIds_congr m m rfl rfl
  rw [getClusterPoints_of_inBounds m hm q hqb, getClusterPoints_of_inBounds m hm p hp, hqc]

/-- The invariant holds at the call. -/
theorem pruneInv_start (s : EdgeProcessor) (hwf : s.edgeMap.WF) : PruneInv s s [] where
  edges := rfl
  counter := rfl
  ids := rfl
  rows := rfl
  cols := rfl
  wf := hwf
  sub := fun _ _ => Or.inl rfl
  whole := fun _ _ _ _ _ => rfl
  cleared := fun _ _ h hne => absurd h hne
  seen := fun _ h => absurd h (List.not_mem_nil _)

/-- One iteration of the raster loops of `removeZeroAndOneEdgeClusters`. -/
theorem removeClusterAt_step (s s1 : EdgeProcessor) (hwf : s.edgeMap.WF)
    (hrep : s.edgeMap.Replicated) (done : List Point) (hinv : PruneInv s s1 done)
    (p : Point) (hp : s.edgeMap.inBounds p) :
    ∃ s2, removeClusterAt s1 p = some s2 ∧ PruneInv s s2 (p :: done) := by
  have hp1 : s1.edgeMap.inBounds p := (inBounds_congr _ _ hinv.rows hinv.cols p).mpr hp
  have hcl := isCluster_of_inBounds s1.edgeMap hinv.wf p hp1
  by_cases hne : s1.edgeMap.clusterAt p = []
  · refine ⟨s1, ?_, { hinv with seen := ?_ }⟩
    · unfold removeClusterAt
      simp [hcl, hne]
    · intro q hq hqb hq1
      rcases List.mem_cons.mp hq with rfl | hq
      · exact absurd hne hq1
      · exact hinv.seen q hq hqb hq1
  · have hsame : s1.edgeMap.clusterAt p = s.edgeMap.clusterAt p := by
      rcases hinv.sub p hp with h | h
      · exact h
      · exact absurd h hne
    have hne0 : s.edgeMap.clusterAt p ≠ [] := by rw [← hsame]; exact hne
    obtain ⟨hself, hall⟩ := hrep p hp hne0
    obtain ⟨ids, hids, _, _⟩ := getClusterEdgeIds_of_cluster s.edgeMap hwf p hp
      (fun r hr => (hall r hr).1)
    have hids1 : s1.edgeMap.getClusterEdgeIds p.x p.y = some ids := by
      rw [← hids]
      apply getClusterEdgeIds_congr s.edgeMap s1.edgeMap hinv.cols hinv.ids
      rw [getClusterPoints_of_inBounds _ hinv.wf p hp1,
        getClusterPoints_of_inBounds _ hwf p hp, hsame]
    have hpos : (s1.edgeMap.clusterAt p).length ≥ 1 :=
      List.length_pos.mpr hne
    by_cases hlen : ids.length ≤ 1
    · obtain ⟨m2, hclear, hr2, hc2, hd2, hwf2, hat⟩ :=
        clearCluster_spec s1.edgeMap hinv.wf p hp1 (fun r hr =>
          (inBounds_congr _ _ hinv.rows hinv.cols r).mpr (hall r (hsame ▸ hr)).1)
      have hat2 : ∀ r, s.edgeMap.inBounds r →
          m2.clusterAt r =
            if r ∈ s.edgeMap.clusterAt p then [] else s1.edgeMap.clusterAt r := by
        intro r hr
        rw [hat r ((inBounds_congr _ _ hinv.rows hinv.cols r).mpr hr), hsame]
      refine ⟨{ s1 with edgeMap := m2 }, ?_, ?_⟩
      · unfold removeClusterAt
        simp [hcl, hpos, hids1, hlen, hclear]
      · refine ⟨hinv.edges, hinv.counter, hd2.trans hinv.ids, hr2.trans hinv.rows,
          hc2.trans hinv.cols, hwf2, ?_, ?_, ?_, ?_⟩
        · intro q hq
          show m2.clusterAt q = _ ∨ m2.clusterAt q = _
          rw [hat2 q hq]
          by_cases hqc : q ∈ s.edgeMap.clusterAt p
          · exact Or.inr (if_pos hqc)
          · rw [if_neg hqc]; exact hinv.sub q hq
        · intro q hq hq2 r hr
          change m2.clusterAt q ≠ [] at hq2
          show m2.clusterAt r = _
          rw [hat2 q hq] at hq2
          have hqc : q ∉ s.edgeMap.clusterAt p := by
            intro hqc; rw [if_pos hqc] at hq2; exact hq2 rfl
          rw [if_neg hqc] at hq2
          have hqne : s.edgeMap.clusterAt q ≠ [] := List.ne_nil_of_mem hr
          obtain ⟨hqself, hqall⟩ := hrep q hq hqne
          have hrc : r ∉ s.edgeMap.clusterAt p := by
            intro hrc
            have h1 := (hall r hrc).2
            have h2 := (hqall r hr).2
            rw [h1] at h2
            rw [h2] at hqc
            exact hqc hqself
          rw [hat2 r (hqall r hr).1, if_neg hrc]
          exact hinv.whole q hq hq2 r hr
        · intro q hq hq2 hq0 ids2 hids2
          change m2.clusterAt q = [] at hq2
          by_cases hqc : q ∈ s.edgeMap.clusterAt p
          · rw [getClusterEdgeIds_of_mem s.edgeMap hwf hrep p q hp hqc, hids] at hids2
            obtain rfl := Option.some.inj hids2
            exact hlen
          · rw [hat2 q hq, if_neg hqc] at hq2
            exact hinv.cleared q hq hq2 hq0 ids2 hids2
        · intro q hq hqb hq2
          change m2.clusterAt q ≠ [] at hq2
          rw [hat2 q hqb] at hq2
          rcases List.mem_cons.mp hq with rfl | hq
          · rw [if_pos hself] at hq2
            exact absurd rfl hq2
          · have hqc : q ∉ s.edgeMap.clusterAt p := by
              intro hqc; rw [if_pos hqc] at hq2; exact hq2 rfl
            rw [if_neg hqc] at hq2
            exact hinv.seen q hq hqb hq2
    · refine ⟨s1, ?_, { hinv with seen := ?_ }⟩
      · unfold removeClusterAt
        simp [hcl, hpos, hids1, hlen]
      · intro q hq hqb hq1
        rcases List.mem_cons.mp hq with rfl | hq
        · intro ids2 hids2
          rw [hids] at hids2
          obtain rfl := Option.some.inj hids2
          omega
        · exact hinv.seen q hq hqb hq1

/-- The raster loops of `removeZeroAndOneEdgeClusters` over a list of pixels of
the grid. -/
theorem removeFold_spec (s : EdgeProcessor) (hwf : s.edgeMap.WF)
    (hrep : s.edgeMap.Replicated) :
    ∀ (l done : List Point) (s1 : EdgeProcessor), PruneInv s s1 done →
      (∀ p ∈ l, s.edgeMap.inBounds p) →
      ∃ s2, l.foldlM removeClusterAt s1 = some s2 ∧ PruneInv s s2 (l.reverse ++ done) := by
  intro l
  induction l with
  | nil =>
    intro done s1 hinv _
    exact ⟨s1, rfl, hinv⟩
  | cons p rest ih =>
    intro done s1 hinv hin
    obtain ⟨s2, h2, hinv2⟩ := removeClusterAt_step s s1 hwf hrep done hinv p
      (hin p (List.mem_cons_self _ _))
    obtain ⟨s3, h3, hinv3⟩ := ih (p :: done) s2 hinv2
      (fun q hq => hin q (List.mem_cons_of_mem _ hq))
    refine ⟨s3, ?_, ?_⟩
    · rw [List.foldlM_cons, h2]
      exact h3
    · rw [List.reverse_cons, List.append_assoc]
      exact hinv3

/-- C31: on a state with a replicated cluster index
`removeZeroAndOneEdgeClusters` returns; the edge table, the id counter and the
edge-id index are unchanged; at every pixel of the grid `getClusterEdgeIds`
returned a list before the call, and the cluster list after the call is the
list from before when that list of ids had at least two members and is empty
otherwise; and every pixel that is still in a cluster has at least two cluster
edge ids in the result. -/
theorem removeZeroAndOneEdgeClusters_keeps_two_edge_clusters (s : EdgeProcessor)
    (hwf : s.edgeMap.WF) (hrep : s.edgeMap.Replicated) :
    ∃ s2, removeZeroAndOneEdgeClusters s = some s2 ∧
      s2.edges = s.edges ∧ s2.edgeIdCounter = s.edgeIdCounter ∧
      s2.edgeMap.dataEdgeIds = s.edgeMap.dataEdgeIds ∧
      s2.edgeMap.rows = s.edgeMap.rows ∧ s2.edgeMap.cols = s.edgeMap.cols ∧
      (∀ p, s.edgeMap.inBounds p →
        ∃ ids, s.edgeMap.getClusterEdgeIds p.x p.y = some ids ∧
          s2.edgeMap.clusterAt p =
            if 2 ≤ ids.length then s.edgeMap.clusterAt p else []) ∧
      (∀ p, s.edgeMap.inBounds p → s2.edgeMap.clusterAt p ≠ [] →
        ∃ ids, s2.edgeMap.getClusterEdgeIds p.x p.y = some ids ∧ 2 ≤ ids.length) := by
  obtain ⟨s2, h2, hinv⟩ := removeFold_spec s hwf hrep s.edgeMap.allPixels [] s
    (pruneInv_start s hwf) (fun p hp => inBounds_of_mem_allPixels _ p hp)
  have hin : ∀ p, s.edgeMap.inBounds p → ∀ r ∈ s.edgeMap.clusterAt p, s.edgeMap.inBounds r :=
    fun p hp r hr => ((hrep p hp (List.ne_nil_of_mem hr)).2 r hr).1
  have hseen : ∀ p, s.edgeMap.inBounds p → s2.edgeMap.clusterAt p ≠ [] →
      ∀ ids, s.edgeMap.getClusterEdgeIds p.x p.y = some ids → 2 ≤ ids.length :=
    fun p hp => hinv.seen p
      (List.mem_append_left _ (List.mem_reverse.mpr (mem_allPixels _ p hp))) hp
  have hkeep : ∀ p, s.edgeMap.inBounds p → s2.edgeMap.clusterAt p ≠ [] →
      s2.edgeMap.clusterAt p = s.edgeMap.clusterAt p := by
    intro p hp hne
    rcases hinv.sub p hp with h | h
    · exact h
    · exact absurd h hne
  refine ⟨s2, h2, hinv.edges, hinv.counter, hinv.ids, hinv.rows, hinv.cols, ?_, ?_⟩
  · intro p hp
    obtain ⟨ids, hids, _, _⟩ := getClusterEdgeIds_of_cluster s.edgeMap hwf p hp (hin p hp)
    refine ⟨ids, hids, ?_⟩
    by_cases hlen : 2 ≤ ids.length
    · rw [if_pos hlen]
      by_cases hne : s2.edgeMap.clusterAt p = []
      · by_cases hne0 : s.edgeMap.clusterAt p = []
        · rw [hne, hne0]
        · have := hinv.cleared p hp hne hne0 ids hids
          omega
      · exact hkeep p hp hne
    · rw [if_neg hlen]
      by_contra hne
      exact hlen (hseen p hp hne ids hids)
  · intro p hp hne
    obtain ⟨ids, hids, _, _⟩ := getClusterEdgeIds_of_cluster s.edgeMap hwf p hp (hin p hp)
    refine ⟨ids, ?_, hseen p hp hne ids hids⟩
    rw [← hids]
    apply getClusterEdgeIds_congr s.edgeMap s2.edgeMap hinv.cols hinv.ids
    rw [getClusterPoints_of_inBounds _ hinv.wf p
        ((inBounds_congr _ _ hinv.rows hinv.cols p).mpr hp),
      getClusterPoints_of_inBounds _ hwf p hp, hkeep p hp hne]

/-- A run of `removeZeroAndOneEdgeClusters_keeps_two_edge_clusters` on
`pruneState`: the cluster at `(0,0)` with one edge id is removed, the cluster
at `(2,0)` with two edge ids is kept. -/
theorem removeZeroAndOneEdgeClusters_keeps_two_edge_clusters_witness :
    removeZeroAndOneEdgeClusters pruneState =
      some { pruneState with
        edgeMap := { pruneState.edgeMap with dataClusters := [[], [], [⟨2, 0⟩], []] } } ∧
    ∃ s2, removeZeroAndOneEdgeClusters pruneState = some s2 ∧
      s2.edges = pruneState.edges ∧ s2.edgeIdCounter = pruneState.edgeIdCounter ∧
      s2.edgeMap.dataEdgeIds = pruneState.edgeMap.dataEdgeIds ∧
      s2.edgeMap.rows = pruneState.edgeMap.rows ∧
      s2.edgeMap.cols = pruneState.edgeMap.cols ∧
      (∀ p, pruneState.edgeMap.inBounds p →
        ∃ ids, pruneState.edgeMap.getClusterEdgeIds p.x p.y = some ids ∧
          s2.edgeMap.clusterAt p =
            if 2 ≤ ids.length then pruneState.edgeMap.clusterAt p else []) ∧
      (∀ p, pruneState.edgeMap.inBounds p → s2.edgeMap.clusterAt p ≠ [] →
        ∃ ids, s2.edgeMap.getClusterEdgeIds p.x p.y = some ids ∧ 2 ≤ ids.length) :=
  ⟨by decide,
    removeZeroAndOneEdgeClusters_keeps_two_edge_clusters pruneState (by decide)
      (replicated_of_allPixels _ (by decide))⟩

/-! ## `getLSMError` -/

/-- An `int` product of two values of absolute value at most 46340 does not
overflow. -/
theorem mulInt_of_small (x y : Int) (hx : |x| ≤ 46340) (hy : |y| ≤ 46340) :
    mulInt x y = some (x * y) := by
  have h : |x * y| ≤ 46340 * 46340 := by
    rw [abs_mul]
    exact mul_le_mul hx hy (abs_nonneg _) (by norm_num)
  obtain ⟨h1, h2⟩ := abs_le.mp h
  unfold mulInt
  rw [if_pos ⟨by omega, by omega⟩]

/-- The first loop of `getLSMError` from arbitrary start values. -/
theorem lsmSums_loop : ∀ (points : List Point) (acc : ℚ × ℚ × ℚ × ℚ),
    (∀ p ∈ points, |p.x| ≤ 46340 ∧ |p.y| ≤ 46340) →
    points.foldlM lsmStep acc =
      some (acc.1 + (points.map fun p => (p.x : ℚ)).sum,
        acc.2.1 + (points.map fun p => (p.y : ℚ)).sum,
        acc.2.2.1 + (points.map fun p => (p.x : ℚ) * (p.x : ℚ)).sum,
        acc.2.2.2 + (points.map fun p => (p.x : ℚ) * (p.y : ℚ)).sum) := by
  intro points
  induction points with
  | nil => intro acc _; simp
  | cons p rest ih =>
    intro acc h
    obtain ⟨hx, hy⟩ := h p (List.mem_cons_self _ _)
    have hstep : lsmStep acc p = some (acc.1 + (p.x : ℚ), acc.2.1 + (p.y : ℚ),
        acc.2.2.1 + ((p.x * p.x : Int) : ℚ), acc.2.2.2 + ((p.x * p.y : Int) : ℚ)) := by
      unfold lsmStep
      rw [mulInt_of_small _ _ hx hx, mulInt_of_small _ _ hx hy]
      rfl
    rw [List.foldlM_cons, hstep]
    simp only [Option.bind_eq_bind, Option.some_bind]
    rw [ih _ (fun q hq => h q (List.mem_cons_of_mem _ hq))]
    simp only [List.map_cons, List.sum_cons, Int.cast_mul]
    congr 2
    · ring
    · congr 1
      · ring
      · congr 1 <;> ring

/-- The second loop of `getLSMError` from an arbitrary start value. -/
theorem residual_loop (a b : ℚ) : ∀ (points : List Point) (acc : ℚ),
    points.foldl
      (fun (acc : ℚ) point =>
        acc + (a * (point.x : ℚ) + b - (point.y : ℚ)) *
          (a * (point.x : ℚ) + b - (point.y : ℚ))) acc =
      acc + residualSum points a b := by
  intro points
  induction points with
  | nil => intro acc; simp [residualSum]
  | cons p rest ih =>
    intro acc
    rw [List.foldl_cons, ih]
    unfold residualSum
    simp only [List.map_cons, List.sum_cons]
    ring

/-- The sum of squared residuals in terms of the five sums. -/
theorem residualSum_expand (a b : ℚ) : ∀ points : List Point,
    residualSum points a b =
      a ^ 2 * (points.map fun p => (p.x : ℚ) * (p.x : ℚ)).sum +
        2 * a * b * (points.map fun p => (p.x : ℚ)).sum + (points.length : ℚ) * b ^ 2 -
        2 * a * (points.map fun p => (p.x : ℚ) * (p.y : ℚ)).sum -
        2 * b * (points.map fun p => (p.y : ℚ)).sum +
        (points.map fun p => (p.y : ℚ) * (p.y : ℚ)).sum := by
  intro points
  induction points with
  | nil => simp [residualSum]
  | cons p rest ih =>
    unfold residualSum at ih ⊢
    simp only [List.map_cons, List.sum_cons, List.length_cons, Nat.cast_add, Nat.cast_one]
    rw [ih]
    ring

/-- Adding one integer to a list adds the squared distances to it to the
spread. -/
theorem spread_cons (z : Int) (xs : List Int) :
    spread (z :: xs) = spread xs + (xs.map fun x => (x - z) * (x - z)).sum := by
  have h : ∀ l : List Int, (l.map fun x => (x - z) * (x - z)).sum =
      (l.map fun x => x * x).sum - 2 * z * l.sum + (l.length : Int) * (z * z) := by
    intro l
    induction l with
    | nil => simp
    | cons x rest ih =>
      simp only [List.map_cons, List.sum_cons, List.length_cons, Nat.cast_add, Nat.cast_one]
      rw [ih]
      ring
  rw [h]
  unfold spread
  simp only [List.map_cons, List.sum_cons, List.length_cons, Nat.cast_add, Nat.cast_one]
  ring

/-- A sum of squares of integers is not negative. -/
theorem sum_sq_nonneg (z : Int) (xs : List Int) :
    0 ≤ (xs.map fun x => (x - z) * (x - z)).sum := by
  apply List.sum_nonneg
  intro y hy
  obtain ⟨x, _, rfl⟩ := List.mem_map.mp hy
  exact mul_self_nonneg _

/-- The spread is not negative. -/
theorem spread_nonneg : ∀ xs : List Int, 0 ≤ spread xs := by
  intro xs
  induction xs with
  | nil => simp [spread]
  | cons z rest ih =>
    rw [spread_cons]
    exact add_nonneg ih (sum_sq_nonneg z rest)

/-- The spread of a constant list is zero. -/
theorem spread_of_const : ∀ xs : List Int, (∀ x ∈ xs, ∀ y ∈ xs, x = y) → spread xs = 0 := by
  intro xs
  induction xs with
  | nil => intro _; simp [spread]
  | cons z rest ih =>
    intro h
    rw [spread_cons, ih (fun x hx y hy =>
      h x (List.mem_cons_of_mem _ hx) y (List.mem_cons_of_mem _ hy)), zero_add]
    apply List.sum_eq_zero
    intro y hy
    obtain ⟨x, hx, rfl⟩ := List.mem_map.mp hy
    rw [h x (List.mem_cons_of_mem _ hx) z (List.mem_cons_self _ _)]
    ring

/-- The squared distances to an integer that is not in the list sum up to at
least the length of the list. -/
theorem length_le_sum_sq (z : Int) : ∀ xs : List Int, (∀ x ∈ xs, x ≠ z) →
    (xs.length : Int) ≤ (xs.map fun x => (x - z) * (x - z)).sum := by
  intro xs
  induction xs with
  | nil => intro _; simp
  | cons x rest ih =>
    intro h
    have h1 := ih (fun y hy => h y (List.mem_cons_of_mem _ hy))
    have h2 : x ≠ z := h x (List.mem_cons_self _ _)
    have h3 : 1 ≤ (x - z) * (x - z) := by
      have : x - z ≠ 0 := sub_ne_zero.mpr h2
      rcases lt_or_gt_of_ne this with h | h
      · nlinarith
      · nlinarith
    simp only [List.map_cons, List.sum_cons, List.length_cons, Nat.cast_add, Nat.cast_one]
    omega

/-- The squared distances to an integer sum up to at least one when the list
has a member different from it. -/
theorem one_le_sum_sq (z : Int) : ∀ xs : List Int, (∃ x ∈ xs, x ≠ z) →
    1 ≤ (xs.map fun x => (x - z) * (x - z)).sum := by
  intro xs
  induction xs with
  | nil => rintro ⟨x, hx, _⟩; exact absurd hx (List.not_mem_nil _)
  | cons x rest ih =>
    rintro ⟨y, hy, hyz⟩
    simp only [List.map_cons, List.sum_cons]
    have h0 := sum_sq_nonneg z rest
    have hsq : 0 ≤ (x - z) * (x - z) := mul_self_nonneg _
    rcases List.mem_cons.mp hy with rfl | hy
    · have h3 : 1 ≤ (y - z) * (y - z) := by
        have : y - z ≠ 0 := sub_ne_zero.mpr hyz
        rcases lt_or_gt_of_ne this with h | h
        · nlinarith
        · nlinarith
      omega
    · have := ih ⟨y, hy, hyz⟩
      omega

/-- The spread of a list of `n` integers that are not all equal is at least
`n - 1`. -/
theorem spread_ge : ∀ xs : List Int, (¬ ∀ x ∈ xs, ∀ y ∈ xs, x = y) →
    (xs.length : Int) - 1 ≤ spread xs := by
  intro xs
  induction xs with
  | nil => intro h; exact absurd (fun x hx => absurd hx (List.not_mem_nil _)) h
  | cons z rest ih =>
    intro h
    rw [spread_cons]
    simp only [List.length_cons, Nat.cast_add, Nat.cast_one]
    by_cases hrest : ∀ x ∈ rest, ∀ y ∈ rest, x = y
    · have hz : ∀ x ∈ rest, x ≠ z := by
        intro x hx hxz
        apply h
        intro u hu v hv
        have hu2 : u = z := by
          rcases List.mem_cons.mp hu with rfl | hu
          · rfl
          · rw [hrest u hu x hx, hxz]
        have hv2 : v = z := by
          rcases List.mem_cons.mp hv with rfl | hv
          · rfl
          · rw [hrest v hv x hx, hxz]
        rw [hu2, hv2]
      have h1 := length_le_sum_sq z rest hz
      have h2 := spread_nonneg rest
      omega
    · have h1 := ih hrest
      have hex : ∃ x ∈ rest, x ≠ z := by
        by_contra hno
        push_neg at hno
        apply hrest
        intro x hx y hy
        rw [hno x hx, hno y hy]
      have h2 := one_le_sum_sq z rest hex
      omega

/-- A list of integers that are not all equal has at least two members. -/
theorem two_le_length_of_not_const (xs : List Int) (h : ¬ ∀ x ∈ xs, ∀ y ∈ xs, x = y) :
    2 ≤ xs.length := by
  match xs, h with
  | [], h => exact absurd (fun x hx => absurd hx (List.not_mem_nil _)) h
  | [a], h =>
    exfalso
    apply h
    intro x hx y hy
    rw [List.mem_singleton.mp hx, List.mem_singleton.mp hy]
  | _ :: _ :: _, _ => simp

/-- The spread of the `x` coordinates in terms of the sums of the first loop. -/
theorem spread_cast (points : List Point) :
    ((spread (points.map fun p => p.x) : Int) : ℚ) =
      (points.length : ℚ) * (points.map fun p => (p.x : ℚ) * (p.x : ℚ)).sum -
        (points.map fun p => (p.x : ℚ)).sum * (points.map fun p => (p.x : ℚ)).sum := by
  unfold spread
  have h1 : ∀ l : List Point, (((l.map fun p => p.x).sum : Int) : ℚ) =
      (l.map fun p => (p.x : ℚ)).sum := by
    intro l
    induction l with
    | nil => simp
    | cons p rest ih => simp only [List.map_cons, List.sum_cons, Int.cast_add, ih]
  have h2 : ∀ l : List Point,
      ((((l.map fun p => p.x).map fun x => x * x).sum : Int) : ℚ) =
        (l.map fun p => (p.x : ℚ) * (p.x : ℚ)).sum := by
    intro l
    induction l with
    | nil => simp
    | cons p rest ih =>
      simp only [List.map_cons, List.sum_cons, Int.cast_add, Int.cast_mul, ih]
  rw [Int.cast_sub, Int.cast_mul, Int.cast_mul, h1, h2, Int.cast_natCast, List.length_map]

/-- The value of `getLSMError` on a non-empty vector in terms of the sums of
the first loop. -/
theorem getLSMError_eq (front : Point) (tail : List Point) (a b sx sy sxx sxy : ℚ)
    (h : lsmSums (front :: tail) = some (sx, sy, sxx, sxy)) :
    getLSMError (front :: tail) a b =
      some (if abs (sxx / ((front :: tail).length : ℚ) -
            sx / ((front :: tail).length : ℚ) * (sx / ((front :: tail).length : ℚ))) <
            1 / 1000000000 then
          { error := none, a := a, b := b }
        else
          { error := some (residualSum (front :: tail)
              ((sxy / ((front :: tail).length : ℚ) -
                  sx / ((front :: tail).length : ℚ) * (sy / ((front :: tail).length : ℚ))) /
                (sxx / ((front :: tail).length : ℚ) -
                  sx / ((front :: tail).length : ℚ) * (sx / ((front :: tail).length : ℚ))))
              ((front.y : ℚ) -
                (sxy / ((front :: tail).length : ℚ) -
                    sx / ((front :: tail).length : ℚ) * (sy / ((front :: tail).length : ℚ))) /
                  (sxx / ((front :: tail).length : ℚ) -
                    sx / ((front :: tail).length : ℚ) * (sx / ((front :: tail).length : ℚ))) *
                  (front.x : ℚ)))
            a := (sxy / ((front :: tail).length : ℚ) -
                  sx / ((front :: tail).length : ℚ) * (sy / ((front :: tail).length : ℚ))) /
                (sxx / ((front :: tail).length : ℚ) -
                  sx / ((front :: tail).length : ℚ) * (sx / ((front :: tail).length : ℚ)))
            b := (front.y : ℚ) -
                (sxy / ((front :: tail).length : ℚ) -
                    sx / ((front :: tail).length : ℚ) * (sy / ((front :: tail).length : ℚ))) /
                  (sxx / ((front :: tail).length : ℚ) -
                    sx / ((front :: tail).length : ℚ) * (sx / ((front :: tail).length : ℚ))) *
                  (front.x : ℚ) }) := by
  unfold getLSMError
  simp only [h, Option.bind_eq_bind, Option.some_bind, Option.pure_def]
  split_ifs
  · rfl
  · rw [residual_loop, zero_add]

/-- The line with the least-squares slope and the intercept
`my - A * mx` has the least sum of squared residuals (in terms of the means). -/
theorem lsm_min (n mx my mxx mxy syy A a2 b2 : ℚ) (hn : 0 < n) (hvar : 0 ≤ mxx - mx * mx)
    (hA : A * (mxx - mx * mx) = mxy - mx * my) :
    A ^ 2 * (n * mxx) + 2 * A * (my - A * mx) * (n * mx) + n * (my - A * mx) ^ 2 -
        2 * A * (n * mxy) - 2 * (my - A * mx) * (n * my) + syy ≤
      a2 ^ 2 * (n * mxx) + 2 * a2 * b2 * (n * mx) + n * b2 ^ 2 - 2 * a2 * (n * mxy) -
        2 * b2 * (n * my) + syy := by
  have key : (a2 ^ 2 * (n * mxx) + 2 * a2 * b2 * (n * mx) + n * b2 ^ 2 - 2 * a2 * (n * mxy) -
        2 * b2 * (n * my) + syy) -
      (A ^ 2 * (n * mxx) + 2 * A * (my - A * mx) * (n * mx) + n * (my - A * mx) ^ 2 -
        2 * A * (n * mxy) - 2 * (my - A * mx) * (n * my) + syy) =
      n * (((b2 - (my - A * mx)) + mx * (a2 - A)) ^ 2 + (mxx - mx * mx) * (a2 - A) ^ 2) := by
    linear_combination (2 * n * (a2 - A)) * hA
  have hnn : 0 ≤ n * (((b2 - (my - A * mx)) + mx * (a2 - A)) ^ 2 +
      (mxx - mx * mx) * (a2 - A) ^ 2) :=
    mul_nonneg hn.le (add_nonneg (sq_nonneg _) (mul_nonneg hvar (sq_nonneg _)))
  linarith

/-- The sum of squared residuals of a line with the intercept `B` exceeds that
of the line with the same slope and the intercept `my - A * mx` by
`n * (B - (my - A * mx))²` (in terms of the means). -/
theorem lsm_excess (n mx my mxx mxy syy A B : ℚ) :
    A ^ 2 * (n * mxx) + 2 * A * B * (n * mx) + n * B ^ 2 - 2 * A * (n * mxy) -
        2 * B * (n * my) + syy =
      (A ^ 2 * (n * mxx) + 2 * A * (my - A * mx) * (n * mx) + n * (my - A * mx) ^ 2 -
        2 * A * (n * mxy) - 2 * (my - A * mx) * (n * my) + syy) +
        n * (B - (my - A * mx)) ^ 2 := by
  ring

/-- The three facts on the fitted line in terms of the sums: with the
least-squares slope `A` the intercept `sy / n - A * (sx / n)` gives the least
sum of squared residuals, any other intercept `B` exceeds it by
`n * (B - (sy / n - A * (sx / n)))²`, and so `(A, B)` is a minimiser exactly when
`B` is that intercept. -/
theorem lsm_core (points : List Point) (n sx sy sxx sxy syy : ℚ) (hn : 0 < n)
    (hexp : ∀ a b, residualSum points a b =
      a ^ 2 * sxx + 2 * a * b * sx + n * b ^ 2 - 2 * a * sxy - 2 * b * sy + syy)
    (hvar : 0 ≤ sxx / n - sx / n * (sx / n)) (hpos : sxx / n - sx / n * (sx / n) ≠ 0)
    (A B : ℚ) (hAd : A = (sxy / n - sx / n * (sy / n)) / (sxx / n - sx / n * (sx / n))) :
    (∀ a2 b2 : ℚ, residualSum points A (sy / n - A * (sx / n)) ≤ residualSum points a2 b2) ∧
      residualSum points A B =
        residualSum points A (sy / n - A * (sx / n)) +
          n * (B - (sy / n - A * (sx / n))) ^ 2 ∧
      ((∀ a2 b2 : ℚ, residualSum points A B ≤ residualSum points a2 b2) ↔
        B = sy / n - A * (sx / n)) := by
  have hA : A * (sxx / n - sx / n * (sx / n)) = sxy / n - sx / n * (sy / n) := by
    rw [hAd]
    exact div_mul_cancel₀ _ hpos
  have hmin : ∀ a2 b2 : ℚ,
      residualSum points A (sy / n - A * (sx / n)) ≤ residualSum points a2 b2 := by
    intro a2 b2
    rw [hexp, hexp]
    have := lsm_min n (sx / n) (sy / n) (sxx / n) (sxy / n) syy A a2 b2 hn hvar hA
    simp only [mul_div_cancel₀ _ hn.ne'] at this
    exact this
  have hexc : residualSum points A B =
      residualSum points A (sy / n - A * (sx / n)) +
        n * (B - (sy / n - A * (sx / n))) ^ 2 := by
    rw [hexp, hexp]
    have := lsm_excess n (sx / n) (sy / n) (sxx / n) (sxy / n) syy A B
    simp only [mul_div_cancel₀ _ hn.ne'] at this
    exact this
  refine ⟨hmin, hexc, ?_, ?_⟩
  · intro hall
    have h1 := hall A (sy / n - A * (sx / n))
    rw [hexc] at h1
    have h2 : n * (B - (sy / n - A * (sx / n))) ^ 2 ≤ n * 0 := by
      rw [mul_zero]
      linarith
    have h3 := le_antisymm (le_of_mul_le_mul_left h2 hn) (sq_nonneg _)
    exact sub_eq_zero.mp ((pow_eq_zero_iff two_ne_zero).mp h3)
  · intro hb a2 b2
    rw [hb]
    exact hmin a2 b2

/-- All points share the same `x` exactly when the list of the `x`
coordinates is constant. -/
theorem same_x_iff (points : List Point) :
    (∀ p ∈ points, ∀ q ∈ points, p.x = q.x) ↔
      ∀ x ∈ points.map (fun p => p.x), ∀ y ∈ points.map (fun p => p.x), x = y := by
  simp only [List.mem_map, forall_exists_index, and_imp, forall_apply_eq_imp_iff₂]

/-- C35: on a non-empty list of points with coordinates of absolute value at
most 46340 `getLSMError` returns.  It reports the invalid-fit sentinel whenever
all points share the same `x`, and for lists of at most 999999998 points only
then; the sentinel leaves `a` and `b` as they were.  Otherwise the returned
error is the sum of squared residuals of the line `y = a * x + b`, where `a` is
the least-squares slope (with the intercept `mean y - a * mean x` it minimises
the sum of squared residuals over all lines) and `b` makes the line pass
through the first point; this sum exceeds the minimum by
`n * (b - (mean y - a * mean x))²`, so `(a, b)` is a minimiser exactly when the
least-squares line passes through the first point. -/
theorem getLSMError_slope_and_anchor (points : List Point) (a0 b0 : ℚ)
    (hne : points ≠ []) (hrange : ∀ p ∈ points, |p.x| ≤ 46340 ∧ |p.y| ≤ 46340) :
    ∃ r, getLSMError points a0 b0 = some r ∧
      ((∀ p ∈ points, ∀ q ∈ points, p.x = q.x) → r.error = none) ∧
      (points.length ≤ 999999998 → r.error = none →
        ∀ p ∈ points, ∀ q ∈ points, p.x = q.x) ∧
      (r.error = none → r.a = a0 ∧ r.b = b0) ∧
      (∀ e, r.error = some e →
        e = residualSum points r.a r.b ∧
        (∀ front ∈ points.head?, r.b = (front.y : ℚ) - r.a * (front.x : ℚ)) ∧
        (∀ a2 b2 : ℚ, residualSum points r.a (meanY points - r.a * meanX points) ≤
          residualSum points a2 b2) ∧
        residualSum points r.a r.b =
          residualSum points r.a (meanY points - r.a * meanX points) +
            (points.length : ℚ) * (r.b - (meanY points - r.a * meanX points)) ^ 2 ∧
        ((∀ a2 b2 : ℚ, residualSum points r.a r.b ≤ residualSum points a2 b2) ↔
          r.b = meanY points - r.a * meanX points)) := by
  obtain ⟨front, tail, rfl⟩ := List.exists_cons_of_ne_nil hne
  have hsums := lsmSums_loop (front :: tail) (0, 0, 0, 0) hrange
  simp only [zero_add] at hsums
  have hn : (0 : ℚ) < ((front :: tail).length : ℚ) := by
    rw [List.length_cons]; positivity
  have hsp := spread_cast (front :: tail)
  have hsp0 : (0 : ℚ) ≤ ((spread ((front :: tail).map fun p => p.x) : Int) : ℚ) := by
    exact_mod_cast spread_nonneg _
  have hexp := fun a b => residualSum_expand a b (front :: tail)
  rw [getLSMError_eq front tail a0 b0 _ _ _ _ hsums]
  unfold meanX meanY
  have hvar_eq : ((front :: tail).map fun p => (p.x : ℚ) * (p.x : ℚ)).sum /
        ((front :: tail).length : ℚ) -
      ((front :: tail).map fun p => (p.x : ℚ)).sum / ((front :: tail).length : ℚ) *
        (((front :: tail).map fun p => (p.x : ℚ)).sum / ((front :: tail).length : ℚ)) =
      ((spread ((front :: tail).map fun p => p.x) : Int) : ℚ) /
        (((front :: tail).length : ℚ) * ((front :: tail).length : ℚ)) := by
    rw [hsp]
    field_simp
    ring
  have hvar : 0 ≤ ((front :: tail).map fun p => (p.x : ℚ) * (p.x : ℚ)).sum /
        ((front :: tail).length : ℚ) -
      ((front :: tail).map fun p => (p.x : ℚ)).sum / ((front :: tail).length : ℚ) *
        (((front :: tail).map fun p => (p.x : ℚ)).sum / ((front :: tail).length : ℚ)) := by
    rw [hvar_eq]
    exact div_nonneg hsp0 (mul_nonneg hn.le hn.le)
  by_cases hg : abs (((front :: tail).map fun p => (p.x : ℚ) * (p.x : ℚ)).sum /
        ((front :: tail).length : ℚ) -
      ((front :: tail).map fun p => (p.x : ℚ)).sum / ((front :: tail).length : ℚ) *
        (((front :: tail).map fun p => (p.x : ℚ)).sum / ((front :: tail).length : ℚ))) <
      1 / 1000000000
  · rw [if_pos hg]
    refine ⟨_, rfl, fun _ => rfl, ?_, fun _ => ⟨rfl, rfl⟩, fun e he => by cases he⟩
    intro hlen _
    by_contra hns
    rw [same_x_iff] at hns
    have h2 := two_le_length_of_not_const _ hns
    have hge := spread_ge _ hns
    rw [List.length_map] at h2 hge
    have hge2 : (((front :: tail).length : ℚ)) - 1 ≤
        ((spread ((front :: tail).map fun p => p.x) : Int) : ℚ) := by
      have : (((front :: tail).length : Int) : ℚ) - 1 ≤
          ((spread ((front :: tail).map fun p => p.x) : Int) : ℚ) := by
        exact_mod_cast hge
      simpa using this
    have h2q : (2 : ℚ) ≤ ((front :: tail).length : ℚ) := by exact_mod_cast h2
    have hlenq : ((front :: tail).length : ℚ) ≤ 999999998 := by exact_mod_cast hlen
    rw [abs_of_nonneg hvar, hvar_eq, div_lt_div_iff₀ (mul_pos hn hn) (by norm_num)] at hg
    nlinarith [mul_nonneg (sub_nonneg.mpr h2q) (sub_nonneg.mpr hlenq)]
  · rw [if_neg hg]
    have hnot : ¬ ∀ p ∈ front :: tail, ∀ q ∈ front :: tail, p.x = q.x := by
      intro hall
      apply hg
      rw [hvar_eq, spread_of_const _ ((same_x_iff _).mp hall)]
      norm_num
    have hpos : ((front :: tail).map fun p => (p.x : ℚ) * (p.x : ℚ)).sum /
          ((front :: tail).length : ℚ) -
        ((front :: tail).map fun p => (p.x : ℚ)).sum / ((front :: tail).length : ℚ) *
          (((front :: tail).map fun p => (p.x : ℚ)).sum / ((front :: tail).length : ℚ)) ≠ 0 := by
      intro h0
      apply hg
      rw [h0]
      norm_num
    refine ⟨_, rfl, fun hall => absurd hall hnot, fun _ h => (by cases h),
      fun h => (by cases h), ?_⟩
    intro e he
    refine ⟨(Option.some.inj he).symm, ?_, ?_⟩
    · intro f hf
      obtain rfl : front = f := Option.some.inj hf
      rfl
    · exact lsm_core (front :: tail) _ _ _ _ _ _ hn hexp hvar hpos _ _ rfl

/-- A run of `getLSMError_slope_and_anchor` on `roofPoints`: the slope is 0,
the intercept 0 is that of the line through the first point, and the returned
error is 1. -/
theorem getLSMError_slope_and_anchor_witness :
    getLSMError roofPoints 7 7 = some { error := some 1, a := 0, b := 0 } ∧
    ∃ r, getLSMError roofPoints 7 7 = some r ∧
      ((∀ p ∈ roofPoints, ∀ q ∈ roofPoints, p.x = q.x) → r.error = none) ∧
      (roofPoints.length ≤ 999999998 → r.error = none →
        ∀ p ∈ roofPoints, ∀ q ∈ roofPoints, p.x = q.x) ∧
      (r.error = none → r.a = 7 ∧ r.b = 7) ∧
      (∀ e, r.error = some e →
        e = residualSum roofPoints r.a r.b ∧
        (∀ front ∈ roofPoints.head?, r.b = (front.y : ℚ) - r.a * (front.x : ℚ)) ∧
        (∀ a2 b2 : ℚ, residualSum roofPoints r.a (meanY roofPoints - r.a * meanX roofPoints) ≤
          residualSum roofPoints a2 b2) ∧
        residualSum roofPoints r.a r.b =
          residualSum roofPoints r.a (meanY roofPoints - r.a * meanX roofPoints) +
            (roofPoints.length : ℚ) *
              (r.b - (meanY roofPoints - r.a * meanX roofPoints)) ^ 2 ∧
        ((∀ a2 b2 : ℚ, residualSum roofPoints r.a r.b ≤ residualSum roofPoints a2 b2) ↔
          r.b = meanY roofPoints - r.a * meanX roofPoints)) :=
  ⟨by simp [getLSMError, lsmSums, lsmStep, mulInt, roofPoints]; norm_num [abs_lt],
    getLSMError_slope_and_anchor roofPoints 7 7 (by decide) (by decide)⟩

/-- C35, counterexample: the three points `(0,0)`, `(1,1)`, `(2,0)` do not share
one `x`; `getLSMError` returns the pair `a = 0`, `b = 0` with the error 1, while
the line `y = 1/3` has the sum of squared residuals `2/3`: the returned pair
does not minimise the sum of squared residuals. -/
theorem getLSMError_pair_not_minimal :
    2 ≤ roofPoints.length ∧
    (¬ ∀ p ∈ roofPoints, ∀ q ∈ roofPoints, p.x = q.x) ∧
    getLSMError roofPoints 0 0 = some { error := some 1, a := 0, b := 0 } ∧
    residualSum roofPoints 0 0 = 1 ∧
    residualSum roofPoints 0 (1 / 3) = 2 / 3 ∧
    ¬ ∀ a b : ℚ, residualSum roofPoints 0 0 ≤ residualSum roofPoints a b := by
  have h1 : residualSum roofPoints 0 0 = 1 := by
    simp [residualSum, roofPoints]
  have h2 : residualSum roofPoints 0 (1 / 3) = 2 / 3 := by
    simp [residualSum, roofPoints]
    norm_num
  refine ⟨by decide, by decide, ?_, h1, h2, ?_⟩
  · simp [getLSMError, lsmSums, lsmStep, mulInt, roofPoints]
    norm_num [abs_lt]
  · intro h
    have := h 0 (1 / 3)
    rw [h1, h2] at this
    norm_num at this

/-- The bound on the length is needed: on a list of at least 999999999 points,
one with `x = 1` and the others with `x = 0`, the variance `(n - 1) / n²` is
below `1e-9`, and `getLSMError` reports the sentinel. -/
theorem getLSMError_sentinel_on_long_list (k : Nat) (hk : 999999998 ≤ k) :
    getLSMError (⟨1, 0⟩ :: List.replicate k ⟨0, 0⟩) 0 0 =
      some { error := none, a := 0, b := 0 } := by
  have hrange : ∀ p ∈ (⟨1, 0⟩ :: List.replicate k ⟨0, 0⟩ : List Point),
      |p.x| ≤ 46340 ∧ |p.y| ≤ 46340 := by
    intro p hp
    rcases List.mem_cons.mp hp with rfl | hp
    · decide
    · rw [(List.mem_replicate.mp hp).2]
      decide
  have hsums := lsmSums_loop _ (0, 0, 0, 0) hrange
  rw [getLSMError_eq _ _ 0 0 _ _ _ _ hsums, if_pos]
  simp only [List.map_cons, List.map_replicate, List.sum_cons, List.sum_replicate,
    List.length_cons, List.length_replicate]
  have hkq : (999999998 : ℚ) ≤ (k : ℚ) := by exact_mod_cast hk
  have hpos : (0 : ℚ) < (k : ℚ) + 1 := by linarith
  norm_num
  have hx : 0 < ((k : ℚ) + 1)⁻¹ := inv_pos.mpr hpos
  have hx1 : ((k : ℚ) + 1)⁻¹ ≤ 1 / 999999999 := by
    rw [inv_eq_one_div]
    exact one_div_le_one_div_of_le (by norm_num) (by linarith)
  generalize ((k : ℚ) + 1)⁻¹ = x at hx hx1 ⊢
  have h1 : (0 : ℚ) ≤ 1 - 1 / 999999999 - x := by linarith
  have h2 := mul_nonneg (sub_nonneg.mpr hx1) h1
  rw [abs_lt]
  constructor <;> nlinarith

/-! ## Adjacency of consecutive pixels under the splice of `mergeEdges` -/

/-- A chain without its last member is a chain. -/
theorem chain_dropLast {α : Type} (R : α → α → Prop) (l : List α) (h : l.Chain' R) :
    l.dropLast.Chain' R := by
  rw [List.dropLast_eq_take]
  exact h.take _

/-- The first two members of a chain are related. -/
theorem chain_head_tail {α : Type} (R : α → α → Prop) (l : List α) (h : l.Chain' R) :
    ∀ x ∈ l.head?, ∀ y ∈ l.tail.head?, R x y := by
  match l, h with
  | [], _ => intro x hx; simp at hx
  | [_], _ => intro x _ y hy; simp at hy
  | a :: b :: rest, h =>
    intro x hx y hy
    simp only [List.head?_cons, Option.mem_def, Option.some.injEq, List.tail_cons] at hx hy
    subst hx hy
    exact (List.chain'_cons.mp h).1

/-- The last two members of a chain are related. -/
theorem chain_dropLast_getLast {α : Type} (R : α → α → Prop) (l : List α) (h : l.Chain' R) :
    ∀ x ∈ l.dropLast.getLast?, ∀ y ∈ l.getLast?, R x y := by
  intro x hx y hy
  have h2 := chain_head_tail (flip R) l.reverse (List.chain'_reverse.mpr (by simpa [flip] using h))
  rw [List.head?_reverse, List.tail_reverse, List.head?_reverse] at h2
  exact h2 y hy x hx

/-- The first member of a list without its last member is the first member of
the list. -/
theorem head?_dropLast {α : Type} (l : List α) (y : α) (h : l.dropLast.head? = some y) :
    l.head? = some y := by
  match l, h with
  | [], h => simp at h
  | [_], h => simp at h
  | a :: b :: rest, h =>
    simp only [List.dropLast_cons₂, List.head?_cons] at h ⊢
    exact h

/-- The last member of the tail of a list is the last member of the list. -/
theorem getLast?_tail {α : Type} (l : List α) (y : α) (h : l.tail.getLast? = some y) :
    l.getLast? = some y := by
  match l, h with
  | [], h => simp at h
  | [_], h => simp at h
  | a :: b :: rest, h =>
    simp only [List.tail_cons] at h
    rw [List.getLast?_cons_cons]
    exact h

/-- The tabulated splice of two chains of a symmetric relation is a chain. -/
theorem spliceSpec_chain (R : Point → Point → Prop) (hsymm : ∀ p q, R p q → R q p)
    (A B : List Point) (hA : A.Chain' R) (hB : B.Chain' R) : (spliceSpec A B).Chain' R := by
  have hflip : ∀ l : List Point, l.Chain' R → l.reverse.Chain' R := by
    intro l hl
    rw [List.chain'_reverse]
    exact hl.imp (fun a b hab => hsymm a b hab)
  have h1 := chain_head_tail R B hB
  have h2 := chain_dropLast_getLast R B hB
  have htail : B.tail.Chain' R := hB.tail
  have hdrop : B.dropLast.Chain' R := chain_dropLast R B hB
  unfold spliceSpec
  by_cases c1 : A.head? = B.head?
  · rw [if_pos c1]
    by_cases c2 : A.getLast? = B.getLast?
    · rw [if_pos c2, List.chain'_append]
      refine ⟨hflip _ (chain_dropLast R _ htail), hA, ?_⟩
      intro x hx y hy
      rw [List.getLast?_reverse] at hx
      rw [c1] at hy
      exact hsymm _ _ (h1 y hy x (head?_dropLast _ _ hx))
    · rw [if_neg c2, List.chain'_append]
      refine ⟨hflip _ htail, hA, ?_⟩
      intro x hx y hy
      rw [List.getLast?_reverse] at hx
      rw [c1] at hy
      exact hsymm _ _ (h1 y hy x hx)
  · rw [if_neg c1]
    by_cases c3 : A.head? = B.getLast?
    · rw [if_pos c3]
      by_cases c4 : A.getLast? = B.head?
      · rw [if_pos c4, List.chain'_append]
        refine ⟨hdrop.tail, hA, ?_⟩
        intro x hx y hy
        rw [c3] at hy
        exact h2 x (getLast?_tail _ _ hx) y hy
      · rw [if_neg c4, List.chain'_append]
        refine ⟨hdrop, hA, ?_⟩
        intro x hx y hy
        rw [c3] at hy
        exact h2 x hx y hy
    · rw [if_neg c3]
      by_cases c5 : A.getLast? = B.head?
      · rw [if_pos c5, List.chain'_append]
        refine ⟨hA, htail, ?_⟩
        intro x hx y hy
        rw [c5] at hx
        exact h1 x hx y hy
      · rw [if_neg c5]
        by_cases c6 : A.getLast? = B.getLast?
        · rw [if_pos c6, List.chain'_append]
          refine ⟨hA, hflip _ hdrop, ?_⟩
          intro x hx y hy
          rw [c6] at hx
          rw [List.head?_reverse] at hy
          exact hsymm _ _ (h2 y hy x hx)
        · rw [if_neg c6]
          exact hA

/-- Whenever the endpoint matching of `mergeEdges` returns, it returns the
tabulated splice. -/
theorem spliceEdges_some (A B R : List Point) (h : spliceEdges A B = some R) :
    A ≠ [] ∧ B ≠ [] ∧ R = spliceSpec A B := by
  have hA : A ≠ [] := by
    intro h0
    rw [h0] at h
    simp [spliceEdges] at h
  have hB : B ≠ [] := by
    intro h0
    rw [h0] at h
    simp [spliceEdges] at h
  refine ⟨hA, hB, ?_⟩
  by_cases hdef : B.length = 1 ∧ A.head? = B.head?
  · exfalso
    obtain ⟨hlen, hh⟩ := hdef
    match B, hlen, hh with
    | [b], _, hh =>
      rw [spliceEdges_single_shared_front A b hh] at h
      exact absurd h (by simp)
  · rw [spliceEdges_eq_spliceSpec A B hA hB hdef] at h
    exact (Option.some.inj h).symm

/-- Whenever the body of `mergeEdges` returns, the two edges exist, the
endpoint matching has returned a sequence, and the new edge table is the old
one with that sequence at `a` and the empty sequence at `b`. -/
theorem mergeOrdered_some (s s2 : EdgeProcessor) (a b : Int)
    (h : mergeOrdered s a b = some s2) :
    ∃ A B R, s.edges.getEdge a = some A ∧ s.edges.getEdge b = some B ∧
      spliceEdges A B = some R ∧
      s2.edges.data = ((s.edges.data.set a.toNat []).set b.toNat []).set a.toNat R ∧
      reassignEdgeIds s.edgeMap B a b = some s2.edgeMap ∧
      s2.edgeIdCounter = s.edgeIdCounter := by
  unfold mergeOrdered at h
  cases hA : s.edges.getEdge a with
  | none => simp [hA] at h
  | some A =>
    cases hB : s.edges.getEdge b with
    | none => simp [hA, hB] at h
    | some B =>
      obtain ⟨ha0, ha1⟩ := vecGet?_bounds _ _ _ hA
      obtain ⟨hb0, hb1⟩ := vecGet?_bounds _ _ _ hB
      simp only [hA, hB, Option.bind_eq_bind, Option.some_bind, Edges.clearEdge,
        Edges.overwrite] at h
      rw [vecSet?_eq_some_of_lt _ _ _ ha0 ha1] at h
      simp only [Option.map_some', Option.some_bind] at h
      rw [vecSet?_eq_some_of_lt _ _ _ hb0 (by simp only [List.length_set]; exact hb1)] at h
      simp only [Option.map_some', Option.some_bind] at h
      cases hre : reassignEdgeIds s.edgeMap B a b with
      | none => simp [hre] at h
      | some m2 =>
        cases hsp : spliceEdges A B with
        | none => simp [hre, hsp] at h
        | some R =>
          simp only [hre, hsp, Option.some_bind] at h
          rw [vecSet?_eq_some_of_lt _ _ _ ha0 (by simp only [List.length_set]; exact ha1)] at h
          simp only [Option.map_some', Option.some_bind, Option.pure_def,
            Option.some.injEq] at h
          refine ⟨A, B, R, rfl, rfl, hsp, ?_, ?_, ?_⟩
          · rw [← h]
          · rw [← h]
            exact hre
          · rw [← h]

/-- An edge that `getEdge` returns is a member of the table. -/
theorem mem_of_getEdge (e : Edges) (i : Int) (E : List Point) (h : e.getEdge i = some E) :
    E ∈ e.data := by
  unfold Edges.getEdge vecGet? at h
  split_ifs at h
  exact List.getElem?_mem h

/-- The body of `mergeEdges` keeps the edges of the table chains of a symmetric
relation. -/
theorem mergeOrdered_chain (R : Point → Point → Prop) (hsymm : ∀ p q, R p q → R q p)
    (s s2 : EdgeProcessor) (a b : Int) (h : mergeOrdered s a b = some s2)
    (hch : ∀ E ∈ s.edges.data, E.Chain' R) : ∀ E ∈ s2.edges.data, E.Chain' R := by
  obtain ⟨A, B, M, hA, hB, hsp, hdata, _, _⟩ := mergeOrdered_some s s2 a b h
  obtain ⟨_, _, rfl⟩ := spliceEdges_some A B M hsp
  have hM := spliceSpec_chain R hsymm A B (hch A (mem_of_getEdge _ _ _ hA))
    (hch B (mem_of_getEdge _ _ _ hB))
  intro E hE
  rw [hdata] at hE
  rcases List.mem_or_eq_of_mem_set hE with hE | rfl
  · rcases List.mem_or_eq_of_mem_set hE with hE | rfl
    · rcases List.mem_or_eq_of_mem_set hE with hE | rfl
      · exact hch E hE
      · exact List.chain'_nil
    · exact List.chain'_nil
  · exact hM

/-- The function `mergeEdges` keeps the edges of the table chains of a
symmetric relation. -/
theorem mergeEdges_chain (R : Point → Point → Prop) (hsymm : ∀ p q, R p q → R q p)
    (s s2 : EdgeProcessor) (a b : Int) (h : mergeEdges s a b = some s2)
    (hch : ∀ E ∈ s.edges.data, E.Chain' R) : ∀ E ∈ s2.edges.data, E.Chain' R := by
  unfold mergeEdges at h
  split_ifs at h
  · exact mergeOrdered_chain R hsymm s s2 b a h hch
  · obtain rfl := Option.some.inj h
    exact hch
  · exact mergeOrdered_chain R hsymm s s2 a b h hch

/-! ## The instrumented `traceEdge` -/

/-- Whatever the instrumented `traceEdge` returns, `traceEdge` returns. -/
theorem traceEdge_of_checked (img : Mat) :
    ∀ (fuel : Nat) (s : EdgeProcessor) (q : Point) (E : List Point) (s2 : EdgeProcessor),
      traceEdgeChecked img fuel s q E = some s2 → traceEdge img fuel s q E = some s2 := by
  intro fuel
  induction fuel with
  | zero => intro s q E s2 h; rw [traceEdgeChecked] at h; exact absurd h (by simp)
  | succ fuel ih =>
    intro s q E s2 h
    rw [traceEdgeChecked] at h
    rw [traceEdge]
    cases hpush : s.edgeMap.pushBackEdgeId q.x q.y s.edgeIdCounter with
    | none => simp [hpush] at h
    | some m1 =>
      simp only [hpush, Option.bind_eq_bind, Option.some_bind] at h ⊢
      cases hcl : m1.isCluster q.x q.y with
      | none => simp [hcl] at h
      | some c =>
        simp only [hcl, Option.some_bind] at h ⊢
        have key : ∀ U : List Point,
            (match U with
              | [n0, n1] =>
                if E = [] then
                  (traceEdgeChecked img fuel { s with edgeMap := m1 } n0 [q]).bind fun s =>
                    (traceEdgeChecked img fuel s n1 [q]).bind fun s =>
                      mergeEdges s (s.edgeIdCounter - 2) (s.edgeIdCounter - 1)
                else none
              | [n0] => traceEdgeChecked img fuel { s with edgeMap := m1 } n0 (E ++ [q])
              | [] => some { edgeIdCounter := s.edgeIdCounter + 1
                             edges := s.edges.pushBack (E ++ [q])
                             edgeMap := m1 }
              | _ => none) = some s2 →
            (match U with
              | [n0, n1] =>
                (traceEdge img fuel { s with edgeMap := m1 } n0 [q]).bind fun s =>
                  (traceEdge img fuel s n1 [q]).bind fun s =>
                    mergeEdges s (s.edgeIdCounter - 2) (s.edgeIdCounter - 1)
              | [n0] => traceEdge img fuel { s with edgeMap := m1 } n0 (E ++ [q])
              | [] => some { edgeIdCounter := s.edgeIdCounter + 1
                             edges := s.edges.pushBack (E ++ [q])
                             edgeMap := m1 }
              | _ => some { s with edgeMap := m1 }) = some s2 := by
          intro U hU
          match U, hU with
          | [], hU => exact hU
          | [n0], hU => exact ih _ _ _ _ hU
          | [n0, n1], hU =>
            by_cases hE : E = []
            · simp only [hE, if_true] at hU
              cases h1 : traceEdgeChecked img fuel { s with edgeMap := m1 } n0 [q] with
              | none => simp [h1] at hU
              | some s3 =>
                simp only [h1, Option.some_bind] at hU
                cases h2 : traceEdgeChecked img fuel s3 n1 [q] with
                | none => simp [h2] at hU
                | some s4 =>
                  simp only [h2, Option.some_bind] at hU
                  simp only [ih _ _ _ _ h1, ih _ _ _ _ h2, Option.some_bind]
                  exact hU
            · simp [hE] at hU
          | _ :: _ :: _ :: _, hU => simp at hU
        cases c with
        | true =>
          simp only [Bool.not_true, Bool.false_eq_true, if_false, Option.pure_def,
            Option.some_bind] at h ⊢
          exact key [] h
        | false =>
          simp only [Bool.not_false, if_true] at h ⊢
          cases hU : unvisitedNeighbors m1 (getDirectNeighbors img q) with
          | none => rw [hU] at h; simp at h
          | some U =>
            rw [hU] at h
            simp only [Option.some_bind, Option.pure_def] at h ⊢
            exact key U h

/-- The body of the instrumented `traceEdge` after the id has been registered
at the current pixel `q` and the unvisited neighbours have been collected. -/
theorem traceEdgeChecked_unfold (img : Mat) (fuel : Nat) (s : EdgeProcessor) (q : Point)
    (E : List Point) (m1 : EdgeMap) (hm1 : m1.WF) (hr : m1.rows = img.rows)
    (hc : m1.cols = img.cols) (hq : img.inside q)
    (hpush : s.edgeMap.pushBackEdgeId q.x q.y s.edgeIdCounter = some m1) :
    traceEdgeChecked img (fuel + 1) s q E =
      match (if m1.clusterAt q = [] then
          (getDirectNeighbors img q).filter
            (fun n => decide (m1.idsAt n = [] ∨ m1.clusterAt n ≠ []))
        else []) with
      | [n0, n1] =>
        if E = [] then
          (traceEdgeChecked img fuel { s with edgeMap := m1 } n0 [q]).bind fun s1 =>
            (traceEdgeChecked img fuel s1 n1 [q]).bind fun s2 =>
              mergeEdges s2 (s2.edgeIdCounter - 2) (s2.edgeIdCounter - 1)
        else none
      | [n0] => traceEdgeChecked img fuel { s with edgeMap := m1 } n0 (E ++ [q])
      | [] =>
        some { edgeIdCounter := s.edgeIdCounter + 1
               edges := s.edges.pushBack (E ++ [q])
               edgeMap := m1 }
      | _ => none := by
  have hib := inside_iff_inBounds img m1 hr hc
  have hcl := isCluster_of_inBounds m1 hm1 q ((hib q).mp hq)
  have hunv := unvisitedNeighbors_eq m1 hm1 (getDirectNeighbors img q)
    (fun p hp => (hib p).mp (getDirectNeighbors_sound img q p hq hp).1)
  rw [traceEdgeChecked]
  simp only [hpush, Option.bind_eq_bind, Option.some_bind, hcl, Option.pure_def]
  by_cases hcq : m1.clusterAt q = []
  · have hdec : decide ((m1.clusterAt q).length ≥ 1) = false := by rw [hcq]; rfl
    rw [hdec, if_pos hcq]
    simp only [Bool.not_false, if_true, hunv, Option.some_bind]
  · have hdec : decide ((m1.clusterAt q).length ≥ 1) = true := by
      have := List.length_pos.mpr hcq
      simpa using this
    rw [hdec, if_neg hcq]
    simp only [Bool.not_true, Bool.false_eq_true, if_false, Option.some_bind]

/-- A call of the instrumented `traceEdge` that continues an edge from the
visited pixel `pred` into its direct neighbour `q` returns, never branches, and
walks along a chain of 8-neighbours. -/
theorem traceEdgeChecked_follow (img : Mat) :
    ∀ (fuel : Nat) (s : EdgeProcessor) (q : Point) (E : List Point) (pred : Point),
      MapOk img s.edgeMap → img.inside pred → img.px pred.y pred.x > 0 →
      s.edgeMap.clusterAt pred = [] → s.edgeMap.idsAt pred ≠ [] →
      q ∈ getDirectNeighbors img pred →
      (s.edgeMap.clusterAt q ≠ [] ∨ s.edgeMap.idsAt q = [] ∨
        ∀ n ∈ getDirectNeighbors img q,
          s.edgeMap.idsAt n ≠ [] ∧ s.edgeMap.clusterAt n = []) →
      idless img s.edgeMap + 1 ≤ fuel →
      ∃ path s2, traceEdgeChecked img fuel s q E = some s2 ∧
        FollowPost img s q E path s2 ∧ path.Chain' isNeighbor8 := by
  intro fuel
  induction fuel with
  | zero => intro s q E pred _ _ _ _ _ _ _ hfuel; omega
  | succ fuel ih =>
    intro s q E pred hm hpin hpe hpc hpi hq hentry hfuel
    obtain ⟨hqin, hqe, _, _⟩ := getDirectNeighbors_sound img pred q hpin hq
    obtain ⟨m1, hpush, hm1, hd1, hc1, hids1, hcl1⟩ :=
      pushBackEdgeId_mapOk img s.edgeMap hm q hqin s.edgeIdCounter
    have hmono : ∀ p, img.inside p → m1.idsAt p = [] → s.edgeMap.idsAt p = [] :=
      fun p hp h0 => eq_nil_of_subset_nil _ _ (fun x hx => (hids1 p hp x).mpr (Or.inl hx)) h0
    have hfin := followPost_finalize img s q E m1 hqin hqe hm1 hd1 hids1
    rw [traceEdgeChecked_unfold img fuel s q E m1 hm1.wf hm1.rows_eq hm1.cols_eq hqin hpush]
    by_cases hcq : m1.clusterAt q = []
    · rw [if_pos hcq]
      have hcq0 : s.edgeMap.clusterAt q = [] := by rw [← hcl1 q]; exact hcq
      have hlen2 := not_clusterPoint_of_unclustered img m1 hm1 q hqin hqe hcq
      have hpred_mem : pred ∈ getDirectNeighbors img q :=
        getDirectNeighbors_symm img pred q hpin hpe hq
      have hpred_vis : decide (m1.idsAt pred = [] ∨ m1.clusterAt pred ≠ []) = false := by
        rw [decide_eq_false_iff_not, not_or]
        exact ⟨fun h0 => hpi (hmono pred hpin h0), by rw [hcl1 pred, hpc]; simp⟩
      have hU1 := length_filter_le_one
        (fun n => decide (m1.idsAt n = [] ∨ m1.clusterAt n ≠ [])) (getDirectNeighbors img q)
        hlen2 pred hpred_mem hpred_vis
      cases hU : (getDirectNeighbors img q).filter
          (fun n => decide (m1.idsAt n = [] ∨ m1.clusterAt n ≠ [])) with
      | nil =>
        refine ⟨[q], _, ?_, hfin, List.chain'_singleton q⟩
        rfl
      | cons n0 rest =>
        have hrest : rest = [] := by
          rw [hU] at hU1
          simp only [List.length_cons] at hU1
          exact List.length_eq_zero.mp (by omega)
        subst hrest
        have hn0 : n0 ∈ (getDirectNeighbors img q).filter
            (fun n => decide (m1.idsAt n = [] ∨ m1.clusterAt n ≠ [])) := by
          rw [hU]; exact List.mem_singleton.mpr rfl
        rw [List.mem_filter, decide_eq_true_eq] at hn0
        obtain ⟨hn0mem, hn0adm⟩ := hn0
        obtain ⟨hn0in, _, hn0nb, _⟩ := getDirectNeighbors_sound img q n0 hqin hn0mem
        -- the pixel `q` had no id before this call
        have hq0 : s.edgeMap.idsAt q = [] := by
          rcases hentry with h | h | h
          · exact absurd hcq0 h
          · exact h
          · exfalso
            obtain ⟨h1, h2⟩ := h n0 hn0mem
            rcases hn0adm with h3 | h3
            · exact h1 (hmono n0 hn0in h3)
            · rw [hcl1 n0] at h3; exact h3 h2
        have hq1 : m1.idsAt q ≠ [] := by
          intro h0
          have : s.edgeIdCounter ∈ m1.idsAt q := (hids1 q hqin _).mpr (Or.inr ⟨rfl, rfl⟩)
          rw [h0] at this
          simp at this
        have hlt := idless_lt img s.edgeMap m1 q hqin hmono hq0 hq1
        obtain ⟨path, s2, htr, post, hwalk⟩ := ih { s with edgeMap := m1 } n0 (E ++ [q]) q hm1
          hqin hqe hcq hq1 hn0mem
          (by rcases hn0adm with h3 | h3
              · exact Or.inr (Or.inl h3)
              · exact Or.inl h3)
          (by show idless img m1 + 1 ≤ fuel; omega)
        refine ⟨q :: path, s2, htr, ?_, ?_⟩
        · refine ⟨rfl, ?_, post.counter, post.mapOk, post.clusters.trans hd1, ?_, ?_, ?_, ?_⟩
          · rw [post.edges, List.append_assoc]; rfl
          · intro p hp x
            rw [post.ids p hp x]
            show x ∈ m1.idsAt p ∨ (x = s.edgeIdCounter ∧ p ∈ path) ↔ _
            rw [hids1 p hp x, List.mem_cons]
            constructor
            · rintro ((h | h) | h)
              · exact Or.inl h
              · exact Or.inr ⟨h.1, Or.inl h.2⟩
              · exact Or.inr ⟨h.1, Or.inr h.2⟩
            · rintro (h | ⟨h1, h2 | h2⟩)
              · exact Or.inl (Or.inl h)
              · exact Or.inl (Or.inr ⟨h1, h2⟩)
              · exact Or.inr ⟨h1, h2⟩
          · intro p hp
            rcases List.mem_cons.mp hp with rfl | hp
            · exact ⟨hqin, hqe⟩
            · exact post.inside p hp
          · intro p hp
            rcases List.mem_cons.mp hp with rfl | hp
            · exact Or.inl rfl
            · right
              have hpin2 := (post.inside p hp).1
              have key : m1.idsAt p = [] ∨ m1.clusterAt p ≠ [] := by
                rcases post.entered p hp with h | h | h
                · rw [h]; exact hn0adm
                · exact Or.inl h
                · exact Or.inr h
              rcases key with h | h
              · exact Or.inl (hmono p hpin2 h)
              · rw [hcl1 p] at h; exact Or.inr h
          · intro p hp hne
            rcases List.mem_cons.mp hp with rfl | hp
            · exact absurd rfl hne
            · by_cases hpn : p = n0
              · subst hpn
                exact ⟨q, List.mem_cons_self _ _, hn0mem, hcq0⟩
              · obtain ⟨r, hr, h1, h2⟩ := post.chain p hp hpn
                refine ⟨r, List.mem_cons_of_mem _ hr, h1, ?_⟩
                rw [← hcl1 r]; exact h2
        · rw [List.chain'_cons']
          refine ⟨?_, hwalk⟩
          intro y hy
          rw [post.head] at hy
          obtain rfl := Option.some.inj hy
          exact hn0nb
    · rw [if_neg hcq]
      refine ⟨[q], _, ?_, hfin, List.chain'_singleton q⟩
      rfl

/-- A duplicate-free list all of whose members lie in a list of length at most
one has length at most one. -/
theorem length_le_one_of_subset {α : Type} (l l2 : List α) (hn : l.Nodup)
    (hsub : ∀ x ∈ l, x ∈ l2) (h2 : l2.length ≤ 1) : l.length ≤ 1 :=
  le_trans (List.subperm_of_subset hn hsub).length_le h2

/-- The extended invariant after a seed has been processed: the ids stored
before stay, and the fresh id is added at the touched pixels, which had no id
or lie in a cluster. -/
theorem traceInvX_of_effect (img : Mat) (s s2 : EdgeProcessor) (touched : List Point)
    (hx : TraceInvX img s) (hinv2 : TraceInv img s2)
    (hcl : s2.edgeMap.dataClusters = s.edgeMap.dataClusters)
    (hids : ∀ q, img.inside q → ∀ x,
      (x ∈ s2.edgeMap.idsAt q ↔
        x ∈ s.edgeMap.idsAt q ∨ (x = s.edgeIdCounter ∧ q ∈ touched)))
    (hent : ∀ q ∈ touched, s.edgeMap.idsAt q = [] ∨ s.edgeMap.clusterAt q ≠ [])
    (hch : ∀ E ∈ s2.edges.data, E.Chain' isNeighbor8) :
    TraceInvX img s2 ∧
      (∀ q, img.inside q → s.edgeMap.idsAt q ≠ [] → s2.edgeMap.idsAt q ≠ []) ∧
      (∀ q ∈ touched, img.inside q → s2.edgeMap.idsAt q ≠ []) := by
  have hclq : ∀ q, s2.edgeMap.clusterAt q = s.edgeMap.clusterAt q :=
    clusterAt_congr s.edgeMap s2.edgeMap
      (hinv2.mapOk.cols_eq.trans hx.inv.mapOk.cols_eq.symm) hcl
  refine ⟨⟨hinv2, hch, ?_⟩, ?_, ?_⟩
  · intro q hq hc
    rw [hclq q] at hc
    have hnd := hinv2.mapOk.nodup q ((mapOk_inBounds img _ hinv2.mapOk q).mp hq)
    by_cases ht : q ∈ touched
    · have h0 : s.edgeMap.idsAt q = [] := by
        rcases hent q ht with h | h
        · exact h
        · exact absurd hc h
      apply length_le_one_of_subset _ [s.edgeIdCounter] hnd _ (by simp)
      intro x hxm
      rcases (hids q hq x).mp hxm with h | h
      · rw [h0] at h; simp at h
      · rw [h.1]; simp
    · apply length_le_one_of_subset _ (s.edgeMap.idsAt q) hnd _ (hx.single q hq hc)
      intro x hxm
      rcases (hids q hq x).mp hxm with h | h
      · exact h
      · exact absurd h.2 ht
  · intro q hq h0 h2
    apply h0
    exact eq_nil_of_subset_nil _ _ (fun x hxm => (hids q hq x).mpr (Or.inl hxm)) h2
  · intro q ht hq h2
    have : s.edgeIdCounter ∈ s2.edgeMap.idsAt q := (hids q hq _).mpr (Or.inr ⟨rfl, ht⟩)
    rw [h2] at this
    simp at this

/-- The ids at a pixel after the merge that ends a two-way branch, in terms of
the ids before the seed was processed. -/
theorem seed_ids_after_merge (p q : Point) (path1 path2 : List Point) (x c : Int)
    (ids : List Int) (hlt : x ∈ ids → x < c) :
    (if q ∈ p :: path2 then
        (x = c ∨ (((x ∈ ids ∨ (x = c ∧ q ∈ p :: path1)) ∨ (x = c + 1 ∧ q ∈ path2)) ∧
          x ≠ c + 1))
      else ((x ∈ ids ∨ (x = c ∧ q ∈ p :: path1)) ∨ (x = c + 1 ∧ q ∈ path2))) ↔
      (x ∈ ids ∨ (x = c ∧ q ∈ p :: (path1 ++ path2))) := by
  simp only [List.mem_cons, List.mem_append]
  by_cases hqB : q = p ∨ q ∈ path2
  · rw [if_pos hqB]
    constructor
    · rintro (h | ⟨(h | h) | h, _⟩)
      · exact Or.inr ⟨h, by tauto⟩
      · exact Or.inl h
      · exact Or.inr ⟨h.1, by tauto⟩
      · exact Or.inr ⟨by omega, by tauto⟩
    · rintro (h | h)
      · have := hlt h
        exact Or.inr ⟨Or.inl (Or.inl h), by omega⟩
      · exact Or.inl h.1
  · rw [if_neg hqB]
    constructor
    · rintro ((h | h) | h)
      · exact Or.inl h
      · exact Or.inr ⟨h.1, by tauto⟩
      · exact absurd (Or.inr h.2) hqB
    · rintro (h | h)
      · exact Or.inl (Or.inl h)
      · refine Or.inl (Or.inr ⟨h.1, ?_⟩)
        tauto

/-- The call of the instrumented `traceEdge` that `traceEdges` makes at a seed
pixel (an edge pixel without an id and outside every cluster) returns and
re-establishes the extended invariant of the raster loop; the cluster index is
unchanged, no pixel loses all its ids, and the seed has an id afterwards. -/
theorem traceEdgeChecked_seed (img : Mat) (s : EdgeProcessor) (p : Point)
    (hx : TraceInvX img s) (hp : img.inside p) (hpe : img.px p.y p.x > 0)
    (hcl : s.edgeMap.clusterAt p = []) (hid0 : s.edgeMap.idsAt p = []) :
    ∃ s2, traceEdgeChecked img (img.rows * img.cols + 2) s p [] = some s2 ∧
      TraceInvX img s2 ∧ s2.edgeMap.dataClusters = s.edgeMap.dataClusters ∧
      (∀ q, img.inside q → s.edgeMap.idsAt q ≠ [] → s2.edgeMap.idsAt q ≠ []) ∧
      s2.edgeMap.idsAt p ≠ [] := by
  have hinv := hx.inv
  suffices h : ∃ s2 touched,
      traceEdgeChecked img (img.rows * img.cols + 2) s p [] = some s2 ∧ TraceInv img s2 ∧
      s2.edgeMap.dataClusters = s.edgeMap.dataClusters ∧
      (∀ q, img.inside q → ∀ x,
        (x ∈ s2.edgeMap.idsAt q ↔
          x ∈ s.edgeMap.idsAt q ∨ (x = s.edgeIdCounter ∧ q ∈ touched))) ∧
      p ∈ touched ∧
      (∀ q ∈ touched, s.edgeMap.idsAt q = [] ∨ s.edgeMap.clusterAt q ≠ []) ∧
      (∀ E ∈ s2.edges.data, E.Chain' isNeighbor8) by
    obtain ⟨s2, touched, h1, h2, h3, h4, h5, h6, h7⟩ := h
    obtain ⟨hx2, hmono2, htouched⟩ := traceInvX_of_effect img s s2 touched hx h2 h3 h4 h6 h7
    exact ⟨s2, h1, hx2, h3, hmono2, htouched p h5 hp⟩
  obtain ⟨m1, hpush, hm1, hd1, hc1, hids1, hcl1⟩ :=
    pushBackEdgeId_mapOk img s.edgeMap hinv.mapOk p hp s.edgeIdCounter
  have hcq : m1.clusterAt p = [] := by rw [hcl1 p]; exact hcl
  have hq1 : m1.idsAt p ≠ [] := by
    intro h0
    have : s.edgeIdCounter ∈ m1.idsAt p := (hids1 p hp _).mpr (Or.inr ⟨rfl, rfl⟩)
    rw [h0] at this
    simp at this
  have hmono : ∀ q, img.inside q → m1.idsAt q = [] → s.edgeMap.idsAt q = [] :=
    fun q hq h0 => eq_nil_of_subset_nil _ _ (fun x hxm => (hids1 q hq x).mpr (Or.inl hxm)) h0
  have hlen2 := not_clusterPoint_of_unclustered img m1 hm1 p hp hpe hcq
  have hUlen : ((getDirectNeighbors img p).filter
      (fun n => decide (m1.idsAt n = [] ∨ m1.clusterAt n ≠ []))).length ≤ 2 :=
    le_trans (List.length_filter_le _ _) hlen2
  have hUnd : ((getDirectNeighbors img p).filter
      (fun n => decide (m1.idsAt n = [] ∨ m1.clusterAt n ≠ []))).Nodup :=
    (getDirectNeighbors_nodup img p).filter _
  have hUmem : ∀ n ∈ (getDirectNeighbors img p).filter
      (fun n => decide (m1.idsAt n = [] ∨ m1.clusterAt n ≠ [])),
      n ∈ getDirectNeighbors img p ∧ (m1.idsAt n = [] ∨ m1.clusterAt n ≠ []) := by
    intro n hn
    rw [List.mem_filter, decide_eq_true_eq] at hn
    exact hn
  -- the ids after a first or only branch that walked `path`
  have idsOf : ∀ (n0 : Point) (path : List Point) (s3 : EdgeProcessor),
      FollowPost img { s with edgeMap := m1 } n0 [p] path s3 →
      ∀ q, img.inside q → ∀ x,
        (x ∈ s3.edgeMap.idsAt q ↔
          x ∈ s.edgeMap.idsAt q ∨ (x = s.edgeIdCounter ∧ q ∈ p :: path)) := by
    intro n0 path s3 post q hq x
    rw [post.ids q hq x]
    show x ∈ m1.idsAt q ∨ (x = s.edgeIdCounter ∧ q ∈ path) ↔ _
    rw [hids1 q hq x, List.mem_cons]
    constructor
    · rintro ((h | h) | h)
      · exact Or.inl h
      · exact Or.inr ⟨h.1, Or.inl h.2⟩
      · exact Or.inr ⟨h.1, Or.inr h.2⟩
    · rintro (h | ⟨h1, h2 | h2⟩)
      · exact Or.inl (Or.inl h)
      · exact Or.inl (Or.inr ⟨h1, h2⟩)
      · exact Or.inr ⟨h1, h2⟩
  -- the invariant after a first or only branch that walked `path`
  have single : ∀ (n0 : Point) (path : List Point) (s3 : EdgeProcessor),
      FollowPost img { s with edgeMap := m1 } n0 [p] path s3 → TraceInv img s3 := by
    intro n0 path s3 post
    refine traceInv_append img s s3 (p :: path) hinv post.mapOk post.edges post.counter
      (by simp) ?_ (idsOf n0 path s3 post)
    intro q hq
    rcases List.mem_cons.mp hq with rfl | hq
    · exact hp
    · exact (post.inside q hq).1
  -- the pixels walked by a first or only branch had no id or lie in a cluster
  have entered1 : ∀ (n0 : Point) (path : List Point) (s3 : EdgeProcessor),
      (m1.idsAt n0 = [] ∨ m1.clusterAt n0 ≠ []) →
      FollowPost img { s with edgeMap := m1 } n0 [p] path s3 →
      ∀ q ∈ path, s.edgeMap.idsAt q = [] ∨ s.edgeMap.clusterAt q ≠ [] := by
    intro n0 path s3 hadm post q hq
    have hqin := (post.inside q hq).1
    have key : m1.idsAt q = [] ∨ m1.clusterAt q ≠ [] := by
      rcases post.entered q hq with h | h | h
      · rw [h]; exact hadm
      · exact Or.inl h
      · exact Or.inr h
    rcases key with h | h
    · exact Or.inl (hmono q hqin h)
    · rw [hcl1 q] at h; exact Or.inr h
  -- the edge that starts at the seed and walks `path` is a chain
  have chainOf : ∀ (n0 : Point) (path : List Point), n0 ∈ getDirectNeighbors img p →
      path.head? = some n0 → path.Chain' isNeighbor8 → (p :: path).Chain' isNeighbor8 := by
    intro n0 path hn0 hhead hwalk
    rw [List.chain'_cons']
    refine ⟨?_, hwalk⟩
    intro y hy
    rw [hhead] at hy
    obtain rfl := Option.some.inj hy
    exact (getDirectNeighbors_sound img p n0 hp hn0).2.2.1
  have hfuel : ∀ m : EdgeMap, idless img m + 1 ≤ img.rows * img.cols + 1 := by
    intro m
    have := idless_le img m
    omega
  rw [traceEdgeChecked_unfold img (img.rows * img.cols + 1) s p [] m1 hm1.wf hm1.rows_eq
    hm1.cols_eq hp hpush, if_pos hcq]
  cases hU : (getDirectNeighbors img p).filter
      (fun n => decide (m1.idsAt n = [] ∨ m1.clusterAt n ≠ [])) with
  | nil =>
    refine ⟨_, [p], rfl, ?_, hd1, ?_, List.mem_singleton.mpr rfl, ?_, ?_⟩
    · refine traceInv_append img s _ [p] hinv hm1 rfl rfl (by simp) ?_ ?_
      · intro q hq
        rw [List.mem_singleton] at hq
        subst hq
        exact hp
      · intro q hq x
        show x ∈ m1.idsAt q ↔ _
        rw [hids1 q hq x, List.mem_singleton]
    · intro q hq x
      show x ∈ m1.idsAt q ↔ _
      rw [hids1 q hq x, List.mem_singleton]
    · intro q hq
      rw [List.mem_singleton] at hq
      subst hq
      exact Or.inl hid0
    · intro E hE
      change E ∈ s.edges.data ++ [[] ++ [p]] at hE
      rcases List.mem_append.mp hE with hE | hE
      · exact hx.chains E hE
      · rw [List.mem_singleton] at hE
        subst hE
        exact List.chain'_singleton p
  | cons n0 rest =>
    have hn0 := hUmem n0 (by rw [hU]; exact List.mem_cons_self _ _)
    cases rest with
    | nil =>
      obtain ⟨path, s3, htr, post, hwalk⟩ := traceEdgeChecked_follow img
        (img.rows * img.cols + 1) { s with edgeMap := m1 } n0 ([] ++ [p]) p hm1 hp hpe hcq hq1
        hn0.1
        (by rcases hn0.2 with h | h
            · exact Or.inr (Or.inl h)
            · exact Or.inl h)
        (hfuel m1)
      refine ⟨s3, p :: path, htr, single n0 path s3 post, post.clusters.trans hd1,
        idsOf n0 path s3 post, List.mem_cons_self _ _, ?_, ?_⟩
      · intro q hq
        rcases List.mem_cons.mp hq with rfl | hq
        · exact Or.inl hid0
        · exact entered1 n0 path s3 hn0.2 post q hq
      · intro E hE
        rw [post.edges] at hE
        rcases List.mem_append.mp hE with hE | hE
        · exact hx.chains E hE
        · rw [List.mem_singleton] at hE
          subst hE
          exact chainOf n0 path hn0.1 post.head hwalk
    | cons n1 rest2 =>
      have hn1 := hUmem n1 (by rw [hU]; simp)
      have hrest2 : rest2 = [] := by
        rw [hU] at hUlen
        simp only [List.length_cons] at hUlen
        exact List.length_eq_zero.mp (by omega)
      subst hrest2
      have hne : n1 ≠ n0 := by
        rw [hU] at hUnd
        intro e
        subst e
        simp at hUnd
      obtain ⟨path1, s3, htr1, post1, hwalk1⟩ := traceEdgeChecked_follow img
        (img.rows * img.cols + 1) { s with edgeMap := m1 } n0 [p] p hm1 hp hpe hcq hq1 hn0.1
        (by rcases hn0.2 with h | h
            · exact Or.inr (Or.inl h)
            · exact Or.inl h)
        (hfuel m1)
      have hinv3 := single n0 path1 s3 post1
      have hcl3 : ∀ q, s3.edgeMap.clusterAt q = m1.clusterAt q :=
        clusterAt_congr m1 s3.edgeMap
          (post1.mapOk.cols_eq.trans hm1.cols_eq.symm) post1.clusters
      have hp3 : s3.edgeMap.idsAt p ≠ [] := by
        intro h0
        exact hq1 (eq_nil_of_subset_nil _ _
          (fun x hxm => (post1.ids p hp x).mpr (Or.inl hxm)) h0)
      obtain ⟨path2, s4, htr2, post2, hwalk2⟩ := traceEdgeChecked_follow img
        (img.rows * img.cols + 1) s3 n1 [p] p post1.mapOk hp hpe (by rw [hcl3 p]; exact hcq)
        hp3 hn1.1
        (second_branch_entry img { s with edgeMap := m1 } s3 p n0 n1 path1 [p] hm1 post1 hp hpe
          hcq hq1 hn0.1 hn1.1 hne hn1.2)
        (hfuel s3.edgeMap)
      have hpath2 : path2 ≠ [] := by
        intro h0
        have := post2.head
        rw [h0] at this
        simp at this
      obtain ⟨s5, h5, hinv5⟩ := traceInv_merge img s3 s4 s.edges.data p path1 path2 hinv3
        post1.edges post2.mapOk post2.edges post2.counter hpath2
        (fun q hq => (post2.inside q hq).1) post2.ids
      have hc3 : s3.edgeIdCounter = s.edgeIdCounter + 1 := post1.counter
      have hc4 : s4.edgeIdCounter = s.edgeIdCounter + 2 := by
        rw [post2.counter, hc3]; ring
      have e1 : s4.edgeIdCounter - 2 = s.edgeIdCounter := by omega
      have e2 : s4.edgeIdCounter - 1 = s.edgeIdCounter + 1 := by omega
      have h5o : mergeOrdered s4 s.edgeIdCounter (s.edgeIdCounter + 1) = some s5 := by
        have h5c := h5
        rw [e1, e2, mergeEdges_of_lt _ _ _ (by omega)] at h5c
        exact h5c
      obtain ⟨A, B, M, hA, hB, hsp, hdata, hre, hcnt⟩ := mergeOrdered_some s4 s5 _ _ h5o
      have hlen : (s.edges.data.length : Int) = s.edgeIdCounter := hinv.counter.symm
      have hB2 : B = p :: path2 := by
        unfold Edges.getEdge at hB
        rw [post2.edges, vecGet?_append_singleton, if_pos (by rw [post1.edges]; simp; omega)]
          at hB
        exact (Option.some.inj hB).symm
      subst hB2
      have hb4 := mapOk_inBounds img s4.edgeMap post2.mapOk
      obtain ⟨m2, hre2, r2, c2, d2, wf2, n2, ids2⟩ := reassignEdgeIds_spec s.edgeIdCounter
        (s.edgeIdCounter + 1) (p :: path2) s4.edgeMap post2.mapOk.wf post2.mapOk.nodup
        (by
          intro q hq
          rcases List.mem_cons.mp hq with rfl | hq
          · exact (hb4 q).mp hp
          · exact (hb4 q).mp (post2.inside q hq).1)
      rw [hre] at hre2
      obtain rfl := Option.some.inj hre2
      have hold : ∀ q, img.inside q → ∀ x ∈ s.edgeMap.idsAt q, x < s.edgeIdCounter := by
        intro q hq x hxm
        obtain ⟨E, hE, _, _⟩ := hinv.agree.stored_sound q
          ((mapOk_inBounds img _ hinv.mapOk q).mp hq) x hxm
        have := (vecGet?_bounds _ _ _ hE).2
        omega
      have hs4 : ∀ E ∈ s4.edges.data, E.Chain' isNeighbor8 := by
        intro E hE
        rw [post2.edges, post1.edges] at hE
        rcases List.mem_append.mp hE with hE | hE
        · rcases List.mem_append.mp hE with hE | hE
          · exact hx.chains E hE
          · rw [List.mem_singleton] at hE
            subst hE
            exact chainOf n0 path1 hn0.1 post1.head hwalk1
        · rw [List.mem_singleton] at hE
          subst hE
          exact chainOf n1 path2 hn1.1 post2.head hwalk2
      refine ⟨s5, p :: (path1 ++ path2), ?_, hinv5,
        d2.trans (post2.clusters.trans (post1.clusters.trans hd1)), ?_,
        List.mem_cons_self _ _, ?_,
        mergeEdges_chain isNeighbor8 isNeighbor8_symm s4 s5 _ _ h5 hs4⟩
      · show (if ([] : List Point) = [] then _ else _) = _
        rw [if_pos rfl]
        show (traceEdgeChecked img (img.rows * img.cols + 1) { s with edgeMap := m1 } n0
          [p]).bind _ = _
        rw [htr1]
        show (traceEdgeChecked img (img.rows * img.cols + 1) s3 n1 [p]).bind _ = _
        rw [htr2]
        exact h5
      · intro q hq x
        rw [ids2 q ((hb4 q).mp hq) x, post2.ids q hq x, idsOf n0 path1 s3 post1 q hq x, hc3]
        exact seed_ids_after_merge p q path1 path2 x s.edgeIdCounter _ (hold q hq x)
      · intro q hq
        rcases List.mem_cons.mp hq with rfl | hq
        · exact Or.inl hid0
        · rcases List.mem_append.mp hq with hq | hq
          · exact entered1 n0 path1 s3 hn0.2 post1 q hq
          · have hqin := (post2.inside q hq).1
            have key : m1.idsAt q = [] ∨ m1.clusterAt q ≠ [] := by
              rcases post2.entered q hq with h | h | h
              · rw [h]; exact hn1.2
              · left
                exact eq_nil_of_subset_nil _ _
                  (fun x hxm => (post1.ids q hqin x).mpr (Or.inl hxm)) h
              · rw [hcl3 q] at h; exact Or.inr h
            rcases key with h | h
            · exact Or.inl (hmono q hqin h)
            · rw [hcl1 q] at h; exact Or.inr h

/-! ## The raster loop with the instrumented `traceEdge` -/

/-- One iteration of the raster loop with the instrumented `traceEdge`. -/
theorem tracePixelChecked_spec (img : Mat) (s : EdgeProcessor) (p : Point)
    (hx : TraceInvX img s) (hp : img.inside p) :
    ∃ s2, tracePixelChecked img s p = some s2 ∧ TraceInvX img s2 ∧
      s2.edgeMap.dataClusters = s.edgeMap.dataClusters ∧
      (∀ q, img.inside q → s.edgeMap.idsAt q ≠ [] → s2.edgeMap.idsAt q ≠ []) ∧
      (img.px p.y p.x > 0 → s2.edgeMap.clusterAt p = [] → s2.edgeMap.idsAt p ≠ []) := by
  have hinv := hx.inv
  have hb := (mapOk_inBounds img s.edgeMap hinv.mapOk p).mp hp
  unfold tracePixelChecked
  by_cases hedge : img.px p.y p.x > 0
  · simp only [hedge, if_true, getNumberOfEdgeIds_of_inBounds s.edgeMap hinv.mapOk.wf p hb,
      getClusterPoints_of_inBounds s.edgeMap hinv.mapOk.wf p hb, Option.bind_eq_bind,
      Option.some_bind, Option.pure_def]
    by_cases hn : ((s.edgeMap.idsAt p).length : Int) = 0
    · rw [if_pos hn]
      have hid0 : s.edgeMap.idsAt p = [] := List.length_eq_zero.mp (by omega)
      by_cases hc : (s.edgeMap.clusterAt p).length = 0
      · rw [if_pos hc]
        obtain ⟨s2, h1, h2, h3, h4, h5⟩ :=
          traceEdgeChecked_seed img s p hx hp hedge (List.length_eq_zero.mp hc) hid0
        exact ⟨s2, h1, h2, h3, h4, fun _ _ => h5⟩
      · rw [if_neg hc]
        refine ⟨s, rfl, hx, rfl, fun _ _ h => h, fun _ h => ?_⟩
        exact absurd (by rw [h]; rfl) hc
    · rw [if_neg hn]
      refine ⟨s, rfl, hx, rfl, fun _ _ h => h, fun _ _ h => ?_⟩
      rw [h] at hn
      exact hn rfl
  · simp only [hedge, if_false, Option.pure_def]
    exact ⟨s, rfl, hx, rfl, fun _ _ h => h, fun h => h.elim⟩

/-- The raster loop with the instrumented `traceEdge` over a list of pixels of
the image: afterwards every edge pixel of the list outside the clusters has an
id. -/
theorem traceFoldChecked_spec (img : Mat) :
    ∀ (l : List Point) (s : EdgeProcessor), TraceInvX img s → (∀ p ∈ l, img.inside p) →
    ∃ s2, l.foldlM (tracePixelChecked img) s = some s2 ∧ TraceInvX img s2 ∧
      s2.edgeMap.dataClusters = s.edgeMap.dataClusters ∧
      (∀ q, img.inside q → s.edgeMap.idsAt q ≠ [] → s2.edgeMap.idsAt q ≠ []) ∧
      (∀ q ∈ l, img.px q.y q.x > 0 → s2.edgeMap.clusterAt q = [] →
        s2.edgeMap.idsAt q ≠ []) := by
  intro l
  induction l with
  | nil =>
    intro s hx _
    exact ⟨s, rfl, hx, rfl, fun _ _ h => h, fun q hq => absurd hq (List.not_mem_nil _)⟩
  | cons p rest ih =>
    intro s hx hl
    have hp := hl p (List.mem_cons_self _ _)
    obtain ⟨s1, h1, hx1, hd1, hmono1, hcov1⟩ := tracePixelChecked_spec img s p hx hp
    obtain ⟨s2, h2, hx2, hd2, hmono2, hcov2⟩ :=
      ih s1 hx1 (fun q hq => hl q (List.mem_cons_of_mem _ hq))
    refine ⟨s2, ?_, hx2, hd2.trans hd1, fun q hq h => hmono2 q hq (hmono1 q hq h), ?_⟩
    · rw [List.foldlM_cons]
      simp only [Option.bind_eq_bind, h1, Option.some_bind]
      exact h2
    · intro q hq hqe hqc
      rcases List.mem_cons.mp hq with rfl | hq
      · apply hmono2 q hp
        apply hcov1 hqe
        rw [← clusterAt_congr s1.edgeMap s2.edgeMap
          (hx2.inv.mapOk.cols_eq.trans hx1.inv.mapOk.cols_eq.symm) hd2 q]
        exact hqc
      · exact hcov2 q hq hqe hqc

/-- The run of `traceEdges` with the instrumented `traceEdge` returns and
leaves the extended invariant; every edge pixel outside the clusters has an
id. -/
theorem traceEdgesChecked_spec (img : Mat) (s : EdgeProcessor) :
    ∃ s2, traceEdgesChecked img s = some s2 ∧ TraceInvX img s2 ∧
      (∀ q, img.inside q → img.px q.y q.x > 0 → s2.edgeMap.clusterAt q = [] →
        s2.edgeMap.idsAt q ≠ []) := by
  obtain ⟨m, hm, hok, hd, hcomplete⟩ := preprocessClusters_spec img
    (EdgeMap.init img.rows img.cols) (init_wf img.rows img.cols) rfl rfl
    (init_clustersEmpty _ _)
  have hids : ∀ L ∈ m.dataEdgeIds, L = [] := by
    intro L hL
    rw [hd] at hL
    exact List.eq_of_mem_replicate hL
  have h0 := idsAt_of_all_empty m hids
  have hx0 : TraceInvX img { edgeIdCounter := 0, edges := ⟨[]⟩, edgeMap := m } := by
    refine ⟨traceInv_start img m hok hids hcomplete, ?_, ?_⟩
    · intro E hE
      exact absurd hE (List.not_mem_nil _)
    · intro p _ _
      show (m.idsAt p).length ≤ 1
      rw [h0 p]
      simp
  obtain ⟨s2, h2, hx2, _, _, hcov⟩ := traceFoldChecked_spec img img.raster
    { edgeIdCounter := 0, edges := ⟨[]⟩, edgeMap := m } hx0
    (fun p hp => (mem_raster img p).mp hp)
  refine ⟨s2, ?_, hx2, fun q hq => hcov q ((mem_raster img q).mpr hq)⟩
  unfold traceEdgesChecked
  simp only [hm, Option.bind_eq_bind, Option.some_bind]
  exact h2

/-- Whatever the raster loop with the instrumented `traceEdge` returns at a
pixel, the raster loop of `traceEdges` returns. -/
theorem tracePixel_of_checked (img : Mat) (s s2 : EdgeProcessor) (p : Point)
    (h : tracePixelChecked img s p = some s2) : tracePixel img s p = some s2 := by
  unfold tracePixelChecked at h
  unfold tracePixel
  by_cases hedge : img.px p.y p.x > 0
  · rw [if_pos hedge] at h ⊢
    cases hn : s.edgeMap.getNumberOfEdgeIds p.x p.y with
    | none => rw [hn] at h; simp at h
    | some n =>
      rw [hn] at h
      simp only [Option.bind_eq_bind, Option.some_bind] at h ⊢
      by_cases hn0 : n = 0
      · rw [if_pos hn0] at h ⊢
        cases hc : s.edgeMap.getClusterPoints p.x p.y with
        | none => rw [hc] at h; simp at h
        | some cl =>
          rw [hc] at h
          simp only [Option.some_bind] at h ⊢
          by_cases hl : cl.length = 0
          · rw [if_pos hl] at h ⊢
            exact traceEdge_of_checked img _ _ _ _ _ h
          · rw [if_neg hl] at h ⊢
            exact h
      · rw [if_neg hn0] at h ⊢
        exact h
  · rw [if_neg hedge] at h ⊢
    exact h

/-- Whatever the raster loop with the instrumented `traceEdge` returns, the
raster loop of `traceEdges` returns. -/
theorem traceFold_of_checked (img : Mat) :
    ∀ (l : List Point) (s s2 : EdgeProcessor),
      l.foldlM (tracePixelChecked img) s = some s2 → l.foldlM (tracePixel img) s = some s2 := by
  intro l
  induction l with
  | nil =>
    intro s s2 h
    rw [List.foldlM_nil] at h ⊢
    exact h
  | cons p rest ih =>
    intro s s2 h
    rw [List.foldlM_cons] at h ⊢
    cases h1 : tracePixelChecked img s p with
    | none => rw [h1] at h; simp at h
    | some s1 =>
      rw [h1] at h
      rw [tracePixel_of_checked img s s1 p h1]
      exact ih s1 s2 h

/-- Whatever `traceEdges` with the instrumented `traceEdge` returns,
`traceEdges` returns. -/
theorem traceEdges_of_checked (img : Mat) (s s2 : EdgeProcessor)
    (h : traceEdgesChecked img s = some s2) : traceEdges img s = some s2 := by
  unfold traceEdgesChecked at h
  unfold traceEdges
  cases hm : preprocessClusters img (EdgeMap.init img.rows img.cols) with
  | none => simp [hm] at h
  | some m =>
    simp only [hm, Option.bind_eq_bind, Option.some_bind] at h ⊢
    exact traceFold_of_checked img _ _ _ h

/-! ### Claims on the calls of `traceEdge` made by `traceEdges` -/

/-- The check of the instrumented `traceEdge` is effective: at the centre of
the plus-shaped image, with an empty cluster index, the call finds four
unvisited neighbours; `traceEdge` returns without storing the sequence, the
instrumented copy fails. -/
theorem traceEdgeChecked_rejects_dropping :
    traceEdge plusImage 1 ⟨0, ⟨[]⟩, EdgeMap.init 3 3⟩ ⟨1, 1⟩ [] =
      some ⟨0, ⟨[]⟩, { EdgeMap.init 3 3 with
        dataEdgeIds := [[], [], [], [], [0], [], [], [], []] }⟩ ∧
    traceEdgeChecked plusImage 1 ⟨0, ⟨[]⟩, EdgeMap.init 3 3⟩ ⟨1, 1⟩ [] = none := by
  decide

/-- C32: for every image and every start state `traceEdges` returns, and the
run with the instrumented `traceEdge`, which fails in a call with three or
more unvisited neighbours and in a call with two unvisited neighbours and a
non-empty incoming sequence, returns the same state.  So in every call made
during `traceEdges` the set of unvisited neighbours has 0, 1 or 2 members, and
the only calls that start two new edges are those whose incoming sequence is
empty: no traced pixel sequence is dropped. -/
theorem traceEdges_calls_never_drop_a_sequence (img : Mat) (s : EdgeProcessor) :
    ∃ s2, traceEdges img s = some s2 ∧ traceEdgesChecked img s = some s2 := by
  obtain ⟨s2, h2, _, _⟩ := traceEdgesChecked_spec img s
  exact ⟨s2, traceEdges_of_checked img s s2 h2, h2⟩

/-- C34: every edge of the table that `traceEdges` returns is a chain of
8-neighbours (every two consecutive pixels are 8-neighbours); the endpoint
matching of `mergeEdges` returns a chain of 8-neighbours whenever it returns
on two such chains, and `mergeEdges` keeps a table of such chains one. -/
theorem traceEdges_edges_are_neighbor_chains (img : Mat) (s : EdgeProcessor) :
    (∃ s2, traceEdges img s = some s2 ∧ ∀ E ∈ s2.edges.data, E.Chain' isNeighbor8) ∧
    (∀ A B R : List Point, A.Chain' isNeighbor8 → B.Chain' isNeighbor8 →
      spliceEdges A B = some R → R.Chain' isNeighbor8) ∧
    (∀ (s1 s2 : EdgeProcessor) (a b : Int), mergeEdges s1 a b = some s2 →
      (∀ E ∈ s1.edges.data, E.Chain' isNeighbor8) →
      ∀ E ∈ s2.edges.data, E.Chain' isNeighbor8) := by
  refine ⟨?_, ?_, ?_⟩
  · obtain ⟨s2, h2, hx2, _⟩ := traceEdgesChecked_spec img s
    exact ⟨s2, traceEdges_of_checked img s s2 h2, hx2.chains⟩
  · intro A B R hA hB h
    obtain ⟨_, _, rfl⟩ := spliceEdges_some A B R h
    exact spliceSpec_chain isNeighbor8 isNeighbor8_symm A B hA hB
  · intro s1 s2 a b h hch
    exact mergeEdges_chain isNeighbor8 isNeighbor8_symm s1 s2 a b h hch

/-- C39: for every image and every start state `traceEdges` returns a state in
which every edge pixel that lies in no cluster carries exactly one edge id;
this id is an index of the edge table, and the edge it names is not empty and
contains the pixel. -/
theorem traceEdges_one_id_outside_clusters (img : Mat) (s : EdgeProcessor) :
    ∃ s2, traceEdges img s = some s2 ∧
      ∀ p, img.inside p → img.px p.y p.x > 0 → s2.edgeMap.clusterAt p = [] →
        ∃ e E, s2.edgeMap.idsAt p = [e] ∧ 0 ≤ e ∧ e < s2.edges.size ∧
          s2.edges.getEdge e = some E ∧ E ≠ [] ∧ p ∈ E := by
  obtain ⟨s2, h2, hx2, hcov⟩ := traceEdgesChecked_spec img s
  refine ⟨s2, traceEdges_of_checked img s s2 h2, ?_⟩
  intro p hp hpe hpc
  have hne := hcov p hp hpe hpc
  have hlen := hx2.single p hp hpc
  obtain ⟨e, he⟩ : ∃ e, s2.edgeMap.idsAt p = [e] := by
    match hids : s2.edgeMap.idsAt p with
    | [] => exact absurd hids hne
    | [e] => exact ⟨e, rfl⟩
    | _ :: _ :: _ => rw [hids] at hlen; simp at hlen
  obtain ⟨E, hE, hEne, hpE⟩ := hx2.inv.agree.stored_sound p
    ((mapOk_inBounds img _ hx2.inv.mapOk p).mp hp) e (by rw [he]; simp)
  obtain ⟨h0, h1⟩ := vecGet?_bounds _ _ _ hE
  exact ⟨e, E, he, h0, h1, hE, hEne, hpE⟩

/-! ## The pixels of the bridge lie between its end pixels -/

/-- The points of the loop of `getLinePoints` lie in the box spanned by the
start and the end of the loop. -/
theorem lineLoop_mem_box (s : Bool) (x0 y0 x1 dx dy ystep e0 : Int)
    (hdx : 0 < dx) (hdy0 : 0 ≤ dy) (hdy : dy ≤ dx) (he0 : 0 ≤ e0) (he0' : e0 < dx)
    (hx01 : x1 = x0 + dx) (pt : Point) :
    ∀ (fuel : Nat) (x y e n : Int), x0 ≤ x →
      0 ≤ e → e < dx → y = y0 + ystep * n → e = e0 - (x - x0) * dy + n * dx →
      pt ∈ lineLoop s x1 dx dy ystep fuel x y e →
      ∃ u v k, pt = (if s then (⟨v, u⟩ : Point) else ⟨u, v⟩) ∧ x0 ≤ u ∧ u ≤ x1 ∧
        0 ≤ k ∧ k ≤ dy ∧ v = y0 + ystep * k := by
  intro fuel
  induction fuel with
  | zero => intro x y e n _ _ _ _ _ h; simp [lineLoop] at h
  | succ m ih =>
    intro x y e n hx0 he he' hy hinv hmem
    by_cases hx : x ≤ x1
    · rw [lineLoop_succ _ _ _ _ _ _ _ _ _ hx] at hmem
      rcases List.mem_cons.mp hmem with hpt | hmem
      · have h1 : dx * n = e - e0 + (x - x0) * dy := by rw [hinv]; ring
        have h2 : (x - x0) * dy ≤ dx * dy :=
          mul_le_mul_of_nonneg_right (by omega) hdy0
        have h3 : 0 ≤ (x - x0) * dy := mul_nonneg (by omega) hdy0
        have h4 : dx * n < dx * (dy + 1) := by rw [h1]; nlinarith
        have h5 : dx * (-1) < dx * n := by rw [h1]; nlinarith
        have h6 := lt_of_mul_lt_mul_left h4 hdx.le
        have h7 := lt_of_mul_lt_mul_left h5 hdx.le
        exact ⟨x, y, n, hpt, hx0, hx, by omega, by omega, hy⟩
      · by_cases hlt : e - dy < 0
        · simp only [if_pos hlt] at hmem
          exact ih (x + 1) (y + ystep) (e - dy + dx) (n + 1) (by omega) (by omega) (by omega)
            (by rw [hy]; ring) (by rw [hinv]; ring) hmem
        · simp only [if_neg hlt] at hmem
          exact ih (x + 1) y (e - dy) n (by omega) (by omega) (by omega) hy
            (by rw [hinv]; ring) hmem
    · rw [lineLoop_past _ _ _ _ _ _ _ _ _ (not_le.mp hx)] at hmem
      simp at hmem

/-- The points of the normalised bridge lie in the box spanned by its end
pixels. -/
theorem lineFrom_mem_box (s : Bool) (x0 y0 x1 y1 : Int) (h : x0 ≤ x1)
    (hflat : iabs (y1 - y0) ≤ x1 - x0) (pt : Point) (hmem : pt ∈ lineFrom s x0 y0 x1 y1) :
    ∃ u v, pt = (if s then (⟨v, u⟩ : Point) else ⟨u, v⟩) ∧ x0 ≤ u ∧ u ≤ x1 ∧
      min y0 y1 ≤ v ∧ v ≤ max y0 y1 := by
  rcases eq_or_lt_of_le h with he | hl
  · subst he
    have hy01 : y1 = y0 := by
      unfold iabs at hflat; split_ifs at hflat <;> omega
    subst hy01
    rw [lineFrom_single, List.mem_singleton] at hmem
    exact ⟨x0, y1, hmem, le_refl _, le_refl _, by simp, by simp⟩
  · unfold lineFrom at hmem
    have hb := tdiv_two_bounds (x1 - x0) (by omega)
    have hdy0 : 0 ≤ iabs (y1 - y0) := by unfold iabs; split_ifs <;> omega
    obtain ⟨u, v, k, hpt, hu0, hu1, hk0, hk1, hv⟩ :=
      lineLoop_mem_box s x0 y0 x1 (x1 - x0) (iabs (y1 - y0))
        (if y0 < y1 then (1 : Int) else -1) (Int.tdiv (x1 - x0) 2) (by omega) hdy0 hflat
        hb.1 hb.2 (by omega) pt (x1 - x0 + 1).toNat x0 y0 (Int.tdiv (x1 - x0) 2) 0
        (le_refl _) hb.1 hb.2 (by ring) (by ring) hmem
    refine ⟨u, v, hpt, hu0, hu1, ?_, ?_⟩
    · unfold iabs at hk1
      split_ifs at hv hk1 <;> simp only [min_def, max_def] <;> split_ifs <;> nlinarith
    · unfold iabs at hk1
      split_ifs at hv hk1 <;> simp only [min_def, max_def] <;> split_ifs <;> nlinarith

/-- The pixels of the bridge lie in the box spanned by its end pixels. -/
theorem getLinePoints_mem_box (p q pt : Point) (hmem : pt ∈ getLinePoints p q) :
    min p.x q.x ≤ pt.x ∧ pt.x ≤ max p.x q.x ∧ min p.y q.y ≤ pt.y ∧ pt.y ≤ max p.y q.y := by
  rw [getLinePoints_cases] at hmem
  by_cases hs : iabs (q.y - p.y) > iabs (q.x - p.x)
  · rw [if_pos hs] at hmem
    by_cases hgt : p.y > q.y
    · rw [if_pos hgt] at hmem
      obtain ⟨u, v, hpt, h1, h2, h3, h4⟩ := lineFrom_mem_box true q.y q.x p.y p.x (by omega)
        (by unfold iabs at hs ⊢; split_ifs at hs ⊢ <;> omega) pt hmem
      simp only [if_true] at hpt
      subst hpt
      simp only [min_def, max_def] at h3 h4 ⊢
      split_ifs at h3 h4 ⊢ <;> omega
    · rw [if_neg hgt] at hmem
      obtain ⟨u, v, hpt, h1, h2, h3, h4⟩ := lineFrom_mem_box true p.y p.x q.y q.x (by omega)
        (by unfold iabs at hs ⊢; split_ifs at hs ⊢ <;> omega) pt hmem
      simp only [if_true] at hpt
      subst hpt
      simp only [min_def, max_def] at h3 h4 ⊢
      split_ifs at h3 h4 ⊢ <;> omega
  · rw [if_neg hs] at hmem
    by_cases hgt : p.x > q.x
    · rw [if_pos hgt] at hmem
      obtain ⟨u, v, hpt, h1, h2, h3, h4⟩ := lineFrom_mem_box false q.x q.y p.x p.y (by omega)
        (by unfold iabs at hs ⊢; split_ifs at hs ⊢ <;> omega) pt hmem
      simp only [Bool.false_eq_true, if_false] at hpt
      subst hpt
      simp only [min_def, max_def] at h3 h4 ⊢
      split_ifs at h3 h4 ⊢ <;> omega
    · rw [if_neg hgt] at hmem
      obtain ⟨u, v, hpt, h1, h2, h3, h4⟩ := lineFrom_mem_box false p.x p.y q.x q.y (by omega)
        (by unfold iabs at hs ⊢; split_ifs at hs ⊢ <;> omega) pt hmem
      simp only [Bool.false_eq_true, if_false] at hpt
      subst hpt
      simp only [min_def, max_def] at h3 h4 ⊢
      split_ifs at h3 h4 ⊢ <;> omega

/-- The bridge between two pixels of the grid lies in the grid. -/
theorem getLinePoints_inBounds (m : EdgeMap) (p q pt : Point) (hp : m.inBounds p)
    (hq : m.inBounds q) (hmem : pt ∈ getLinePoints p q) : m.inBounds pt := by
  obtain ⟨h1, h2, h3, h4⟩ := getLinePoints_mem_box p q pt hmem
  unfold EdgeMap.inBounds at hp hq ⊢
  simp only [min_def, max_def] at h1 h2 h3 h4
  split_ifs at h1 h2 h3 h4 <;> omega

/-! ## Closing an edge with the bridge between its end pixels -/

/-- The function `Edges::isClosed` on a non-empty edge is the test `seqClosed`
on its pixel sequence. -/
theorem isClosed_of_getEdge (e : Edges) (id : Int) (E : List Point)
    (hE : e.getEdge id = some E) (hne : E ≠ []) : e.isClosed id = some (seqClosed E) := by
  obtain ⟨a, b, ha, hb⟩ := head?_getLast?_of_ne_nil E hne
  rw [isClosed_eq e id E a b hE ha hb]
  unfold seqClosed
  rw [ha, hb]

/-- A chain of 8-neighbours between two pixels that are more than one step
apart has at least three pixels. -/
theorem three_le_length_of_far (B : List Point) (a b : Point) (hB : B.Chain' isNeighbor8)
    (hfar : ¬ max (iabs (a.x - b.x)) (iabs (a.y - b.y)) ≤ 1)
    (hends : (B.head? = some a ∧ B.getLast? = some b) ∨
      (B.head? = some b ∧ B.getLast? = some a)) : 3 ≤ B.length := by
  match B, hB, hends with
  | [], _, hends => rcases hends with h | h <;> simp at h
  | [x], _, hends =>
    exfalso
    apply hfar
    have hab : a = b := by
      rcases hends with h | h <;> simp at h <;> rw [← h.1, ← h.2]
    subst hab
    unfold iabs
    simp
  | [x, y], hB, hends =>
    exfalso
    apply hfar
    have hxy : isNeighbor8 x y := by
      simpa using hB
    unfold isNeighbor8 at hxy
    rcases hends with h | h
    · simp at h
      obtain ⟨rfl, rfl⟩ := h
      unfold iabs at hxy ⊢
      simp only [max_def] at hxy ⊢
      split_ifs at hxy ⊢ <;> omega
    · simp at h
      obtain ⟨rfl, rfl⟩ := h
      unfold iabs at hxy ⊢
      simp only [max_def] at hxy ⊢
      split_ifs at hxy ⊢ <;> omega
  | _ :: _ :: _ :: _, _, _ => simp

/-- The splice of a non-closed edge with a chain of 8-neighbours between its
end pixels: the interior of the chain is put in front of the edge, and the new
first pixel is an 8-neighbour of the last pixel. -/
theorem spliceSpec_closing_bridge (A B : List Point) (a b : Point) (hA : A.head? = some a)
    (hAl : A.getLast? = some b) (hfar : ¬ max (iabs (a.x - b.x)) (iabs (a.y - b.y)) ≤ 1)
    (hB : B.Chain' isNeighbor8)
    (hends : (B.head? = some a ∧ B.getLast? = some b) ∨
      (B.head? = some b ∧ B.getLast? = some a)) :
    ∃ u X, spliceSpec A B = X ++ A ∧ X.head? = some u ∧ isNeighbor8 u b := by
  have h3 := three_le_length_of_far B a b hB hfar hends
  have hab : a ≠ b := by
    intro h
    subst h
    apply hfar
    unfold iabs
    simp
  match B, hB, hends, h3 with
  | x :: y :: z :: rest, hB, hends, _ =>
    rcases hends with ⟨h1, h2⟩ | ⟨h1, h2⟩
    · -- the chain starts at the first pixel of the edge
      have hx : x = a := by simpa using h1
      subst hx
      have htail : (y :: z :: rest).Chain' isNeighbor8 := hB.tail
      have hlast : (y :: z :: rest).getLast? = some b := by
        rw [← h2]
        exact (List.getLast?_cons_cons (a := x) (b := y) (l := z :: rest)).symm
      have hne : (y :: z :: rest).dropLast ≠ [] := by simp
      obtain ⟨_, u, _, hu⟩ := head?_getLast?_of_ne_nil _ hne
      refine ⟨u, ((y :: z :: rest).dropLast).reverse, ?_, ?_, ?_⟩
      · unfold spliceSpec
        rw [if_pos (by rw [hA, h1]), if_pos (by rw [hAl, h2])]
        rfl
      · rw [List.head?_reverse, hu]
      · exact chain_dropLast_getLast isNeighbor8 _ htail u hu b hlast
    · -- the chain starts at the last pixel of the edge
      have hx : x = b := by simpa using h1
      subst hx
      have hdrop : (x :: y :: z :: rest).dropLast.Chain' isNeighbor8 :=
        chain_dropLast isNeighbor8 _ hB
      have hd : (x :: y :: z :: rest).dropLast = x :: (y :: z :: rest).dropLast := by
        simp
      have hne : (y :: z :: rest).dropLast ≠ [] := by simp
      obtain ⟨u, _, hu, _⟩ := head?_getLast?_of_ne_nil _ hne
      refine ⟨u, (y :: z :: rest).dropLast, ?_, hu, ?_⟩
      · unfold spliceSpec
        rw [if_neg (by rw [hA, h1]; intro h; exact hab (Option.some.inj h)),
          if_pos (by rw [hA, h2]), if_pos (by rw [hAl, h1]), hd]
        rfl
      · rw [hd] at hdrop
        exact isNeighbor8_symm _ _
          (chain_head_tail isNeighbor8 _ hdrop x (by simp) u (by simpa using hu))

/-- The splice of a non-closed edge of at least three pixels with a chain of
8-neighbours between its end pixels passes the test of `Edges::isClosed` and
contains the edge. -/
theorem spliceSpec_closes_edge (A B : List Point) (a b : Point) (hA : A.head? = some a)
    (hAl : A.getLast? = some b) (hlen : 3 ≤ A.length)
    (hfar : ¬ max (iabs (a.x - b.x)) (iabs (a.y - b.y)) ≤ 1)
    (hB : B.Chain' isNeighbor8)
    (hends : (B.head? = some a ∧ B.getLast? = some b) ∨
      (B.head? = some b ∧ B.getLast? = some a)) :
    seqClosed (spliceSpec A B) = true := by
  obtain ⟨u, X, hX, hu, hnb⟩ := spliceSpec_closing_bridge A B a b hA hAl hfar hB hends
  have hXne : X ≠ [] := by
    intro h0
    rw [h0] at hu
    simp at hu
  have hAne : A ≠ [] := by
    intro h0
    rw [h0] at hA
    simp at hA
  have hhead : (X ++ A).head? = some u := by
    rw [List.head?_append_of_ne_nil _ hXne, hu]
  have hlast : (X ++ A).getLast? = some b := by
    rw [List.getLast?_append_of_ne_nil _ hAne, hAl]
  have hXlen := List.length_pos.mpr hXne
  rw [hX]
  unfold seqClosed
  rw [hhead, hlast]
  simp only [decide_eq_true_eq, List.length_append]
  refine ⟨?_, by omega⟩
  unfold isNeighbor8 at hnb
  unfold iabs at hnb ⊢
  simp only [max_def] at hnb ⊢
  split_ifs at hnb ⊢ <;> omega

/-! ## The run of `closeEdgesInClusters` -/

/-- A consistent state is a run of no steps. -/
theorem closeRun_refl (s : EdgeProcessor) (hc : Consistent s) : CloseRun s s :=
  ⟨hc, rfl, rfl, rfl, fun _ E hE => ⟨E, hE, Or.inl rfl⟩⟩

/-- Two consecutive parts of a run make a run. -/
theorem closeRun_trans (s s1 s2 : EdgeProcessor) (h1 : CloseRun s s1) (h2 : CloseRun s1 s2) :
    CloseRun s s2 := by
  refine ⟨h2.consistent, h2.clusters.trans h1.clusters, h2.rows.trans h1.rows,
    h2.cols.trans h1.cols, ?_⟩
  intro j E hE
  obtain ⟨E1, hE1, h⟩ := h1.grows j E hE
  obtain ⟨E2, hE2, h'⟩ := h2.grows j E1 hE1
  refine ⟨E2, hE2, ?_⟩
  rcases h with rfl | ⟨hc1, hc0, hsub⟩
  · exact h'
  · rcases h' with rfl | ⟨_, hc1', _⟩
    · exact Or.inr ⟨hc1, hc0, hsub⟩
    · rw [hc1] at hc1'
      exact absurd hc1' (by simp)

/-- A closed edge is not changed by the run. -/
theorem closeRun_closed (s s2 : EdgeProcessor) (h : CloseRun s s2) (j : Int) (E : List Point)
    (hE : s.edges.getEdge j = some E) (hcl : seqClosed E = true) :
    s2.edges.getEdge j = some E := by
  obtain ⟨E2, hE2, h'⟩ := h.grows j E hE
  rcases h' with rfl | ⟨_, h0, _⟩
  · exact hE2
  · rw [hcl] at h0
    exact absurd h0 (by simp)

/-- The cluster lists are the same throughout the run. -/
theorem closeRun_clusterAt (s s2 : EdgeProcessor) (h : CloseRun s s2) (p : Point) :
    s2.edgeMap.clusterAt p = s.edgeMap.clusterAt p :=
  clusterAt_congr s.edgeMap s2.edgeMap h.cols h.clusters p

/-- A candidate of an earlier state that is closed by a later part of the run
whenever it is still a candidate is closed at the end of that part. -/
theorem closeRun_lift (s s1 s2 : EdgeProcessor) (h1 : CloseRun s s1) (h2 : CloseRun s1 s2)
    (p : Point) (j : Int)
    (hstep : ∀ E1, s1.edges.getEdge j = some E1 → Eligible s1.edgeMap p E1 →
      ∃ E2, s2.edges.getEdge j = some E2 ∧ seqClosed E2 = true)
    (E : List Point) (hE : s.edges.getEdge j = some E) (hel : Eligible s.edgeMap p E) :
    ∃ E2, s2.edges.getEdge j = some E2 ∧ seqClosed E2 = true := by
  obtain ⟨E1, hE1, h⟩ := h1.grows j E hE
  rcases h with rfl | ⟨hc1, _, _⟩
  · apply hstep E1 hE1
    unfold Eligible at hel ⊢
    rw [closeRun_clusterAt s s1 h1 p]
    exact hel
  · exact ⟨E1, closeRun_closed s1 s2 h2 j E1 hE1 hc1, hc1⟩

/-- The bridging branch of `closeEdgesInClusters`: the bridge between the end
pixels of a non-closed candidate is pushed and merged into the candidate, which
is closed afterwards. -/
theorem closeBridge_spec (s : EdgeProcessor) (hc : Consistent s) (p : Point)
    (hp : s.edgeMap.inBounds p) (id : Int) (E : List Point) (a b : Point)
    (hE : s.edges.getEdge id = some E) (ha : E.head? = some a) (hb : E.getLast? = some b)
    (h5 : 5 ≤ E.length) (ha_in : a ∈ s.edgeMap.clusterAt p)
    (hb_in : b ∈ s.edgeMap.clusterAt p) (hcl0 : seqClosed E = false) :
    ∃ s2, mergeEdges { s with edges := s.edges.pushBack (getLinePoints a b) } id
        ((s.edges.pushBack (getLinePoints a b)).size - 1) = some s2 ∧
      CloseRun s s2 ∧ ∃ E2, s2.edges.getEdge id = some E2 ∧ seqClosed E2 = true := by
  obtain ⟨hid0, hid1⟩ := vecGet?_bounds _ _ _ hE
  have hne : E ≠ [] := by
    intro h0
    rw [h0] at h5
    simp at h5
  have hfar : ¬ max (iabs (a.x - b.x)) (iabs (a.y - b.y)) ≤ 1 := by
    intro h
    unfold seqClosed at hcl0
    rw [ha, hb] at hcl0
    simp only [decide_eq_false_iff_not, not_and] at hcl0
    exact hcl0 h (by omega)
  have hends := getLinePoints_ends a b
  have hchain := getLinePoints_chain a b
  have h3 := three_le_length_of_far _ a b hchain hfar hends
  have hBne : getLinePoints a b ≠ [] := by
    intro h0
    rw [h0] at h3
    simp at h3
  have htmp : (s.edges.pushBack (getLinePoints a b)).size - 1 = (s.edges.data.length : Int) := by
    unfold Edges.size Edges.pushBack
    simp
  rw [htmp]
  have hget1 : ∀ i, Edges.getEdge (s.edges.pushBack (getLinePoints a b)) i =
      if i = (s.edges.data.length : Int) then some (getLinePoints a b)
      else s.edges.getEdge i := by
    intro i
    unfold Edges.getEdge Edges.pushBack
    rw [vecGet?_append_singleton]
  have hA1 : Edges.getEdge (s.edges.pushBack (getLinePoints a b)) id = some E := by
    rw [hget1, if_neg (by omega), hE]
  have hB1 : Edges.getEdge (s.edges.pushBack (getLinePoints a b)) (s.edges.data.length : Int) =
      some (getLinePoints a b) := by
    rw [hget1, if_pos rfl]
  have hdef : ¬ singlePointAtFront E (getLinePoints a b) := by
    intro h
    have := h.1
    omega
  have hshare : sharesEndpoint E (getLinePoints a b) := by
    unfold sharesEndpoint
    rcases hends with h | h
    · exact Or.inl (by rw [ha, h.1])
    · exact Or.inr (Or.inl (by rw [ha, h.2]))
  have hBin : ∀ q ∈ getLinePoints a b, s.edgeMap.inBounds q := fun q hq =>
    getLinePoints_inBounds s.edgeMap a b q (hc.clusters p hp a ha_in)
      (hc.clusters p hp b hb_in) hq
  obtain ⟨s2, hmo, wf2, nd2, ag2, _, _, r2, c2, d2⟩ :=
    mergeOrdered_agree_of { s with edges := s.edges.pushBack (getLinePoints a b) } id
      (s.edges.data.length : Int) E (getLinePoints a b) (by omega) hA1 hB1 hne hBne hdef hshare
      hc.wf hc.nodup
      (by
        intro q hq e he
        obtain ⟨E', hE', hE'ne, hqE'⟩ := hc.agree.stored_sound q hq e he
        have := (vecGet?_bounds _ _ _ hE').2
        refine ⟨E', ?_, hE'ne, hqE'⟩
        show Edges.getEdge (s.edges.pushBack (getLinePoints a b)) e = _
        rw [hget1, if_neg (by omega), hE'])
      (by
        intro e E' hne' hE' q hq
        have hE'' : Edges.getEdge (s.edges.pushBack (getLinePoints a b)) e = some E' := hE'
        rw [hget1, if_neg hne'] at hE''
        exact hc.agree.edge_registered e E' hE'' q hq)
      hBin
  obtain ⟨s3, hme, hget2, _⟩ :=
    mergeEdges_lt_spec { s with edges := s.edges.pushBack (getLinePoints a b) } id
      (s.edges.data.length : Int) E (getLinePoints a b) (by omega) hA1 hB1 hne hBne hdef
      hc.wf hc.nodup hBin
  have hsame : s3 = s2 := by
    rw [mergeEdges_of_lt _ _ _ (by omega), hmo] at hme
    exact (Option.some.inj hme).symm
  subst hsame
  have hclosed := spliceSpec_closes_edge E (getLinePoints a b) a b ha hb (by omega) hfar
    hchain hends
  have hib : ∀ q, s3.edgeMap.inBounds q ↔ s.edgeMap.inBounds q :=
    inBounds_congr s.edgeMap s3.edgeMap r2 c2
  refine ⟨s3, hme, ⟨⟨wf2, nd2, ag2, ?_⟩, d2, r2, c2, ?_⟩, ⟨_, ?_, hclosed⟩⟩
  · intro q hq r hr
    rw [clusterAt_congr s.edgeMap s3.edgeMap c2 d2 q] at hr
    exact (hib r).mpr (hc.clusters q ((hib q).mp hq) r hr)
  · intro j Ej hEj
    have hj := (vecGet?_bounds _ _ _ hEj).2
    rw [hget2 j]
    by_cases hji : j = id
    · subst hji
      rw [hE] at hEj
      obtain rfl := Option.some.inj hEj
      rw [if_pos rfl]
      exact ⟨_, rfl, Or.inr ⟨hclosed, hcl0, fun q hq => spliceSpec_left _ _ q hq⟩⟩
    · rw [if_neg hji, if_neg (by omega)]
      show ∃ E2, Edges.getEdge (s.edges.pushBack (getLinePoints a b)) j = some E2 ∧ _
      rw [hget1, if_neg (by omega)]
      exact ⟨Ej, hEj, Or.inl rfl⟩
  · rw [hget2 id, if_pos rfl]

/-- One iteration of the loop over `clusterEdgeIds`: the call returns, and a
candidate at the pixel is closed afterwards. -/
theorem closeEdgeAt_spec (s : EdgeProcessor) (hc : Consistent s) (p : Point)
    (hp : s.edgeMap.inBounds p) (id : Int) (E : List Point)
    (hE : s.edges.getEdge id = some E) :
    ∃ s2, closeEdgeAt p s id = some s2 ∧ CloseRun s s2 ∧
      (Eligible s.edgeMap p E →
        ∃ E2, s2.edges.getEdge id = some E2 ∧ seqClosed E2 = true) := by
  have hE' : vecGet? s.edges.data id = some E := hE
  have hsize : s.edges.getEdgeSize id = some E.length := by
    unfold Edges.getEdgeSize
    rw [hE']
    rfl
  unfold closeEdgeAt
  simp only [hsize, Option.bind_eq_bind, Option.some_bind, Option.pure_def]
  by_cases h5 : E.length ≥ 5
  · rw [if_pos h5]
    have hne : E ≠ [] := by
      intro h0
      rw [h0] at h5
      simp at h5
    obtain ⟨a, b, ha, hb⟩ := head?_getLast?_of_ne_nil E hne
    have hstart : s.edges.getStartPoint id = some a := by
      unfold Edges.getStartPoint
      simp only [hE', Option.bind_eq_bind, Option.some_bind, ha]
    have hend : s.edges.getEndPoint id = some b := by
      unfold Edges.getEndPoint
      simp only [hE', Option.bind_eq_bind, Option.some_bind, hb]
    simp only [hstart, hend, Option.some_bind,
      isPointInCluster_of_inBounds s.edgeMap hc.wf p hp,
      isClosed_of_getEdge s.edges id E hE hne]
    by_cases ha_in : a ∈ s.edgeMap.clusterAt p
    · by_cases hb_in : b ∈ s.edgeMap.clusterAt p
      · simp only [ha_in, hb_in, decide_True, if_true, Option.some_bind]
        by_cases hcl : seqClosed E = true
        · simp only [hcl, Bool.not_true, Bool.false_eq_true, if_false]
          exact ⟨s, rfl, closeRun_refl s hc, fun _ => ⟨E, hE, hcl⟩⟩
        · have hcl0 : seqClosed E = false := by simpa using hcl
          simp only [hcl0, Bool.not_false, if_true]
          obtain ⟨s2, h2, hrun, hres⟩ :=
            closeBridge_spec s hc p hp id E a b hE ha hb h5 ha_in hb_in hcl0
          exact ⟨s2, h2, hrun, fun _ => hres⟩
      · simp only [ha_in, hb_in, decide_True, decide_False, if_true, Option.some_bind,
          Bool.false_eq_true, if_false]
        refine ⟨s, rfl, closeRun_refl s hc, fun hel => ?_⟩
        obtain ⟨_, _, b2, hb2, hb2in⟩ := hel
        rw [hb] at hb2
        obtain rfl := Option.some.inj hb2
        exact absurd hb2in hb_in
    · simp only [ha_in, decide_False, Bool.false_eq_true, if_false, Option.some_bind]
      refine ⟨s, rfl, closeRun_refl s hc, fun hel => ?_⟩
      obtain ⟨_, ⟨a2, ha2, ha2in⟩, _⟩ := hel
      rw [ha] at ha2
      obtain rfl := Option.some.inj ha2
      exact absurd ha2in ha_in
  · rw [if_neg h5]
    refine ⟨s, rfl, closeRun_refl s hc, fun hel => ?_⟩
    exact absurd hel.1 h5

/-- The loop of `closeEdgesInClusters` over `clusterEdgeIds` at the pixel `p`:
it returns, and every candidate among the ids is closed afterwards. -/
theorem closeIds_spec (p : Point) :
    ∀ (ids : List Int) (s1 : EdgeProcessor), Consistent s1 → s1.edgeMap.inBounds p →
      (∀ id ∈ ids, ∃ E, s1.edges.getEdge id = some E) →
      ∃ s2, ids.foldlM (closeEdgeAt p) s1 = some s2 ∧ CloseRun s1 s2 ∧
        ∀ id ∈ ids, ∀ E, s1.edges.getEdge id = some E → Eligible s1.edgeMap p E →
          ∃ E2, s2.edges.getEdge id = some E2 ∧ seqClosed E2 = true := by
  intro ids
  induction ids with
  | nil =>
    intro s1 hc _ _
    exact ⟨s1, rfl, closeRun_refl s1 hc, fun id hid => absurd hid (List.not_mem_nil _)⟩
  | cons id rest ih =>
    intro s1 hc hp hvalid
    obtain ⟨E, hE⟩ := hvalid id (List.mem_cons_self _ _)
    obtain ⟨s1', h1, run1, g1⟩ := closeEdgeAt_spec s1 hc p hp id E hE
    obtain ⟨s2, h2, run2, g2⟩ := ih s1' run1.consistent
      ((inBounds_congr s1.edgeMap s1'.edgeMap run1.rows run1.cols p).mpr hp)
      (by
        intro id' hid'
        obtain ⟨E', hE'⟩ := hvalid id' (List.mem_cons_of_mem _ hid')
        obtain ⟨E2, hE2, _⟩ := run1.grows id' E' hE'
        exact ⟨E2, hE2⟩)
    refine ⟨s2, ?_, closeRun_trans s1 s1' s2 run1 run2, ?_⟩
    · rw [List.foldlM_cons, h1]
      exact h2
    · intro id' hid' E' hE' hel
      rcases List.mem_cons.mp hid' with rfl | hid'
      · rw [hE] at hE'
        obtain rfl := Option.some.inj hE'
        obtain ⟨E2, hE2, hcl⟩ := g1 hel
        exact ⟨E2, closeRun_closed s1' s2 run2 id' E2 hE2 hcl, hcl⟩
      · exact closeRun_lift s1 s1' s2 run1 run2 p id' (g2 id' hid') E' hE' hel

/-- The body of the raster loops of `closeEdgesInClusters` at a pixel of the
grid: it returns, and every candidate at the pixel is closed afterwards. -/
theorem closeAt_spec (s : EdgeProcessor) (hc : Consistent s) (p : Point)
    (hp : s.edgeMap.inBounds p) :
    ∃ s2, closeAt s p = some s2 ∧ CloseRun s s2 ∧
      ∀ j E, s.edges.getEdge j = some E → Eligible s.edgeMap p E →
        ∃ E2, s2.edges.getEdge j = some E2 ∧ seqClosed E2 = true := by
  unfold closeAt
  rw [isCluster_of_inBounds s.edgeMap hc.wf p hp]
  simp only [Option.bind_eq_bind, Option.some_bind, Option.pure_def]
  by_cases hcl : s.edgeMap.clusterAt p = []
  · have hdec : decide ((s.edgeMap.clusterAt p).length ≥ 1) = false := by rw [hcl]; rfl
    rw [hdec]
    simp only [Bool.false_eq_true, if_false]
    refine ⟨s, rfl, closeRun_refl s hc, ?_⟩
    intro j E _ hel
    obtain ⟨_, ⟨a, _, ha⟩, _⟩ := hel
    rw [hcl] at ha
    exact absurd ha (List.not_mem_nil _)
  · have hdec : decide ((s.edgeMap.clusterAt p).length ≥ 1) = true := by
      have := List.length_pos.mpr hcl
      simpa using this
    rw [hdec]
    simp only [if_true]
    obtain ⟨ids, hids, _, hmem⟩ :=
      getClusterEdgeIds_of_cluster s.edgeMap hc.wf p hp (hc.clusters p hp)
    rw [hids]
    simp only [Option.some_bind]
    obtain ⟨s2, h2, run2, g2⟩ := closeIds_spec p ids s hc hp
      (by
        intro id hid
        obtain ⟨r, hr, hidr⟩ := (hmem id).mp hid
        obtain ⟨E, hE, _, _⟩ := hc.agree.stored_sound r (hc.clusters p hp r hr) id hidr
        exact ⟨E, hE⟩)
    refine ⟨s2, h2, run2, ?_⟩
    intro j E hE hel
    obtain ⟨a, ha, hain⟩ := hel.2.1
    have hj : j ∈ ids :=
      (hmem j).mpr ⟨a, hain,
        (hc.agree.edge_registered j E hE a (List.mem_of_mem_head? ha)).2⟩
    exact g2 j hj E hE hel

/-- The raster loops of `closeEdgesInClusters` over a list of pixels of the
grid. -/
theorem closeFold_spec :
    ∀ (l : List Point) (s1 : EdgeProcessor), Consistent s1 →
      (∀ p ∈ l, s1.edgeMap.inBounds p) →
      ∃ s2, l.foldlM closeAt s1 = some s2 ∧ CloseRun s1 s2 ∧
        ∀ p ∈ l, ∀ j E, s1.edges.getEdge j = some E → Eligible s1.edgeMap p E →
          ∃ E2, s2.edges.getEdge j = some E2 ∧ seqClosed E2 = true := by
  intro l
  induction l with
  | nil =>
    intro s1 hc _
    exact ⟨s1, rfl, closeRun_refl s1 hc, fun p hp => absurd hp (List.not_mem_nil _)⟩
  | cons p rest ih =>
    intro s1 hc hin
    obtain ⟨s1', h1, run1, g1⟩ := closeAt_spec s1 hc p (hin p (List.mem_cons_self _ _))
    obtain ⟨s2, h2, run2, g2⟩ := ih s1' run1.consistent
      (fun q hq => (inBounds_congr s1.edgeMap s1'.edgeMap run1.rows run1.cols q).mpr
        (hin q (List.mem_cons_of_mem _ hq)))
    refine ⟨s2, ?_, closeRun_trans s1 s1' s2 run1 run2, ?_⟩
    · rw [List.foldlM_cons, h1]
      exact h2
    · intro q hq j E hE hel
      rcases List.mem_cons.mp hq with rfl | hq
      · obtain ⟨E2, hE2, hcl⟩ := g1 j E hE hel
        exact ⟨E2, closeRun_closed s1' s2 run2 j E2 hE2 hcl, hcl⟩
      · exact closeRun_lift s1 s1' s2 run1 run2 q j (g2 q hq j) E hE hel

/-- A state that passes the executable checks is consistent. -/
theorem consistent_of_checks (s : EdgeProcessor) (hwf : s.edgeMap.WF)
    (hn : s.edgeMap.idsNodupCheck = true) (ha : agreeCheck s = true)
    (hcl : ∀ p ∈ s.edgeMap.allPixels, ∀ q ∈ s.edgeMap.clusterAt p, s.edgeMap.inBounds q) :
    Consistent s :=
  ⟨hwf, idsNodupCheck_sound _ hn, agreeCheck_sound s ha,
    fun p hp => hcl p (mem_allPixels _ p hp)⟩

/-- C40: on a consistent state `closeEdgesInClusters` returns.  Every edge of
the table is contained in the edge with the same id afterwards, and an edge
that passes `isClosed` is not changed.  Every edge of at least five pixels
whose first and last pixel lie in the cluster list of one pixel of the grid
(the edges that the function bridges when they are not closed) passes
`isClosed` afterwards, at the same id. -/
theorem closeEdgesInClusters_closes_candidates (s : EdgeProcessor) (hc : Consistent s) :
    ∃ s2, closeEdgesInClusters s = some s2 ∧
      (∀ id A, s.edges.getEdge id = some A →
        ∃ A2, s2.edges.getEdge id = some A2 ∧ (∀ q ∈ A, q ∈ A2) ∧
          (s.edges.isClosed id = some true → A2 = A)) ∧
      (∀ id A, s.edges.getEdge id = some A → 5 ≤ A.length →
        (∃ p a b, s.edgeMap.inBounds p ∧ A.head? = some a ∧ A.getLast? = some b ∧
          a ∈ s.edgeMap.clusterAt p ∧ b ∈ s.edgeMap.clusterAt p) →
        ∃ A2, s2.edges.getEdge id = some A2 ∧ s2.edges.isClosed id = some true ∧
          ∀ q ∈ A, q ∈ A2) := by
  obtain ⟨s2, h2, run, g⟩ := closeFold_spec s.edgeMap.allPixels s hc
    (fun p hp => inBounds_of_mem_allPixels _ p hp)
  refine ⟨s2, h2, ?_, ?_⟩
  · intro id A hA
    obtain ⟨A2, hA2, h⟩ := run.grows id A hA
    refine ⟨A2, hA2, ?_, ?_⟩
    · rcases h with rfl | ⟨_, _, hsub⟩
      · exact fun q hq => hq
      · exact hsub
    · intro hclosed
      rcases h with rfl | ⟨_, h0, _⟩
      · rfl
      · exfalso
        by_cases hne : A = []
        · subst hne
          have hA' : vecGet? s.edges.data id = some [] := hA
          unfold Edges.isClosed Edges.getStartPoint at hclosed
          simp [hA'] at hclosed
        · rw [isClosed_of_getEdge s.edges id A hA hne, h0] at hclosed
          exact absurd hclosed (by simp)
  · intro id A hA h5 hex
    obtain ⟨p, a, b, hp, ha, hb, hain, hbin⟩ := hex
    obtain ⟨A2, hA2, hcl⟩ := g p (mem_allPixels _ p hp) id A hA
      ⟨h5, ⟨a, ha, hain⟩, ⟨b, hb, hbin⟩⟩
    have hA2ne : A2 ≠ [] := by
      intro h0
      rw [h0] at hcl
      exact absurd hcl (by decide)
    refine ⟨A2, hA2, ?_, ?_⟩
    · rw [isClosed_of_getEdge s2.edges id A2 hA2 hA2ne, hcl]
    · obtain ⟨A3, hA3, h⟩ := run.grows id A hA
      rw [hA2] at hA3
      obtain rfl := Option.some.inj hA3
      rcases h with rfl | ⟨_, _, hsub⟩
      · exact fun q hq => hq
      · exact hsub

/-- A run of `closeEdgesInClusters_closes_candidates` on `openLoopState`: the bridge
`(0,0), (1,0), (2,0)` between the end pixels of the edge is merged into the
edge, which then starts at `(1,0)` and is closed. -/
theorem closeEdgesInClusters_closes_candidates_witness :
    Consistent openLoopState ∧
    closeEdgesInClusters openLoopState =
      some { openLoopState with
        edges := ⟨[[⟨1, 0⟩, ⟨0, 0⟩, ⟨0, 1⟩, ⟨0, 2⟩, ⟨1, 2⟩, ⟨2, 2⟩, ⟨2, 1⟩, ⟨2, 0⟩], []]⟩
        edgeMap := { openLoopState.edgeMap with
          dataEdgeIds := [[0], [0], [0], [0], [], [0], [0], [0], [0]] } } ∧
    openLoopState.edges.isClosed 0 = some false ∧
    ∃ s2, closeEdgesInClusters openLoopState = some s2 ∧
      (∀ id A, openLoopState.edges.getEdge id = some A →
        ∃ A2, s2.edges.getEdge id = some A2 ∧ (∀ q ∈ A, q ∈ A2) ∧
          (openLoopState.edges.isClosed id = some true → A2 = A)) ∧
      (∀ id A, openLoopState.edges.getEdge id = some A → 5 ≤ A.length →
        (∃ p a b, openLoopState.edgeMap.inBounds p ∧ A.head? = some a ∧ A.getLast? = some b ∧
          a ∈ openLoopState.edgeMap.clusterAt p ∧ b ∈ openLoopState.edgeMap.clusterAt p) →
        ∃ A2, s2.edges.getEdge id = some A2 ∧ s2.edges.isClosed id = some true ∧
          ∀ q ∈ A, q ∈ A2) :=
  ⟨consistent_of_checks openLoopState (by decide) (by decide) (by decide) (by decide),
    by decide, by decide,
    closeEdgesInClusters_closes_candidates openLoopState
      (consistent_of_checks openLoopState (by decide) (by decide) (by decide) (by decide))⟩

end EdgeTracing
